import Mathlib

/-!
The program pipo: its lexer, lookahead buffer and parser.

A shallow embedding of `src/lex.c`, `src/parser.c`, `src/tree.c` and
`src/global.c`.  Stateful C code is written as explicit state passing.
The header `pipo.h` and the tables `token_class.def`, `token_kind.def`,
`keywords.def` and `tree.def` are not part of the sources at hand; what the
code needs from them is modelled next to its first use and marked as such.

Conventions.

* A C `char` is represented by its bit pattern, a byte.  The program stores
  the result of `fgetc` in a `char` and compares it with `EOF`; with the
  signed 8-bit `char` the program is written for, `(char) EOF` has the bit
  pattern `0xFF`, so the end of the file and the byte `0xFF` are the same
  `char` value.
* Loops carry a fuel argument bounded by what is left to read; `Res.nofuel`
  is the outcome of an exhausted budget and `Res.abort` that of a failed
  `assert`, of `unreachable` or of an access that C leaves undefined.
-/

namespace Pipo

/-- Outcome of a step of the program: a value, a process abort, or an
exhausted loop budget of the model. -/
inductive Res (α : Type) where
  | ok (a : α)
  | abort
  | nofuel
  deriving DecidableEq, Repr

/-- Sequencing of fallible steps. -/
@[inline] def Res.bind {α β : Type} (r : Res α) (f : α → Res β) : Res β :=
  match r with
  | .ok a => f a
  | .abort => .abort
  | .nofuel => .nofuel

instance : Monad Res where
  pure := Res.ok
  bind := Res.bind

/-- A byte of the input file; also the bit pattern of a `char`. -/
abbrev Byte := Fin 256

/-- The `char` value of `EOF` (bit pattern of `(char) (-1)`). -/
def CEOF : Byte := 255

/-- Bytes of an ASCII text. -/
def bytes (s : String) : List Byte := s.toList.map (fun c => Fin.ofNat c.toNat)

/-- `isspace` of the C locale: space, `\t`, `\n`, `\v`, `\f`, `\r`. -/
def isspace (c : Byte) : Bool := c.val == 32 || (9 ≤ c.val && c.val ≤ 13)

/-- `isdigit`: `'0'..'9'`. -/
def isdigit (c : Byte) : Bool := 48 ≤ c.val && c.val ≤ 57

/-- `isalpha` of the C locale: `'A'..'Z'`, `'a'..'z'`. -/
def isalpha (c : Byte) : Bool :=
  (65 ≤ c.val && c.val ≤ 90) || (97 ≤ c.val && c.val ≤ 122)

/-- `isalnum`. -/
def isalnum (c : Byte) : Bool := isalpha c || isdigit c

/-- `isxdigit`: digits, `'a'..'f'`, `'A'..'F'`. -/
def isxdigit (c : Byte) : Bool :=
  isdigit c || (97 ≤ c.val && c.val ≤ 102) || (65 ≤ c.val && c.val ≤ 70)

/-- The C string stored in a buffer: the bytes before the first NUL. -/
def cstr (buf : List Byte) : List Byte := buf.takeWhile (fun b => b != 0)

/-- `strcmp` on C strings (given without their terminator): negative, zero
or positive, bytes compared as `unsigned char`. -/
def strcmp : List Byte → List Byte → Int
  | [], [] => 0
  | [], _ :: _ => -1
  | _ :: _, [] => 1
  | a :: as, b :: bs =>
    if a.val < b.val then -1 else if b.val < a.val then 1 else strcmp as bs

/-- Modelled from the spec: `struct location` of `pipo.h`, a line and a
column. -/
structure Location where
  line : Int
  col : Int
  deriving DecidableEq, Repr

/-- Modelled from the spec: the token classes of `token_class.def` (section 3
of the specification, with the names the sources use). -/
inductive TokenClass where
  | tok_id | tok_keyword | tok_operator | tok_string | tok_comments
  | tok_whitespace | tok_intnum | tok_realnum | tok_octnum | tok_hexnum
  | tok_eof | tok_unknown
  deriving DecidableEq, Repr

/-- Modelled from the spec: the token kinds of `token_kind.def` followed by
the keywords of `keywords.def`; `tv_function` is the first keyword. -/
inductive TokenKind where
  | tv_comma | tv_lparen | tv_rparen | tv_lbrace | tv_rbrace | tv_eof
  | tv_function | tv_validate
  deriving DecidableEq, Repr

open TokenClass TokenKind

/-- Modelled from the spec: the table `token_kind_name` built from
`token_kind.def` and `keywords.def`; the keyword entries are the keyword
texts, the others spell the punctuation. -/
def token_kind_name : TokenKind → List Byte
  | tv_comma => bytes ","
  | tv_lparen => bytes "("
  | tv_rparen => bytes ")"
  | tv_lbrace => bytes "\x7b"
  | tv_rbrace => bytes "\x7d"
  | tv_eof => bytes "eof"
  | tv_function => bytes "function"
  | tv_validate => bytes "validate"

/-- The table `keywords`: the entries of `token_kind_name` from `tv_function`
on. -/
def keywords : List (List Byte) :=
  [token_kind_name tv_function, token_kind_name tv_validate]

/-- Length of the keyword table, `tok_kind_length - tv_function`. -/
def keywords_length : Nat := 2

/-- The token kind `search + tv_function` of the keyword at index `search`. -/
def keyword_kind (search : Nat) : TokenKind :=
  if search = 0 then tv_function else tv_validate

/-- A token (`struct token`); `tval` and `cval` are the two members of the
union `value`, of which `uses_buf` tells the one in use. -/
structure Token where
  loc : Location
  tok_class : TokenClass
  uses_buf : Bool
  tval : TokenKind
  cval : List Byte
  deriving DecidableEq, Repr

/-- What `malloc` left in a token before the lexer writes to it: the class
field holds a defined class or none of them, the value field some kind.
A value field that holds no kind of `token_kind` is not represented: of a
token that the lexer returns with the value unwritten (input `08`) only the
class is followed, and what `token_as_string` does with such a value, a
read of `token_kind_name` outside the array, is outside the model. -/
structure Junk where
  tok_class : Option TokenClass
  tval : TokenKind
  deriving DecidableEq, Repr

/-- The lexer (`struct lexer`): the unread bytes of the file, the flags, the
location, and the global `error_count` that `error_loc` increments. -/
structure Lexer where
  file : List Byte
  is_eof : Bool
  loc : Location
  error_notifications : Bool
  error_count : Int
  deriving DecidableEq, Repr

/-- Modelled from the spec: `error_loc` of `pipo.h` prints a diagnostic and
increments the global error counter. -/
def error_loc (lex : Lexer) : Lexer :=
  { lex with error_count := lex.error_count + 1 }

/-- The guarded call `if (lex->error_notifications) error_loc (...)`. -/
def notify (lex : Lexer) : Lexer :=
  if lex.error_notifications then error_loc lex else lex

/-- `lexer_init_file`: the state of a lexer on a freshly opened file. -/
def lexer_init_file (file : List Byte) (error_count : Int) : Lexer :=
  { file := file, is_eof := false, loc := ⟨1, 0⟩,
    error_notifications := false, error_count := error_count }

/-- `lexer_getch`: one character of the file, `EOF` for ever once the end
was reached. -/
def lexer_getch (lex : Lexer) : Byte × Lexer :=
  if lex.is_eof then (CEOF, lex)
  else
    match lex.file with
    | [] => (CEOF, { lex with is_eof := true })
    | ch :: rest =>
      if ch = 10 then
        (ch, { lex with file := rest, loc := ⟨lex.loc.line + 1, 0⟩ })
      else
        (ch, { lex with file := rest, loc := ⟨lex.loc.line, lex.loc.col + 1⟩ })

/-- `lexer_ungetch`: `ungetc` does nothing when handed `EOF`. -/
def lexer_ungetch (lex : Lexer) (ch : Byte) : Lexer :=
  { lex with
    loc := ⟨if ch = 10 then lex.loc.line - 1 else lex.loc.line, lex.loc.col - 1⟩,
    file := if ch = CEOF then lex.file else ch :: lex.file }

/-- The scratch buffer of the lexer: `buf` (absent while `NULL`) and its
capacity `size`; the write position `index` is the end of `buf`. -/
structure Buffer where
  buf : Option (List Byte)
  size : Nat
  deriving DecidableEq, Repr

/-- `buffer_add_char`: allocate 16 bytes on first use, double when full.
The asserted `index <= buffer + size` is kept by every call. -/
def buffer_add_char (b : Buffer) (c : Byte) : Buffer :=
  match b.buf with
  | none => { buf := some [c], size := 16 }
  | some data =>
    if data.length = b.size then { buf := some (data ++ [c]), size := b.size * 2 }
    else { buf := some (data ++ [c]), size := b.size }

/-- The `while (true)` loop of `lexer_read_comments`. -/
def lexer_read_comments_loop : Nat → Lexer → Buffer → Res (Lexer × Buffer)
  | 0, _, _ => .nofuel
  | fuel + 1, lex, b =>
    let r := lexer_getch lex
    if r.1 = CEOF then .ok (r.2, b)
    else if r.1 = 10 then .ok (r.2, b)
    else lexer_read_comments_loop fuel r.2 (buffer_add_char b r.1)

/-- `lexer_read_comments`: read to the end of the line. -/
def lexer_read_comments (lex : Lexer) (b : Buffer) : Res (TokenClass × Lexer × Buffer) :=
  match lexer_read_comments_loop (lex.file.length + 1) lex b with
  | .ok (lex1, b1) => .ok (tok_comments, lex1, buffer_add_char b1 0)
  | .abort => .abort
  | .nofuel => .nofuel

/-- The `while (true)` loop of `lexer_read_string`; the flag tells whether
the closing quote was found. -/
def lexer_read_string_loop (stop : Byte) : Nat → Lexer → Buffer → Res (Bool × Lexer × Buffer)
  | 0, _, _ => .nofuel
  | fuel + 1, lex, b =>
    let r := lexer_getch lex
    if r.1 = CEOF then .ok (false, notify r.2, buffer_add_char b 0)
    else
      let b1 := buffer_add_char b r.1
      if r.1 = 92 then
        let r2 := lexer_getch r.2
        if r2.1 = CEOF then .ok (false, notify r2.2, buffer_add_char b1 0)
        else lexer_read_string_loop stop fuel r2.2 (buffer_add_char b1 r2.1)
      else if r.1 = stop then .ok (true, r.2, b1)
      else lexer_read_string_loop stop fuel r.2 b1

/-- `lexer_read_string`. -/
def lexer_read_string (lex : Lexer) (b : Buffer) (c : Byte) :
    Res (TokenClass × Lexer × Buffer) :=
  if c ≠ 34 then .abort
  else
    match lexer_read_string_loop c (lex.file.length + 1) lex (buffer_add_char b c) with
    | .ok (true, lex1, b1) => .ok (tok_string, lex1, buffer_add_char b1 0)
    | .ok (false, lex1, b1) => .ok (tok_unknown, lex1, b1)
    | .abort => .abort
    | .nofuel => .nofuel

/-- The fields of the token under construction in `lexer_get_token`; the
class is absent while it holds no defined class. -/
structure PTok where
  tok_class : Option TokenClass
  uses_buf : Bool
  tval : TokenKind
  deriving DecidableEq, Repr

/-- Modelled from the spec: `tval_tok_init` of `pipo.h` stores a class and
an enumerated value in a token. -/
def tval_tok_init (tok : PTok) (cls : TokenClass) (tval : TokenKind) : PTok :=
  { tok with tok_class := some cls, tval := tval }

/-- The `do ... while (c >= '0' && c < '8')` loop of
`lexer_read_octal_number`. -/
def lexer_read_octal_loop : Nat → Lexer → Buffer → Byte → Res (Byte × Lexer × Buffer)
  | 0, _, _, _ => .nofuel
  | fuel + 1, lex, b, c =>
    let b1 := buffer_add_char b c
    let r := lexer_getch lex
    if 48 ≤ r.1.val ∧ r.1.val < 56 then lexer_read_octal_loop fuel r.2 b1 r.1
    else .ok (r.1, r.2, b1)

/-- `lexer_read_octal_number`. -/
def lexer_read_octal_number (lex : Lexer) (tok : PTok) (b : Buffer) (c : Byte) :
    Res (Lexer × PTok × Buffer) :=
  if c ≠ 48 then .abort
  else
    match lexer_read_octal_loop (lex.file.length + 1) lex (buffer_add_char b c) c with
    | .ok (c1, lex1, b1) =>
      .ok (lexer_ungetch lex1 c1,
           { tok with tok_class := some tok_octnum, uses_buf := true },
           buffer_add_char b1 0)
    | .abort => .abort
    | .nofuel => .nofuel

/-- The `do ... while (isxdigit (c))` loop of `lexer_read_hex_number`. -/
def lexer_read_hex_loop : Nat → Lexer → Buffer → Byte → Res (Byte × Lexer × Buffer)
  | 0, _, _, _ => .nofuel
  | fuel + 1, lex, b, c =>
    let b1 := buffer_add_char b c
    let r := lexer_getch lex
    if isxdigit r.1 then lexer_read_hex_loop fuel r.2 b1 r.1
    else .ok (r.1, r.2, b1)

/-- `lexer_read_hex_number`. -/
def lexer_read_hex_number (lex : Lexer) (tok : PTok) (b : Buffer) (c : Byte) :
    Res (Lexer × PTok × Buffer) :=
  if c ≠ 48 then .abort
  else
    let b0 := buffer_add_char b c
    let r := lexer_getch lex
    if r.1 ≠ 120 ∧ r.1 ≠ 88 then .abort
    else
      match lexer_read_hex_loop (r.2.file.length + 1) r.2 b0 r.1 with
      | .ok (c1, lex1, b1) =>
        .ok (lexer_ungetch lex1 c1,
             { tok with tok_class := some tok_hexnum, uses_buf := true },
             buffer_add_char b1 0)
      | .abort => .abort
      | .nofuel => .nofuel

/-- The loop of `kw_bsearch`. -/
def kw_bsearch_loop (key : List Byte) (table : List (List Byte)) (len : Nat) :
    Nat → Nat → Nat → Res Nat
  | 0, _, _ => .nofuel
  | fuel + 1, l, r =>
    if l < r then
      let hit := (l + r) / 2
      match table[hit]? with
      | none => .abort
      | some entry =>
        let i := strcmp key entry
        if i = 0 then .ok hit
        else if i < 0 then kw_bsearch_loop key table len fuel l hit
        else kw_bsearch_loop key table len fuel (hit + 1) r
    else .ok len

/-- `kw_bsearch`: binary search of `key` in the first `len` entries of
`table`; `len` when it is not found. -/
def kw_bsearch (key : List Byte) (table : List (List Byte)) (len : Nat) : Res Nat :=
  kw_bsearch_loop key table len (len + 1) 0 len

/-- The `do ... while (isalnum (c) || c == '_')` loop of `lexer_read_id`. -/
def lexer_read_id_loop : Nat → Lexer → Buffer → Byte → Res (Byte × Lexer × Buffer)
  | 0, _, _, _ => .nofuel
  | fuel + 1, lex, b, c =>
    let b1 := buffer_add_char b c
    let r := lexer_getch lex
    if isalnum r.1 || r.1 = 95 then lexer_read_id_loop fuel r.2 b1 r.1
    else .ok (r.1, r.2, b1)

/-- `lexer_read_id`: an identifier, or a keyword when the text is found in
the keyword table (the buffer is then released). -/
def lexer_read_id (lex : Lexer) (tok : PTok) (b : Buffer) (c : Byte) :
    Res (Lexer × PTok × Buffer) :=
  match lexer_read_id_loop (lex.file.length + 1) lex b c with
  | .ok (c1, lex1, b1) =>
    let lex2 := lexer_ungetch lex1 c1
    let b2 := buffer_add_char b1 0
    match kw_bsearch (cstr (b2.buf.getD [])) keywords keywords_length with
    | .ok search =>
      if search ≠ keywords_length then
        .ok (lex2, tval_tok_init tok tok_keyword (keyword_kind search),
             { buf := none, size := 0 })
      else .ok (lex2, { tok with tok_class := some tok_id }, b2)
    | .abort => .abort
    | .nofuel => .nofuel
  | .abort => .abort
  | .nofuel => .nofuel

/-- The local variables of the main loop of `lexer_read_number`. -/
structure NumState where
  lex : Lexer
  b : Buffer
  isreal : Bool
  saw_dot : Bool
  saw_exp : Bool
  deriving DecidableEq, Repr

/-- The loop `while (isdigit (c = lexer_getch (lex)))` that reads the digits
of an exponent. -/
def lexer_read_exp_digits : Nat → Lexer → Buffer → Res (Byte × Lexer × Buffer)
  | 0, _, _ => .nofuel
  | fuel + 1, lex, b =>
    let r := lexer_getch lex
    if isdigit r.1 then lexer_read_exp_digits fuel r.2 (buffer_add_char b r.1)
    else .ok (r.1, r.2, b)

/-- The `while (true)` loop of `lexer_read_number`.  The result is the
state at the exit and, when the loop was left by `break`, the character
read last; `none` stands for `goto return_unknown`. -/
def lexer_read_number_loop : Nat → NumState → Res (Option Byte × NumState)
  | 0, _ => .nofuel
  | fuel + 1, s =>
    let r := lexer_getch s.lex
    let c := r.1
    if c = CEOF then .ok (none, { s with lex := notify r.2 })
    else if c = 101 ∨ c = 69 then
      if s.saw_exp then .ok (none, { s with lex := notify r.2 })
      else
        let b1 := buffer_add_char s.b c
        let r1 := lexer_getch r.2
        let r2 := if r1.1 = 43 ∨ r1.1 = 45 then lexer_getch r1.2 else r1
        let b2 := if r1.1 = 43 ∨ r1.1 = 45 then buffer_add_char b1 r1.1 else b1
        if !isdigit r2.1 then
          .ok (none, { s with lex := notify r2.2, b := b2, isreal := true })
        else
          match lexer_read_exp_digits (r2.2.file.length + 1) r2.2 (buffer_add_char b2 r2.1) with
          | .ok (c3, lex3, b3) => .ok (some c3, { s with lex := lex3, b := b3, isreal := true })
          | .abort => .abort
          | .nofuel => .nofuel
    else if c = 46 then
      if s.saw_dot then .ok (none, { s with lex := notify r.2 })
      else
        lexer_read_number_loop fuel
          { s with lex := r.2, b := buffer_add_char s.b c, saw_dot := true, isreal := true }
    else if !isdigit c then .ok (some c, { s with lex := r.2 })
    else lexer_read_number_loop fuel { s with lex := r.2, b := buffer_add_char s.b c }

/-- The end of `lexer_read_number` after its loop. -/
def lexer_read_number_finish (r : Option Byte × NumState) : TokenClass × Lexer × Buffer :=
  match r.1 with
  | some c =>
    (if r.2.isreal then tok_realnum else tok_intnum,
     lexer_ungetch r.2.lex c, buffer_add_char r.2.b 0)
  | none => (tok_unknown, r.2.lex, buffer_add_char r.2.b 0)

/-- `lexer_read_number`: a decimal number starting with the character `c`. -/
def lexer_read_number (lex : Lexer) (b : Buffer) (c : Byte) :
    Res (TokenClass × Lexer × Buffer) :=
  let b0 := buffer_add_char b c
  if c = 46 then
    let r := lexer_getch lex
    if !isdigit r.1 then
      .ok (tok_unknown, lexer_ungetch (notify r.2) r.1, buffer_add_char b0 0)
    else
      match lexer_read_number_loop (r.2.file.length + 1)
          ⟨r.2, buffer_add_char b0 r.1, true, true, false⟩ with
      | .ok res => .ok (lexer_read_number_finish res)
      | .abort => .abort
      | .nofuel => .nofuel
  else
    match lexer_read_number_loop (lex.file.length + 1) ⟨lex, b0, false, false, false⟩ with
    | .ok res => .ok (lexer_read_number_finish res)
    | .abort => .abort
    | .nofuel => .nofuel

/-- The loop `while (EOF != (c = lexer_getch (lex)) && isspace (c))` of
`lexer_get_token`. -/
def lexer_skip_space : Nat → Lexer → Res (Byte × Lexer)
  | 0, _ => .nofuel
  | fuel + 1, lex =>
    let r := lexer_getch lex
    if r.1 ≠ CEOF ∧ isspace r.1 then lexer_skip_space fuel r.2 else .ok r

/-- The label `return_token` of `lexer_get_token`: the class must be a
defined one; a buffer in use becomes the value of the token. -/
def return_token (tok : PTok) (b : Buffer) (loc : Location) (lex : Lexer) :
    Res (Token × Lexer) :=
  match tok.tok_class with
  | none => .abort
  | some cls =>
    match b.buf with
    | some data =>
      .ok ({ loc := loc, tok_class := cls, uses_buf := true, tval := tok.tval, cval := data }, lex)
    | none =>
      .ok ({ loc := loc, tok_class := cls, uses_buf := tok.uses_buf, tval := tok.tval,
             cval := [] }, lex)

/-- The dispatch of `lexer_get_token` on the first character `c` of the
token, read at location `loc`. -/
def lexer_dispatch (tok : PTok) (c : Byte) (loc : Location) (lex : Lexer) :
    Res (Token × Lexer) :=
  let b : Buffer := { buf := none, size := 16 }
  if c = CEOF then return_token (tval_tok_init tok tok_eof tv_eof) b loc lex
  else if c = 35 then
    match lexer_read_comments lex b with
    | .ok (cls, lex1, b1) => return_token { tok with tok_class := some cls } b1 loc lex1
    | .abort => .abort
    | .nofuel => .nofuel
  else if c = 34 then
    match lexer_read_string lex b c with
    | .ok (cls, lex1, b1) => return_token { tok with tok_class := some cls } b1 loc lex1
    | .abort => .abort
    | .nofuel => .nofuel
  else if isalpha c then
    match lexer_read_id lex tok b c with
    | .ok (lex1, tok1, b1) => return_token tok1 b1 loc lex1
    | .abort => .abort
    | .nofuel => .nofuel
  else if c = 46 then
    match lexer_read_number lex b c with
    | .ok (cls, lex1, b1) => return_token { tok with tok_class := some cls } b1 loc lex1
    | .abort => .abort
    | .nofuel => .nofuel
  else if isdigit c then
    if c = 48 then
      let r := lexer_getch lex
      let lex0 := lexer_ungetch r.2 r.1
      if r.1 = 120 ∨ r.1 = 88 then
        match lexer_read_hex_number lex0 tok b c with
        | .ok (lex1, tok1, b1) => return_token tok1 b1 loc lex1
        | .abort => .abort
        | .nofuel => .nofuel
      else if isdigit r.1 then
        if ¬ (48 ≤ r.1.val ∧ r.1.val ≤ 55) then return_token tok b loc (error_loc lex0)
        else
          match lexer_read_octal_number lex0 tok b c with
          | .ok (lex1, tok1, b1) => return_token tok1 b1 loc lex1
          | .abort => .abort
          | .nofuel => .nofuel
      else
        match lexer_read_number lex0 b c with
        | .ok (cls, lex1, b1) => return_token { tok with tok_class := some cls } b1 loc lex1
        | .abort => .abort
        | .nofuel => .nofuel
    else
      match lexer_read_number lex b c with
      | .ok (cls, lex1, b1) => return_token { tok with tok_class := some cls } b1 loc lex1
      | .abort => .abort
      | .nofuel => .nofuel
  else if c = 44 then return_token (tval_tok_init tok tok_operator tv_comma) b loc lex
  else if c = 40 then return_token (tval_tok_init tok tok_operator tv_lparen) b loc lex
  else if c = 41 then return_token (tval_tok_init tok tok_operator tv_rparen) b loc lex
  else if c = 123 then return_token (tval_tok_init tok tok_operator tv_lbrace) b loc lex
  else if c = 125 then return_token (tval_tok_init tok tok_operator tv_rbrace) b loc lex
  else
    return_token { tok with tok_class := some tok_unknown } { buf := some [c, 0], size := 16 }
      loc lex

/-- `lexer_get_token`: the next token of the stream; `junk` is what the
freshly allocated token holds before any field is written. -/
def lexer_get_token (junk : Junk) (lex : Lexer) : Res (Token × Lexer) :=
  let tok : PTok := { tok_class := junk.tok_class, uses_buf := false, tval := junk.tval }
  let r := lexer_getch lex
  if isspace r.1 then
    match lexer_skip_space (r.2.file.length + 1) r.2 with
    | .ok r1 => lexer_dispatch tok r1.1 r1.2.loc r1.2
    | .abort => .abort
    | .nofuel => .nofuel
  else lexer_dispatch tok r.1 r.2.loc r.2

/-- `token_uses_buf`. -/
def token_uses_buf (tok : Token) : Bool := tok.uses_buf

/-- `token_as_string`: the text of the token, or the name of its kind.
The kind is one of `token_kind`, so that `token_kind_name` is read within
its bounds; for a token whose value field was never written (see `Junk`)
the C function has no defined result, which the model does not show. -/
def token_as_string (tok : Token) : List Byte :=
  if token_uses_buf tok then cstr tok.cval else token_kind_name tok.tval

/-- Modelled from the spec: `token_class` of `pipo.h`, the class of a
token. -/
def token_class (tok : Token) : TokenClass := tok.tok_class

/-- Modelled from the spec: `token_value` of `pipo.h`, the enumerated value
of a token. -/
def token_value (tok : Token) : TokenKind := tok.tval

/-- Modelled from the spec: `token_location` of `pipo.h`. -/
def token_location (tok : Token) : Location := tok.loc

/-- `token_is_operator`, generated in `parser.h`. -/
def token_is_operator (tok : Token) (tkind : TokenKind) : Bool :=
  token_class tok == tok_operator && token_value tok == tkind

/-- `token_is_keyword`, generated in `parser.h`. -/
def token_is_keyword (tok : Token) (tkind : TokenKind) : Bool :=
  token_class tok == tok_keyword && token_value tok == tkind

/-- A tree node or one of the two special pointers: `NULL` and the
singleton `error_mark_node`.  Modelled from the spec: the codes `MODULE`
and `FUNCTION` of `tree.def` have two operands, `LIST` and `VALUE` none. -/
inductive Tree where
  | null
  | error_mark
  | module (loc : Location) (op0 op1 : Tree)
  | function (loc : Location) (op0 op1 : Tree)
  | list (loc : Location) (elems : List Tree)
  | value (loc : Location) (value : List Byte) (length : Int)
  deriving Repr

/-- The codes of the nodes that `make_tree` is called with. -/
inductive TreeCode where
  | MODULE | FUNCTION | LIST | VALUE
  deriving DecidableEq, Repr

/-- Pointer test `t == NULL`. -/
def Tree.is_null : Tree → Bool
  | .null => true
  | _ => false

/-- Pointer test `t == error_mark_node`. -/
def Tree.is_error_mark : Tree → Bool
  | .error_mark => true
  | _ => false

/-- `make_tree`: a zeroed node of the given code. -/
def make_tree : TreeCode → Tree
  | .MODULE => .module ⟨0, 0⟩ .null .null
  | .FUNCTION => .function ⟨0, 0⟩ .null .null
  | .LIST => .list ⟨0, 0⟩ []
  | .VALUE => .value ⟨0, 0⟩ [] 0

/-- `make_tree_list`. -/
def make_tree_list : Tree := make_tree .LIST

/-- `get_tree_operand` (`TREE_OPERAND`): aborts unless the node has an
operand of that index. -/
def get_tree_operand (node : Tree) (idx : Int) : Res Tree :=
  match node with
  | .module _ a b => if idx = 0 then .ok a else if idx = 1 then .ok b else .abort
  | .function _ a b => if idx = 0 then .ok a else if idx = 1 then .ok b else .abort
  | _ => .abort

/-- `set_tree_operand` (`TREE_OPERAND_SET`). -/
def set_tree_operand (node : Tree) (idx : Int) (v : Tree) : Res Tree :=
  match node with
  | .module l a b =>
    if idx = 0 then .ok (.module l v b) else if idx = 1 then .ok (.module l a v) else .abort
  | .function l a b =>
    if idx = 0 then .ok (.function l v b) else if idx = 1 then .ok (.function l a v)
    else .abort
  | _ => .abort

/-- `TREE_VALUE`: the text of a `VALUE` node; reading that member of
another kind of node is not defined. -/
def tree_value (node : Tree) : Res (List Byte) :=
  match node with
  | .value _ v _ => .ok v
  | _ => .abort

/-- `tree_list_append`: add `elem` at the end of a `LIST` node. -/
def tree_list_append (list : Tree) (elem : Tree) : Res Tree :=
  match list with
  | .list l elems => .ok (.list l (elems ++ [elem]))
  | _ => .abort

/-- `make_value_str` followed by the assignment of the location in
`make_value_tok`. -/
def make_value_tok (tok : Token) : Tree :=
  .value (token_location tok) (token_as_string tok) (token_as_string tok).length

/-- The `DL_FOREACH` loop of `module_exists`. -/
def module_exists_loop (str : List Byte) : List Tree → Res Tree
  | [] => .ok .null
  | entry :: rest =>
    match get_tree_operand entry 0 with
    | .ok name =>
      match tree_value name with
      | .ok v => if strcmp v str = 0 then .ok entry else module_exists_loop str rest
      | .abort => .abort
      | .nofuel => .nofuel
    | .abort => .abort
    | .nofuel => .nofuel

/-- `module_exists`: the first module of the list named `str`, or `NULL`. -/
def module_exists (list : Tree) (str : List Byte) : Res Tree :=
  match list with
  | .list _ elems => module_exists_loop str elems
  | _ => .abort

/-- The parser (`struct parser`).  A slot of `token_buffer` holds a live
token or is absent (never written, or its token was freed).  `ntok` counts
the tokens allocated so far and is not a field of the C structure. -/
structure Parser where
  lex : Lexer
  token_buffer : List (Option Token)
  buf_size : Nat
  buf_start : Nat
  buf_end : Nat
  unget_idx : Nat
  buf_empty : Bool
  paren_count : Int
  square_count : Int
  brace_count : Int
  ntok : Nat
  deriving DecidableEq, Repr

/-- `buf_idx_inc`: the sum is formed in `ssize_t`; for the remainder it is
converted to `size_t` (64 bits), the type of `size`, and the remainder is
stored in the `ssize_t` variable `diff`; a negative `diff` is subtracted
from `size` in `size_t`.  In C the remainder is not defined for a `size`
of 0. -/
def buf_idx_inc (idx : Nat) (inc : Int) (size : Nat) : Nat :=
  let rem : Int := (((idx : Int) + inc) % 18446744073709551616) % (size : Int)
  let diff : Int := if rem < 9223372036854775808 then rem else rem - 18446744073709551616
  if diff < 0 then (((size : Int) - diff) % 18446744073709551616).toNat else diff.toNat

/-- `parser_init`: the counters of brackets are left as they were. -/
def parser_init (p : Parser) (lex : Lexer) : Parser :=
  { p with lex := lex, buf_size := 16, buf_start := 0, buf_end := 0, buf_empty := true,
           token_buffer := List.replicate 16 none, unget_idx := 0 }

/-- The loop of `parser_get_lexer_token` that skips comments. -/
def parser_skip_comments (heap : Nat → Junk) : Nat → Lexer → Nat → Res (Token × Lexer × Nat)
  | 0, _, _ => .nofuel
  | fuel + 1, lex, n =>
    match lexer_get_token (heap n) lex with
    | .ok (tok, lex1) =>
      if token_class tok ≠ tok_comments ∧ token_class tok ≠ tok_whitespace then
        .ok (tok, lex1, n + 1)
      else parser_skip_comments heap fuel lex1 (n + 1)
    | .abort => .abort
    | .nofuel => .nofuel

/-- The bracket counters of `parser_get_lexer_token`. -/
def count_brackets (p : Parser) (tok : Token) : Parser :=
  if token_class tok = tok_operator then
    match token_value tok with
    | tv_lparen => { p with paren_count := p.paren_count + 1 }
    | tv_rparen => { p with paren_count := p.paren_count - 1 }
    | tv_lbrace => { p with brace_count := p.brace_count + 1 }
    | tv_rbrace => { p with brace_count := p.brace_count - 1 }
    | _ => p
  else p

/-- The end of the first branch of `parser_get_lexer_token`: store `tok` at
the write cursor of the ring, after freeing the oldest token when the ring
is full.  The slot written is returned. -/
def buffer_push (p : Parser) (tok : Token) : Res (Nat × Parser) :=
  if p.buf_size = 0 then .abort
  else if (p.buf_end + 1) % p.buf_size = p.buf_start then
    match p.token_buffer[p.buf_start]? with
    | some (some _) =>
      .ok (p.buf_end,
        { p with
          token_buffer := (p.token_buffer.set p.buf_start none).set p.buf_end (some tok),
          buf_start := (p.buf_start + 1) % p.buf_size,
          buf_end := (p.buf_end + 1) % p.buf_size })
    | _ => .abort
  else
    .ok (p.buf_end,
      { p with
        token_buffer := p.token_buffer.set p.buf_end (some tok),
        buf_end := (p.buf_end + 1) % p.buf_size })

/-- The second branch of `parser_get_lexer_token`: the token `unget_idx`
places before the write cursor. -/
def buffer_replay (p : Parser) : Res (Token × Nat × Parser) :=
  if ¬ (p.unget_idx < p.buf_size) then .abort
  else
    let d : Int := (p.buf_end : Int) - (p.unget_idx : Int)
    let s : Int := if d < 0 then (p.buf_size : Int) + d else d % 4294967296
    match p.token_buffer[s.toNat]? with
    | some (some tok) => .ok (tok, s.toNat, { p with unget_idx := p.unget_idx - 1 })
    | _ => .abort

/-- `parser_get_lexer_token`: a fresh token of the lexer, stored in the
ring buffer, or a buffered one after `parser_unget`.  The slot that holds
the returned token is returned with it. -/
def parser_get_lexer_token (heap : Nat → Junk) (p : Parser) : Res (Token × Nat × Parser) :=
  if p.unget_idx = 0 then
    match parser_skip_comments heap (p.lex.file.length + 1) p.lex p.ntok with
    | .ok (tok, lex1, n1) =>
      match buffer_push (count_brackets { p with lex := lex1, ntok := n1 } tok) tok with
      | .ok (slot, p1) => .ok (tok, slot, p1)
      | .abort => .abort
      | .nofuel => .nofuel
    | .abort => .abort
    | .nofuel => .nofuel
  else buffer_replay p

/-- `parser_unget`: step one token back. -/
def parser_unget (p : Parser) : Res Parser :=
  if p.unget_idx + 1 < p.buf_size then .ok { p with unget_idx := p.unget_idx + 1 }
  else .abort

/-- The two marker texts `\left` and `\right` of `parser_get_token`. -/
def is_marker (text : List Byte) : Bool :=
  strcmp text (bytes "\\left") == 0 || strcmp text (bytes "\\right") == 0

/-- The number of loop rounds that the tokens left to read allow. -/
def parser_fuel (p : Parser) : Nat := p.lex.file.length + p.unget_idx + 2

/-- `parser_get_token` with the depth of its recursion bounded by `fuel`:
a token whose text is a marker is joined with the token after it. -/
def parser_get_token_aux (heap : Nat → Junk) : Nat → Parser → Res (Token × Parser)
  | 0, _ => .nofuel
  | fuel + 1, p =>
    match parser_get_lexer_token heap p with
    | .ok (tok, slot, p1) =>
      if token_uses_buf tok && is_marker (token_as_string tok) then
        match parser_get_token_aux heap fuel p1 with
        | .ok (del, p2) =>
          let conc := token_as_string tok ++ token_as_string del
          match p2.token_buffer[slot]? with
          | some (some tok1) =>
            let tok2 := { tok1 with cval := conc ++ [0] }
            let last := buf_idx_inc p2.buf_end (-1) p2.buf_size
            let buffer1 := p2.token_buffer.set slot (some tok2)
            match buffer1[last]? with
            | some (some _) =>
              .ok (tok2, { p2 with token_buffer := buffer1.set last none, buf_end := last })
            | _ => .abort
          | _ => .abort
        | .abort => .abort
        | .nofuel => .nofuel
      else .ok (tok, p1)
    | .abort => .abort
    | .nofuel => .nofuel

/-- `parser_get_token`. -/
def parser_get_token (heap : Nat → Junk) (p : Parser) : Res (Token × Parser) :=
  parser_get_token_aux heap (parser_fuel p) p

/-- The call of `error_loc` in the parser: the error counter is raised.
The message and its arguments, among them `token_as_string (tok)` in
`parser_forward_tval`, are not evaluated. -/
def parser_error (p : Parser) : Parser := { p with lex := error_loc p.lex }

/-- The loop of `parser_get_until_tval`. -/
def parser_get_until_tval_loop (heap : Nat → Junk) (tkind : TokenKind) :
    Nat → Parser → Res (Token × Parser)
  | 0, _ => .nofuel
  | fuel + 1, p =>
    match parser_get_token heap p with
    | .ok (tok, p1) =>
      if !token_uses_buf tok && token_value tok == tkind then .ok (tok, p1)
      else if token_class tok ≠ tok_eof then parser_get_until_tval_loop heap tkind fuel p1
      else .ok (tok, p1)
    | .abort => .abort
    | .nofuel => .nofuel

/-- `parser_get_until_tval`: skip tokens until one of kind `tkind`. -/
def parser_get_until_tval (heap : Nat → Junk) (p : Parser) (tkind : TokenKind) :
    Res (Token × Parser) :=
  parser_get_until_tval_loop heap tkind (parser_fuel p) p

/-- The statement expression `parser_forward_tval`: the next token when it
is of kind `tkind`; otherwise an error is reported and the result is
`NULL`. -/
def parser_forward_tval (heap : Nat → Junk) (p : Parser) (tkind : TokenKind) :
    Res (Option Token × Parser) :=
  match parser_get_token heap p with
  | .ok (tok, p1) =>
    if token_uses_buf tok || token_value tok != tkind then .ok (none, parser_error p1)
    else .ok (some tok, p1)
  | .abort => .abort
  | .nofuel => .nofuel

/-- The `while (true)` loop of `handle_list`. -/
def handle_list_loop (heap : Nat → Junk) (handler : Parser → Res (Tree × Parser))
    (delim : TokenKind) : Nat → Tree → Parser → Res (Tree × Parser)
  | 0, _, _ => .nofuel
  | fuel + 1, list, p =>
    match handler p with
    | .ok (t, p1) =>
      match (if !t.is_null && !t.is_error_mark then tree_list_append list t else .ok list) with
      | .ok list1 =>
        match parser_get_token heap p1 with
        | .ok (tok, p2) =>
          if !token_is_operator tok delim then
            match parser_unget p2 with
            | .ok p3 => .ok (list1, p3)
            | .abort => .abort
            | .nofuel => .nofuel
          else handle_list_loop heap handler delim fuel list1 p2
        | .abort => .abort
        | .nofuel => .nofuel
      | .abort => .abort
      | .nofuel => .nofuel
    | .abort => .abort
    | .nofuel => .nofuel

/-- `handle_list`: one or more elements separated by `delim`. -/
def handle_list (heap : Nat → Junk) (p : Parser) (handler : Parser → Res (Tree × Parser))
    (delim : TokenKind) : Res (Tree × Parser) :=
  match handler p with
  | .ok (t, p1) =>
    if t.is_error_mark then .ok (t, p1)
    else
      match parser_get_token heap p1 with
      | .ok (tok, p2) =>
        if !token_is_operator tok delim then
          match tree_list_append make_tree_list t with
          | .ok ret =>
            match parser_unget p2 with
            | .ok p3 => .ok (ret, p3)
            | .abort => .abort
            | .nofuel => .nofuel
          | .abort => .abort
          | .nofuel => .nofuel
        else
          match tree_list_append make_tree_list t with
          | .ok list => handle_list_loop heap handler delim (parser_fuel p2) list p2
          | .abort => .abort
          | .nofuel => .nofuel
      | .abort => .abort
      | .nofuel => .nofuel
  | .abort => .abort
  | .nofuel => .nofuel

/-- `handle_value`. -/
def handle_value (heap : Nat → Junk) (p : Parser) : Res (Tree × Parser) :=
  match parser_get_token heap p with
  | .ok (tok, p1) => .ok (make_value_tok tok, p1)
  | .abort => .abort
  | .nofuel => .nofuel

/-- The label `error` of the handlers: skip to a token of kind `tkind` and
give `error_mark_node`. -/
def handle_error (heap : Nat → Junk) (p : Parser) (tkind : TokenKind) : Res (Tree × Parser) :=
  match parser_get_until_tval heap p tkind with
  | .ok (_, p1) => .ok (.error_mark, p1)
  | .abort => .abort
  | .nofuel => .nofuel

/-- `handle_args`. -/
def handle_args (heap : Nat → Junk) (p : Parser) : Res (Tree × Parser) :=
  match parser_forward_tval heap p tv_lparen with
  | .ok (none, p1) => handle_error heap p1 tv_rparen
  | .ok (some _, p1) =>
    match handle_list heap p1 (handle_value heap) tv_comma with
    | .ok (t, p2) =>
      match parser_forward_tval heap p2 tv_rparen with
      | .ok (none, p3) => .ok (.error_mark, p3)
      | .ok (some _, p3) => .ok (t, p3)
      | .abort => .abort
      | .nofuel => .nofuel
    | .abort => .abort
    | .nofuel => .nofuel
  | .abort => .abort
  | .nofuel => .nofuel

/-- `handle_cases`. -/
def handle_cases (heap : Nat → Junk) (p : Parser) : Res (Tree × Parser) :=
  match parser_forward_tval heap p tv_function with
  | .ok (none, p1) => handle_error heap p1 tv_rbrace
  | .ok (some _, p1) =>
    match parser_get_token heap p1 with
    | .ok (tok, p2) =>
      match set_tree_operand (make_tree .FUNCTION) 0 (make_value_tok tok) with
      | .ok function0 =>
        match parser_forward_tval heap p2 tv_lbrace with
        | .ok (none, p3) => handle_error heap p3 tv_rbrace
        | .ok (some _, p3) =>
          match handle_list heap p3 (handle_args heap) tv_comma with
          | .ok (t, p4) =>
            match set_tree_operand function0 1 t with
            | .ok function1 =>
              match parser_forward_tval heap p4 tv_rbrace with
              | .ok (none, p5) => .ok (.error_mark, p5)
              | .ok (some _, p5) => .ok (function1, p5)
              | .abort => .abort
              | .nofuel => .nofuel
            | .abort => .abort
            | .nofuel => .nofuel
          | .abort => .abort
          | .nofuel => .nofuel
        | .abort => .abort
        | .nofuel => .nofuel
      | .abort => .abort
      | .nofuel => .nofuel
    | .abort => .abort
    | .nofuel => .nofuel
  | .abort => .abort
  | .nofuel => .nofuel

/-- The `while` loop of `handle_module` over the functions of a module; the
token that ends the loop has been read when it returns. -/
def handle_module_loop (heap : Nat → Junk) : Nat → Tree → Parser → Res (Tree × Parser)
  | 0, _, _ => .nofuel
  | fuel + 1, module, p =>
    match parser_get_token heap p with
    | .ok (tok, p1) =>
      if token_is_keyword tok tv_function then
        match parser_unget p1 with
        | .ok p2 =>
          match handle_cases heap p2 with
          | .ok (t, p3) =>
            match get_tree_operand module 1 with
            | .ok fns =>
              match tree_list_append fns t with
              | .ok fns1 =>
                match set_tree_operand module 1 fns1 with
                | .ok module1 => handle_module_loop heap fuel module1 p3
                | .abort => .abort
                | .nofuel => .nofuel
              | .abort => .abort
              | .nofuel => .nofuel
            | .abort => .abort
            | .nofuel => .nofuel
          | .abort => .abort
          | .nofuel => .nofuel
        | .abort => .abort
        | .nofuel => .nofuel
      else .ok (module, p1)
    | .abort => .abort
    | .nofuel => .nofuel

/-- `handle_module`. -/
def handle_module (heap : Nat → Junk) (p : Parser) : Res (Tree × Parser) :=
  match parser_forward_tval heap p tv_validate with
  | .ok (none, p1) => handle_error heap p1 tv_rbrace
  | .ok (some _, p1) =>
    match parser_get_token heap p1 with
    | .ok (tok, p2) =>
      match set_tree_operand (make_tree .MODULE) 0 (make_value_tok tok) with
      | .ok module0 =>
        match parser_forward_tval heap p2 tv_lbrace with
        | .ok (none, p3) => handle_error heap p3 tv_rbrace
        | .ok (some _, p3) =>
          match set_tree_operand module0 1 make_tree_list with
          | .ok module1 =>
            match handle_module_loop heap (parser_fuel p3) module1 p3 with
            | .ok (module2, p4) =>
              match parser_unget p4 with
              | .ok p5 =>
                match parser_forward_tval heap p5 tv_rbrace with
                | .ok (none, p6) => .ok (.error_mark, p6)
                | .ok (some _, p6) => .ok (module2, p6)
                | .abort => .abort
                | .nofuel => .nofuel
              | .abort => .abort
              | .nofuel => .nofuel
            | .abort => .abort
            | .nofuel => .nofuel
          | .abort => .abort
          | .nofuel => .nofuel
        | .abort => .abort
        | .nofuel => .nofuel
      | .abort => .abort
      | .nofuel => .nofuel
    | .abort => .abort
    | .nofuel => .nofuel
  | .abort => .abort
  | .nofuel => .nofuel

/-- Set the flag `error_notifications` of the lexer of a parser. -/
def set_notifications (p : Parser) (flag : Bool) : Parser :=
  { p with lex := { p.lex with error_notifications := flag } }

/-- The registration of a parsed module in `parse`: appended unless a
module of that name exists, in which case an error is reported. -/
def register_module (t : Tree) (p : Parser) (module_list : Tree) : Res (Parser × Tree) :=
  if !t.is_null && !t.is_error_mark then
    match get_tree_operand t 0 with
    | .ok name =>
      match tree_value name with
      | .ok v =>
        match module_exists module_list v with
        | .ok found =>
          if found.is_null then
            match tree_list_append module_list t with
            | .ok module_list1 => .ok (p, module_list1)
            | .abort => .abort
            | .nofuel => .nofuel
          else .ok (parser_error p, module_list)
        | .abort => .abort
        | .nofuel => .nofuel
      | .abort => .abort
      | .nofuel => .nofuel
    | .abort => .abort
    | .nofuel => .nofuel
  else .ok (p, module_list)

/-- The `while` loop of `parse` over the modules of the file. -/
def parse_loop (heap : Nat → Junk) : Nat → Parser → Tree → Res (Parser × Tree)
  | 0, _, _ => .nofuel
  | fuel + 1, p, module_list =>
    match parser_get_token heap p with
    | .ok (tok, p1) =>
      if token_class tok ≠ tok_eof then
        match parser_unget p1 with
        | .ok p2 =>
          match handle_module heap (set_notifications p2 true) with
          | .ok (t, p3) =>
            match register_module t p3 module_list with
            | .ok (p4, module_list1) =>
              parse_loop heap fuel (set_notifications p4 false) module_list1
            | .abort => .abort
            | .nofuel => .nofuel
          | .abort => .abort
          | .nofuel => .nofuel
        | .abort => .abort
        | .nofuel => .nofuel
      else .ok (p1, module_list)
    | .abort => .abort
    | .nofuel => .nofuel

/-- `parse`: the status, the parser and the global `module_list` at the
end; the global `error_count` is the field of that name of the lexer. -/
def parse (heap : Nat → Junk) (p : Parser) (module_list : Tree) : Res (Int × Parser × Tree) :=
  let p0 : Parser := { p with lex := { p.lex with error_count := 0 } }
  match parse_loop heap (parser_fuel p0) p0 module_list with
  | .ok (p1, module_list1) =>
    if p1.lex.error_count ≠ 0 then .ok (-3, p1, module_list1) else .ok (0, p1, module_list1)
  | .abort => .abort
  | .nofuel => .nofuel

/-- A parser structure as `main` allocates it, before `parser_init`. -/
def parser_blank : Parser :=
  { lex := lexer_init_file [] 0, token_buffer := [], buf_size := 0, buf_start := 0,
    buf_end := 0, unget_idx := 0, buf_empty := false, paren_count := 0, square_count := 0,
    brace_count := 0, ntok := 0 }

/-- The part of `main` from `init_global` to `parse`, run on the bytes of
the input file: the status of `parse`, the error counter and `module_list`
at the end. -/
def compile (heap : Nat → Junk) (file : List Byte) : Res (Int × Int × Tree) :=
  match parse heap (parser_init parser_blank (lexer_init_file file 0)) make_tree_list with
  | .ok (ret, p, module_list) => .ok (ret, p.lex.error_count, module_list)
  | .abort => .abort
  | .nofuel => .nofuel

/-- Location after reading the character `ch`. -/
def advance (loc : Location) (ch : Byte) : Location :=
  if ch = 10 then ⟨loc.line + 1, 0⟩ else ⟨loc.line, loc.col + 1⟩

/-- The buffer after adding the characters of `l` one by one. -/
def add_all (b : Buffer) (l : List Byte) : Buffer := l.foldl buffer_add_char b

/-- A character that continues an identifier: `isalnum (c) || c == '_'`. -/
def ident_char (c : Byte) : Bool := isalnum c || c == 95

/-- The rest of the input does not continue an identifier: it is empty or
starts with a character that is neither alphanumeric nor `_`. -/
def ends_token (rest : List Byte) : Bool :=
  match rest with
  | [] => true
  | d :: _ => !ident_char d

/-- The lexer after a character was read and put back. -/
def peek_back (lex : Lexer) : Lexer :=
  lexer_ungetch (lexer_getch lex).2 (lexer_getch lex).1

/-- The token that `lexer_get_token` gives for the identifier text `t` read
at location `loc`. -/
def ident_token (junk : Junk) (loc : Location) (t : List Byte) : Token :=
  if t = bytes "validate" then ⟨loc, tok_keyword, false, tv_validate, []⟩
  else if t = bytes "function" then ⟨loc, tok_keyword, false, tv_function, []⟩
  else ⟨loc, tok_id, true, junk.tval, t ++ [0]⟩

/-- Class and text of the first token of a file. -/
def first_token (junk : Junk) (file : List Byte) : Res (TokenClass × List Byte) :=
  match lexer_get_token junk (lexer_init_file file 0) with
  | .ok (tok, _) => .ok (token_class tok, token_as_string tok)
  | .abort => .abort
  | .nofuel => .nofuel

/-- A heap in which every fresh token holds no defined class. -/
def heap_invalid : Nat → Junk := fun _ => ⟨none, tv_eof⟩

/-- A `VALUE` node with the given location and text. -/
def vnode (line col : Int) (s : String) : Tree :=
  .value ⟨line, col⟩ (bytes s) (bytes s).length

/-- A `LIST` node as `make_tree_list` and `tree_list_append` build it. -/
def lnode (elems : List Tree) : Tree := .list ⟨0, 0⟩ elems

/-- A `FUNCTION` node as `handle_cases` builds it. -/
def fnode (name : Tree) (groups : List Tree) : Tree := .function ⟨0, 0⟩ name (lnode groups)

/-- A `MODULE` node as `handle_module` builds it. -/
def mnode (name : Tree) (functions : List Tree) : Tree := .module ⟨0, 0⟩ name (lnode functions)

/-- The tokens returned by `n` successive calls of
`parser_get_lexer_token`, in the order read, and the parser afterwards. -/
def reads (heap : Nat → Junk) : Nat → Parser → Res (List Token × Parser)
  | 0, p => .ok ([], p)
  | n + 1, p =>
    match parser_get_lexer_token heap p with
    | .ok (tok, _, p1) =>
      match reads heap n p1 with
      | .ok (toks, p2) => .ok (tok :: toks, p2)
      | .abort => .abort
      | .nofuel => .nofuel
    | .abort => .abort
    | .nofuel => .nofuel

/-- The parser after `k` successive calls of `parser_unget`. -/
def ungets : Nat → Parser → Res Parser
  | 0, p => .ok p
  | k + 1, p =>
    match parser_unget p with
    | .ok p1 => ungets k p1
    | .abort => .abort
    | .nofuel => .nofuel

/-- The state of the ring buffer after the tokens `toks` were read from the
lexer and none is pending: the write cursor is at `|toks| mod 16`, and the
last 15 tokens are live in their slots. -/
def RingInv (toks : List Token) (p : Parser) : Prop :=
  p.buf_size = 16 ∧ p.token_buffer.length = 16 ∧ p.unget_idx = 0 ∧
  p.buf_end = toks.length % 16 ∧
  p.buf_start = (if toks.length < 15 then 0 else (toks.length + 1) % 16) ∧
  ∀ j tok, toks[j]? = some tok → toks.length ≤ j + 15 →
    p.token_buffer[j % 16]? = some (some tok)

/-- A step of the lexer from `a` to `b`: nothing is added to the unread
input, the error counter does not decrease and the notification flag is
kept. -/
def LexStep (a b : Lexer) : Prop :=
  b.file.length ≤ a.file.length ∧ a.error_count ≤ b.error_count ∧
  b.error_notifications = a.error_notifications

/-- The buffer `b1` holds what `b` had added to it, followed by more. -/
def Extends (b b1 : Buffer) : Prop :=
  ∃ l, b1.buf = some (b.buf.getD [] ++ l)

/-- The outcome of the loop of `lexer_read_number` started in the state
`s`: the lexer has made a step (after the pushback of the last character
when the loop was left by `break`) and the buffer was only added to. -/
def NumOutcome (s : NumState) (r : Option Byte × NumState) : Prop :=
  Extends s.b r.2.b ∧
  match r.1 with
  | some c => LexStep s.lex (lexer_ungetch r.2.lex c)
  | none => LexStep s.lex r.2.lex

/-- The text of a token that is no comment is not one of the two marker
texts of `parser_get_token`. -/
def TextOK (tok : Token) : Prop :=
  tok.uses_buf = true → tok.tok_class = tok_comments ∨ is_marker (token_as_string tok) = false

/-- What a call of `lexer_dispatch` or of `return_token` gives: the budget
of the loops suffices, the call fails only when the condition `defined`
does not hold, and a returned token comes with a step of the lexer from
`lex` and a text that is no marker. -/
def LexOutcome (defined : Prop) (lex : Lexer) (r : Res (Token × Lexer)) : Prop :=
  r ≠ .nofuel ∧ (defined → r ≠ .abort) ∧
  ∀ t lex1, r = .ok (t, lex1) → LexStep lex lex1 ∧ TextOK t

/-- The text of a token is not one of the two marker texts. -/
def NoMarker (t : Token) : Prop :=
  t.uses_buf = true → is_marker (token_as_string t) = false

/-- The token that the lexer returns at the end of the input. -/
def TokEof (t : Token) : Prop :=
  t.tok_class = tok_eof ∧ t.uses_buf = false ∧ t.tval = tv_eof

/-- Every fresh token holds a defined class before the lexer writes to
it. -/
def HeapOK (heap : Nat → Junk) : Prop := ∀ n, (heap n).tok_class ≠ none

/-- The invariant of the parser during `parse`: the ring holds the tokens
read so far as `RingInv` says, none of them has a marker text, and at most
one token is ungot. -/
def PInv (p : Parser) : Prop :=
  ∃ toks : List Token, RingInv toks { p with unget_idx := 0 } ∧ (∀ t ∈ toks, NoMarker t) ∧
    p.unget_idx ≤ 1 ∧ p.unget_idx ≤ toks.length

/-- A step of the parser from `p` to `p1`: nothing is added to the unread
input and the error counter does not decrease. -/
def PStep (p p1 : Parser) : Prop :=
  p1.lex.file.length ≤ p.lex.file.length ∧ p.lex.error_count ≤ p1.lex.error_count

/-- What a step of the parser started in `p` gives: the budget of the loops
suffices, the step fails only on an undefined class left in a fresh token,
and a result comes with the invariant, a step of the parser and `post`. -/
def POutcome (heap : Nat → Junk) (p : Parser) {α : Type} (r : Res (α × Parser))
    (post : α → Parser → Prop) : Prop :=
  r ≠ .nofuel ∧ (HeapOK heap → r ≠ .abort) ∧
  ∀ a p1, r = .ok (a, p1) → PInv p1 ∧ PStep p p1 ∧ post a p1

/-- After a token was read: nothing is ungot, the token just read can be
ungot, it has no marker text, and a fresh read has consumed input unless it
gave the eof token. -/
def ReadPost (p : Parser) (tok : Token) (p1 : Parser) : Prop :=
  p1.unget_idx = 0 ∧ PInv { p1 with unget_idx := 1 } ∧ NoMarker tok ∧
  (p.unget_idx = 0 → p1.lex.file.length < p.lex.file.length ∨ TokEof tok)

/-- After `parser_forward_tval`: nothing is ungot, and a missing token has
raised the error counter. -/
def ForwardPost (p : Parser) (o : Option Token) (p1 : Parser) : Prop :=
  p1.unget_idx = 0 ∧ (o = none → p.lex.error_count < p1.lex.error_count)

/-- The node is a `VALUE`. -/
def Tree.is_value : Tree → Bool
  | .value _ _ _ => true
  | _ => false

/-- An argument group: a `LIST` of `VALUE` nodes. -/
def wf_group : Tree → Bool
  | .list _ es => es.all Tree.is_value
  | _ => false

/-- A `FUNCTION` node with a `VALUE` name and a `LIST` of argument groups. -/
def wf_function : Tree → Bool
  | .function _ name (.list _ gs) => name.is_value && gs.all wf_group
  | _ => false

/-- A `MODULE` node with a `VALUE` name and a `LIST` of functions. -/
def wf_module : Tree → Bool
  | .module _ name (.list _ fs) => name.is_value && fs.all wf_function
  | _ => false

/-- The AST handed to `codegen`: a `LIST` of well-formed modules. -/
def wf_module_list : Tree → Bool
  | .list _ ms => ms.all wf_module
  | _ => false

/-- A `MODULE` node with a `VALUE` name and a `LIST` as second operand,
whatever the list holds. -/
def module_shape : Tree → Bool
  | .module _ (.value _ _ _) (.list _ _) => true
  | _ => false

/-- What a handler of list elements gives: nothing is ungot afterwards, and
while the error counter has not moved the element is a node that `wfE`
accepts. -/
def ElemPost (wfE : Tree → Bool) (p : Parser) (t : Tree) (p1 : Parser) : Prop :=
  p1.unget_idx = 0 ∧
  (p1.lex.error_count = p.lex.error_count →
    t.is_error_mark = false ∧ t.is_null = false ∧ wfE t = true)

/-- What `handle_module` gives: nothing is ungot, the result is
`error_mark_node` or a module node, and while the error counter has not
moved the module is well formed. -/
def ModulePost (p : Parser) (t : Tree) (p1 : Parser) : Prop :=
  p1.unget_idx = 0 ∧ (t.is_error_mark = true ∨ module_shape t = true) ∧
  (p1.lex.error_count = p.lex.error_count → wf_module t = true)

/-- The outcome of the loop of `parse` started with the modules `ms`:
within budget, failing only on an undefined class of a fresh token, and
ending with `ms` followed by modules that are module nodes and, while the
error counter has not moved, well formed. -/
def ParseOutcome (heap : Nat → Junk) (p : Parser) (l : Location) (ms : List Tree)
    (r : Res (Parser × Tree)) : Prop :=
  r ≠ .nofuel ∧ (HeapOK heap → r ≠ .abort) ∧
  ∀ p1 ml1, r = .ok (p1, ml1) → PStep p p1 ∧
    ∃ ms1, ml1 = .list l (ms ++ ms1) ∧ (∀ m ∈ ms1, module_shape m = true) ∧
      (p1.lex.error_count = p.lex.error_count → ∀ m ∈ ms1, wf_module m = true)

/-- What the parser expects of a token: a keyword of a kind, an operator of
a kind, or a token with a text. -/
inductive Lx where
  | kw (k : TokenKind)
  | op (k : TokenKind)
  | text (s : List Byte)
  deriving DecidableEq, Repr

/-- The token `tok` is what `lx` describes.  A token with a text is of
none of the classes that the parser tests for. -/
def Matches (tok : Token) : Lx → Prop
  | .kw k => tok.tok_class = tok_keyword ∧ tok.uses_buf = false ∧ tok.tval = k
  | .op k => tok.tok_class = tok_operator ∧ tok.uses_buf = false ∧ tok.tval = k
  | .text s =>
    tok.uses_buf = true ∧ token_as_string tok = s ∧ tok.tok_class ≠ tok_comments ∧
    tok.tok_class ≠ tok_whitespace ∧ tok.tok_class ≠ tok_operator ∧
    tok.tok_class ≠ tok_keyword ∧ tok.tok_class ≠ tok_eof

/-- A character that ends every token before it: white space, `#` or one
of the punctuation characters. -/
def is_delim (c : Byte) : Bool :=
  isspace c || c == 35 || c == 44 || c == 40 || c == 41 || c == 123 || c == 125

/-- The rest of the input starts with a delimiter. -/
def starts_delim : List Byte → Bool
  | [] => false
  | d :: _ => is_delim d

/-- What must follow a token in the input: nothing is asked after
punctuation, a delimiter after a keyword or a text. -/
def Sep (lx : Lx) (rest : List Byte) : Prop :=
  match lx with
  | .op _ => True
  | _ => starts_delim rest = true

/-- The lexer after it has read `w` and stands before `rest`, up to its
location. -/
def LexAt (lex lex1 : Lexer) (rest : List Byte) : Prop :=
  lex1.file = rest ∧ lex1.is_eof = false ∧ lex1.error_count = lex.error_count ∧
  lex1.error_notifications = lex.error_notifications

/-- The text `w` is read by `lexer_get_token` as one token that `lx`
describes: called before `w ++ rest` (with what `Sep` asks of `rest`), the
lexer returns such a token, stands before `rest` and reports no error. -/
def Lexes (w : List Byte) (lx : Lx) : Prop :=
  (∃ c tl, w = c :: tl ∧ isspace c = false ∧ c ≠ 35 ∧ c ≠ CEOF) ∧
  ∀ junk lex rest, lex.is_eof = false → lex.file = w ++ rest → Sep lx rest →
    ∃ tok lex1, lexer_get_token junk lex = .ok (tok, lex1) ∧ Matches tok lx ∧
      LexAt lex lex1 rest

/-- The text of a comment after its `#`: no newline and no byte `0xFF`. -/
def comment_body (body : List Byte) : Bool :=
  body.all (fun x => x != 10 && x != CEOF)

/-- White space between tokens. -/
def spaces (ws : List Byte) : Bool := ws.all isspace

/-- What may stand between two tokens: white space and comments that end
with a newline. -/
inductive Gap : List Byte → Prop where
  | blank (ws : List Byte) : spaces ws = true → Gap ws
  | comment (ws body g : List Byte) : spaces ws = true → comment_body body = true → Gap g →
      Gap (ws ++ 35 :: body ++ 10 :: g)

/-- A text that the lexer reads as an identifier: a letter, then letters,
digits and `_`, and not one of the keywords. -/
def is_ident_text (w : List Byte) : Bool :=
  match w with
  | [] => false
  | c :: cs => isalpha c && cs.all ident_char && !decide (c :: cs ∈ keywords)

/-- A text that the lexer reads as a decimal integer: digits, the first of
them not `0` unless it is the only one. -/
def is_int_text (w : List Byte) : Bool :=
  match w with
  | [] => false
  | [d] => isdigit d
  | d :: ds => isdigit d && d != 48 && ds.all isdigit

/-- The unread input `file` holds the tokens `lxs`, each after a gap and
followed by what it needs, and then only a gap up to the end of the
input. -/
def Layout : List Lx → List Byte → Prop
  | [], file => Gap file
  | lx :: lxs, file =>
    ∃ g w rest, Gap g ∧ Lexes w lx ∧ Sep lx rest ∧ file = g ++ w ++ rest ∧ Layout lxs rest

/-- The token `tok` is what the head of `lxs` describes; it is the eof
token when `lxs` is empty. -/
def MatchesHead (tok : Token) : List Lx → Prop
  | [] => TokEof tok
  | lx :: _ => Matches tok lx

/-- The parser has nothing ungot and the lexer will give the tokens `lxs`
and then the end of the input. -/
def Ready (p : Parser) (lxs : List Lx) : Prop :=
  PInv p ∧ p.unget_idx = 0 ∧
  ((p.lex.is_eof = false ∧ Layout lxs p.lex.file) ∨ (p.lex.is_eof = true ∧ lxs = []))

/-- The token `tok` was the last one stored in the ring and nothing is
ungot. -/
def Just (p : Parser) (tok : Token) : Prop :=
  ∃ toks, RingInv (toks ++ [tok]) p ∧ ∀ t ∈ toks ++ [tok], NoMarker t

/-- The next tokens that `parser_get_token` returns are `lxs`, then the end
of the input: either all of them are still to be read from the lexer, or
the first one was read and ungot. -/
def Ahead (p : Parser) (lxs : List Lx) : Prop :=
  Ready p lxs ∨
  ∃ tok, MatchesHead tok lxs ∧ p.unget_idx = 1 ∧ Just { p with unget_idx := 0 } tok ∧
    Ready { p with unget_idx := 0 } lxs.tail

/-- The error counter and the notification flag of `p1` are those of
`p`. -/
def Same (p p1 : Parser) : Prop :=
  p1.lex.error_count = p.lex.error_count ∧
  p1.lex.error_notifications = p.lex.error_notifications

/-- The handler `H`, started before the tokens `L`, returns a tree that
`post` holds of, leaves what follows `L` to be read and reports no error. -/
def Parses (H : Parser → Res (Tree × Parser)) (L : List Lx) (post : Tree → Prop) : Prop :=
  ∀ p more, Ahead p (L ++ more) →
    ∃ t p1, H p = .ok (t, p1) ∧ post t ∧ Ready p1 more ∧ Same p p1

/-- A function of the grammar: its name and its argument groups, each the
list of the texts of its values. -/
structure FunctionAst where
  name : List Byte
  groups : List (List (List Byte))
  deriving DecidableEq, Repr

/-- A module of the grammar: its name and its functions. -/
structure ModuleAst where
  name : List Byte
  functions : List FunctionAst
  deriving DecidableEq, Repr

/-- The token lists `xs` one after the other, with `d` between them. -/
def sep_by (d : Lx) : List (List Lx) → List Lx
  | [] => []
  | [x] => x
  | x :: y :: ys => x ++ d :: sep_by d (y :: ys)

/-- The tokens of `ArgGroup := '(' Value (',' Value)* ')'`. -/
def group_lex (vs : List (List Byte)) : List Lx :=
  .op tv_lparen :: sep_by (.op tv_comma) (vs.map (fun v => [Lx.text v])) ++ [.op tv_rparen]

/-- The tokens of a function up to and without its closing brace. -/
def function_open_lex (f : FunctionAst) : List Lx :=
  .kw tv_function :: .text f.name :: .op tv_lbrace ::
    sep_by (.op tv_comma) (f.groups.map group_lex)

/-- The tokens of
`Function := 'function' Ident '\x7b' ArgGroup (',' ArgGroup)* '\x7d'`. -/
def function_lex (f : FunctionAst) : List Lx := function_open_lex f ++ [.op tv_rbrace]

/-- The tokens of the functions `fs` one after the other. -/
def functions_lex : List FunctionAst → List Lx
  | [] => []
  | f :: fs => function_lex f ++ functions_lex fs

/-- The tokens of `Module := 'validate' Ident '\x7b' Function* '\x7d'`. -/
def module_lex (m : ModuleAst) : List Lx :=
  .kw tv_validate :: .text m.name :: .op tv_lbrace :: functions_lex m.functions ++
    [.op tv_rbrace]

/-- The tokens of `Program := Module*`. -/
def program_lex : List ModuleAst → List Lx
  | [] => []
  | m :: ms => module_lex m ++ program_lex ms

/-- Every function has an argument group and every group has a value. -/
def FunctionAst.wf (f : FunctionAst) : Bool :=
  f.groups != [] && f.groups.all (fun g => g != [])

/-- Every function of the module is well formed. -/
def ModuleAst.wf (m : ModuleAst) : Bool := m.functions.all FunctionAst.wf

/-- The `VALUE` node of the text `v`, without its location. -/
def value_tree (v : List Byte) : Tree := .value ⟨0, 0⟩ v v.length

/-- The `LIST` node of an argument group. -/
def group_tree (vs : List (List Byte)) : Tree := lnode (vs.map value_tree)

/-- The `FUNCTION` node of a function. -/
def function_tree (f : FunctionAst) : Tree :=
  fnode (value_tree f.name) (f.groups.map group_tree)

/-- The `MODULE` node of a module. -/
def module_tree (m : ModuleAst) : Tree :=
  mnode (value_tree m.name) (m.functions.map function_tree)

/-- The `module_list` of a program. -/
def program_tree (ms : List ModuleAst) : Tree := lnode (ms.map module_tree)

/-- A `VALUE` node with its location set to zero. -/
def erase_value : Tree → Tree
  | .value _ v n => .value ⟨0, 0⟩ v n
  | t => t

/-- An argument group with the locations of its values set to zero. -/
def erase_group : Tree → Tree
  | .list l es => .list l (es.map erase_value)
  | t => t

/-- A function with the locations of its values set to zero. -/
def erase_function : Tree → Tree
  | .function l name (.list l1 gs) => .function l (erase_value name) (.list l1 (gs.map erase_group))
  | t => t

/-- A module with the locations of its values set to zero. -/
def erase_module : Tree → Tree
  | .module l name (.list l1 fs) => .module l (erase_value name) (.list l1 (fs.map erase_function))
  | t => t

/-- The list of modules with the locations of all values set to zero. -/
def erase_locations : Tree → Tree
  | .list l ms => .list l (ms.map erase_module)
  | t => t

/-- The lexer after the end of the input was met. -/
def LexEnd (lex lex1 : Lexer) : Prop :=
  lex1.is_eof = true ∧ lex1.error_count = lex.error_count ∧
  lex1.error_notifications = lex.error_notifications

/-- The tree is the `VALUE` node of the text `v`, at some location. -/
def IsValue (v : List Byte) (t : Tree) : Prop := ∃ loc, t = .value loc v v.length

/-- The tree is the `LIST` of the `VALUE` nodes of the texts `vs`. -/
def IsGroup (vs : List (List Byte)) (t : Tree) : Prop :=
  ∃ ts, t = .list ⟨0, 0⟩ ts ∧ List.Forall₂ IsValue vs ts

/-- The tree is the `FUNCTION` node of the function `f`. -/
def IsFunction (f : FunctionAst) (t : Tree) : Prop :=
  ∃ n gs, t = .function ⟨0, 0⟩ n (.list ⟨0, 0⟩ gs) ∧ IsValue f.name n ∧
    List.Forall₂ IsGroup f.groups gs

/-- The tree is the `MODULE` node of the module `m`. -/
def IsModule (m : ModuleAst) (t : Tree) : Prop :=
  ∃ n fs, t = .module ⟨0, 0⟩ n (.list ⟨0, 0⟩ fs) ∧ IsValue m.name n ∧
    List.Forall₂ IsFunction m.functions fs

/-- The parser when `compile` enters the loop of `parse`: initialised on
the file, with the error counter set to zero. -/
def compile_start (file : List Byte) : Parser :=
  { parser_init parser_blank (lexer_init_file file 0) with
    lex := { (parser_init parser_blank (lexer_init_file file 0)).lex with error_count := 0 } }

/-- A text that the lexer reads as a hexadecimal literal: `0x` or `0X`,
then hexadecimal digits. -/
def is_hex_text (w : List Byte) : Bool :=
  match w with
  | z :: x :: hs => z == 48 && (x == 120 || x == 88) && hs.all isxdigit
  | _ => false

/-- A text that the lexer reads as an octal literal: `0`, then at least one
digit, all digits from `0` to `7`. -/
def is_octal_text (w : List Byte) : Bool :=
  match w with
  | z :: d :: ds => z == 48 && (d :: ds).all (fun x => decide (48 ≤ x.val ∧ x.val < 56))
  | _ => false

/-- The characters between the quotes of a string literal: any character
but the quote, the byte `0xFF` and the byte 0, or a backslash followed by
any character but `0xFF` and 0.  The flag tells that a backslash was just
met. -/
def string_body : Bool → List Byte → Bool
  | esc, [] => !esc
  | true, c :: rest => c != CEOF && c != 0 && string_body false rest
  | false, c :: rest =>
    if c = 92 then string_body true rest
    else c != CEOF && c != 34 && c != 0 && string_body false rest

/-- The fraction of a decimal literal: nothing, or `.` and digits. -/
def dec_frac (fp : List Byte) : Bool :=
  match fp with
  | [] => true
  | c :: ds => c == 46 && ds.all isdigit

/-- The exponent of a decimal literal: nothing, or `e` or `E`, an optional
sign and at least one digit. -/
def dec_exp (ex : List Byte) : Bool :=
  match ex with
  | [] => true
  | [_] => false
  | e :: s :: ds =>
    (e == 101 || e == 69) &&
      (if s == 43 || s == 45 then ds != [] && ds.all isdigit else (s :: ds).all isdigit)

/-- The loop of `lexer_read_number` ends by `break` on the character `d`,
with `text` added to the buffer and the lexer standing after `d`, before
`tl`. -/
def NumDone (s : NumState) (pre text : List Byte) (d : Byte) (tl : List Byte)
    (r : Res (Option Byte × NumState)) : Prop :=
  ∃ s1, r = .ok (some d, s1) ∧ s1.b.buf = some (pre ++ text) ∧ s1.lex.file = tl ∧
    s1.lex.is_eof = false ∧ s1.lex.error_count = s.lex.error_count ∧
    s1.lex.error_notifications = s.lex.error_notifications

/-- The texts of the tokens of the grammar and what the parser gets for
them: the two keywords, the five punctuation characters, and for names and
values an identifier, a decimal literal (with or without fraction and
exponent), a hexadecimal literal or a string literal, whose text the token
carries, or an octal literal, which the token carries with its leading `0`
doubled. -/
inductive Lexeme : List Byte → Lx → Prop where
  | kw (k : TokenKind) : k = tv_function ∨ k = tv_validate → Lexeme (token_kind_name k) (.kw k)
  | op (k : TokenKind) :
      k = tv_comma ∨ k = tv_lparen ∨ k = tv_rparen ∨ k = tv_lbrace ∨ k = tv_rbrace →
      Lexeme (token_kind_name k) (.op k)
  | ident (w : List Byte) : is_ident_text w = true → Lexeme w (.text w)
  | int (w : List Byte) : is_int_text w = true → Lexeme w (.text w)
  | decimal (ip fp ex : List Byte) : is_int_text ip = true → dec_frac fp = true →
      dec_exp ex = true → Lexeme (ip ++ fp ++ ex) (.text (ip ++ fp ++ ex))
  | point (y : Byte) (ds ex : List Byte) : isdigit y = true → ds.all isdigit = true →
      dec_exp ex = true → Lexeme (46 :: y :: ds ++ ex) (.text (46 :: y :: ds ++ ex))
  | hex (w : List Byte) : is_hex_text w = true → Lexeme w (.text w)
  | octal (w : List Byte) : is_octal_text w = true → Lexeme w (.text (48 :: w))
  | string (body : List Byte) : string_body false body = true →
      Lexeme (34 :: body ++ [34]) (.text (34 :: body ++ [34]))

/-- The input `file` is the tokens `lxs` written one after the other, each
after white space or comments, a keyword, name or value followed by a
delimiter, and nothing but white space and comments after the last. -/
def Source : List Lx → List Byte → Prop
  | [], file => Gap file
  | lx :: lxs, file =>
    ∃ g w rest, Gap g ∧ Lexeme w lx ∧ Sep lx rest ∧ file = g ++ w ++ rest ∧ Source lxs rest

/-- The tokens of a module that ends inside its last function `f`: the
closing braces of `f` and of the module are missing. -/
def unclosed_lex (m : ModuleAst) (f : FunctionAst) : List Lx :=
  .kw tv_validate :: .text m.name :: .op tv_lbrace ::
    (functions_lex m.functions ++ function_open_lex f)

/-- The text of a token of the grammar. -/
def lexeme_text : Lx → List Byte
  | .kw k => token_kind_name k
  | .op k => token_kind_name k
  | .text s => s

/-- The token is one of the grammar. -/
def lexeme_ok : Lx → Bool
  | .kw k => k == tv_function || k == tv_validate
  | .op k => k == tv_comma || k == tv_lparen || k == tv_rparen || k == tv_lbrace || k == tv_rbrace
  | .text s => is_ident_text s || is_int_text s

/-- The test of `Sep`. -/
def sep_ok (lx : Lx) (rest : List Byte) : Bool :=
  match lx with
  | .op _ => true
  | _ => starts_delim rest

/-- A test that suffices for `Source` when only white space stands between
the tokens. -/
def source_ok : List Lx → List Byte → Bool
  | [], file => spaces file
  | lx :: lxs, file =>
    let rest := file.dropWhile isspace
    let w := lexeme_text lx
    lexeme_ok lx && w.isPrefixOf rest && sep_ok lx (rest.drop w.length) &&
      source_ok lxs (rest.drop w.length)

/-- Modelled from the spec: the codes of `tree.def` that `tree.c` names,
with `EMPTY_MARK` for a node that was torn down and `ERROR_MARK` for the
code of `error_mark_node`. -/
inductive NodeCode where
  | EMPTY_MARK | ERROR_MARK | MODULE | FUNCTION | LIST | VALUE
  deriving DecidableEq, Repr

/-- Modelled from the spec: the table `tree_code_operand` built from
`tree.def`; `MODULE` and `FUNCTION` have two operands, the other codes
none. -/
def tree_code_operands : NodeCode → Nat
  | .MODULE => 2
  | .FUNCTION => 2
  | _ => 0

/-- A tree node in memory (`union tree_node`): its code, the pointers in
`operands`, the entries of the elements of `list`, and the pointer `value`
to the text of a `VALUE` node.  A pointer is an address, 0 for `NULL`. -/
structure Node where
  code : NodeCode
  operands : List Nat
  list : List Nat
  value : Nat
  deriving DecidableEq, Repr

/-- The memory that `free_tree` works on: the node at each address, the
global `error_mark_node`, the array `atomic_trees` up to `atomic_trees_idx`
with its capacity `atomic_trees_size`, and the texts handed to `free`, in
the order of the calls. -/
structure Memory where
  nodes : List (Option Node)
  error_mark_node : Nat
  atomic_trees : List Nat
  atomic_trees_size : Nat
  freed : List Nat
  deriving DecidableEq, Repr

/-- The node that the pointer `p` points to, if any. -/
def node_at (m : Memory) (p : Nat) : Option Node := (m.nodes[p]?).join

/-- A write to the node at `p`. -/
def set_node (m : Memory) (p : Nat) (n : Node) : Memory :=
  { m with nodes := m.nodes.set p (some n) }

/-- `atomic_trees_add`: only a node with code `EMPTY_MARK` is taken, the
array is allocated with 32 places on first use and doubled when full, and a
node that is in the array already ends the program (`unreachable`). -/
def atomic_trees_add (m : Memory) (t : Nat) : Res Memory :=
  match node_at m t with
  | none => .abort
  | some n =>
    if n.code ≠ .EMPTY_MARK then .abort
    else
      let size1 := if m.atomic_trees_size = 0 then 32 else m.atomic_trees_size
      let size2 := if m.atomic_trees.length = size1 then 2 * size1 else size1
      if t ∈ m.atomic_trees then .abort
      else .ok { m with atomic_trees := m.atomic_trees ++ [t], atomic_trees_size := size2 }

/-- The loop `DL_FOREACH_SAFE` of `free_tree` over the elements of the list
of `node`: each element is unlinked, its entry is torn down by `free`, and
the element is freed.  The loop holds a pointer to the next element while
`free` runs; when the list of `node` is not what the loop left, that
pointer is stale and the step is not defined. -/
def free_list_loop (free : Memory → Nat → Res Memory) (node : Nat) :
    List Nat → Memory → Res Memory
  | [], m => .ok m
  | e :: rest, m =>
    match node_at m node with
    | none => .abort
    | some n =>
      if n.list = e :: rest then
        match free (set_node m node { n with list := rest }) e with
        | .ok m1 => free_list_loop free node rest m1
        | .abort => .abort
        | .nofuel => .nofuel
      else .abort

/-- The loop of `free_tree` over the operands of `node`, `k` of them left
from index `i` on: `free_tree (TREE_OPERAND (node, i))`, then
`TREE_OPERAND_SET (node, i, NULL)`, both with their range assertion. -/
def free_operands_loop (free : Memory → Nat → Res Memory) (node : Nat) :
    Nat → Nat → Memory → Res Memory
  | 0, _, m => .ok m
  | k + 1, i, m =>
    match node_at m node with
    | none => .abort
    | some n =>
      if i < tree_code_operands n.code then
        match n.operands[i]? with
        | none => .abort
        | some c =>
          match free m c with
          | .ok m1 =>
            match node_at m1 node with
            | none => .abort
            | some n1 =>
              if i < tree_code_operands n1.code then
                free_operands_loop free node k (i + 1)
                  (set_node m1 node { n1 with operands := n1.operands.set i 0 })
              else .abort
          | .abort => .abort
          | .nofuel => .nofuel
      else .abort

/-- `free_tree`, with the depth of the recursion bounded by the fuel: the
text of a `VALUE` is handed to `free`, the entries of a `LIST` and the
operands are torn down, then the node gets the code `EMPTY_MARK` and is
added to `atomic_trees`. -/
def free_tree : Nat → Memory → Nat → Res Memory
  | 0, _, _ => .nofuel
  | fuel + 1, m, node =>
    if node = 0 ∨ node = m.error_mark_node then .ok m
    else
      match node_at m node with
      | none => .abort
      | some n =>
        if n.code = .EMPTY_MARK then .ok m
        else
          let r1 : Res Memory :=
            match n.code with
            | .LIST => free_list_loop (free_tree fuel) node n.list m
            | .VALUE => .ok (if n.value = 0 then m else { m with freed := m.freed ++ [n.value] })
            | .FUNCTION => .ok m
            | .MODULE => .ok m
            | _ => .abort
          match r1 with
          | .ok m1 =>
            match free_operands_loop (free_tree fuel) node (tree_code_operands n.code) 0 m1 with
            | .ok m2 =>
              match node_at m2 node with
              | none => .abort
              | some n2 => atomic_trees_add (set_node m2 node { n2 with code := .EMPTY_MARK }) node
            | .abort => .abort
            | .nofuel => .nofuel
          | .abort => .abort
          | .nofuel => .nofuel

/-- The pointers from a node to other nodes: the entries of a `LIST`, the
operands of a `MODULE` or a `FUNCTION`. -/
def kids (n : Node) : List Nat :=
  match n.code with
  | .LIST => n.list
  | .MODULE => n.operands
  | .FUNCTION => n.operands
  | _ => []

/-- The pointer is neither `NULL` nor `error_mark_node`. -/
def is_node (m : Memory) (p : Nat) : Bool := p != 0 && p != m.error_mark_node

/-- The nodes that can be reached from `root` through entries and
operands. -/
inductive Reach (m : Memory) (root : Nat) : Nat → Prop where
  | root : is_node m root = true → Reach m root root
  | kid (p c : Nat) (n : Node) : Reach m root p → node_at m p = some n → c ∈ kids n →
      is_node m c = true → Reach m root c

/-- The code of a node of an AST. -/
def live_code (c : NodeCode) : Bool :=
  c == .MODULE || c == .FUNCTION || c == .LIST || c == .VALUE

/-- The text that the `VALUE` node at `p` owns, if it is one and has a
text. -/
def owned_text (m : Memory) (p : Nat) : Option Nat :=
  match node_at m p with
  | some n => if n.code = .VALUE ∧ n.value ≠ 0 then some n.value else none
  | none => none

/-- The nodes reachable from `root` form an AST in which nodes may be
shared: each is a `MODULE`, `FUNCTION`, `LIST` or `VALUE` with the operands
of its code, none is in `atomic_trees`, a pointer to a node leads to a node
of smaller rank (so no node reaches itself), and no two `VALUE` nodes own
the same text. -/
def Ast (rank : Nat → Nat) (m : Memory) (root : Nat) : Prop :=
  (∀ p, Reach m root p → ∃ n, node_at m p = some n ∧ live_code n.code = true ∧
    n.operands.length = tree_code_operands n.code ∧ p ∉ m.atomic_trees ∧
    ∀ c ∈ kids n, is_node m c = true → rank c < rank p) ∧
  (∀ p q t, Reach m root p → Reach m root q → owned_text m p = some t →
    owned_text m q = some t → p = q)

/-- The nodes `done` of the AST of `m0` are torn down in `m`: each has the
code `EMPTY_MARK`, all nodes they point to are among them, and they are
what was added to `atomic_trees`, their texts what was handed to `free`. -/
def Tomb (m0 : Memory) (root : Nat) (m : Memory) (done : List Nat) : Prop :=
  done.Nodup ∧ (∀ p ∈ done, Reach m0 root p) ∧
  (∀ p ∈ done, ∃ n, node_at m p = some n ∧ n.code = .EMPTY_MARK) ∧
  (∀ p ∈ done, ∀ n, node_at m0 p = some n → ∀ c ∈ kids n, is_node m0 c = true → c ∈ done) ∧
  m.atomic_trees = m0.atomic_trees ++ done ∧
  m.freed = m0.freed ++ done.filterMap (owned_text m0) ∧
  m.error_mark_node = m0.error_mark_node

/-- The nodes of the AST of `m0` of rank at most `r` that are not in `done`
are in `m` as they were in `m0`. -/
def Untouched (rank : Nat → Nat) (m0 : Memory) (root : Nat) (m : Memory) (done : List Nat)
    (r : Nat) : Prop :=
  ∀ q, Reach m0 root q → q ∉ done → rank q ≤ r → node_at m q = node_at m0 q

/-- The procedure `free` tears down what its argument points to: called on
a pointer `c` that is no node, or that is a node of the AST of rank below
`bound` whose nodes are untouched so far, it returns, and the nodes it tore
down (`more`, of rank at most that of `c`, with `c` among them) are the
only ones it changed. -/
def Tears (rank : Nat → Nat) (m0 : Memory) (root : Nat) (free : Memory → Nat → Res Memory)
    (bound : Nat) : Prop :=
  ∀ m done c, Tomb m0 root m done →
    (is_node m0 c = true → Reach m0 root c ∧ rank c < bound ∧
      Untouched rank m0 root m done (rank c)) →
    ∃ m1 more, free m c = .ok m1 ∧ Tomb m0 root m1 (done ++ more) ∧
      (is_node m0 c = true → c ∈ done ++ more) ∧ (∀ q ∈ more, rank q ≤ rank c) ∧
      (is_node m0 c = false → more = []) ∧
      ∀ q, q ∉ more → node_at m1 q = node_at m q

/-- A test that suffices for `Ast`: `nodes` holds the root and every node
that one of its members points to, and each member passes the conditions of
`Ast`. -/
def ast_check (rank : Nat → Nat) (m : Memory) (root : Nat) (nodes : List Nat) : Bool :=
  (!is_node m root || decide (root ∈ nodes)) &&
  nodes.all (fun p =>
    match node_at m p with
    | none => false
    | some n =>
      live_code n.code && n.operands.length == tree_code_operands n.code &&
      decide (p ∉ m.atomic_trees) &&
      (kids n).all (fun c => !is_node m c || (decide (c ∈ nodes) && decide (rank c < rank p)))) &&
  nodes.all (fun p => nodes.all (fun q =>
    match owned_text m p with
    | some t => owned_text m q != some t || p == q
    | none => true))

/-- A memory with an AST in which `VALUE` nodes are shared: the node at 2
is entered twice in the list at 3 and once in the list at 6, the node at 4
is an operand of the function at 5 and of the module at 7, which also
points to the list at 6. -/
def shared_value_memory : Memory :=
  { nodes := [none, some ⟨.ERROR_MARK, [], [], 0⟩,
      some ⟨.VALUE, [], [], 100⟩,
      some ⟨.LIST, [], [2, 2], 0⟩,
      some ⟨.VALUE, [], [], 101⟩,
      some ⟨.FUNCTION, [4, 3], [], 0⟩,
      some ⟨.LIST, [], [5, 2, 1], 0⟩,
      some ⟨.MODULE, [4, 6], [], 0⟩],
    error_mark_node := 1, atomic_trees := [], atomic_trees_size := 0, freed := [] }

/-- The kind that `token_value` gives for a token that `lx` describes, when
the token has no text. -/
def lx_kind : Lx → Option TokenKind
  | .kw k => some k
  | .op k => some k
  | .text _ => none

/-- The tokens of a module with a syntax error at the level of the module
itself: another token stands where the closing brace should, after the
functions; or another token stands where the opening brace should, and no
closing brace comes before the one that ends the module. -/
inductive BadModule : List Lx → Prop where
  | close (m : ModuleAst) (t : Lx) : m.wf = true → t ≠ .kw tv_function →
      lx_kind t ≠ some tv_rbrace →
      BadModule (.kw tv_validate :: .text m.name :: .op tv_lbrace ::
        (functions_lex m.functions ++ [t]))
  | opening (name : List Byte) (x : Lx) (junk : List Lx) : lx_kind x ≠ some tv_lbrace →
      (∀ j ∈ x :: junk, lx_kind j ≠ some tv_rbrace) →
      BadModule (.kw tv_validate :: .text name :: x :: (junk ++ [.op tv_rbrace]))

/-- A function as it is written: the token that stands for its name, which
may be any token, and the texts of the values of its argument groups. -/
structure FunctionSrc where
  name : Lx
  groups : List (List (List Byte))
  deriving DecidableEq, Repr

/-- A module as it is written: the token that stands for its name and its
functions. -/
structure ModuleSrc where
  name : Lx
  functions : List FunctionSrc
  deriving DecidableEq, Repr

/-- The function that `handle_cases` builds: its name is the text of the
name token. -/
def FunctionSrc.ast (f : FunctionSrc) : FunctionAst := ⟨lexeme_text f.name, f.groups⟩

/-- The module that `handle_module` builds. -/
def ModuleSrc.ast (m : ModuleSrc) : ModuleAst :=
  ⟨lexeme_text m.name, m.functions.map FunctionSrc.ast⟩

/-- The tokens of a function whose name is any token. -/
def function_src_lex (f : FunctionSrc) : List Lx :=
  .kw tv_function :: f.name :: .op tv_lbrace ::
    (sep_by (.op tv_comma) (f.groups.map group_lex) ++ [.op tv_rbrace])

/-- The tokens of the functions `fs` one after the other. -/
def functions_src_lex : List FunctionSrc → List Lx
  | [] => []
  | f :: fs => function_src_lex f ++ functions_src_lex fs

/-- The tokens of a module whose name is any token. -/
def module_src_lex (m : ModuleSrc) : List Lx :=
  .kw tv_validate :: m.name :: .op tv_lbrace :: (functions_src_lex m.functions ++
    [.op tv_rbrace])

/-- The tokens of a program whose names are any tokens. -/
def program_src_lex : List ModuleSrc → List Lx
  | [] => []
  | m :: ms => module_src_lex m ++ program_src_lex ms

/-- The text holds a `.` or an exponent marker `e` or `E`. -/
def has_point_or_exp (t : List Byte) : Bool :=
  t.any (fun x => x == 46 || x == 101 || x == 69)

/-- The token that starts with `c` before `rest` is read by
`lexer_read_number`: `c` is `.`, a digit other than `0`, or `0` followed by
no digit and no `x` or `X`. -/
def decimal_start (c : Byte) (rest : List Byte) : Bool :=
  c == 46 || (isdigit c && c != 48) ||
    (c == 48 && match rest with
      | [] => true
      | d :: _ => !isdigit d && d != 120 && d != 88)

/-- A well-formed decimal literal: digits without a leading `0`, a fraction
and an exponent, either of which may be missing; or `.`, at least one
digit and an exponent that may be missing. -/
inductive Decimal : List Byte → Prop where
  | number (ip fp ex : List Byte) : is_int_text ip = true → dec_frac fp = true →
      dec_exp ex = true → Decimal (ip ++ fp ++ ex)
  | point (y : Byte) (ds ex : List Byte) : isdigit y = true → ds.all isdigit = true →
      dec_exp ex = true → Decimal (46 :: y :: ds ++ ex)

/-- The buffer of `lexer_read_number` holds the text `t`, which has no NUL
in it, and `isreal` tells whether `t` holds a `.` or an exponent marker. -/
def NumText (s : NumState) (t : List Byte) : Prop :=
  s.b.buf = some t ∧ (∀ x ∈ t, x ≠ 0) ∧ s.isreal = has_point_or_exp t

/-- The characters between the quotes of a string literal, any byte but
`0xFF` being allowed: a quote stands only after a backslash, and a backslash
escapes the character after it.  The flag tells that a backslash was just
met. -/
def quoted_body : Bool → List Byte → Bool
  | esc, [] => !esc
  | true, c :: rest => c != CEOF && quoted_body false rest
  | false, c :: rest =>
    if c = 92 then quoted_body true rest
    else c != CEOF && c != 34 && quoted_body false rest

/-- The characters after the opening quote of a string literal that is not
closed: no quote but after a backslash and no byte `0xFF`; the text may end
after a backslash. -/
def open_body : Bool → List Byte → Bool
  | _, [] => true
  | true, c :: rest => c != CEOF && open_body false rest
  | false, c :: rest =>
    if c = 92 then open_body true rest
    else c != CEOF && c != 34 && open_body false rest

/-- The position of the character that follows `pre` in the input, in the
words of the specification: the line is 1 plus the number of newlines
before the character, the column the number of characters from the start of
that line up to and including it. -/
def spec_position (pre : List Byte) : Location :=
  ⟨1 + pre.count 10, (pre.reverse.takeWhile (fun x => x != 10)).length + 1⟩

/-- The name of a module as `parse` reads it,
`TREE_VALUE (TREE_OPERAND (t, 0))`; none when the node has no operand 0 or
that operand is no `VALUE`. -/
def module_name (t : Tree) : Option (List Byte) :=
  match get_tree_operand t 0 with
  | .ok name =>
    match tree_value name with
    | .ok v => some v
    | _ => none
  | _ => none

/-- `EXIT_SUCCESS` of `<stdlib.h>`. -/
def EXIT_SUCCESS : Int := 0

/-- `EXIT_FAILURE` of `<stdlib.h>`. -/
def EXIT_FAILURE : Int := 1

/-- The accesses of `codegen_atomic_value` to a group are defined: the
group is a `LIST` (the assertion) and `TREE_VALUE` is read from `VALUE`
nodes only. -/
def codegen_atomic_value (t : Tree) : Bool :=
  match t with
  | .list _ entries =>
    entries.all (fun e => match tree_value e with | .ok _ => true | _ => false)
  | _ => false

/-- The accesses of `codegen` to a function are defined: operand 0 is read
with `TREE_OPERAND` and `TREE_VALUE`, operand 1 with `TREE_OPERAND` and
`TREE_LIST`, and each of its entries is handed to `codegen_atomic_value`. -/
def codegen_function (f : Tree) : Bool :=
  match get_tree_operand f 0, get_tree_operand f 1 with
  | .ok name, .ok (.list _ groups) =>
    (match tree_value name with | .ok _ => true | _ => false) &&
      groups.all codegen_atomic_value
  | _, _ => false

/-- The accesses of `codegen` to a module are defined. -/
def codegen_module (m : Tree) : Bool :=
  match get_tree_operand m 0, get_tree_operand m 1 with
  | .ok name, .ok (.list _ functions) =>
    (match tree_value name with | .ok _ => true | _ => false) &&
      functions.all codegen_function
  | _, _ => false

/-- The status that `codegen` returns: 1 when the output file cannot be
opened for writing (`writable` is false), otherwise 0 after the walks over
`module_list`; the text written to the file is not modelled. -/
def codegen (module_list : Tree) (writable : Bool) : Res Int :=
  if !writable then .ok 1
  else
    match module_list with
    | .list _ modules => if modules.all codegen_module then .ok 0 else .abort
    | _ => .abort

/-- The value of `ret` when `main` reaches its `return`.  The argument is
absent when no file name is given; it holds nothing when `lexer_init` cannot
open the file, and the bytes of the file otherwise.  The calls after the
label `cleanup` do not assign `ret` and are not modelled. -/
def main_ret (heap : Nat → Junk) (arg : Option (Option (List Byte))) (writable : Bool) :
    Res Int :=
  match arg with
  | none => .ok (-1)
  | some none => .ok (-2)
  | some (some file) =>
    match compile heap file with
    | .ok (status, _, module_list) =>
      if 0 + status = 0 then
        match codegen module_list writable with
        | .ok c => .ok (0 + status + c)
        | .abort => .abort
        | .nofuel => .nofuel
      else .ok (0 + status)
    | .abort => .abort
    | .nofuel => .nofuel

/-- `main`: the exit status, `ret == 0 ? EXIT_SUCCESS : EXIT_FAILURE`. -/
def main (heap : Nat → Junk) (arg : Option (Option (List Byte))) (writable : Bool) :
    Res Int :=
  match main_ret heap arg writable with
  | .ok ret => .ok (if ret = 0 then EXIT_SUCCESS else EXIT_FAILURE)
  | .abort => .abort
  | .nofuel => .nofuel

/-- The elements that the loop of `handle_list` appends: those that are
neither `NULL` nor `error_mark_node`. -/
def kept_elements (ts : List Tree) : List Tree :=
  ts.filter (fun t => !t.is_null && !t.is_error_mark)

/-- A run of element handlers as `handle_list` makes it, started in `p`
before an element: the calls of the handler give the trees `ts` in order,
the token read after each of them but the last is the delimiter, the token
`tok` read after the last one is not, and it is ungot in the final parser. -/
inductive ListRun (heap : Nat → Junk) (handler : Parser → Res (Tree × Parser))
    (delim : TokenKind) : Parser → List Tree → Token → Parser → Prop where
  | last (p p1 p2 p3 : Parser) (t : Tree) (tok : Token) :
      handler p = .ok (t, p1) → parser_get_token heap p1 = .ok (tok, p2) →
      token_is_operator tok delim = false → parser_unget p2 = .ok p3 →
      ListRun heap handler delim p [t] tok p3
  | more (p p1 p2 pe : Parser) (t : Tree) (tok0 : Token) (ts : List Tree) (tok : Token) :
      handler p = .ok (t, p1) → parser_get_token heap p1 = .ok (tok0, p2) →
      token_is_operator tok0 delim = true → ListRun heap handler delim p2 ts tok pe →
      ListRun heap handler delim p (t :: ts) tok pe

/-- The tokens that successive calls of `parser_get_token` return, started
in the first parser, and the parser after the last call. -/
inductive TokenRun (heap : Nat → Junk) : Parser → List Token → Parser → Prop where
  | done (p : Parser) : TokenRun heap p [] p
  | step (p p1 p2 : Parser) (tok : Token) (toks : List Token) :
      parser_get_token heap p = .ok (tok, p1) → TokenRun heap p1 toks p2 →
      TokenRun heap p (tok :: toks) p2

/-- The test of `parser_get_until_tval`: a token without a text whose
kind is `k`. -/
def is_kind (tok : Token) (k : TokenKind) : Bool :=
  !token_uses_buf tok && token_value tok == k

/-- What the ring buffer holds, slot by slot from `buf_start` up to
`buf_end`. -/
def ring_held (p : Parser) : List (Option Token) :=
  (List.range ((p.buf_end + p.buf_size - p.buf_start) % p.buf_size)).map
    (fun i => (p.token_buffer[(p.buf_start + i) % p.buf_size]?).join)

/-- The ring buffer holds the tokens `held`, the oldest first, in the slots
from `buf_start` up to `buf_end`. -/
def Held (held : List Token) (p : Parser) : Prop :=
  p.buf_size = 16 ∧ p.token_buffer.length = 16 ∧ p.buf_start < 16 ∧ held.length ≤ 15 ∧
  p.buf_end = (p.buf_start + held.length) % 16 ∧
  ∀ i tok, held[i]? = some tok → p.token_buffer[(p.buf_start + i) % 16]? = some (some tok)

/-- A parser on the input `file` whose ring buffer was filled with `toks`
from slot 0 on and that was moved `u` tokens back. -/
def ring_of (file : List Byte) (toks : List Token) (u : Nat) : Parser :=
  { parser_init parser_blank (lexer_init_file file 0) with
    token_buffer := toks.map some ++ List.replicate (16 - toks.length) none,
    buf_end := toks.length % 16, unget_idx := u }

/-- A token of class `tok_id` with the text `text`, at column `col` of
line 1. -/
def text_token (text : String) (col : Int) : Token :=
  { loc := ⟨1, col⟩, tok_class := tok_id, uses_buf := true, tval := tv_eof,
    cval := bytes text ++ [0] }

/-- The operator token of kind `k`, at column `col` of line 1. -/
def operator_token (k : TokenKind) (col : Int) : Token :=
  { loc := ⟨1, col⟩, tok_class := tok_operator, uses_buf := false, tval := k, cval := [] }

/-- `tree_operand_in_range`: the index is an `int`, and so is the count of
operands of the code less one. -/
def tree_operand_in_range (code : NodeCode) (idx : Int) : Bool :=
  decide (idx ≥ 0) && decide (idx ≤ (tree_code_operands code : Int) - 1)

/-- `get_tree_operand` on a node in memory: the assertion on the range of
the index, then the read of `operands[idx]` when the code has operands. -/
def Memory.get_tree_operand (m : Memory) (node : Nat) (idx : Int) : Res Nat :=
  match node_at m node with
  | none => .abort
  | some n =>
    if tree_operand_in_range n.code idx = false then .abort
    else if tree_code_operands n.code > 0 then
      match n.operands[idx.toNat]? with
      | some v => .ok v
      | none => .abort
    else .abort

/-- `set_tree_operand` on a node in memory: the assertion on the range of
the index, then the write to `operands[idx]` when the code has operands. -/
def Memory.set_tree_operand (m : Memory) (node : Nat) (idx : Int) (value : Nat) :
    Res Memory :=
  match node_at m node with
  | none => .abort
  | some n =>
    if tree_operand_in_range n.code idx = false then .abort
    else if tree_code_operands n.code > 0 then
      if idx.toNat < n.operands.length then
        .ok (set_node m node { n with operands := n.operands.set idx.toNat value })
      else .abort
    else .abort

/-- The code of the node that a tree stands for (`TREE_CODE`); `NULL`
points to no node. -/
def Tree.code : Tree → Option NodeCode
  | .null => none
  | .error_mark => some .ERROR_MARK
  | .module _ _ _ => some .MODULE
  | .function _ _ _ => some .FUNCTION
  | .list _ _ => some .LIST
  | .value _ _ _ => some .VALUE

/-- `token_copy`: `NULL` for `NULL`, else a fresh token with the location,
the class and the flag of `tok`, and a copy by `strdup` of its text or its
enumerated value; the member of the union that is not written holds what
`malloc` left. -/
def token_copy (junk : Junk) : Option Token → Option Token
  | none => none
  | some tok =>
    if token_uses_buf tok then
      some { loc := tok.loc, tok_class := tok.tok_class, uses_buf := token_uses_buf tok,
             tval := junk.tval, cval := cstr tok.cval ++ [0] }
    else
      some { loc := tok.loc, tok_class := tok.tok_class, uses_buf := token_uses_buf tok,
             tval := tok.tval, cval := [] }

/-- `token_compare` of two tokens at different addresses, by class, then by
the use of the buffer, then by text or enumerated value; the enumerators
compare by their position in the enumeration.  A token compared with itself
gives 0 also by these tests, as the test `first == second` says. -/
def token_compare (first second : Token) : Int :=
  if first.tok_class.toCtorIdx < second.tok_class.toCtorIdx then -1
  else if first.tok_class.toCtorIdx > second.tok_class.toCtorIdx then 1
  else if token_uses_buf first != token_uses_buf second then
    if !token_uses_buf first then -1 else 1
  else if token_uses_buf first then strcmp (cstr first.cval) (cstr second.cval)
  else if first.tval.toCtorIdx < second.tval.toCtorIdx then -1
  else if first.tval.toCtorIdx > second.tval.toCtorIdx then 1
  else 0

/-- `parser_get_token` in the watched run.  The call is given up with
`nofuel` when more than one token is ungot, when the buffer holds fewer
tokens than are ungot, or when the token obtained has a marker text, so
that `parser_get_token` would take its pasting branch; otherwise it is the
call of `parser_get_token`. -/
def parser_get_token_watched (heap : Nat → Junk) (p : Parser) : Res (Token × Parser) :=
  if 1 < p.unget_idx ∨ (ring_held p).length < p.unget_idx then .nofuel
  else
    match parser_get_lexer_token heap p with
    | .ok (tok, _, _) =>
      if token_uses_buf tok && is_marker (token_as_string tok) then .nofuel
      else parser_get_token heap p
    | .abort => .abort
    | .nofuel => .nofuel

/-- `parser_unget` in the watched run.  The call is given up with `nofuel`
unless no token is ungot and the buffer holds a token, as it is after a
read; otherwise it is the call of `parser_unget`. -/
def parser_unget_watched (p : Parser) : Res Parser :=
  if p.unget_idx = 0 ∧ 0 < (ring_held p).length then parser_unget p else .nofuel

/-- `parser_get_until_tval_loop` in the watched run: the text of
`parser_get_until_tval_loop` with the watched reads and ungets. -/
def parser_get_until_tval_loop_watched (heap : Nat → Junk) (tkind : TokenKind) :
    Nat → Parser → Res (Token × Parser)
  | 0, _ => .nofuel
  | fuel + 1, p =>
    match parser_get_token_watched heap p with
    | .ok (tok, p1) =>
      if !token_uses_buf tok && token_value tok == tkind then .ok (tok, p1)
      else if token_class tok ≠ tok_eof then
        parser_get_until_tval_loop_watched heap tkind fuel p1
      else .ok (tok, p1)
    | .abort => .abort
    | .nofuel => .nofuel

/-- `parser_get_until_tval` in the watched run: the text of
`parser_get_until_tval` with the watched reads and ungets. -/
def parser_get_until_tval_watched (heap : Nat → Junk) (p : Parser) (tkind : TokenKind) :
    Res (Token × Parser) :=
  parser_get_until_tval_loop_watched heap tkind (parser_fuel p) p

/-- `parser_forward_tval` in the watched run: the text of
`parser_forward_tval` with the watched reads and ungets. -/
def parser_forward_tval_watched (heap : Nat → Junk) (p : Parser) (tkind : TokenKind) :
    Res (Option Token × Parser) :=
  match parser_get_token_watched heap p with
  | .ok (tok, p1) =>
    if token_uses_buf tok || token_value tok != tkind then .ok (none, parser_error p1)
    else .ok (some tok, p1)
  | .abort => .abort
  | .nofuel => .nofuel

/-- `handle_list_loop` in the watched run: the text of `handle_list_loop` with
the watched reads and ungets. -/
def handle_list_loop_watched (heap : Nat → Junk) (handler : Parser → Res (Tree × Parser))
    (delim : TokenKind) : Nat → Tree → Parser → Res (Tree × Parser)
  | 0, _, _ => .nofuel
  | fuel + 1, list, p =>
    match handler p with
    | .ok (t, p1) =>
      match (if !t.is_null && !t.is_error_mark then tree_list_append list t else .ok list) with
      | .ok list1 =>
        match parser_get_token_watched heap p1 with
        | .ok (tok, p2) =>
          if !token_is_operator tok delim then
            match parser_unget_watched p2 with
            | .ok p3 => .ok (list1, p3)
            | .abort => .abort
            | .nofuel => .nofuel
          else handle_list_loop_watched heap handler delim fuel list1 p2
        | .abort => .abort
        | .nofuel => .nofuel
      | .abort => .abort
      | .nofuel => .nofuel
    | .abort => .abort
    | .nofuel => .nofuel

/-- `handle_list` in the watched run: the text of `handle_list` with the
watched reads and ungets. -/
def handle_list_watched (heap : Nat → Junk) (p : Parser)
    (handler : Parser → Res (Tree × Parser)) (delim : TokenKind) : Res (Tree × Parser) :=
  match handler p with
  | .ok (t, p1) =>
    if t.is_error_mark then .ok (t, p1)
    else
      match parser_get_token_watched heap p1 with
      | .ok (tok, p2) =>
        if !token_is_operator tok delim then
          match tree_list_append make_tree_list t with
          | .ok ret =>
            match parser_unget_watched p2 with
            | .ok p3 => .ok (ret, p3)
            | .abort => .abort
            | .nofuel => .nofuel
          | .abort => .abort
          | .nofuel => .nofuel
        else
          match tree_list_append make_tree_list t with
          | .ok list => handle_list_loop_watched heap handler delim (parser_fuel p2) list p2
          | .abort => .abort
          | .nofuel => .nofuel
      | .abort => .abort
      | .nofuel => .nofuel
  | .abort => .abort
  | .nofuel => .nofuel

/-- `handle_value` in the watched run: the text of `handle_value` with the
watched reads and ungets. -/
def handle_value_watched (heap : Nat → Junk) (p : Parser) : Res (Tree × Parser) :=
  match parser_get_token_watched heap p with
  | .ok (tok, p1) => .ok (make_value_tok tok, p1)
  | .abort => .abort
  | .nofuel => .nofuel

/-- `handle_error` in the watched run: the text of `handle_error` with the
watched reads and ungets. -/
def handle_error_watched (heap : Nat → Junk) (p : Parser) (tkind : TokenKind) :
    Res (Tree × Parser) :=
  match parser_get_until_tval_watched heap p tkind with
  | .ok (_, p1) => .ok (.error_mark, p1)
  | .abort => .abort
  | .nofuel => .nofuel

/-- `handle_args` in the watched run: the text of `handle_args` with the
watched reads and ungets. -/
def handle_args_watched (heap : Nat → Junk) (p : Parser) : Res (Tree × Parser) :=
  match parser_forward_tval_watched heap p tv_lparen with
  | .ok (none, p1) => handle_error_watched heap p1 tv_rparen
  | .ok (some _, p1) =>
    match handle_list_watched heap p1 (handle_value_watched heap) tv_comma with
    | .ok (t, p2) =>
      match parser_forward_tval_watched heap p2 tv_rparen with
      | .ok (none, p3) => .ok (.error_mark, p3)
      | .ok (some _, p3) => .ok (t, p3)
      | .abort => .abort
      | .nofuel => .nofuel
    | .abort => .abort
    | .nofuel => .nofuel
  | .abort => .abort
  | .nofuel => .nofuel

/-- `handle_cases` in the watched run: the text of `handle_cases` with the
watched reads and ungets. -/
def handle_cases_watched (heap : Nat → Junk) (p : Parser) : Res (Tree × Parser) :=
  match parser_forward_tval_watched heap p tv_function with
  | .ok (none, p1) => handle_error_watched heap p1 tv_rbrace
  | .ok (some _, p1) =>
    match parser_get_token_watched heap p1 with
    | .ok (tok, p2) =>
      match set_tree_operand (make_tree .FUNCTION) 0 (make_value_tok tok) with
      | .ok function0 =>
        match parser_forward_tval_watched heap p2 tv_lbrace with
        | .ok (none, p3) => handle_error_watched heap p3 tv_rbrace
        | .ok (some _, p3) =>
          match handle_list_watched heap p3 (handle_args_watched heap) tv_comma with
          | .ok (t, p4) =>
            match set_tree_operand function0 1 t with
            | .ok function1 =>
              match parser_forward_tval_watched heap p4 tv_rbrace with
              | .ok (none, p5) => .ok (.error_mark, p5)
              | .ok (some _, p5) => .ok (function1, p5)
              | .abort => .abort
              | .nofuel => .nofuel
            | .abort => .abort
            | .nofuel => .nofuel
          | .abort => .abort
          | .nofuel => .nofuel
        | .abort => .abort
        | .nofuel => .nofuel
      | .abort => .abort
      | .nofuel => .nofuel
    | .abort => .abort
    | .nofuel => .nofuel
  | .abort => .abort
  | .nofuel => .nofuel

/-- `handle_module_loop` in the watched run: the text of `handle_module_loop`
with the watched reads and ungets. -/
def handle_module_loop_watched (heap : Nat → Junk) : Nat → Tree → Parser → Res (Tree × Parser)
  | 0, _, _ => .nofuel
  | fuel + 1, module, p =>
    match parser_get_token_watched heap p with
    | .ok (tok, p1) =>
      if token_is_keyword tok tv_function then
        match parser_unget_watched p1 with
        | .ok p2 =>
          match handle_cases_watched heap p2 with
          | .ok (t, p3) =>
            match get_tree_operand module 1 with
            | .ok fns =>
              match tree_list_append fns t with
              | .ok fns1 =>
                match set_tree_operand module 1 fns1 with
                | .ok module1 => handle_module_loop_watched heap fuel module1 p3
                | .abort => .abort
                | .nofuel => .nofuel
              | .abort => .abort
              | .nofuel => .nofuel
            | .abort => .abort
            | .nofuel => .nofuel
          | .abort => .abort
          | .nofuel => .nofuel
        | .abort => .abort
        | .nofuel => .nofuel
      else .ok (module, p1)
    | .abort => .abort
    | .nofuel => .nofuel

/-- `handle_module` in the watched run: the text of `handle_module` with the
watched reads and ungets. -/
def handle_module_watched (heap : Nat → Junk) (p : Parser) : Res (Tree × Parser) :=
  match parser_forward_tval_watched heap p tv_validate with
  | .ok (none, p1) => handle_error_watched heap p1 tv_rbrace
  | .ok (some _, p1) =>
    match parser_get_token_watched heap p1 with
    | .ok (tok, p2) =>
      match set_tree_operand (make_tree .MODULE) 0 (make_value_tok tok) with
      | .ok module0 =>
        match parser_forward_tval_watched heap p2 tv_lbrace with
        | .ok (none, p3) => handle_error_watched heap p3 tv_rbrace
        | .ok (some _, p3) =>
          match set_tree_operand module0 1 make_tree_list with
          | .ok module1 =>
            match handle_module_loop_watched heap (parser_fuel p3) module1 p3 with
            | .ok (module2, p4) =>
              match parser_unget_watched p4 with
              | .ok p5 =>
                match parser_forward_tval_watched heap p5 tv_rbrace with
                | .ok (none, p6) => .ok (.error_mark, p6)
                | .ok (some _, p6) => .ok (module2, p6)
                | .abort => .abort
                | .nofuel => .nofuel
              | .abort => .abort
              | .nofuel => .nofuel
            | .abort => .abort
            | .nofuel => .nofuel
          | .abort => .abort
          | .nofuel => .nofuel
        | .abort => .abort
        | .nofuel => .nofuel
      | .abort => .abort
      | .nofuel => .nofuel
    | .abort => .abort
    | .nofuel => .nofuel
  | .abort => .abort
  | .nofuel => .nofuel

/-- `parse_loop` in the watched run: the text of `parse_loop` with the watched
reads and ungets. -/
def parse_loop_watched (heap : Nat → Junk) : Nat → Parser → Tree → Res (Parser × Tree)
  | 0, _, _ => .nofuel
  | fuel + 1, p, module_list =>
    match parser_get_token_watched heap p with
    | .ok (tok, p1) =>
      if token_class tok ≠ tok_eof then
        match parser_unget_watched p1 with
        | .ok p2 =>
          match handle_module_watched heap (set_notifications p2 true) with
          | .ok (t, p3) =>
            match register_module t p3 module_list with
            | .ok (p4, module_list1) =>
              parse_loop_watched heap fuel (set_notifications p4 false) module_list1
            | .abort => .abort
            | .nofuel => .nofuel
          | .abort => .abort
          | .nofuel => .nofuel
        | .abort => .abort
        | .nofuel => .nofuel
      else .ok (p1, module_list)
    | .abort => .abort
    | .nofuel => .nofuel

/-- `parse` in the watched run: the text of `parse` with the watched reads and
ungets. -/
def parse_watched (heap : Nat → Junk) (p : Parser) (module_list : Tree) :
    Res (Int × Parser × Tree) :=
  let p0 : Parser := { p with lex := { p.lex with error_count := 0 } }
  match parse_loop_watched heap (parser_fuel p0) p0 module_list with
  | .ok (p1, module_list1) =>
    if p1.lex.error_count ≠ 0 then .ok (-3, p1, module_list1) else .ok (0, p1, module_list1)
  | .abort => .abort
  | .nofuel => .nofuel

/-! ## Properties of the lexer -/

set_option maxRecDepth 100000 in
theorem byte_facts_alpha : ∀ c : Byte, isalpha c = true →
    c ≠ CEOF ∧ isspace c = false ∧ c ≠ 35 ∧ c ≠ 34 ∧ c ≠ 0 ∧ ident_char c = true := by
  decide

set_option maxRecDepth 100000 in
theorem byte_facts_ident : ∀ c : Byte, ident_char c = true → c ≠ CEOF ∧ c ≠ 0 ∧ c ≠ 10 ∧ (isalnum c || decide (c = 95)) = true := by
  decide

theorem lexer_getch_cons (lex : Lexer) (ch : Byte) (rest : List Byte)
    (h1 : lex.is_eof = false) (h2 : lex.file = ch :: rest) :
    lexer_getch lex = (ch, { lex with file := rest, loc := advance lex.loc ch }) := by
  unfold lexer_getch advance
  rw [h1, h2]
  by_cases h : ch = 10 <;> simp [h]

theorem lexer_getch_nil (lex : Lexer) (h1 : lex.is_eof = false) (h2 : lex.file = []) :
    lexer_getch lex = (CEOF, { lex with is_eof := true }) := by
  unfold lexer_getch
  rw [h1, h2]
  simp

theorem buffer_add_char_buf (b : Buffer) (c : Byte) :
    (buffer_add_char b c).buf = some (b.buf.getD [] ++ [c]) := by
  unfold buffer_add_char
  cases h : b.buf with
  | none => simp
  | some data => by_cases h2 : data.length = b.size <;> simp [h2]

theorem add_all_buf (l : List Byte) : ∀ (b : Buffer), l ≠ [] →
    (add_all b l).buf = some (b.buf.getD [] ++ l) := by
  induction l with
  | nil => intro b h; exact absurd rfl h
  | cons x xs ih =>
    intro b _
    by_cases hx : xs = []
    · subst hx
      simp [add_all, buffer_add_char_buf]
    · have := ih (buffer_add_char b x) hx
      simp only [add_all, List.foldl_cons] at this ⊢
      rw [this, buffer_add_char_buf]
      simp

set_option maxRecDepth 100000 in
theorem ident_char_iff : ∀ c : Byte, (isalnum c || decide (c = 95)) = ident_char c := by
  decide

theorem ident_char_ceof : ident_char CEOF = false := by decide

theorem getch_ends_token (lex : Lexer) (h1 : lex.is_eof = false)
    (h2 : ends_token lex.file = true) : ident_char (lexer_getch lex).1 = false := by
  cases hf : lex.file with
  | nil => rw [lexer_getch_nil lex h1 hf]; exact ident_char_ceof
  | cons d rest' =>
    rw [lexer_getch_cons lex d rest' h1 hf]
    rw [hf] at h2
    simpa [ends_token] using h2

theorem lexer_read_id_loop_spec (rest : List Byte) (hrest : ends_token rest = true) :
    ∀ (cs : List Byte) (fuel : Nat) (lex : Lexer) (b : Buffer) (c : Byte),
      lex.is_eof = false → lex.file = cs ++ rest → (∀ x ∈ cs, ident_char x = true) →
      cs.length < fuel →
      lexer_read_id_loop fuel lex b c =
        .ok ((lexer_getch { lex with file := rest, loc := cs.foldl advance lex.loc }).1,
             (lexer_getch { lex with file := rest, loc := cs.foldl advance lex.loc }).2,
             add_all b (c :: cs)) := by
  intro cs
  induction cs with
  | nil =>
    intro fuel lex b c h1 h2 _ hfuel
    obtain ⟨f, rfl⟩ : ∃ f, fuel = f + 1 := ⟨fuel - 1, by simp at hfuel; omega⟩
    simp only [List.nil_append] at h2
    have hlex : ({ lex with file := rest, loc := List.foldl advance lex.loc [] } : Lexer) = lex := by
      cases lex; simp_all
    rw [hlex]
    have hne := getch_ends_token lex h1 (by rw [h2]; exact hrest)
    unfold lexer_read_id_loop
    simp only [ident_char_iff, hne, add_all, List.foldl_cons, List.foldl_nil]
    simp
  | cons x xs ih =>
    intro fuel lex b c h1 h2 hall hfuel
    obtain ⟨f, rfl⟩ : ∃ f, fuel = f + 1 := ⟨fuel - 1, by simp at hfuel; omega⟩
    have hx : ident_char x = true := hall x (by simp)
    have hg := lexer_getch_cons lex x (xs ++ rest) h1 (by simpa using h2)
    unfold lexer_read_id_loop
    simp only [hg, ident_char_iff, hx, if_true]
    rw [ih f _ (buffer_add_char b c) x (by simpa using h1) rfl
      (fun y hy => hall y (by simp [hy])) (by simp at hfuel; omega)]
    simp [add_all]

theorem strcmp_eq_zero_iff : ∀ (a b : List Byte), strcmp a b = 0 ↔ a = b := by
  intro a
  induction a with
  | nil => intro b; cases b <;> simp [strcmp]
  | cons x xs ih =>
    intro b
    cases b with
    | nil => simp [strcmp]
    | cons y ys =>
      unfold strcmp
      by_cases h1 : x.val < y.val
      · have : x ≠ y := fun h => by subst h; omega
        simp [h1, this]
      · by_cases h2 : y.val < x.val
        · have : x ≠ y := fun h => by subst h; omega
          simp [h1, h2, this]
        · have : x = y := Fin.ext (by omega)
          simp [h1, h2, this, ih]

theorem cstr_append_zero (t : List Byte) (h : ∀ x ∈ t, x ≠ 0) : cstr (t ++ [0]) = t := by
  unfold cstr
  induction t with
  | nil => simp
  | cons x xs ih =>
    have hx : x ≠ 0 := h x (by simp)
    simp only [List.cons_append, List.takeWhile_cons]
    simp only [bne_iff_ne, ne_eq, hx, not_false_eq_true, if_true]
    rw [ih (fun y hy => h y (by simp [hy]))]

theorem kw_bsearch_keywords (key : List Byte) :
    kw_bsearch key keywords keywords_length =
      .ok (if key = bytes "validate" then 1 else if key = bytes "function" then 0 else 2) := by
  by_cases h1 : key = bytes "validate"
  · subst h1; rfl
  · by_cases h2 : key = bytes "function"
    · subst h2; rfl
    · have e1 : strcmp key (bytes "validate") ≠ 0 := fun h => h1 ((strcmp_eq_zero_iff _ _).1 h)
      have e2 : strcmp key (bytes "function") ≠ 0 := fun h => h2 ((strcmp_eq_zero_iff _ _).1 h)
      have k1 : token_kind_name tv_validate = bytes "validate" := rfl
      have k2 : token_kind_name tv_function = bytes "function" := rfl
      simp only [kw_bsearch, keywords_length, kw_bsearch_loop, keywords, h1, h2, if_false]
      simp only [k1, k2]
      norm_num [e1, e2, kw_bsearch_loop]

theorem lexer_get_token_ident_eq (junk : Junk) (lex : Lexer) (c : Byte) (cs rest : List Byte)
    (hc : isalpha c = true) (hcs : ∀ x ∈ cs, ident_char x = true)
    (hrest : ends_token rest = true) (heof : lex.is_eof = false)
    (hfile : lex.file = c :: cs ++ rest) :
    lexer_get_token junk lex =
      .ok (ident_token junk (advance lex.loc c) (c :: cs),
           peek_back { lex with file := rest, loc := (c :: cs).foldl advance lex.loc }) := by
  obtain ⟨h1, h2, h3, h4, h5, h6⟩ := byte_facts_alpha c hc
  have hg := lexer_getch_cons lex c (cs ++ rest) heof (by simpa using hfile)
  have hloop := lexer_read_id_loop_spec rest hrest cs (cs.length + rest.length + 1)
    { lex with file := cs ++ rest, loc := advance lex.loc c } { buf := none, size := 16 } c
    heof rfl hcs (by omega)
  have hbuf : (add_all { buf := none, size := 16 } (c :: cs)).buf = some (c :: cs) := by
    rw [add_all_buf _ _ (by simp)]; simp
  have hnz : ∀ x ∈ c :: cs, x ≠ 0 := by
    intro x hx
    rcases List.mem_cons.1 hx with rfl | hx
    · exact h5
    · exact (byte_facts_ident x (hcs x hx)).2.1
  unfold lexer_get_token
  simp only [hg, h2, Bool.false_eq_true, if_false]
  unfold lexer_dispatch
  simp only [h1, h3, h4, hc, if_false, if_true]
  unfold lexer_read_id
  simp only [List.length_append] at hloop ⊢
  rw [hloop]
  simp only [buffer_add_char_buf, hbuf, Option.getD_some, cstr_append_zero _ hnz,
    kw_bsearch_keywords]
  unfold ident_token peek_back
  simp only [List.foldl_cons]
  by_cases e1 : c :: cs = bytes "validate"
  · rw [if_pos e1, if_pos e1]
    simp [keywords_length, return_token, tval_tok_init, keyword_kind]
  · rw [if_neg e1, if_neg e1]
    by_cases e2 : c :: cs = bytes "function"
    · rw [if_pos e2, if_pos e2]
      simp [keywords_length, return_token, tval_tok_init, keyword_kind]
    · rw [if_neg e2, if_neg e2]
      simp [keywords_length, return_token, buffer_add_char_buf, hbuf]

/-! ## Identifiers and keywords -/

/-- C1 (amended): for every text `t` of the shape `[A-Za-z][A-Za-z0-9_]*`, of
any length, followed by the end of the input or by a character that cannot
continue an identifier, `lexer_get_token` returns a keyword token of the
matching kind without text (`uses_buf = false`) when `t` is `function` or
`validate`, and otherwise an identifier token whose text is exactly `t`. -/
theorem lexer_get_token_identifier (junk : Junk) (lex : Lexer) (c : Byte)
    (cs rest : List Byte) (hc : isalpha c = true) (hcs : ∀ x ∈ cs, ident_char x = true)
    (hrest : ends_token rest = true) (heof : lex.is_eof = false)
    (hfile : lex.file = c :: cs ++ rest) :
    ∃ tok lex1, lexer_get_token junk lex = .ok (tok, lex1) ∧
      (if c :: cs = bytes "function" then
        token_class tok = tok_keyword ∧ token_value tok = tv_function ∧
          token_uses_buf tok = false
      else if c :: cs = bytes "validate" then
        token_class tok = tok_keyword ∧ token_value tok = tv_validate ∧
          token_uses_buf tok = false
      else
        token_class tok = tok_id ∧ token_uses_buf tok = true ∧
          token_as_string tok = c :: cs) := by
  refine ⟨_, _, lexer_get_token_ident_eq junk lex c cs rest hc hcs hrest heof hfile, ?_⟩
  have hnz : ∀ x ∈ c :: cs, x ≠ 0 := by
    intro x hx
    rcases List.mem_cons.1 hx with rfl | hx
    · exact (byte_facts_alpha x hc).2.2.2.2.1
    · exact (byte_facts_ident x (hcs x hx)).2.1
  unfold ident_token
  by_cases e1 : c :: cs = bytes "function"
  · have e2 : c :: cs ≠ bytes "validate" := by rw [e1]; decide
    rw [if_pos e1, if_neg e2, if_pos e1]
    exact ⟨rfl, rfl, rfl⟩
  · rw [if_neg e1]
    by_cases e2 : c :: cs = bytes "validate"
    · rw [if_pos e2, if_pos e2]
      exact ⟨rfl, rfl, rfl⟩
    · rw [if_neg e2, if_neg e2, if_neg e1]
      refine ⟨rfl, rfl, ?_⟩
      simp only [token_as_string, token_uses_buf, if_true]
      exact cstr_append_zero _ hnz

set_option maxRecDepth 100000 in
/-- C1, an instance: the 26-character identifier `abcdefghijklmnopqrstuvwxyz`,
longer than the initial 16-byte buffer, followed by a space. -/
theorem lexer_get_token_identifier_witness :
    isalpha 97 = true ∧ (∀ x ∈ bytes "bcdefghijklmnopqrstuvwxyz", ident_char x = true) ∧
    ends_token (bytes " x") = true ∧
    ∃ tok lex1,
      lexer_get_token ⟨none, tv_eof⟩
        (lexer_init_file (bytes "abcdefghijklmnopqrstuvwxyz x") 0) = .ok (tok, lex1) ∧
      (if (97 : Byte) :: bytes "bcdefghijklmnopqrstuvwxyz" = bytes "function" then
        token_class tok = tok_keyword ∧ token_value tok = tv_function ∧
          token_uses_buf tok = false
      else if (97 : Byte) :: bytes "bcdefghijklmnopqrstuvwxyz" = bytes "validate" then
        token_class tok = tok_keyword ∧ token_value tok = tv_validate ∧
          token_uses_buf tok = false
      else
        token_class tok = tok_id ∧ token_uses_buf tok = true ∧
          token_as_string tok = (97 : Byte) :: bytes "bcdefghijklmnopqrstuvwxyz") :=
  ⟨by decide, by decide, by decide,
   lexer_get_token_identifier ⟨none, tv_eof⟩
     (lexer_init_file (bytes "abcdefghijklmnopqrstuvwxyz x") 0) 97
     (bytes "bcdefghijklmnopqrstuvwxyz") (bytes " x") (by decide) (by decide) (by decide)
     rfl rfl⟩

set_option maxRecDepth 100000 in
/-- C1 as stated fails for a leading underscore: `_a` has the shape
`[A-Za-z_][A-Za-z0-9_]*` and is no keyword, yet on `_a ` the lexer returns an
unknown token with the text `_` and leaves `a ` unread. -/
theorem underscore_is_not_an_identifier_start :
    lexer_get_token ⟨none, tv_eof⟩ (lexer_init_file (bytes "_a ") 0) =
      .ok (⟨⟨1, 1⟩, tok_unknown, true, tv_eof, bytes "_" ++ [0]⟩,
           { file := bytes "a ", is_eof := false, loc := ⟨1, 1⟩,
             error_notifications := false, error_count := 0 }) := by
  rfl

/-! ## Numeric literals -/

set_option maxRecDepth 100000 in
/-- C2: the texts `12`, `1.5e-3` and `0x1F` are returned unchanged, but the
octal literal `017` is classified as an octal number with the text `0017`:
`lexer_read_octal_number` stores its first character twice. -/
theorem octal_text_is_not_the_literal (junk : Junk) :
    first_token junk (bytes "12 ") = .ok (tok_intnum, bytes "12") ∧
    first_token junk (bytes "1.5e-3 ") = .ok (tok_realnum, bytes "1.5e-3") ∧
    first_token junk (bytes "0x1F ") = .ok (tok_hexnum, bytes "0x1F") ∧
    first_token junk (bytes "017 ") = .ok (tok_octnum, bytes "0017") :=
  ⟨rfl, rfl, rfl, rfl⟩

/-! ## Tokens of every input -/

set_option maxRecDepth 100000 in
/-- C7: on the input `08` the lexer reports an error and returns the token
without having stored a class in it: the class is whatever the allocated
memory held, and when that is no defined class the assertion at
`return_token` stops the program. -/
theorem zero_eight_leaves_class_unset (cls : TokenClass) (tval : TokenKind) :
    lexer_get_token ⟨some cls, tval⟩ (lexer_init_file (bytes "08") 0) =
      .ok (⟨⟨1, 1⟩, cls, false, tval, []⟩,
           { file := bytes "8", is_eof := false, loc := ⟨1, 1⟩,
             error_notifications := false, error_count := 1 }) ∧
    lexer_get_token ⟨none, tval⟩ (lexer_init_file (bytes "08") 0) = .abort :=
  ⟨rfl, rfl⟩

set_option maxRecDepth 100000 in
/-- C8: the byte `0xFF` is read as the `char` value of `EOF`: on the input
`0xFF 'a'` the first call returns an eof token without setting `is_eof`, and
the second call returns the identifier `a`. -/
theorem eof_token_followed_by_identifier (junk : Junk) :
    lexer_get_token junk (lexer_init_file [255, 97] 0) =
      .ok (⟨⟨1, 1⟩, tok_eof, false, tv_eof, []⟩,
           { file := [97], is_eof := false, loc := ⟨1, 1⟩,
             error_notifications := false, error_count := 0 }) ∧
    lexer_get_token junk
        { file := [97], is_eof := false, loc := ⟨1, 1⟩,
          error_notifications := false, error_count := 0 } =
      .ok (⟨⟨1, 2⟩, tok_id, true, junk.tval, bytes "a" ++ [0]⟩,
           { file := [], is_eof := true, loc := ⟨1, 1⟩,
             error_notifications := false, error_count := 0 }) :=
  ⟨rfl, rfl⟩

/-- Once the end of the file was reached (`is_eof` is set), every call of
`lexer_get_token` returns an eof token and leaves the lexer as it is. -/
theorem lexer_get_token_at_eof (junk : Junk) (lex : Lexer) (h : lex.is_eof = true) :
    lexer_get_token junk lex = .ok (⟨lex.loc, tok_eof, false, tv_eof, []⟩, lex) := by
  have hg : lexer_getch lex = (CEOF, lex) := by simp [lexer_getch, h]
  have hs : isspace CEOF = false := by decide
  simp [lexer_get_token, hg, hs, lexer_dispatch, return_token, tval_tok_init]

/-! ## Parsing of given inputs -/

set_option maxRecDepth 100000 in
/-- C4: `validate M { function F { (1,2), (3,4) } }` is parsed as the claim
says, but the well-formed `validate M { function F { (017) } }` is parsed
without error into a module whose value has the text `0017`, not the text
`017` of the literal. -/
theorem parse_octal_value_text :
    compile heap_invalid (bytes "validate M \x7b function F \x7b (1,2), (3,4) \x7d \x7d") =
      .ok (0, 0, lnode [mnode (vnode 1 10 "M")
        [fnode (vnode 1 23 "F")
          [lnode [vnode 1 28 "1", vnode 1 30 "2"], lnode [vnode 1 35 "3", vnode 1 37 "4"]]]]) ∧
    compile heap_invalid (bytes "validate M \x7b function F \x7b (017) \x7d \x7d") =
      .ok (0, 0, lnode [mnode (vnode 1 10 "M")
        [fnode (vnode 1 23 "F") [lnode [vnode 1 28 "0017"]]]]) :=
  ⟨rfl, rfl⟩

set_option maxRecDepth 100000 in
/-- C5 as stated fails: on the input of the claim the error counter ends
at 3, not at 1. -/
theorem duplicate_example_counts_three_errors :
    compile heap_invalid
        (bytes "validate M \x7b function F \x7b (1,2) \x7d \x7d validate M \x7b function G \x7b\x7d \x7d ") =
      .ok (-3, 3, lnode [mnode (vnode 1 10 "M")
        [fnode (vnode 1 23 "F") [lnode [vnode 1 28 "1", vnode 1 30 "2"]]]]) := by
  rfl

set_option maxRecDepth 100000 in
/-- C5 (amended): parsing
`validate M { function F { (1,2) } } validate M { function G {} } ` ends with
`module_list` holding exactly one module, named `M`, whose only function is
`F`, and with the error counter at 3: the empty body `{}` is a syntax error,
reported by `handle_args`, `handle_cases` and `handle_module`, and the
second module is dropped before the test for a duplicate name.  When the
second module has a body, as in
`validate M { function F { (1,2) } } validate M { function G { (3) } } `, the
duplicate name is the only error: the counter ends at 1 and `module_list` is
the same. -/
theorem duplicate_module_examples :
    (∃ status count,
      compile heap_invalid
          (bytes "validate M \x7b function F \x7b (1,2) \x7d \x7d validate M \x7b function G \x7b\x7d \x7d ") =
        .ok (status, count, lnode [mnode (vnode 1 10 "M")
          [fnode (vnode 1 23 "F") [lnode [vnode 1 28 "1", vnode 1 30 "2"]]]]) ∧
      count = 3) ∧
    compile heap_invalid
        (bytes "validate M \x7b function F \x7b (1,2) \x7d \x7d validate M \x7b function G \x7b (3) \x7d \x7d ") =
      .ok (-3, 1, lnode [mnode (vnode 1 10 "M")
        [fnode (vnode 1 23 "F") [lnode [vnode 1 28 "1", vnode 1 30 "2"]]]]) :=
  ⟨⟨-3, 3, rfl, rfl⟩, rfl⟩

set_option maxRecDepth 100000 in
/-- C6 as stated fails on its own example: the input
`validate A { function F { (1) } } validate B { function G { (1,2) ` ends
inside the function `G` and two errors are counted, one for the missing `}`
of the function and one for the missing `}` of the module. -/
theorem missing_brace_example_counts_two_errors :
    compile heap_invalid
        (bytes "validate A \x7b function F \x7b (1) \x7d \x7d validate B \x7b function G \x7b (1,2) ") =
      .ok (-3, 2, lnode [mnode (vnode 1 10 "A")
        [fnode (vnode 1 23 "F") [lnode [vnode 1 28 "1"]]]]) := by
  rfl

/-! ## The ring buffer of the parser -/

theorem ringInv_init (p0 : Parser) (lex : Lexer) : RingInv [] (parser_init p0 lex) := by
  refine ⟨rfl, by simp [parser_init], rfl, rfl, rfl, ?_⟩
  intro j tok h
  simp at h

theorem count_brackets_buffer (p : Parser) (tok : Token) :
    (count_brackets p tok).token_buffer = p.token_buffer ∧
    (count_brackets p tok).buf_size = p.buf_size ∧
    (count_brackets p tok).buf_start = p.buf_start ∧
    (count_brackets p tok).buf_end = p.buf_end ∧
    (count_brackets p tok).unget_idx = p.unget_idx ∧
    (count_brackets p tok).lex = p.lex ∧
    (count_brackets p tok).ntok = p.ntok := by
  unfold count_brackets
  split
  · split <;> simp
  · simp

theorem ringInv_congr (toks : List Token) (p q : Parser) (h : RingInv toks p)
    (e1 : q.token_buffer = p.token_buffer) (e2 : q.buf_size = p.buf_size)
    (e3 : q.buf_start = p.buf_start) (e4 : q.buf_end = p.buf_end)
    (e5 : q.unget_idx = p.unget_idx) : RingInv toks q := by
  unfold RingInv at h ⊢
  rw [e1, e2, e3, e4, e5]
  exact h

theorem getElem?_append_last (toks : List Token) (tok t : Token) (j : Nat)
    (hj : (toks ++ [tok])[j]? = some t) :
    (j = toks.length ∧ t = tok) ∨ (j < toks.length ∧ toks[j]? = some t) := by
  by_cases hjn : j < toks.length
  · right
    rw [List.getElem?_append_left hjn] at hj
    exact ⟨hjn, hj⟩
  · left
    have hlt : j < (toks ++ [tok]).length := by
      by_contra hc
      rw [List.getElem?_eq_none (by omega)] at hj
      cases hj
    simp at hlt
    have : j = toks.length := by omega
    subst this
    simp at hj
    exact ⟨rfl, hj.symm⟩

theorem ringInv_push (toks : List Token) (p p1 : Parser) (tok : Token) (slot : Nat)
    (hinv : RingInv toks p) (h : buffer_push p tok = .ok (slot, p1)) :
    RingInv (toks ++ [tok]) p1 ∧ p1.lex = p.lex ∧ p1.ntok = p.ntok := by
  obtain ⟨hsize, hlen, hu, hend, hstart, hslots⟩ := hinv
  unfold buffer_push at h
  rw [hsize] at h
  simp only [show ¬ ((16 : Nat) = 0) from by decide, if_false] at h
  by_cases hfull : (p.buf_end + 1) % 16 = p.buf_start
  · rw [if_pos hfull] at h
    have hn : 15 ≤ toks.length := by
      by_contra hlt
      rw [hend, hstart, if_pos (by omega)] at hfull
      omega
    cases hb : p.token_buffer[p.buf_start]? with
    | none => simp [hb] at h
    | some o =>
      cases o with
      | none => simp [hb] at h
      | some old =>
        simp only [hb, Res.ok.injEq, Prod.mk.injEq] at h
        obtain ⟨_, rfl⟩ := h
        refine ⟨⟨rfl, by simp [hlen], hu, ?_, ?_, ?_⟩, rfl, rfl⟩
        · simp only [List.length_append, List.length_singleton, hend]; omega
        · simp only [List.length_append, List.length_singleton, hstart]
          rw [if_neg (by omega), if_neg (by omega)]; omega
        · intro j t hj hlive
          simp only [List.length_append, List.length_singleton] at hlive
          rcases getElem?_append_last toks tok t j hj with ⟨rfl, rfl⟩ | ⟨hjlt, hj1⟩
          · show ((p.token_buffer.set p.buf_start none).set p.buf_end (some t))[_]? = _
            rw [hend, List.getElem?_set_self (by simp [hlen]; omega)]
          · have hne1 : p.buf_end ≠ j % 16 := by rw [hend]; omega
            have hne2 : p.buf_start ≠ j % 16 := by rw [hstart, if_neg (by omega)]; omega
            show ((p.token_buffer.set p.buf_start none).set p.buf_end (some tok))[_]? = _
            rw [List.getElem?_set_ne hne1, List.getElem?_set_ne hne2]
            exact hslots j t hj1 (by omega)
  · rw [if_neg hfull] at h
    have hn : toks.length < 15 := by
      by_contra hge
      rw [hend, hstart, if_neg hge] at hfull
      omega
    simp only [Res.ok.injEq, Prod.mk.injEq] at h
    obtain ⟨_, rfl⟩ := h
    refine ⟨⟨rfl, by simp [hlen], hu, ?_, ?_, ?_⟩, rfl, rfl⟩
    · simp only [List.length_append, List.length_singleton, hend]; omega
    · simp only [List.length_append, List.length_singleton, hstart]
      rw [if_pos hn]
      split <;> omega
    · intro j t hj hlive
      rcases getElem?_append_last toks tok t j hj with ⟨rfl, rfl⟩ | ⟨hjlt, hj1⟩
      · show (p.token_buffer.set p.buf_end (some t))[_]? = _
        rw [hend, List.getElem?_set_self (by simp [hlen]; omega)]
      · have hne1 : p.buf_end ≠ j % 16 := by rw [hend]; omega
        show (p.token_buffer.set p.buf_end (some tok))[_]? = _
        rw [List.getElem?_set_ne hne1]
        exact hslots j t hj1 (by omega)

theorem ringInv_replay (toks : List Token) (p : Parser) (u : Nat) (tok : Token)
    (hinv : RingInv toks p) (h1 : 1 ≤ u) (h2 : u ≤ 15) (h3 : u ≤ toks.length)
    (ht : toks[toks.length - u]? = some tok) :
    buffer_replay { p with unget_idx := u } =
      .ok (tok, (toks.length - u) % 16, { p with unget_idx := u - 1 }) := by
  obtain ⟨hsize, hlen, hu, hend, hstart, hslots⟩ := hinv
  have hs : (if ((toks.length % 16 : Nat) : Int) - (u : Int) < 0
      then ((16 : Nat) : Int) + (((toks.length % 16 : Nat) : Int) - (u : Int))
      else (((toks.length % 16 : Nat) : Int) - (u : Int)) % 4294967296).toNat
      = (toks.length - u) % 16 := by
    split <;> omega
  have hslot := hslots (toks.length - u) tok ht (by omega)
  unfold buffer_replay
  simp only [hsize, hend]
  rw [if_neg (by omega)]
  simp only [hs, hslot]

theorem reads_replay (heap : Nat → Junk) (toks : List Token) (p : Parser)
    (hinv : RingInv toks p) :
    ∀ u, u ≤ 15 → u ≤ toks.length →
      reads heap u { p with unget_idx := u } = .ok (toks.drop (toks.length - u), p) := by
  intro u
  induction u with
  | zero =>
    intro _ _
    have : ({ p with unget_idx := 0 } : Parser) = p := by
      obtain ⟨_, _, hu, _⟩ := hinv
      cases p; simp_all
    simp [reads, this]
  | succ u ih =>
    intro h2 h3
    have hlt : toks.length - (u + 1) < toks.length := by omega
    have ht : toks[toks.length - (u + 1)]? = some (toks[toks.length - (u + 1)]) :=
      List.getElem?_eq_getElem hlt
    have hr := ringInv_replay toks p (u + 1) _ hinv (by omega) h2 h3 ht
    have hne : ¬ (({ p with unget_idx := u + 1 } : Parser).unget_idx = 0) := by simp
    unfold reads parser_get_lexer_token
    rw [if_neg hne, hr]
    simp only [Nat.add_sub_cancel]
    rw [ih (by omega) (by omega)]
    have hd : toks.drop (toks.length - (u + 1)) =
        toks[toks.length - (u + 1)] :: toks.drop (toks.length - u) := by
      rw [List.drop_eq_getElem_cons hlt]
      congr 2
      omega
    rw [hd]

theorem ungets_ok (p : Parser) (hsize : p.buf_size = 16) :
    ∀ k u, p.unget_idx = u → u + k ≤ 15 →
      ungets k p = .ok { p with unget_idx := u + k } := by
  intro k
  induction k generalizing p with
  | zero =>
    intro u hu _
    subst hu
    cases p
    simp [ungets]
  | succ k ih =>
    intro u hu hk
    subst hu
    unfold ungets parser_unget
    rw [if_pos (by omega)]
    simp only
    have := ih { p with unget_idx := p.unget_idx + 1 } hsize (p.unget_idx + 1) rfl (by omega)
    rw [this]
    simp only [Res.ok.injEq, Parser.mk.injEq, true_and, and_true]
    omega

theorem reads_ringInv (heap : Nat → Junk) :
    ∀ (n : Nat) (toks0 toks : List Token) (p p1 : Parser), RingInv toks0 p →
      reads heap n p = .ok (toks, p1) → RingInv (toks0 ++ toks) p1 ∧ toks.length = n := by
  intro n
  induction n with
  | zero =>
    intro toks0 toks p p1 hinv h
    simp only [reads, Res.ok.injEq, Prod.mk.injEq] at h
    obtain ⟨rfl, rfl⟩ := h
    simpa using hinv
  | succ n ih =>
    intro toks0 toks p p1 hinv h
    unfold reads at h
    cases hg : parser_get_lexer_token heap p with
    | abort => simp [hg] at h
    | nofuel => simp [hg] at h
    | ok r =>
      obtain ⟨tok, slot, p2⟩ := r
      simp only [hg] at h
      have hinv2 : RingInv (toks0 ++ [tok]) p2 := by
        unfold parser_get_lexer_token at hg
        rw [if_pos hinv.2.2.1] at hg
        cases hs : parser_skip_comments heap (p.lex.file.length + 1) p.lex p.ntok with
        | abort => simp [hs] at hg
        | nofuel => simp [hs] at hg
        | ok r1 =>
          obtain ⟨tok0, lex1, n1⟩ := r1
          simp only [hs] at hg
          cases hp : buffer_push (count_brackets { p with lex := lex1, ntok := n1 } tok0) tok0 with
          | abort => simp [hp] at hg
          | nofuel => simp [hp] at hg
          | ok r2 =>
            obtain ⟨slot2, p3⟩ := r2
            simp only [hp, Res.ok.injEq, Prod.mk.injEq] at hg
            obtain ⟨rfl, rfl, rfl⟩ := hg
            obtain ⟨c1, c2, c3, c4, c5, _, _⟩ :=
              count_brackets_buffer { p with lex := lex1, ntok := n1 } tok0
            exact (ringInv_push toks0 _ _ _ _
              (ringInv_congr toks0 p _ hinv c1 c2 c3 c4 c5) hp).1
      cases hr : reads heap n p2 with
      | abort => simp [hr] at h
      | nofuel => simp [hr] at h
      | ok r3 =>
        obtain ⟨toks3, p4⟩ := r3
        simp only [hr, Res.ok.injEq, Prod.mk.injEq] at h
        obtain ⟨rfl, rfl⟩ := h
        have := ih (toks0 ++ [tok]) toks3 p2 p4 hinv2 hr
        simpa using this

/-- Unget and read are inverse up to depth 15.  For every state `p` that a
parser reaches from `parser_init` by `n` reads of `parser_get_lexer_token`
(no unget pending) and every `k` with `1 <= k <= 15` and `k <= n`: `k` calls
of `parser_unget` succeed, and the next `k` reads return the `k` tokens read
last, in their order, and end in the state `p` itself, so that neither the
lexer nor the count of allocated tokens has moved. -/
theorem unget_then_read_replays (heap : Nat → Junk) (p0 : Parser) (lex : Lexer) (n k : Nat)
    (toks : List Token) (p : Parser)
    (hreads : reads heap n (parser_init p0 lex) = .ok (toks, p))
    (hk1 : 1 ≤ k) (hk2 : k ≤ 15) (hkn : k ≤ n) :
    ∃ pu, ungets k p = .ok pu ∧ reads heap k pu = .ok (toks.drop (n - k), p) := by
  obtain ⟨hinv, hlen⟩ := reads_ringInv heap n [] toks _ p (ringInv_init p0 lex) hreads
  simp only [List.nil_append] at hinv
  refine ⟨{ p with unget_idx := k }, ?_, ?_⟩
  · have := ungets_ok p hinv.1 k 0 hinv.2.2.1 (by omega)
    simpa using this
  · have := reads_replay heap toks p hinv k hk2 (by omega)
    rw [hlen] at this
    exact this

set_option maxRecDepth 100000 in
/-- C3 fails on the code at the depth `k = N = 16` that the comment of
`struct parser` promises (the buffer holds up to `BUF_SIZE` tokens, so that
one can look `BUF_SIZE` tokens forward): after 16 tokens were read from a
file of 16 commas (no unget pending) the 16th call of `parser_unget` fails
its assertion `unget_idx < buf_size`. -/
theorem unget_depth_sixteen_aborts :
    ∃ toks p,
      reads heap_invalid 16
        (parser_init parser_blank (lexer_init_file (bytes ",,,,,,,,,,,,,,,,") 0)) = .ok (toks, p) ∧
      toks.length = 16 ∧ p.unget_idx = 0 ∧ ungets 16 p = .abort :=
  ⟨_, _, rfl, rfl, rfl, rfl⟩

set_option maxRecDepth 100000 in
/-- An instance of `unget_then_read_replays`: three tokens are read from
`a ( 1`, then two are ungot and read again. -/
theorem unget_then_read_replays_witness :
    ∃ toks p,
      reads heap_invalid 3 (parser_init parser_blank (lexer_init_file (bytes "a ( 1") 0)) =
        .ok (toks, p) ∧
      1 ≤ 2 ∧ 2 ≤ 15 ∧ 2 ≤ 3 ∧
      ∃ pu, ungets 2 p = .ok pu ∧ reads heap_invalid 2 pu = .ok (toks.drop (3 - 2), p) :=
  ⟨_, _, rfl, by decide, by decide, by decide,
    unget_then_read_replays heap_invalid parser_blank (lexer_init_file (bytes "a ( 1") 0) 3 2 _ _
      rfl (by decide) (by decide) (by decide)⟩

theorem LexStep.lex_refl (a : Lexer) : LexStep a a := ⟨le_refl _, le_refl _, rfl⟩

theorem LexStep.lex_trans {a b c : Lexer} (h1 : LexStep a b) (h2 : LexStep b c) : LexStep a c :=
  ⟨le_trans h2.1 h1.1, le_trans h1.2.1 h2.2.1, h2.2.2.trans h1.2.2⟩

theorem lexer_getch_cases (lex : Lexer) :
    (lex.is_eof = true ∧ lexer_getch lex = (CEOF, lex)) ∨
    (lex.is_eof = false ∧ lex.file = [] ∧ lexer_getch lex = (CEOF, { lex with is_eof := true })) ∨
    (∃ ch rest, lex.is_eof = false ∧ lex.file = ch :: rest ∧
      lexer_getch lex = (ch, { lex with file := rest, loc := advance lex.loc ch })) := by
  by_cases he : lex.is_eof = true
  · left; exact ⟨he, by simp [lexer_getch, he]⟩
  · have he1 : lex.is_eof = false := by simpa using he
    by_cases hf : lex.file = []
    · right; left; exact ⟨he1, hf, lexer_getch_nil lex he1 hf⟩
    · obtain ⟨ch, rest, hcr⟩ := List.exists_cons_of_ne_nil hf
      right; right; exact ⟨ch, rest, he1, hcr, lexer_getch_cons lex ch rest he1 hcr⟩

theorem getch_step (lex : Lexer) : LexStep lex (lexer_getch lex).2 := by
  rcases lexer_getch_cases lex with ⟨_, h⟩ | ⟨_, _, h⟩ | ⟨ch, rest, _, hf, h⟩ <;>
    rw [h] <;> simp [LexStep, *]

theorem getch_strict (lex : Lexer) (h : (lexer_getch lex).1 ≠ CEOF) :
    (lexer_getch lex).2.file.length < lex.file.length := by
  rcases lexer_getch_cases lex with ⟨_, h1⟩ | ⟨_, _, h1⟩ | ⟨ch, rest, _, hf, h1⟩
  · rw [h1] at h; exact absurd rfl h
  · rw [h1] at h; exact absurd rfl h
  · rw [h1]; simp [hf]

theorem getch_unget_step (lex : Lexer) :
    LexStep lex (lexer_ungetch (lexer_getch lex).2 (lexer_getch lex).1) := by
  rcases lexer_getch_cases lex with ⟨_, h⟩ | ⟨_, _, h⟩ | ⟨ch, rest, _, hf, h⟩
  · rw [h]; simp [LexStep, lexer_ungetch]
  · rw [h]; simp [LexStep, lexer_ungetch]
  · rw [h]
    by_cases h255 : ch = CEOF
    · simp [LexStep, lexer_ungetch, h255, hf]
    · simp [LexStep, lexer_ungetch, h255, hf]

theorem unget_after (a lex : Lexer) (h : LexStep a lex) :
    LexStep a (lexer_ungetch (lexer_getch lex).2 (lexer_getch lex).1) :=
  h.lex_trans (getch_unget_step lex)

theorem notify_step (lex : Lexer) : LexStep lex (notify lex) := by
  unfold notify error_loc LexStep
  split <;> simp

theorem error_loc_step (lex : Lexer) : LexStep lex (error_loc lex) := by
  unfold error_loc LexStep
  simp

theorem Extends.ext_refl (b : Buffer) (h : b.buf ≠ none) : Extends b b := by
  refine ⟨[], ?_⟩
  cases hb : b.buf with
  | none => exact absurd hb h
  | some d => simp

theorem Extends.add (b : Buffer) (c : Byte) : Extends b (buffer_add_char b c) :=
  ⟨[c], buffer_add_char_buf b c⟩

theorem Extends.ext_trans {a b c : Buffer} (h1 : Extends a b) (h2 : Extends b c) : Extends a c := by
  obtain ⟨l1, e1⟩ := h1
  obtain ⟨l2, e2⟩ := h2
  refine ⟨l1 ++ l2, ?_⟩
  rw [e2, e1]
  simp

theorem Extends.add_right {a b : Buffer} (h : Extends a b) (c : Byte) :
    Extends a (buffer_add_char b c) := h.ext_trans (Extends.add b c)

theorem isspace_ceof : isspace CEOF = false := by decide

theorem lexer_skip_space_total : ∀ (fuel : Nat) (lex : Lexer), lex.file.length < fuel →
    ∃ r, lexer_skip_space fuel lex = .ok r ∧ LexStep lex r.2 := by
  intro fuel
  induction fuel with
  | zero => intro lex h; omega
  | succ f ih =>
    intro lex h
    unfold lexer_skip_space
    by_cases hc : (lexer_getch lex).1 ≠ CEOF ∧ isspace (lexer_getch lex).1 = true
    · simp only [hc, ne_eq, not_false_eq_true, and_self, if_true]
      have hs := getch_strict lex hc.1
      obtain ⟨r, hr, hstep⟩ := ih (lexer_getch lex).2 (by omega)
      exact ⟨r, hr, (getch_step lex).lex_trans hstep⟩
    · rw [if_neg hc]
      exact ⟨_, rfl, getch_step lex⟩

theorem lexer_read_comments_total : ∀ (fuel : Nat) (lex : Lexer) (b : Buffer),
    lex.file.length < fuel →
    ∃ lex1 b1, lexer_read_comments_loop fuel lex b = .ok (lex1, b1) ∧ LexStep lex lex1 := by
  intro fuel
  induction fuel with
  | zero => intro lex b h; omega
  | succ f ih =>
    intro lex b h
    unfold lexer_read_comments_loop
    by_cases hc : (lexer_getch lex).1 = CEOF
    · simp only [hc, if_true]
      exact ⟨_, _, rfl, getch_step lex⟩
    · by_cases hn : (lexer_getch lex).1 = 10
      · simp only [hc, hn, if_false, if_true]
        exact ⟨_, _, rfl, getch_step lex⟩
      · simp only [hc, hn, if_false]
        have hs := getch_strict lex hc
        obtain ⟨lex1, b1, hr, hstep⟩ := ih (lexer_getch lex).2 (buffer_add_char b (lexer_getch lex).1)
          (by omega)
        exact ⟨lex1, b1, hr, (getch_step lex).lex_trans hstep⟩

theorem lexer_read_string_total (stop : Byte) : ∀ (fuel : Nat) (lex : Lexer) (b : Buffer),
    lex.file.length < fuel →
    ∃ fl lex1 b1, lexer_read_string_loop stop fuel lex b = .ok (fl, lex1, b1) ∧
      LexStep lex lex1 ∧ Extends b b1 := by
  intro fuel
  induction fuel with
  | zero => intro lex b h; omega
  | succ f ih =>
    intro lex b h
    unfold lexer_read_string_loop
    by_cases hc : (lexer_getch lex).1 = CEOF
    · simp only [hc, if_true]
      exact ⟨_, _, _, rfl, (getch_step lex).lex_trans (notify_step _), Extends.add _ _⟩
    · simp only [hc, if_false]
      have hs := getch_strict lex hc
      by_cases hb : (lexer_getch lex).1 = 92
      · simp only [hb, if_true]
        by_cases hc2 : (lexer_getch (lexer_getch lex).2).1 = CEOF
        · simp only [hc2, if_true]
          exact ⟨_, _, _, rfl,
            ((getch_step lex).lex_trans (getch_step _)).lex_trans (notify_step _),
            (Extends.add _ _).add_right _⟩
        · simp only [hc2, if_false]
          have hs2 := (getch_step (lexer_getch lex).2).1
          obtain ⟨fl, lex1, b1, hr, hstep, hext⟩ := ih (lexer_getch (lexer_getch lex).2).2
            (buffer_add_char (buffer_add_char b 92) (lexer_getch (lexer_getch lex).2).1)
            (by omega)
          exact ⟨fl, lex1, b1, hr, ((getch_step lex).lex_trans (getch_step _)).lex_trans hstep,
            ((Extends.add _ _).add_right _).ext_trans hext⟩
      · simp only [hb, if_false]
        by_cases hq : (lexer_getch lex).1 = stop
        · simp only [hq, if_true]
          exact ⟨_, _, _, rfl, getch_step lex, Extends.add _ _⟩
        · simp only [hq, if_false]
          obtain ⟨fl, lex1, b1, hr, hstep, hext⟩ := ih (lexer_getch lex).2
            (buffer_add_char b (lexer_getch lex).1) (by omega)
          exact ⟨fl, lex1, b1, hr, (getch_step lex).lex_trans hstep, (Extends.add _ _).ext_trans hext⟩
set_option maxRecDepth 100000 in
theorem byte_facts_cont : ∀ c : Byte,
    ((isalnum c || decide (c = 95)) = true → c ≠ CEOF) ∧
    (isxdigit c = true → c ≠ CEOF) ∧ (isdigit c = true → c ≠ CEOF) ∧
    ((48 ≤ c.val ∧ c.val < 56) → c ≠ CEOF) := by
  decide

theorem extends_self_add (b : Buffer) (c : Byte) :
    Extends (buffer_add_char b c) (buffer_add_char b c) :=
  Extends.ext_refl _ (by rw [buffer_add_char_buf]; simp)

theorem lexer_read_id_total : ∀ (fuel : Nat) (lex : Lexer) (b : Buffer) (c : Byte),
    lex.file.length < fuel →
    ∃ c1 lex1 b1, lexer_read_id_loop fuel lex b c = .ok (c1, lex1, b1) ∧
      LexStep lex (lexer_ungetch lex1 c1) ∧ Extends (buffer_add_char b c) b1 := by
  intro fuel
  induction fuel with
  | zero => intro lex b c h; omega
  | succ f ih =>
    intro lex b c h
    unfold lexer_read_id_loop
    by_cases hc : (isalnum (lexer_getch lex).1 || decide ((lexer_getch lex).1 = 95)) = true
    · simp only [hc, if_true]
      have hs := getch_strict lex ((byte_facts_cont _).1 hc)
      obtain ⟨c1, lex1, b1, hr, hstep, hext⟩ :=
        ih (lexer_getch lex).2 (buffer_add_char b c) (lexer_getch lex).1 (by omega)
      exact ⟨c1, lex1, b1, hr, (getch_step lex).lex_trans hstep, (Extends.add _ _).ext_trans hext⟩
    · simp only [hc, Bool.false_eq_true, if_false]
      exact ⟨_, _, _, rfl, getch_unget_step lex, extends_self_add b c⟩

theorem lexer_read_octal_total : ∀ (fuel : Nat) (lex : Lexer) (b : Buffer) (c : Byte),
    lex.file.length < fuel →
    ∃ c1 lex1 b1, lexer_read_octal_loop fuel lex b c = .ok (c1, lex1, b1) ∧
      LexStep lex (lexer_ungetch lex1 c1) ∧ Extends (buffer_add_char b c) b1 := by
  intro fuel
  induction fuel with
  | zero => intro lex b c h; omega
  | succ f ih =>
    intro lex b c h
    unfold lexer_read_octal_loop
    by_cases hc : 48 ≤ (lexer_getch lex).1.val ∧ (lexer_getch lex).1.val < 56
    · simp only [hc, and_self, if_true]
      have hs := getch_strict lex ((byte_facts_cont _).2.2.2 hc)
      obtain ⟨c1, lex1, b1, hr, hstep, hext⟩ :=
        ih (lexer_getch lex).2 (buffer_add_char b c) (lexer_getch lex).1 (by omega)
      exact ⟨c1, lex1, b1, hr, (getch_step lex).lex_trans hstep, (Extends.add _ _).ext_trans hext⟩
    · rw [if_neg hc]
      exact ⟨_, _, _, rfl, getch_unget_step lex, extends_self_add b c⟩

theorem lexer_read_hex_total : ∀ (fuel : Nat) (lex : Lexer) (b : Buffer) (c : Byte),
    lex.file.length < fuel →
    ∃ c1 lex1 b1, lexer_read_hex_loop fuel lex b c = .ok (c1, lex1, b1) ∧
      LexStep lex (lexer_ungetch lex1 c1) ∧ Extends (buffer_add_char b c) b1 := by
  intro fuel
  induction fuel with
  | zero => intro lex b c h; omega
  | succ f ih =>
    intro lex b c h
    unfold lexer_read_hex_loop
    by_cases hc : isxdigit (lexer_getch lex).1 = true
    · simp only [hc, if_true]
      have hs := getch_strict lex ((byte_facts_cont _).2.1 hc)
      obtain ⟨c1, lex1, b1, hr, hstep, hext⟩ :=
        ih (lexer_getch lex).2 (buffer_add_char b c) (lexer_getch lex).1 (by omega)
      exact ⟨c1, lex1, b1, hr, (getch_step lex).lex_trans hstep, (Extends.add _ _).ext_trans hext⟩
    · simp only [hc, Bool.false_eq_true, if_false]
      exact ⟨_, _, _, rfl, getch_unget_step lex, extends_self_add b c⟩

theorem lexer_read_exp_digits_total : ∀ (fuel : Nat) (lex : Lexer) (b : Buffer),
    lex.file.length < fuel → b.buf ≠ none →
    ∃ c1 lex1 b1, lexer_read_exp_digits fuel lex b = .ok (c1, lex1, b1) ∧
      LexStep lex (lexer_ungetch lex1 c1) ∧ Extends b b1 := by
  intro fuel
  induction fuel with
  | zero => intro lex b h; omega
  | succ f ih =>
    intro lex b h hb
    unfold lexer_read_exp_digits
    by_cases hc : isdigit (lexer_getch lex).1 = true
    · simp only [hc, if_true]
      have hs := getch_strict lex ((byte_facts_cont _).2.2.1 hc)
      obtain ⟨c1, lex1, b1, hr, hstep, hext⟩ :=
        ih (lexer_getch lex).2 (buffer_add_char b (lexer_getch lex).1) (by omega)
          (by rw [buffer_add_char_buf]; simp)
      exact ⟨c1, lex1, b1, hr, (getch_step lex).lex_trans hstep, (Extends.add _ _).ext_trans hext⟩
    · simp only [hc, Bool.false_eq_true, if_false]
      exact ⟨_, _, _, rfl, getch_unget_step lex, Extends.ext_refl b hb⟩

theorem lexer_read_number_total : ∀ (fuel : Nat) (s : NumState),
    s.lex.file.length < fuel → s.b.buf ≠ none →
    ∃ r, lexer_read_number_loop fuel s = .ok r ∧ NumOutcome s r := by
  intro fuel
  induction fuel with
  | zero => intro s h; omega
  | succ f ih =>
    intro s h hb
    unfold lexer_read_number_loop
    simp only []
    by_cases hc : (lexer_getch s.lex).1 = CEOF
    · simp only [hc, if_true]
      exact ⟨_, rfl, Extends.ext_refl _ hb, (getch_step _).lex_trans (notify_step _)⟩
    · simp only [hc, if_false]
      have hs := getch_strict s.lex hc
      by_cases he : (lexer_getch s.lex).1 = 101 ∨ (lexer_getch s.lex).1 = 69
      · simp only [he, if_true]
        by_cases hse : s.saw_exp = true
        · simp only [hse, if_true]
          exact ⟨_, rfl, Extends.ext_refl _ hb, (getch_step _).lex_trans (notify_step _)⟩
        · simp only [hse, Bool.false_eq_true, if_false]
          set r1 := lexer_getch (lexer_getch s.lex).2 with hr1
          by_cases hsign : r1.1 = 43 ∨ r1.1 = 45
          · simp only [hsign, if_true]
            by_cases hd : isdigit (lexer_getch r1.2).1 = true
            · simp only [hd, Bool.not_true, Bool.false_eq_true, if_false]
              have s1 := getch_step (lexer_getch s.lex).2
              have s2 := getch_step r1.2
              obtain ⟨c3, lex3, b3, hr, hstep, hext⟩ := lexer_read_exp_digits_total
                ((lexer_getch r1.2).2.file.length + 1) (lexer_getch r1.2).2
                (buffer_add_char (buffer_add_char (buffer_add_char s.b (lexer_getch s.lex).1) r1.1)
                  (lexer_getch r1.2).1) (by omega) (by rw [buffer_add_char_buf]; simp)
              rw [hr]
              refine ⟨_, rfl, ?_, ?_⟩
              · exact (((Extends.add _ _).add_right _).add_right _).ext_trans hext
              · exact (((getch_step s.lex).lex_trans s1).lex_trans s2).lex_trans hstep
            · simp only [hd, Bool.not_false, if_true]
              refine ⟨_, rfl, ?_, ?_⟩
              · exact (Extends.add _ _).add_right _
              · exact (((getch_step s.lex).lex_trans (getch_step _)).lex_trans (getch_step _)).lex_trans
                  (notify_step _)
          · simp only [hsign, if_false]
            by_cases hd : isdigit r1.1 = true
            · simp only [hd, Bool.not_true, Bool.false_eq_true, if_false]
              have s1 := getch_step (lexer_getch s.lex).2
              obtain ⟨c3, lex3, b3, hr, hstep, hext⟩ := lexer_read_exp_digits_total
                (r1.2.file.length + 1) r1.2
                (buffer_add_char (buffer_add_char s.b (lexer_getch s.lex).1) r1.1)
                (by omega) (by rw [buffer_add_char_buf]; simp)
              rw [hr]
              refine ⟨_, rfl, ?_, ?_⟩
              · exact ((Extends.add _ _).add_right _).ext_trans hext
              · exact ((getch_step s.lex).lex_trans s1).lex_trans hstep
            · simp only [hd, Bool.not_false, if_true]
              refine ⟨_, rfl, ?_, ?_⟩
              · exact Extends.add _ _
              · exact ((getch_step s.lex).lex_trans (getch_step _)).lex_trans (notify_step _)
      · simp only [he, if_false]
        by_cases hdot : (lexer_getch s.lex).1 = 46
        · simp only [hdot, if_true]
          by_cases hsd : s.saw_dot = true
          · simp only [hsd, if_true]
            exact ⟨_, rfl, Extends.ext_refl _ hb, (getch_step _).lex_trans (notify_step _)⟩
          · simp only [hsd, Bool.false_eq_true, if_false]
            obtain ⟨r, hr, hext, hstep⟩ := ih
              { s with lex := (lexer_getch s.lex).2, b := buffer_add_char s.b 46,
                       saw_dot := true, isreal := true }
              (by simp only; omega) (by simp only; rw [buffer_add_char_buf]; simp)
            refine ⟨r, hr, (Extends.add _ _).ext_trans hext, ?_⟩
            cases hr1 : r.1 with
            | none => rw [hr1] at hstep; exact (getch_step _).lex_trans hstep
            | some c => rw [hr1] at hstep; exact (getch_step _).lex_trans hstep
        · simp only [hdot, if_false]
          by_cases hd : isdigit (lexer_getch s.lex).1 = true
          · simp only [hd, Bool.not_true, Bool.false_eq_true, if_false]
            obtain ⟨r, hr, hext, hstep⟩ := ih
              { s with lex := (lexer_getch s.lex).2,
                       b := buffer_add_char s.b (lexer_getch s.lex).1 }
              (by simp only; omega) (by simp only; rw [buffer_add_char_buf]; simp)
            refine ⟨r, hr, (Extends.add _ _).ext_trans hext, ?_⟩
            cases hr1 : r.1 with
            | none => rw [hr1] at hstep; exact (getch_step _).lex_trans hstep
            | some c => rw [hr1] at hstep; exact (getch_step _).lex_trans hstep
          · simp only [hd, Bool.not_false, if_true]
            exact ⟨_, rfl, Extends.ext_refl _ hb, getch_unget_step _⟩

theorem lexer_read_comments_ok (lex : Lexer) (b : Buffer) :
    ∃ lex1 b1, lexer_read_comments lex b = .ok (tok_comments, lex1, b1) ∧ LexStep lex lex1 ∧
      b1.buf ≠ none := by
  obtain ⟨lex1, b1, hr, hstep⟩ := lexer_read_comments_total (lex.file.length + 1) lex b (by omega)
  unfold lexer_read_comments
  rw [hr]
  exact ⟨_, _, rfl, hstep, by rw [buffer_add_char_buf]; simp⟩

theorem lexer_read_string_ok (lex : Lexer) (b : Buffer) :
    ∃ cls lex1 b1, lexer_read_string lex b 34 = .ok (cls, lex1, b1) ∧ LexStep lex lex1 ∧
      Extends (buffer_add_char b 34) b1 := by
  obtain ⟨fl, lex1, b1, hr, hstep, hext⟩ :=
    lexer_read_string_total 34 (lex.file.length + 1) lex (buffer_add_char b 34) (by omega)
  unfold lexer_read_string
  simp only [ne_eq, not_true_eq_false, if_false]
  rw [hr]
  cases fl with
  | true => exact ⟨_, _, _, rfl, hstep, hext.add_right 0⟩
  | false => exact ⟨_, _, _, rfl, hstep, hext⟩

theorem lexer_read_octal_ok (lex : Lexer) (tok : PTok) (b : Buffer) :
    ∃ lex1 tok1 b1, lexer_read_octal_number lex tok b 48 = .ok (lex1, tok1, b1) ∧
      LexStep lex lex1 ∧ Extends (buffer_add_char b 48) b1 ∧ tok1.tok_class ≠ none := by
  obtain ⟨c1, lex1, b1, hr, hstep, hext⟩ :=
    lexer_read_octal_total (lex.file.length + 1) lex (buffer_add_char b 48) 48 (by omega)
  unfold lexer_read_octal_number
  simp only [ne_eq, not_true_eq_false, if_false]
  rw [hr]
  exact ⟨_, _, _, rfl, hstep, ((Extends.add _ _).ext_trans hext).add_right 0, by simp⟩

theorem lexer_read_hex_ok (lex : Lexer) (tok : PTok) (b : Buffer)
    (hx : (lexer_getch lex).1 = 120 ∨ (lexer_getch lex).1 = 88) :
    ∃ lex1 tok1 b1, lexer_read_hex_number lex tok b 48 = .ok (lex1, tok1, b1) ∧
      LexStep lex lex1 ∧ Extends (buffer_add_char b 48) b1 ∧ tok1.tok_class ≠ none := by
  obtain ⟨c1, lex1, b1, hr, hstep, hext⟩ :=
    lexer_read_hex_total ((lexer_getch lex).2.file.length + 1) (lexer_getch lex).2
      (buffer_add_char b 48) (lexer_getch lex).1 (by omega)
  have hx2 : ¬ ((lexer_getch lex).1 ≠ 120 ∧ (lexer_getch lex).1 ≠ 88) := by
    rcases hx with h | h <;> simp [h]
  unfold lexer_read_hex_number
  simp only [ne_eq, not_true_eq_false, if_false]
  rw [if_neg hx2, hr]
  exact ⟨_, _, _, rfl, (getch_step lex).lex_trans hstep,
    ((Extends.add _ _).ext_trans hext).add_right 0, by simp⟩

theorem lexer_read_id_ok (lex : Lexer) (tok : PTok) (b : Buffer) (c : Byte) :
    ∃ lex1 tok1 b1, lexer_read_id lex tok b c = .ok (lex1, tok1, b1) ∧
      LexStep lex lex1 ∧ (b1.buf = none ∨ Extends (buffer_add_char b c) b1) ∧
      tok1.tok_class ≠ none ∧ tok1.uses_buf = tok.uses_buf := by
  obtain ⟨c1, lex1, b1, hr, hstep, hext⟩ :=
    lexer_read_id_total (lex.file.length + 1) lex b c (by omega)
  unfold lexer_read_id
  rw [hr]
  obtain ⟨k, hk⟩ : ∃ k, kw_bsearch (cstr ((buffer_add_char b1 0).buf.getD [])) keywords
      keywords_length = .ok k := ⟨_, kw_bsearch_keywords _⟩
  simp only [hk]
  by_cases hkl : k ≠ keywords_length
  · rw [if_pos hkl]
    exact ⟨_, _, _, rfl, hstep, Or.inl rfl, by simp [tval_tok_init], rfl⟩
  · rw [if_neg hkl]
    exact ⟨_, _, _, rfl, hstep, Or.inr (hext.add_right 0), by simp, rfl⟩

theorem lexer_read_number_ok (lex : Lexer) (b : Buffer) (c : Byte) :
    ∃ cls lex1 b1, lexer_read_number lex b c = .ok (cls, lex1, b1) ∧
      LexStep lex lex1 ∧ Extends (buffer_add_char b c) b1 := by
  have fin : ∀ (s : NumState) (r : Option Byte × NumState), NumOutcome s r →
      LexStep s.lex (lexer_read_number_finish r).2.1 ∧
      Extends s.b (lexer_read_number_finish r).2.2 := by
    intro s r ⟨hext, hstep⟩
    unfold lexer_read_number_finish
    cases hr1 : r.1 with
    | none => rw [hr1] at hstep; exact ⟨hstep, hext.add_right 0⟩
    | some c => rw [hr1] at hstep; exact ⟨hstep, hext.add_right 0⟩
  unfold lexer_read_number
  simp only []
  by_cases hdot : c = 46
  · simp only [hdot, if_true]
    by_cases hd : isdigit (lexer_getch lex).1 = true
    · simp only [hd, Bool.not_true, Bool.false_eq_true, if_false]
      obtain ⟨r, hr, hout⟩ := lexer_read_number_total ((lexer_getch lex).2.file.length + 1)
        ⟨(lexer_getch lex).2, buffer_add_char (buffer_add_char b 46) (lexer_getch lex).1,
          true, true, false⟩ (by simp only; omega) (by simp only; rw [buffer_add_char_buf]; simp)
      rw [hr]
      obtain ⟨h1, h2⟩ := fin _ r hout
      exact ⟨_, _, _, rfl, (getch_step lex).lex_trans h1, (Extends.add _ _).ext_trans h2⟩
    · simp only [hd, Bool.not_false, if_true]
      refine ⟨_, _, _, rfl, ?_, Extends.add _ _⟩
      have h1 := getch_unget_step lex
      have h2 := notify_step (lexer_getch lex).2
      unfold LexStep lexer_ungetch at h1 ⊢
      unfold LexStep at h2
      simp only at h1 ⊢
      refine ⟨?_, by omega, h2.2.2.trans h1.2.2⟩
      have : (notify (lexer_getch lex).2).file = (lexer_getch lex).2.file := by
        unfold notify error_loc; split <;> rfl
      rw [this]
      exact h1.1
  · simp only [hdot, if_false]
    obtain ⟨r, hr, hout⟩ := lexer_read_number_total (lex.file.length + 1)
      ⟨lex, buffer_add_char b c, false, false, false⟩ (by simp only; omega)
      (by simp only; rw [buffer_add_char_buf]; simp)
    rw [hr]
    obtain ⟨h1, h2⟩ := fin _ r hout
    exact ⟨_, _, _, rfl, h1, h2⟩
theorem is_marker_iff (text : List Byte) :
    is_marker text = true ↔ text = bytes "\\left" ∨ text = bytes "\\right" := by
  unfold is_marker
  simp only [Bool.or_eq_true, beq_iff_eq, strcmp_eq_zero_iff]

theorem cstr_cons (c : Byte) (l : List Byte) :
    cstr (c :: l) = if c = 0 then [] else c :: cstr l := by
  unfold cstr
  by_cases h : c = 0 <;> simp [List.takeWhile_cons, h]

theorem not_marker_of_head (c : Byte) (l : List Byte) (hc : c ≠ 92) :
    is_marker (cstr (c :: l)) = false := by
  rw [Bool.eq_false_iff, ne_eq, is_marker_iff, cstr_cons]
  by_cases h0 : c = 0
  · rw [if_pos h0]
    intro h
    rcases h with h | h <;> exact absurd h (by decide)
  · rw [if_neg h0]
    intro h
    have e1 : bytes "\\left" = 92 :: bytes "left" := by decide
    have e2 : bytes "\\right" = 92 :: bytes "right" := by decide
    rw [e1, e2] at h
    rcases h with h | h <;> exact hc (List.cons.inj h).1

theorem not_marker_short (c : Byte) : is_marker (cstr [c, 0]) = false := by
  rw [Bool.eq_false_iff, ne_eq, is_marker_iff, cstr_cons]
  by_cases h0 : c = 0
  · rw [if_pos h0]
    intro h
    rcases h with h | h <;> exact absurd h (by decide)
  · rw [if_neg h0]
    have : cstr [(0 : Byte)] = [] := by decide
    rw [this]
    intro h
    have l1 : (bytes "\\left").length = 5 := by decide
    have l2 : (bytes "\\right").length = 6 := by decide
    rcases h with h | h
    · have := congrArg List.length h
      rw [l1] at this
      simp at this
    · have := congrArg List.length h
      rw [l2] at this
      simp at this

theorem extends_head (c : Byte) (b1 : Buffer)
    (h : Extends (buffer_add_char { buf := none, size := 16 } c) b1) :
    ∃ l, b1.buf = some (c :: l) := by
  obtain ⟨l, hl⟩ := h
  rw [buffer_add_char_buf] at hl
  exact ⟨l, by simpa using hl⟩

theorem LexOutcome.mono {d : Prop} {a b : Lexer} {r : Res (Token × Lexer)} (h : LexStep a b)
    (hr : LexOutcome d b r) : LexOutcome d a r :=
  ⟨hr.1, hr.2.1, fun t lex1 e => ⟨h.lex_trans (hr.2.2 t lex1 e).1, (hr.2.2 t lex1 e).2⟩⟩

theorem LexOutcome.weaken {d d1 : Prop} {a : Lexer} {r : Res (Token × Lexer)} (h : d1 → d)
    (hr : LexOutcome d a r) : LexOutcome d1 a r :=
  ⟨hr.1, fun x => hr.2.1 (h x), hr.2.2⟩

theorem return_token_head (tok : PTok) (b : Buffer) (loc : Location) (lex0 lex : Lexer)
    (c : Byte) (hstep : LexStep lex0 lex) (hb : ∃ l, b.buf = some (c :: l)) (hc : c ≠ 92) :
    LexOutcome (tok.tok_class ≠ none) lex0 (return_token tok b loc lex) := by
  obtain ⟨l, hl⟩ := hb
  unfold return_token LexOutcome
  cases hcls : tok.tok_class with
  | none => simp
  | some cls =>
    simp only [hl]
    refine ⟨by simp, by simp, ?_⟩
    intro t lex1 h
    simp only [Res.ok.injEq, Prod.mk.injEq] at h
    obtain ⟨rfl, rfl⟩ := h
    refine ⟨hstep, ?_⟩
    intro _
    right
    simp only [token_as_string, token_uses_buf, if_true]
    exact not_marker_of_head c l hc

theorem return_token_none (tok : PTok) (b : Buffer) (loc : Location) (lex0 lex : Lexer)
    (hstep : LexStep lex0 lex) (hb : b.buf = none) (hub : tok.uses_buf = false) :
    LexOutcome (tok.tok_class ≠ none) lex0 (return_token tok b loc lex) ∧
    ∀ t lex1, return_token tok b loc lex = .ok (t, lex1) →
      t.uses_buf = false ∧ t.tval = tok.tval ∧ tok.tok_class = some t.tok_class := by
  unfold return_token LexOutcome
  cases hcls : tok.tok_class with
  | none => simp
  | some cls =>
    simp only [hb]
    refine ⟨⟨by simp, by simp, ?_⟩, ?_⟩
    · intro t lex1 h
      simp only [Res.ok.injEq, Prod.mk.injEq] at h
      obtain ⟨rfl, rfl⟩ := h
      refine ⟨hstep, ?_⟩
      intro h
      simp only at h
      rw [hub] at h
      cases h
    · intro t lex1 h
      simp only [Res.ok.injEq, Prod.mk.injEq] at h
      obtain ⟨rfl, rfl⟩ := h
      exact ⟨hub, rfl, rfl⟩

theorem return_token_comment (tok : PTok) (b : Buffer) (loc : Location) (lex0 lex : Lexer)
    (hstep : LexStep lex0 lex) (hb : b.buf ≠ none) :
    LexOutcome True lex0 (return_token { tok with tok_class := some tok_comments } b loc lex) := by
  unfold return_token LexOutcome
  cases hbuf : b.buf with
  | none => exact absurd hbuf hb
  | some data =>
    simp only
    refine ⟨by simp, by simp, ?_⟩
    intro t lex1 h
    simp only [Res.ok.injEq, Prod.mk.injEq] at h
    obtain ⟨rfl, rfl⟩ := h
    exact ⟨hstep, fun _ => Or.inl rfl⟩

theorem return_token_short (tok : PTok) (loc : Location) (lex : Lexer) (c : Byte) :
    LexOutcome True lex (return_token { tok with tok_class := some tok_unknown }
      { buf := some [c, 0], size := 16 } loc lex) := by
  unfold return_token LexOutcome
  simp only
  refine ⟨by simp, by simp, ?_⟩
  intro t lex1 h
  simp only [Res.ok.injEq, Prod.mk.injEq] at h
  obtain ⟨rfl, rfl⟩ := h
  refine ⟨LexStep.lex_refl _, fun _ => Or.inr ?_⟩
  simp only [token_as_string, token_uses_buf, if_true]
  exact not_marker_short c
theorem getch_peek (lex : Lexer) (h : (lexer_getch lex).1 ≠ CEOF) :
    (lexer_getch (lexer_ungetch (lexer_getch lex).2 (lexer_getch lex).1)).1 =
      (lexer_getch lex).1 := by
  rcases lexer_getch_cases lex with ⟨_, h1⟩ | ⟨_, _, h1⟩ | ⟨ch, rest, he, hf, h1⟩
  · rw [h1] at h; exact absurd rfl h
  · rw [h1] at h; exact absurd rfl h
  · rw [h1] at h ⊢
    simp only at h ⊢
    have := lexer_getch_cons
      (lexer_ungetch { lex with file := rest, loc := advance lex.loc ch } ch) ch rest
      (by simp [lexer_ungetch, he]) (by simp [lexer_ungetch, h])
    rw [this]

set_option maxRecDepth 100000 in
theorem byte_facts_head : ∀ c : Byte,
    (isalpha c = true → c ≠ 92) ∧ (isdigit c = true → c ≠ 92 ∧ c ≠ CEOF) := by
  decide

theorem lexer_dispatch_outcome (tok : PTok) (c : Byte) (loc : Location) (lex : Lexer)
    (hub : tok.uses_buf = false) :
    LexOutcome (tok.tok_class ≠ none) lex (lexer_dispatch tok c loc lex) := by
  have triv : ∀ (t : PTok) (cls : TokenClass),
      tok.tok_class ≠ none → ({ t with tok_class := some cls } : PTok).tok_class ≠ none := by
    intro t cls _; simp
  have punct : ∀ k, LexOutcome (tok.tok_class ≠ none) lex
      (return_token (tval_tok_init tok tok_operator k) { buf := none, size := 16 } loc lex) := by
    intro k
    exact (return_token_none (tval_tok_init tok tok_operator k) { buf := none, size := 16 }
      loc lex lex (LexStep.lex_refl _) rfl hub).1.weaken (by intro _; simp [tval_tok_init])
  unfold lexer_dispatch
  simp only []
  by_cases h1 : c = CEOF
  · rw [if_pos h1]
    exact (return_token_none (tval_tok_init tok tok_eof tv_eof) { buf := none, size := 16 }
      loc lex lex (LexStep.lex_refl _) rfl hub).1.weaken (by intro _; simp [tval_tok_init])
  rw [if_neg h1]
  by_cases h2 : c = 35
  · rw [if_pos h2]
    obtain ⟨lex1, b1, hr, hstep, hb⟩ := lexer_read_comments_ok lex { buf := none, size := 16 }
    rw [hr]
    exact (return_token_comment tok b1 loc lex lex1 hstep hb).weaken (fun _ => trivial)
  rw [if_neg h2]
  by_cases h3 : c = 34
  · rw [if_pos h3]
    subst h3
    obtain ⟨cls, lex1, b1, hr, hstep, hext⟩ := lexer_read_string_ok lex { buf := none, size := 16 }
    rw [hr]
    exact (return_token_head _ b1 loc lex lex1 34 hstep (extends_head _ _ hext)
      (by decide)).weaken (triv tok cls)
  rw [if_neg h3]
  by_cases h4 : isalpha c = true
  · rw [if_pos h4]
    obtain ⟨lex1, tok1, b1, hr, hstep, hb, hcls, hub1⟩ :=
      lexer_read_id_ok lex tok { buf := none, size := 16 } c
    rw [hr]
    rcases hb with hb | hb
    · exact (return_token_none tok1 b1 loc lex lex1 hstep hb (hub1.trans hub)).1.weaken
        (fun _ => hcls)
    · exact (return_token_head _ b1 loc lex lex1 c hstep (extends_head _ _ hb)
        ((byte_facts_head c).1 h4)).weaken (fun _ => hcls)
  rw [if_neg h4]
  by_cases h5 : c = 46
  · rw [if_pos h5]
    subst h5
    obtain ⟨cls, lex1, b1, hr, hstep, hext⟩ := lexer_read_number_ok lex { buf := none, size := 16 } 46
    rw [hr]
    exact (return_token_head _ b1 loc lex lex1 46 hstep (extends_head _ _ hext)
      (by decide)).weaken (triv tok cls)
  rw [if_neg h5]
  by_cases h6 : isdigit c = true
  · rw [if_pos h6]
    by_cases h7 : c = 48
    · rw [if_pos h7]
      subst h7
      have hpk := getch_unget_step lex
      by_cases h8 : (lexer_getch lex).1 = 120 ∨ (lexer_getch lex).1 = 88
      · rw [if_pos h8]
        have hne : (lexer_getch lex).1 ≠ CEOF := by
          rcases h8 with h | h <;> rw [h] <;> decide
        obtain ⟨lex1, tok1, b1, hr, hstep, hext, hcls⟩ :=
          lexer_read_hex_ok (lexer_ungetch (lexer_getch lex).2 (lexer_getch lex).1) tok
            { buf := none, size := 16 } (by rw [getch_peek lex hne]; exact h8)
        rw [hr]
        exact (return_token_head _ b1 loc lex lex1 48 (hpk.lex_trans hstep) (extends_head _ _ hext)
          (by decide)).weaken (fun _ => hcls)
      rw [if_neg h8]
      by_cases h9 : isdigit (lexer_getch lex).1 = true
      · rw [if_pos h9]
        by_cases h10 : 48 ≤ (lexer_getch lex).1.val ∧ (lexer_getch lex).1.val ≤ 55
        · rw [if_neg (not_not.2 h10)]
          obtain ⟨lex1, tok1, b1, hr, hstep, hext, hcls⟩ :=
            lexer_read_octal_ok (lexer_ungetch (lexer_getch lex).2 (lexer_getch lex).1) tok
              { buf := none, size := 16 }
          rw [hr]
          exact (return_token_head _ b1 loc lex lex1 48 (hpk.lex_trans hstep) (extends_head _ _ hext)
            (by decide)).weaken (fun _ => hcls)
        · rw [if_pos h10]
          exact (return_token_none tok { buf := none, size := 16 } loc lex _
            (hpk.lex_trans (error_loc_step _)) rfl hub).1
      · rw [if_neg h9]
        obtain ⟨cls, lex1, b1, hr, hstep, hext⟩ :=
          lexer_read_number_ok (lexer_ungetch (lexer_getch lex).2 (lexer_getch lex).1)
            { buf := none, size := 16 } 48
        rw [hr]
        exact (return_token_head _ b1 loc lex lex1 48 (hpk.lex_trans hstep) (extends_head _ _ hext)
          (by decide)).weaken (triv tok cls)
    · rw [if_neg h7]
      obtain ⟨cls, lex1, b1, hr, hstep, hext⟩ := lexer_read_number_ok lex { buf := none, size := 16 } c
      rw [hr]
      exact (return_token_head _ b1 loc lex lex1 c hstep (extends_head _ _ hext)
        ((byte_facts_head c).2 h6).1).weaken (triv tok cls)
  rw [if_neg h6]
  by_cases h11 : c = 44
  · rw [if_pos h11]; exact punct _
  rw [if_neg h11]
  by_cases h12 : c = 40
  · rw [if_pos h12]; exact punct _
  rw [if_neg h12]
  by_cases h13 : c = 41
  · rw [if_pos h13]; exact punct _
  rw [if_neg h13]
  by_cases h14 : c = 123
  · rw [if_pos h14]; exact punct _
  rw [if_neg h14]
  by_cases h15 : c = 125
  · rw [if_pos h15]; exact punct _
  rw [if_neg h15]
  exact (return_token_short tok loc lex c).weaken (fun _ => trivial)

theorem lexer_dispatch_eof (tok : PTok) (loc : Location) (lex : Lexer)
    (hub : tok.uses_buf = false) (t : Token) (lex1 : Lexer)
    (h : lexer_dispatch tok CEOF loc lex = .ok (t, lex1)) :
    t.tok_class = tok_eof ∧ t.uses_buf = false ∧ t.tval = tv_eof := by
  unfold lexer_dispatch at h
  simp only [if_true] at h
  have := (return_token_none (tval_tok_init tok tok_eof tv_eof) { buf := none, size := 16 }
      loc lex lex (LexStep.lex_refl _) rfl hub).2 t lex1 h
  obtain ⟨h1, h2, h3⟩ := this
  refine ⟨?_, h1, h2⟩
  simp only [tval_tok_init, Option.some.injEq] at h3
  exact h3.symm

/-- Every call of `lexer_get_token` stays within the budget of its loops
and fails only on an undefined class left in the fresh token; a returned
token has a text that is no marker, the lexer has made a step, and either
input was consumed or the token is the eof token. -/
theorem lexer_get_token_outcome (junk : Junk) (lex : Lexer) :
    lexer_get_token junk lex ≠ .nofuel ∧
    (junk.tok_class ≠ none → lexer_get_token junk lex ≠ .abort) ∧
    ∀ t lex1, lexer_get_token junk lex = .ok (t, lex1) →
      LexStep lex lex1 ∧ TextOK t ∧
      (lex1.file.length < lex.file.length ∨
        (t.tok_class = tok_eof ∧ t.uses_buf = false ∧ t.tval = tv_eof)) := by
  unfold lexer_get_token
  simp only []
  by_cases hsp : isspace (lexer_getch lex).1 = true
  · rw [if_pos hsp]
    have hne : (lexer_getch lex).1 ≠ CEOF := by
      intro h; rw [h] at hsp; exact absurd hsp (by decide)
    have hs := getch_strict lex hne
    obtain ⟨r1, hr, hstep⟩ := lexer_skip_space_total ((lexer_getch lex).2.file.length + 1)
      (lexer_getch lex).2 (by omega)
    rw [hr]
    have hd := lexer_dispatch_outcome ⟨junk.tok_class, false, junk.tval⟩ r1.1 r1.2.loc r1.2 rfl
    refine ⟨hd.1, hd.2.1, fun t lex1 e => ?_⟩
    obtain ⟨h1, h2⟩ := hd.2.2 t lex1 e
    refine ⟨((getch_step lex).lex_trans hstep).lex_trans h1, h2, Or.inl ?_⟩
    have := hstep.1
    have := h1.1
    omega
  · rw [if_neg hsp]
    have hd := lexer_dispatch_outcome ⟨junk.tok_class, false, junk.tval⟩ (lexer_getch lex).1
      (lexer_getch lex).2.loc (lexer_getch lex).2 rfl
    refine ⟨hd.1, hd.2.1, fun t lex1 e => ?_⟩
    obtain ⟨h1, h2⟩ := hd.2.2 t lex1 e
    refine ⟨(getch_step lex).lex_trans h1, h2, ?_⟩
    by_cases hc : (lexer_getch lex).1 = CEOF
    · right
      rw [hc] at e
      exact lexer_dispatch_eof _ _ _ rfl t lex1 e
    · left
      have := getch_strict lex hc
      have := h1.1
      omega

theorem parser_skip_comments_outcome (heap : Nat → Junk) :
    ∀ (fuel : Nat) (lex : Lexer) (n : Nat), lex.file.length < fuel →
      parser_skip_comments heap fuel lex n ≠ .nofuel ∧
      (HeapOK heap → parser_skip_comments heap fuel lex n ≠ .abort) ∧
      ∀ tok lex1 n1, parser_skip_comments heap fuel lex n = .ok (tok, lex1, n1) →
        LexStep lex lex1 ∧ NoMarker tok ∧
        (lex1.file.length < lex.file.length ∨ TokEof tok) := by
  intro fuel
  induction fuel with
  | zero => intro lex n h; omega
  | succ f ih =>
    intro lex n h
    obtain ⟨h1, h2, h3⟩ := lexer_get_token_outcome (heap n) lex
    unfold parser_skip_comments
    cases hg : lexer_get_token (heap n) lex with
    | nofuel => exact absurd hg h1
    | abort =>
      refine ⟨by simp, fun hok => absurd hg (h2 (hok n)), by simp⟩
    | ok r =>
      obtain ⟨tok, lex1⟩ := r
      obtain ⟨hstep, htext, hprog⟩ := h3 tok lex1 hg
      simp only []
      by_cases hc : token_class tok ≠ tok_comments ∧ token_class tok ≠ tok_whitespace
      · rw [if_pos hc]
        refine ⟨by simp, by simp, ?_⟩
        intro tok1 lex2 n1 e
        simp only [Res.ok.injEq, Prod.mk.injEq] at e
        obtain ⟨rfl, rfl, rfl⟩ := e
        refine ⟨hstep, ?_, ?_⟩
        · intro hub
          rcases htext hub with hcm | hm
          · exact absurd hcm hc.1
          · exact hm
        · rcases hprog with hp | hp
          · exact Or.inl hp
          · exact Or.inr hp
      · rw [if_neg hc]
        have hlt : lex1.file.length < lex.file.length := by
          rcases hprog with hp | ⟨hp, _⟩
          · exact hp
          · exfalso
            apply hc
            unfold token_class
            rw [hp]
            exact ⟨by decide, by decide⟩
        obtain ⟨i1, i2, i3⟩ := ih lex1 (n + 1) (by omega)
        refine ⟨i1, i2, ?_⟩
        intro tok1 lex2 n1 e
        obtain ⟨j1, j2, j3⟩ := i3 tok1 lex2 n1 e
        refine ⟨hstep.lex_trans j1, j2, ?_⟩
        rcases j3 with j | j
        · left; omega
        · exact Or.inr j

theorem buffer_push_ok (toks : List Token) (p : Parser) (tok : Token) (hinv : RingInv toks p) :
    ∃ slot p1, buffer_push p tok = .ok (slot, p1) := by
  obtain ⟨hsize, hlen, hu, hend, hstart, hslots⟩ := hinv
  unfold buffer_push
  rw [hsize]
  simp only [show ¬ ((16 : Nat) = 0) from by decide, if_false]
  by_cases hfull : (p.buf_end + 1) % 16 = p.buf_start
  · rw [if_pos hfull]
    have hn : 15 ≤ toks.length := by
      by_contra hlt
      rw [hend, hstart, if_pos (by omega)] at hfull
      omega
    have hlt : toks.length - 15 < toks.length := by omega
    have := hslots (toks.length - 15) _ (List.getElem?_eq_getElem hlt) (by omega)
    have e : (toks.length - 15) % 16 = p.buf_start := by
      rw [hstart, if_neg (by omega)]; omega
    rw [e] at this
    rw [this]
    exact ⟨_, _, rfl⟩
  · rw [if_neg hfull]
    exact ⟨_, _, rfl⟩

theorem pinv_of_ringInv (toks : List Token) (p : Parser) (h : RingInv toks p)
    (hm : ∀ t ∈ toks, NoMarker t) : PInv p := by
  refine ⟨toks, ?_, hm, ?_, ?_⟩
  · exact ringInv_congr toks p _ h rfl rfl rfl rfl h.2.2.1.symm
  · rw [h.2.2.1]; omega
  · rw [h.2.2.1]; omega

theorem parser_get_lexer_token_outcome (heap : Nat → Junk) (p : Parser) (hp : PInv p) :
    parser_get_lexer_token heap p ≠ .nofuel ∧
    (HeapOK heap → parser_get_lexer_token heap p ≠ .abort) ∧
    ∀ tok slot p1, parser_get_lexer_token heap p = .ok (tok, slot, p1) →
      PInv p1 ∧ PStep p p1 ∧ ReadPost p tok p1 := by
  obtain ⟨toks, hring, hmark, hu1, hu2⟩ := hp
  unfold parser_get_lexer_token
  by_cases hu : p.unget_idx = 0
  · rw [if_pos hu]
    obtain ⟨s1, s2, s3⟩ := parser_skip_comments_outcome heap (p.lex.file.length + 1) p.lex p.ntok
      (by omega)
    cases hs : parser_skip_comments heap (p.lex.file.length + 1) p.lex p.ntok with
    | nofuel => exact absurd hs s1
    | abort => exact ⟨by simp, fun hok => absurd hs (s2 hok), by simp⟩
    | ok r =>
      obtain ⟨tok, lex1, n1⟩ := r
      obtain ⟨hstep, hnm, hprog⟩ := s3 tok lex1 n1 hs
      simp only []
      obtain ⟨c1, c2, c3, c4, c5, c6, c7⟩ :=
        count_brackets_buffer { p with lex := lex1, ntok := n1 } tok
      have hq : RingInv toks (count_brackets { p with lex := lex1, ntok := n1 } tok) :=
        ringInv_congr toks _ _ hring c1 c2 c3 c4 (by rw [c5]; exact hu)
      obtain ⟨slot, p1, hpush⟩ := buffer_push_ok toks _ tok hq
      obtain ⟨hring1, hlex1, _⟩ := ringInv_push toks _ p1 tok slot hq hpush
      rw [hpush]
      refine ⟨by simp, by simp, ?_⟩
      intro a slot2 p2 e
      simp only [Res.ok.injEq, Prod.mk.injEq] at e
      obtain ⟨rfl, rfl, rfl⟩ := e
      have hm1 : ∀ t ∈ toks ++ [tok], NoMarker t := by
        intro t ht
        rcases List.mem_append.1 ht with h | h
        · exact hmark t h
        · simp only [List.mem_singleton] at h
          rw [h]; exact hnm
      have hlexeq : p1.lex = lex1 := by rw [hlex1, c6]
      refine ⟨pinv_of_ringInv _ p1 hring1 hm1, ?_, hring1.2.2.1, ?_, hnm, ?_⟩
      · rw [PStep, hlexeq]; exact ⟨hstep.1, hstep.2.1⟩
      · refine ⟨toks ++ [tok], ?_, hm1, le_refl _, by simp⟩
        exact ringInv_congr _ p1 _ hring1 rfl rfl rfl rfl hring1.2.2.1.symm
      · intro _
        rw [hlexeq]
        exact hprog
  · rw [if_neg hu]
    have hu1' : p.unget_idx = 1 := by omega
    have hlt : toks.length - 1 < toks.length := by omega
    have hr := ringInv_replay toks { p with unget_idx := 0 } 1 _ hring (le_refl _) (by omega)
      (by omega) (List.getElem?_eq_getElem hlt)
    have hpe : ({ ({ p with unget_idx := 0 } : Parser) with unget_idx := 1 } : Parser) = p := by
      cases p; simp_all
    rw [hpe] at hr
    rw [hr]
    refine ⟨by simp, by simp, ?_⟩
    intro a slot2 p2 e
    simp only [Res.ok.injEq, Prod.mk.injEq] at e
    obtain ⟨rfl, rfl, rfl⟩ := e
    refine ⟨⟨toks, hring, hmark, by simp, by simp⟩, ⟨le_refl _, le_refl _⟩, rfl, ?_, ?_, ?_⟩
    · refine ⟨toks, hring, hmark, by simp, ?_⟩
      simp only; omega
    · exact hmark _ (List.getElem_mem _)
    · intro h; exact absurd h hu
theorem pinv_lex (p : Parser) (lex : Lexer) (h : PInv p) : PInv { p with lex := lex } := by
  obtain ⟨toks, hring, hm, h1, h2⟩ := h
  exact ⟨toks, ringInv_congr toks _ _ hring rfl rfl rfl rfl rfl, hm, h1, h2⟩

theorem pinv_buf_size (p : Parser) (h : PInv p) : p.buf_size = 16 := by
  obtain ⟨toks, hring, _⟩ := h
  exact hring.1

theorem parser_get_token_eq (heap : Nat → Junk) (p : Parser) (hp : PInv p) :
    parser_get_token heap p =
      match parser_get_lexer_token heap p with
      | .ok (tok, _, p1) => .ok (tok, p1)
      | .abort => .abort
      | .nofuel => .nofuel := by
  obtain ⟨_, _, h3⟩ := parser_get_lexer_token_outcome heap p hp
  unfold parser_get_token parser_fuel
  rw [show p.lex.file.length + p.unget_idx + 2 = (p.lex.file.length + p.unget_idx + 1) + 1
    from rfl]
  unfold parser_get_token_aux
  cases hg : parser_get_lexer_token heap p with
  | nofuel => rfl
  | abort => rfl
  | ok r =>
    obtain ⟨tok, slot, p1⟩ := r
    obtain ⟨_, _, _, _, hnm, _⟩ := h3 tok slot p1 hg
    simp only []
    by_cases hub : token_uses_buf tok = true
    · have := hnm hub
      simp [hub, this]
    · simp [hub]

theorem parser_get_token_outcome (heap : Nat → Junk) (p : Parser) (hp : PInv p) :
    POutcome heap p (parser_get_token heap p) (fun tok p1 => ReadPost p tok p1) := by
  obtain ⟨h1, h2, h3⟩ := parser_get_lexer_token_outcome heap p hp
  rw [parser_get_token_eq heap p hp]
  cases hg : parser_get_lexer_token heap p with
  | nofuel => exact absurd hg h1
  | abort => exact ⟨by simp, fun hok => absurd hg (h2 hok), by simp⟩
  | ok r =>
    obtain ⟨tok, slot, p1⟩ := r
    refine ⟨by simp, by simp, ?_⟩
    intro a p2 e
    simp only [Res.ok.injEq, Prod.mk.injEq] at e
    obtain ⟨rfl, rfl⟩ := e
    exact h3 _ slot _ hg

theorem parser_unget_after_read (p : Parser) (tok : Token) (p1 : Parser)
    (h : ReadPost p tok p1) :
    parser_unget p1 = .ok { p1 with unget_idx := 1 } := by
  obtain ⟨h0, hinv, _⟩ := h
  have hs := pinv_buf_size _ hinv
  simp only at hs
  unfold parser_unget
  rw [if_pos (by omega), h0]

theorem parser_error_step (p : Parser) :
    PStep p (parser_error p) ∧ p.lex.error_count < (parser_error p).lex.error_count ∧
    (parser_error p).unget_idx = p.unget_idx := by
  unfold parser_error error_loc PStep
  simp

theorem PStep.par_refl (p : Parser) : PStep p p := ⟨le_refl _, le_refl _⟩

theorem PStep.par_trans {a b c : Parser} (h1 : PStep a b) (h2 : PStep b c) : PStep a c :=
  ⟨le_trans h2.1 h1.1, le_trans h1.2 h2.2⟩

theorem parser_forward_tval_outcome (heap : Nat → Junk) (p : Parser) (k : TokenKind)
    (hp : PInv p) :
    POutcome heap p (parser_forward_tval heap p k) (fun o p1 => ForwardPost p o p1) := by
  obtain ⟨h1, h2, h3⟩ := parser_get_token_outcome heap p hp
  unfold parser_forward_tval
  cases hg : parser_get_token heap p with
  | nofuel => exact absurd hg h1
  | abort => exact ⟨by simp, fun hok => absurd hg (h2 hok), by simp⟩
  | ok r =>
    obtain ⟨tok, p1⟩ := r
    obtain ⟨hinv, hstep, hu, _, _, _⟩ := h3 tok p1 hg
    simp only []
    split
    · refine ⟨by simp, by simp, ?_⟩
      intro a p2 e
      simp only [Res.ok.injEq, Prod.mk.injEq] at e
      obtain ⟨rfl, rfl⟩ := e
      obtain ⟨e1, e2, e3⟩ := parser_error_step p1
      refine ⟨pinv_lex p1 _ hinv, hstep.par_trans e1, by rw [e3]; exact hu, ?_⟩
      intro _
      have := hstep.2
      omega
    · refine ⟨by simp, by simp, ?_⟩
      intro a p2 e
      simp only [Res.ok.injEq, Prod.mk.injEq] at e
      obtain ⟨rfl, rfl⟩ := e
      exact ⟨hinv, hstep, hu, by simp⟩

theorem parser_get_until_tval_loop_outcome (heap : Nat → Junk) (k : TokenKind) :
    ∀ (fuel : Nat) (p : Parser), PInv p → p.lex.file.length + p.unget_idx < fuel →
      POutcome heap p (parser_get_until_tval_loop heap k fuel p) (fun _ p1 => p1.unget_idx = 0) := by
  intro fuel
  induction fuel with
  | zero => intro p _ h; omega
  | succ f ih =>
    intro p hp hfuel
    obtain ⟨h1, h2, h3⟩ := parser_get_token_outcome heap p hp
    unfold parser_get_until_tval_loop
    cases hg : parser_get_token heap p with
    | nofuel => exact absurd hg h1
    | abort => exact ⟨by simp, fun hok => absurd hg (h2 hok), by simp⟩
    | ok r =>
      obtain ⟨tok, p1⟩ := r
      obtain ⟨hinv, hstep, hu, _, _, hprog⟩ := h3 tok p1 hg
      simp only []
      split
      · refine ⟨by simp, by simp, ?_⟩
        intro a p2 e
        simp only [Res.ok.injEq, Prod.mk.injEq] at e
        obtain ⟨rfl, rfl⟩ := e
        exact ⟨hinv, hstep, hu⟩
      · by_cases hc : token_class tok ≠ tok_eof
        · rw [if_pos hc]
          have hlt : p1.lex.file.length + p1.unget_idx < f := by
            rw [hu]
            by_cases hpu : p.unget_idx = 0
            · rcases hprog hpu with hlt | ⟨he, _⟩
              · omega
              · exact absurd he hc
            · have := hstep.1
              omega
          obtain ⟨i1, i2, i3⟩ := ih p1 hinv hlt
          refine ⟨i1, i2, ?_⟩
          intro a p2 e
          obtain ⟨j1, j2, j3⟩ := i3 a p2 e
          exact ⟨j1, hstep.par_trans j2, j3⟩
        · rw [if_neg hc]
          refine ⟨by simp, by simp, ?_⟩
          intro a p2 e
          simp only [Res.ok.injEq, Prod.mk.injEq] at e
          obtain ⟨rfl, rfl⟩ := e
          exact ⟨hinv, hstep, hu⟩

theorem handle_error_outcome (heap : Nat → Junk) (p : Parser) (k : TokenKind) (hp : PInv p) :
    POutcome heap p (handle_error heap p k)
      (fun t p1 => p1.unget_idx = 0 ∧ t = .error_mark) := by
  obtain ⟨h1, h2, h3⟩ := parser_get_until_tval_loop_outcome heap k (parser_fuel p) p hp
    (by unfold parser_fuel; omega)
  unfold handle_error parser_get_until_tval
  cases hg : parser_get_until_tval_loop heap k (parser_fuel p) p with
  | nofuel => exact absurd hg h1
  | abort => exact ⟨by simp, fun hok => absurd hg (h2 hok), by simp⟩
  | ok r =>
    obtain ⟨tok, p1⟩ := r
    obtain ⟨hinv, hstep, hu⟩ := h3 tok p1 hg
    refine ⟨by simp, by simp, ?_⟩
    intro a p2 e
    simp only [Res.ok.injEq, Prod.mk.injEq] at e
    obtain ⟨rfl, rfl⟩ := e
    exact ⟨hinv, hstep, hu, rfl⟩

theorem handle_value_outcome (heap : Nat → Junk) (p : Parser) (hp : PInv p) :
    POutcome heap p (handle_value heap p) (ElemPost Tree.is_value p) := by
  obtain ⟨h1, h2, h3⟩ := parser_get_token_outcome heap p hp
  unfold handle_value
  cases hg : parser_get_token heap p with
  | nofuel => exact absurd hg h1
  | abort => exact ⟨by simp, fun hok => absurd hg (h2 hok), by simp⟩
  | ok r =>
    obtain ⟨tok, p1⟩ := r
    obtain ⟨hinv, hstep, hu, _⟩ := h3 tok p1 hg
    refine ⟨by simp, by simp, ?_⟩
    intro a p2 e
    simp only [Res.ok.injEq, Prod.mk.injEq] at e
    obtain ⟨rfl, rfl⟩ := e
    exact ⟨hinv, hstep, hu, fun _ => ⟨rfl, rfl, rfl⟩⟩

theorem operator_not_eof (tok : Token) (k : TokenKind) (h : token_is_operator tok k = true) :
    ¬ TokEof tok := by
  intro ⟨he, _⟩
  unfold token_is_operator token_class at h
  rw [he] at h
  simp at h

theorem keyword_not_eof (tok : Token) (k : TokenKind) (h : token_is_keyword tok k = true) :
    ¬ TokEof tok := by
  intro ⟨he, _⟩
  unfold token_is_keyword token_class at h
  rw [he] at h
  simp at h

theorem handle_list_loop_outcome (heap : Nat → Junk) (H : Parser → Res (Tree × Parser))
    (wfE : Tree → Bool) (delim : TokenKind)
    (hH : ∀ p, PInv p → POutcome heap p (H p) (ElemPost wfE p)) :
    ∀ (fuel : Nat) (l : Location) (es : List Tree) (p : Parser), PInv p →
      p.lex.file.length < fuel →
      POutcome heap p (handle_list_loop heap H delim fuel (.list l es) p)
        (fun t p1 => ∃ es1, t = .list l (es ++ es1) ∧
          (p1.lex.error_count = p.lex.error_count → ∀ e ∈ es1, wfE e = true)) := by
  intro fuel
  induction fuel with
  | zero => intro l es p _ h; omega
  | succ f ih =>
    intro l es p hp hfuel
    obtain ⟨h1, h2, h3⟩ := hH p hp
    unfold handle_list_loop
    cases hg : H p with
    | nofuel => exact absurd hg h1
    | abort => exact ⟨by simp, fun hok => absurd hg (h2 hok), by simp⟩
    | ok r =>
      obtain ⟨t, p1⟩ := r
      obtain ⟨hinv1, hstep1, hu1, hwf1⟩ := h3 t p1 hg
      simp only []
      -- the list after the element was added
      obtain ⟨es0, hes0, hes0wf⟩ : ∃ es0,
          (if (!t.is_null && !t.is_error_mark) = true then tree_list_append (.list l es) t
            else Res.ok (.list l es)) = Res.ok (.list l (es ++ es0)) ∧
          (p1.lex.error_count = p.lex.error_count → ∀ e ∈ es0, wfE e = true) := by
        by_cases hc : (!t.is_null && !t.is_error_mark) = true
        · refine ⟨[t], by rw [if_pos hc]; rfl, ?_⟩
          intro hec e he
          simp only [List.mem_singleton] at he
          rw [he]
          exact (hwf1 hec).2.2
        · refine ⟨[], by rw [if_neg hc]; simp, ?_⟩
          intro _ e he
          cases he
      rw [hes0]
      simp only []
      obtain ⟨g1, g2, g3⟩ := parser_get_token_outcome heap p1 hinv1
      cases hg2 : parser_get_token heap p1 with
      | nofuel => exact absurd hg2 g1
      | abort => exact ⟨by simp, fun hok => absurd hg2 (g2 hok), by simp⟩
      | ok r2 =>
        obtain ⟨tok, p2⟩ := r2
        obtain ⟨hinv2, hstep2, hpost2⟩ := g3 tok p2 hg2
        simp only []
        by_cases hd : token_is_operator tok delim = true
        · simp only [hd, Bool.not_true, Bool.false_eq_true, if_false]
          have hlt : p2.lex.file.length < f := by
            rcases hpost2.2.2.2 hu1 with h | h
            · have := hstep1.1
              omega
            · exact absurd h (operator_not_eof tok delim hd)
          obtain ⟨i1, i2, i3⟩ := ih l (es ++ es0) p2 hinv2 hlt
          refine ⟨i1, i2, ?_⟩
          intro a p3 e
          obtain ⟨j1, j2, es2, j3, j4⟩ := i3 a p3 e
          refine ⟨j1, (hstep1.par_trans hstep2).par_trans j2, es0 ++ es2, by rw [j3]; simp, ?_⟩
          intro hec e1 he1
          have m1 := hstep1.2
          have m2 := hstep2.2
          have m3 := j2.2
          rcases List.mem_append.1 he1 with h | h
          · exact hes0wf (by omega) e1 h
          · exact j4 (by omega) e1 h
        · simp only [hd, Bool.not_false, if_true]
          rw [parser_unget_after_read p1 tok p2 hpost2]
          refine ⟨by simp, by simp, ?_⟩
          intro a p3 e
          simp only [Res.ok.injEq, Prod.mk.injEq] at e
          obtain ⟨rfl, rfl⟩ := e
          refine ⟨hpost2.2.1, hstep1.par_trans hstep2, es0, rfl, ?_⟩
          intro hec
          have m1 := hstep1.2
          have m2 := hstep2.2
          simp only at hec
          exact hes0wf (by omega)

theorem handle_list_outcome (heap : Nat → Junk) (H : Parser → Res (Tree × Parser))
    (wfE : Tree → Bool) (delim : TokenKind)
    (hH : ∀ p, PInv p → POutcome heap p (H p) (ElemPost wfE p)) (p : Parser) (hp : PInv p) :
    POutcome heap p (handle_list heap p H delim)
      (fun t p1 => p1.lex.error_count = p.lex.error_count →
        ∃ l es, t = .list l es ∧ ∀ e ∈ es, wfE e = true) := by
  obtain ⟨h1, h2, h3⟩ := hH p hp
  unfold handle_list
  cases hg : H p with
  | nofuel => exact absurd hg h1
  | abort => exact ⟨by simp, fun hok => absurd hg (h2 hok), by simp⟩
  | ok r =>
    obtain ⟨t, p1⟩ := r
    obtain ⟨hinv1, hstep1, hu1, hwf1⟩ := h3 t p1 hg
    simp only []
    by_cases herr : t.is_error_mark = true
    · rw [if_pos herr]
      refine ⟨by simp, by simp, ?_⟩
      intro a p3 e
      simp only [Res.ok.injEq, Prod.mk.injEq] at e
      obtain ⟨rfl, rfl⟩ := e
      refine ⟨hinv1, hstep1, ?_⟩
      intro hec
      have := (hwf1 hec).1
      rw [herr] at this
      cases this
    · rw [if_neg herr]
      obtain ⟨g1, g2, g3⟩ := parser_get_token_outcome heap p1 hinv1
      cases hg2 : parser_get_token heap p1 with
      | nofuel => exact absurd hg2 g1
      | abort => exact ⟨by simp, fun hok => absurd hg2 (g2 hok), by simp⟩
      | ok r2 =>
        obtain ⟨tok, p2⟩ := r2
        obtain ⟨hinv2, hstep2, hpost2⟩ := g3 tok p2 hg2
        have happ : tree_list_append make_tree_list t = .ok (.list ⟨0, 0⟩ [t]) := rfl
        simp only [happ]
        by_cases hd : token_is_operator tok delim = true
        · simp only [hd, Bool.not_true, Bool.false_eq_true, if_false]
          obtain ⟨i1, i2, i3⟩ := handle_list_loop_outcome heap H wfE delim hH (parser_fuel p2)
            ⟨0, 0⟩ [t] p2 hinv2 (by unfold parser_fuel; omega)
          refine ⟨i1, i2, ?_⟩
          intro a p3 e
          obtain ⟨j1, j2, es2, j3, j4⟩ := i3 a p3 e
          refine ⟨j1, (hstep1.par_trans hstep2).par_trans j2, ?_⟩
          intro hec
          have m1 := hstep1.2
          have m2 := hstep2.2
          have m3 := j2.2
          refine ⟨_, _, j3, ?_⟩
          intro e1 he1
          rcases List.mem_append.1 he1 with h | h
          · simp only [List.mem_singleton] at h
            rw [h]
            exact (hwf1 (by omega)).2.2
          · exact j4 (by omega) e1 h
        · simp only [hd, Bool.not_false, if_true]
          rw [parser_unget_after_read p1 tok p2 hpost2]
          refine ⟨by simp, by simp, ?_⟩
          intro a p3 e
          simp only [Res.ok.injEq, Prod.mk.injEq] at e
          obtain ⟨rfl, rfl⟩ := e
          refine ⟨hpost2.2.1, hstep1.par_trans hstep2, ?_⟩
          intro hec
          have m1 := hstep1.2
          have m2 := hstep2.2
          simp only at hec
          refine ⟨_, _, rfl, ?_⟩
          intro e1 he1
          simp only [List.mem_singleton] at he1
          rw [he1]
          exact (hwf1 (by omega)).2.2
theorem handle_args_outcome (heap : Nat → Junk) (p : Parser) (hp : PInv p) :
    POutcome heap p (handle_args heap p) (ElemPost wf_group p) := by
  obtain ⟨h1, h2, h3⟩ := parser_forward_tval_outcome heap p tv_lparen hp
  unfold handle_args
  cases hg : parser_forward_tval heap p tv_lparen with
  | nofuel => exact absurd hg h1
  | abort => exact ⟨by simp, fun hok => absurd hg (h2 hok), by simp⟩
  | ok r =>
    obtain ⟨o, p1⟩ := r
    obtain ⟨hinv1, hstep1, hu1, herr1⟩ := h3 o p1 hg
    cases o with
    | none =>
      simp only []
      obtain ⟨i1, i2, i3⟩ := handle_error_outcome heap p1 tv_rparen hinv1
      refine ⟨i1, i2, ?_⟩
      intro a p2 e
      obtain ⟨j1, j2, j3, _⟩ := i3 a p2 e
      refine ⟨j1, hstep1.par_trans j2, j3, ?_⟩
      intro hec
      have := herr1 rfl
      have := j2.2
      omega
    | some tok =>
      simp only []
      obtain ⟨l1, l2, l3⟩ := handle_list_outcome heap (handle_value heap) Tree.is_value tv_comma
        (handle_value_outcome heap) p1 hinv1
      cases hl : handle_list heap p1 (handle_value heap) tv_comma with
      | nofuel => exact absurd hl l1
      | abort => exact ⟨by simp, fun hok => absurd hl (l2 hok), by simp⟩
      | ok r2 =>
        obtain ⟨t, p2⟩ := r2
        obtain ⟨hinv2, hstep2, hwf2⟩ := l3 t p2 hl
        simp only []
        obtain ⟨f1, f2, f3⟩ := parser_forward_tval_outcome heap p2 tv_rparen hinv2
        cases hf : parser_forward_tval heap p2 tv_rparen with
        | nofuel => exact absurd hf f1
        | abort => exact ⟨by simp, fun hok => absurd hf (f2 hok), by simp⟩
        | ok r3 =>
          obtain ⟨o3, p3⟩ := r3
          obtain ⟨hinv3, hstep3, hu3, herr3⟩ := f3 o3 p3 hf
          have m1 := hstep1.2
          have m2 := hstep2.2
          have m3 := hstep3.2
          cases o3 with
          | none =>
            refine ⟨by simp, by simp, ?_⟩
            intro a p4 e
            simp only [Res.ok.injEq, Prod.mk.injEq] at e
            obtain ⟨rfl, rfl⟩ := e
            refine ⟨hinv3, (hstep1.par_trans hstep2).par_trans hstep3, hu3, ?_⟩
            intro hec
            have := herr3 rfl
            omega
          | some tok3 =>
            refine ⟨by simp, by simp, ?_⟩
            intro a p4 e
            simp only [Res.ok.injEq, Prod.mk.injEq] at e
            obtain ⟨rfl, rfl⟩ := e
            refine ⟨hinv3, (hstep1.par_trans hstep2).par_trans hstep3, hu3, ?_⟩
            intro hec
            obtain ⟨l, es, rfl, hes⟩ := hwf2 (by omega)
            refine ⟨rfl, rfl, ?_⟩
            simp only [wf_group, List.all_eq_true]
            exact hes

theorem handle_cases_outcome (heap : Nat → Junk) (p : Parser) (hp : PInv p) :
    POutcome heap p (handle_cases heap p) (ElemPost wf_function p) := by
  obtain ⟨h1, h2, h3⟩ := parser_forward_tval_outcome heap p tv_function hp
  unfold handle_cases
  cases hg : parser_forward_tval heap p tv_function with
  | nofuel => exact absurd hg h1
  | abort => exact ⟨by simp, fun hok => absurd hg (h2 hok), by simp⟩
  | ok r =>
    obtain ⟨o, p1⟩ := r
    obtain ⟨hinv1, hstep1, hu1, herr1⟩ := h3 o p1 hg
    have m1 := hstep1.2
    cases o with
    | none =>
      simp only []
      obtain ⟨i1, i2, i3⟩ := handle_error_outcome heap p1 tv_rbrace hinv1
      refine ⟨i1, i2, ?_⟩
      intro a p2 e
      obtain ⟨j1, j2, j3, _⟩ := i3 a p2 e
      refine ⟨j1, hstep1.par_trans j2, j3, ?_⟩
      intro hec
      have := herr1 rfl
      have := j2.2
      omega
    | some tok =>
      simp only []
      obtain ⟨g1, g2, g3⟩ := parser_get_token_outcome heap p1 hinv1
      cases hg2 : parser_get_token heap p1 with
      | nofuel => exact absurd hg2 g1
      | abort => exact ⟨by simp, fun hok => absurd hg2 (g2 hok), by simp⟩
      | ok r2 =>
        obtain ⟨name, p2⟩ := r2
        obtain ⟨hinv2, hstep2, _⟩ := g3 name p2 hg2
        have m2 := hstep2.2
        have hset0 : set_tree_operand (make_tree .FUNCTION) 0 (make_value_tok name) =
            .ok (.function ⟨0, 0⟩ (make_value_tok name) .null) := rfl
        simp only [hset0]
        obtain ⟨f1, f2, f3⟩ := parser_forward_tval_outcome heap p2 tv_lbrace hinv2
        cases hf : parser_forward_tval heap p2 tv_lbrace with
        | nofuel => exact absurd hf f1
        | abort => exact ⟨by simp, fun hok => absurd hf (f2 hok), by simp⟩
        | ok r3 =>
          obtain ⟨o3, p3⟩ := r3
          obtain ⟨hinv3, hstep3, hu3, herr3⟩ := f3 o3 p3 hf
          have m3 := hstep3.2
          cases o3 with
          | none =>
            simp only []
            obtain ⟨i1, i2, i3⟩ := handle_error_outcome heap p3 tv_rbrace hinv3
            refine ⟨i1, i2, ?_⟩
            intro a p4 e
            obtain ⟨j1, j2, j3, _⟩ := i3 a p4 e
            refine ⟨j1, ((hstep1.par_trans hstep2).par_trans hstep3).par_trans j2, j3, ?_⟩
            intro hec
            have := herr3 rfl
            have := j2.2
            omega
          | some tok3 =>
            simp only []
            obtain ⟨l1, l2, l3⟩ := handle_list_outcome heap (handle_args heap) wf_group tv_comma
              (handle_args_outcome heap) p3 hinv3
            cases hl : handle_list heap p3 (handle_args heap) tv_comma with
            | nofuel => exact absurd hl l1
            | abort => exact ⟨by simp, fun hok => absurd hl (l2 hok), by simp⟩
            | ok r4 =>
              obtain ⟨t, p4⟩ := r4
              obtain ⟨hinv4, hstep4, hwf4⟩ := l3 t p4 hl
              have m4 := hstep4.2
              have hset1 : set_tree_operand (.function ⟨0, 0⟩ (make_value_tok name) .null) 1 t =
                  .ok (.function ⟨0, 0⟩ (make_value_tok name) t) := rfl
              simp only [hset1]
              obtain ⟨k1, k2, k3⟩ := parser_forward_tval_outcome heap p4 tv_rbrace hinv4
              cases hk : parser_forward_tval heap p4 tv_rbrace with
              | nofuel => exact absurd hk k1
              | abort => exact ⟨by simp, fun hok => absurd hk (k2 hok), by simp⟩
              | ok r5 =>
                obtain ⟨o5, p5⟩ := r5
                obtain ⟨hinv5, hstep5, hu5, herr5⟩ := k3 o5 p5 hk
                have m5 := hstep5.2
                have hall := (((hstep1.par_trans hstep2).par_trans hstep3).par_trans hstep4).par_trans hstep5
                cases o5 with
                | none =>
                  refine ⟨by simp, by simp, ?_⟩
                  intro a p6 e
                  simp only [Res.ok.injEq, Prod.mk.injEq] at e
                  obtain ⟨rfl, rfl⟩ := e
                  refine ⟨hinv5, hall, hu5, ?_⟩
                  intro hec
                  have := herr5 rfl
                  omega
                | some tok5 =>
                  refine ⟨by simp, by simp, ?_⟩
                  intro a p6 e
                  simp only [Res.ok.injEq, Prod.mk.injEq] at e
                  obtain ⟨rfl, rfl⟩ := e
                  refine ⟨hinv5, hall, hu5, ?_⟩
                  intro hec
                  obtain ⟨l, es, rfl, hes⟩ := hwf4 (by omega)
                  refine ⟨rfl, rfl, ?_⟩
                  simp only [wf_function, make_value_tok, Tree.is_value, Bool.true_and,
                    List.all_eq_true]
                  exact hes
theorem handle_module_loop_outcome (heap : Nat → Junk) :
    ∀ (fuel : Nat) (l : Location) (name : Tree) (l2 : Location) (fs : List Tree) (p : Parser),
      PInv p → p.unget_idx = 0 → p.lex.file.length < fuel →
      POutcome heap p (handle_module_loop heap fuel (.module l name (.list l2 fs)) p)
        (fun t p1 => p1.unget_idx = 0 ∧ PInv { p1 with unget_idx := 1 } ∧
          ∃ fs1, t = .module l name (.list l2 (fs ++ fs1)) ∧
            (p1.lex.error_count = p.lex.error_count → ∀ e ∈ fs1, wf_function e = true)) := by
  intro fuel
  induction fuel with
  | zero => intro l name l2 fs p _ _ h; omega
  | succ f ih =>
    intro l name l2 fs p hp hu hfuel
    obtain ⟨g1, g2, g3⟩ := parser_get_token_outcome heap p hp
    unfold handle_module_loop
    cases hg : parser_get_token heap p with
    | nofuel => exact absurd hg g1
    | abort => exact ⟨by simp, fun hok => absurd hg (g2 hok), by simp⟩
    | ok r =>
      obtain ⟨tok, p1⟩ := r
      obtain ⟨hinv1, hstep1, hpost1⟩ := g3 tok p1 hg
      have m1 := hstep1.2
      simp only []
      by_cases hk : token_is_keyword tok tv_function = true
      · rw [if_pos hk, parser_unget_after_read p tok p1 hpost1]
        simp only []
        obtain ⟨c1, c2, c3⟩ := handle_cases_outcome heap { p1 with unget_idx := 1 } hpost1.2.1
        cases hc : handle_cases heap { p1 with unget_idx := 1 } with
        | nofuel => exact absurd hc c1
        | abort => exact ⟨by simp, fun hok => absurd hc (c2 hok), by simp⟩
        | ok r2 =>
          obtain ⟨t, p3⟩ := r2
          obtain ⟨hinv3, hstep3, hu3, hwf3⟩ := c3 t p3 hc
          have m3 := hstep3.2
          have e1 : get_tree_operand (.module l name (.list l2 fs)) 1 = .ok (.list l2 fs) := rfl
          have e2 : tree_list_append (.list l2 fs) t = .ok (.list l2 (fs ++ [t])) := rfl
          have e3 : set_tree_operand (.module l name (.list l2 fs)) 1 (.list l2 (fs ++ [t])) =
              .ok (.module l name (.list l2 (fs ++ [t]))) := rfl
          simp only [e1, e2, e3]
          have hlt : p3.lex.file.length < f := by
            have h3 := hstep3.1
            simp only at h3
            rcases hpost1.2.2.2 hu with h | h
            · omega
            · exact absurd h (keyword_not_eof tok _ hk)
          obtain ⟨i1, i2, i3⟩ := ih l name l2 (fs ++ [t]) p3 hinv3 hu3 hlt
          refine ⟨i1, i2, ?_⟩
          intro a p4 e
          obtain ⟨j1, j2, j3, j4, fs2, j5, j6⟩ := i3 a p4 e
          have m4 := j2.2
          refine ⟨j1, ?_, j3, j4, [t] ++ fs2, by rw [j5]; simp, ?_⟩
          · exact (hstep1.par_trans (show PStep p1 p3 from hstep3)).par_trans j2
          · intro hec e1 he1
            simp only at m3
            rcases List.mem_append.1 he1 with h | h
            · simp only [List.mem_singleton] at h
              rw [h]
              exact (hwf3 (by simp only; omega)).2.2
            · exact j6 (by omega) e1 h
      · rw [if_neg hk]
        refine ⟨by simp, by simp, ?_⟩
        intro a p4 e
        simp only [Res.ok.injEq, Prod.mk.injEq] at e
        obtain ⟨rfl, rfl⟩ := e
        exact ⟨hinv1, hstep1, hpost1.1, hpost1.2.1, [], by simp, by simp⟩

theorem handle_module_outcome (heap : Nat → Junk) (p : Parser) (hp : PInv p) :
    POutcome heap p (handle_module heap p) (ModulePost p) := by
  obtain ⟨h1, h2, h3⟩ := parser_forward_tval_outcome heap p tv_validate hp
  unfold handle_module
  cases hg : parser_forward_tval heap p tv_validate with
  | nofuel => exact absurd hg h1
  | abort => exact ⟨by simp, fun hok => absurd hg (h2 hok), by simp⟩
  | ok r =>
    obtain ⟨o, p1⟩ := r
    obtain ⟨hinv1, hstep1, hu1, herr1⟩ := h3 o p1 hg
    have m1 := hstep1.2
    cases o with
    | none =>
      simp only []
      obtain ⟨i1, i2, i3⟩ := handle_error_outcome heap p1 tv_rbrace hinv1
      refine ⟨i1, i2, ?_⟩
      intro a p2 e
      obtain ⟨j1, j2, j3, j4⟩ := i3 a p2 e
      refine ⟨j1, hstep1.par_trans j2, j3, Or.inl (by rw [j4]; rfl), ?_⟩
      intro hec
      have := herr1 rfl
      have := j2.2
      omega
    | some tok =>
      simp only []
      obtain ⟨g1, g2, g3⟩ := parser_get_token_outcome heap p1 hinv1
      cases hg2 : parser_get_token heap p1 with
      | nofuel => exact absurd hg2 g1
      | abort => exact ⟨by simp, fun hok => absurd hg2 (g2 hok), by simp⟩
      | ok r2 =>
        obtain ⟨name, p2⟩ := r2
        obtain ⟨hinv2, hstep2, _⟩ := g3 name p2 hg2
        have m2 := hstep2.2
        have hset0 : set_tree_operand (make_tree .MODULE) 0 (make_value_tok name) =
            .ok (.module ⟨0, 0⟩ (make_value_tok name) .null) := rfl
        simp only [hset0]
        obtain ⟨f1, f2, f3⟩ := parser_forward_tval_outcome heap p2 tv_lbrace hinv2
        cases hf : parser_forward_tval heap p2 tv_lbrace with
        | nofuel => exact absurd hf f1
        | abort => exact ⟨by simp, fun hok => absurd hf (f2 hok), by simp⟩
        | ok r3 =>
          obtain ⟨o3, p3⟩ := r3
          obtain ⟨hinv3, hstep3, hu3, herr3⟩ := f3 o3 p3 hf
          have m3 := hstep3.2
          cases o3 with
          | none =>
            simp only []
            obtain ⟨i1, i2, i3⟩ := handle_error_outcome heap p3 tv_rbrace hinv3
            refine ⟨i1, i2, ?_⟩
            intro a p4 e
            obtain ⟨j1, j2, j3, j4⟩ := i3 a p4 e
            refine ⟨j1, ((hstep1.par_trans hstep2).par_trans hstep3).par_trans j2, j3,
              Or.inl (by rw [j4]; rfl), ?_⟩
            intro hec
            have := herr3 rfl
            have := j2.2
            omega
          | some tok3 =>
            simp only []
            have hset1 : set_tree_operand (.module ⟨0, 0⟩ (make_value_tok name) .null) 1
                make_tree_list = .ok (.module ⟨0, 0⟩ (make_value_tok name) (.list ⟨0, 0⟩ [])) :=
              rfl
            simp only [hset1]
            obtain ⟨l1, l2, l3⟩ := handle_module_loop_outcome heap (parser_fuel p3) ⟨0, 0⟩
              (make_value_tok name) ⟨0, 0⟩ [] p3 hinv3 hu3 (by unfold parser_fuel; omega)
            cases hl : handle_module_loop heap (parser_fuel p3)
                (.module ⟨0, 0⟩ (make_value_tok name) (.list ⟨0, 0⟩ [])) p3 with
            | nofuel => exact absurd hl l1
            | abort => exact ⟨by simp, fun hok => absurd hl (l2 hok), by simp⟩
            | ok r4 =>
              obtain ⟨t, p4⟩ := r4
              obtain ⟨hinv4, hstep4, hu4, hinv4u, fs1, ht, hwf4⟩ := l3 t p4 hl
              have m4 := hstep4.2
              have hun : parser_unget p4 = .ok { p4 with unget_idx := 1 } := by
                unfold parser_unget
                rw [if_pos (by rw [hu4, pinv_buf_size p4 hinv4]; omega), hu4]
              simp only [hun]
              obtain ⟨k1, k2, k3⟩ := parser_forward_tval_outcome heap { p4 with unget_idx := 1 }
                tv_rbrace hinv4u
              cases hk : parser_forward_tval heap { p4 with unget_idx := 1 } tv_rbrace with
              | nofuel => exact absurd hk k1
              | abort => exact ⟨by simp, fun hok => absurd hk (k2 hok), by simp⟩
              | ok r5 =>
                obtain ⟨o5, p5⟩ := r5
                obtain ⟨hinv5, hstep5, hu5, herr5⟩ := k3 o5 p5 hk
                have m5 := hstep5.2
                simp only at m5 herr5
                have hall : PStep p p5 :=
                  (((hstep1.par_trans hstep2).par_trans hstep3).par_trans hstep4).par_trans
                    (show PStep p4 p5 from hstep5)
                cases o5 with
                | none =>
                  refine ⟨by simp, by simp, ?_⟩
                  intro a p6 e
                  simp only [Res.ok.injEq, Prod.mk.injEq] at e
                  obtain ⟨rfl, rfl⟩ := e
                  refine ⟨hinv5, hall, hu5, Or.inl rfl, ?_⟩
                  intro hec
                  have := herr5 rfl
                  omega
                | some tok5 =>
                  refine ⟨by simp, by simp, ?_⟩
                  intro a p6 e
                  simp only [Res.ok.injEq, Prod.mk.injEq] at e
                  obtain ⟨rfl, rfl⟩ := e
                  refine ⟨hinv5, hall, hu5, Or.inr (by rw [ht]; rfl), ?_⟩
                  intro hec
                  rw [ht]
                  simp only [wf_module, make_value_tok, Tree.is_value, Bool.true_and,
                    List.all_eq_true, List.nil_append]
                  exact hwf4 (by omega)

theorem module_exists_loop_ok (str : List Byte) :
    ∀ ms : List Tree, (∀ m ∈ ms, module_shape m = true) →
      ∃ found, module_exists_loop str ms = .ok found := by
  intro ms
  induction ms with
  | nil => intro _; exact ⟨_, rfl⟩
  | cons m rest ih =>
    intro h
    have hm := h m (by simp)
    obtain ⟨found, hf⟩ := ih (fun x hx => h x (by simp [hx]))
    unfold module_exists_loop
    match m, hm with
    | .module l (.value l1 v n) (.list l2 fs), _ =>
      simp only [get_tree_operand, tree_value, if_true]
      by_cases hc : strcmp v str = 0
      · rw [if_pos hc]; exact ⟨_, rfl⟩
      · rw [if_neg hc]; exact ⟨found, hf⟩

theorem register_module_ok (t : Tree) (p : Parser) (l : Location) (ms : List Tree)
    (ht : t.is_error_mark = true ∨ module_shape t = true)
    (hms : ∀ m ∈ ms, module_shape m = true) :
    ∃ p1 ms1, register_module t p (.list l ms) = .ok (p1, .list l (ms ++ ms1)) ∧
      (p1 = p ∨ p1 = parser_error p) ∧ (∀ m ∈ ms1, m = t ∧ module_shape t = true) := by
  unfold register_module
  rcases ht with ht | ht
  · refine ⟨p, [], ?_, Or.inl rfl, by simp⟩
    simp [ht]
  · match t, ht with
    | .module l0 (.value l1 v n) (.list l2 fs), _ =>
      obtain ⟨found, hf⟩ := module_exists_loop_ok v ms hms
      have e0 : (!(Tree.module l0 (Tree.value l1 v n) (Tree.list l2 fs)).is_null &&
          !(Tree.module l0 (Tree.value l1 v n) (Tree.list l2 fs)).is_error_mark) = true := rfl
      rw [if_pos e0]
      simp only [get_tree_operand, tree_value, module_exists, hf, if_true]
      by_cases hn : found.is_null = true
      · rw [if_pos hn]
        exact ⟨p, [_], rfl, Or.inl rfl, by simp [module_shape]⟩
      · rw [if_neg hn]
        exact ⟨parser_error p, [], by simp, Or.inr rfl, by simp⟩

theorem set_notifications_facts (p : Parser) (flag : Bool) (hp : PInv p) :
    PInv (set_notifications p flag) ∧
    (set_notifications p flag).unget_idx = p.unget_idx ∧
    (set_notifications p flag).lex.file = p.lex.file ∧
    (set_notifications p flag).lex.error_count = p.lex.error_count := by
  unfold set_notifications
  exact ⟨pinv_lex p _ hp, rfl, rfl, rfl⟩

theorem parse_loop_outcome (heap : Nat → Junk) :
    ∀ (fuel : Nat) (p : Parser) (l : Location) (ms : List Tree), PInv p → p.unget_idx = 0 →
      p.lex.file.length < fuel → (∀ m ∈ ms, module_shape m = true) →
      ParseOutcome heap p l ms (parse_loop heap fuel p (.list l ms)) := by
  intro fuel
  induction fuel with
  | zero => intro p l ms _ _ h; omega
  | succ f ih =>
    intro p l ms hp hu hfuel hms
    obtain ⟨g1, g2, g3⟩ := parser_get_token_outcome heap p hp
    unfold parse_loop
    cases hg : parser_get_token heap p with
    | nofuel => exact absurd hg g1
    | abort => exact ⟨by simp, fun hok => absurd hg (g2 hok), by simp⟩
    | ok r =>
      obtain ⟨tok, p1⟩ := r
      obtain ⟨hinv1, hstep1, hpost1⟩ := g3 tok p1 hg
      have m1 := hstep1.2
      simp only []
      by_cases hc : token_class tok ≠ tok_eof
      · rw [if_pos hc, parser_unget_after_read p tok p1 hpost1]
        simp only []
        obtain ⟨n1, n2, n3, n4⟩ := set_notifications_facts { p1 with unget_idx := 1 } true
          hpost1.2.1
        obtain ⟨c1, c2, c3⟩ := handle_module_outcome heap _ n1
        cases hm : handle_module heap (set_notifications { p1 with unget_idx := 1 } true) with
        | nofuel => exact absurd hm c1
        | abort => exact ⟨by simp, fun hok => absurd hm (c2 hok), by simp⟩
        | ok r2 =>
          obtain ⟨t, p3⟩ := r2
          obtain ⟨hinv3, hstep3, hu3, hshape3, hwf3⟩ := c3 t p3 hm
          simp only []
          obtain ⟨p4, ms1, hreg, hp4, hms1⟩ := register_module_ok t p3 l ms hshape3 hms
          rw [hreg]
          simp only []
          have hinv4 : PInv p4 := by
            rcases hp4 with rfl | rfl
            · exact hinv3
            · exact pinv_lex p3 _ hinv3
          have hu4 : p4.unget_idx = 0 := by
            rcases hp4 with rfl | rfl
            · exact hu3
            · exact hu3
          have hstep4 : PStep p3 p4 := by
            rcases hp4 with rfl | rfl
            · exact PStep.par_refl _
            · exact (parser_error_step p3).1
          obtain ⟨q1, q2, q3, q4⟩ := set_notifications_facts p4 false hinv4
          have hfile3 := hstep3.1
          have hec3 := hstep3.2
          rw [n3] at hfile3
          rw [n4] at hec3
          simp only at hfile3 hec3
          have hlt : (set_notifications p4 false).lex.file.length < f := by
            rw [q3]
            have := hstep4.1
            rcases hpost1.2.2.2 hu with h | h
            · omega
            · exact absurd h.1 hc
          obtain ⟨i1, i2, i3⟩ := ih (set_notifications p4 false) l (ms ++ ms1) q1
            (by rw [q2]; exact hu4) hlt
            (by
              intro m hmem
              rcases List.mem_append.1 hmem with h | h
              · exact hms m h
              · obtain ⟨rfl, h2⟩ := hms1 m h
                exact h2)
          refine ⟨i1, i2, ?_⟩
          intro p5 ml5 e
          obtain ⟨j1, ms2, j2, j3, j4⟩ := i3 p5 ml5 e
          have hfile5 := j1.1
          have hec5 := j1.2
          rw [q3] at hfile5
          rw [q4] at hec5
          have hec4 := hstep4.2
          have hfile4 := hstep4.1
          refine ⟨⟨by have := hstep1.1; omega, by omega⟩, ms1 ++ ms2, by rw [j2]; simp, ?_, ?_⟩
          · intro m hmem
            rcases List.mem_append.1 hmem with h | h
            · obtain ⟨rfl, h2⟩ := hms1 m h
              exact h2
            · exact j3 m h
          · intro hec m hmem
            rcases List.mem_append.1 hmem with h | h
            · obtain ⟨rfl, _⟩ := hms1 m h
              exact hwf3 (by rw [n4]; simp only; omega)
            · exact j4 (by rw [q4]; omega) m h
      · rw [if_neg hc]
        refine ⟨by simp, by simp, ?_⟩
        intro p5 ml5 e
        simp only [Res.ok.injEq, Prod.mk.injEq] at e
        obtain ⟨rfl, rfl⟩ := e
        exact ⟨hstep1, [], by simp, by simp, by simp⟩

theorem parse_outcome (heap : Nat → Junk) (p : Parser) (l : Location) (ms : List Tree)
    (hp : PInv p) (hu : p.unget_idx = 0) (hms : ∀ m ∈ ms, module_shape m = true) :
    parse heap p (.list l ms) ≠ .nofuel ∧
    (HeapOK heap → parse heap p (.list l ms) ≠ .abort) ∧
    ∀ ret p1 ml1, parse heap p (.list l ms) = .ok (ret, p1, ml1) →
      (ret = 0 ↔ p1.lex.error_count = 0) ∧ (ret ≠ 0 → ret = -3) ∧
      ∃ ms1, ml1 = .list l (ms ++ ms1) ∧ (ret = 0 → ∀ m ∈ ms1, wf_module m = true) := by
  have hp0 : PInv { p with lex := { p.lex with error_count := 0 } } := pinv_lex p _ hp
  obtain ⟨h1, h2, h3⟩ := parse_loop_outcome heap
    (parser_fuel { p with lex := { p.lex with error_count := 0 } })
    { p with lex := { p.lex with error_count := 0 } } l ms hp0 hu
    (by unfold parser_fuel; simp only; omega) hms
  unfold parse
  simp only []
  cases hg : parse_loop heap (parser_fuel { p with lex := { p.lex with error_count := 0 } })
      { p with lex := { p.lex with error_count := 0 } } (.list l ms) with
  | nofuel => exact absurd hg h1
  | abort => exact ⟨by simp, fun hok => absurd hg (h2 hok), by simp⟩
  | ok r =>
    obtain ⟨p1, ml1⟩ := r
    obtain ⟨_, ms1, hml, _, hwf⟩ := h3 p1 ml1 hg
    simp only at hwf
    simp only []
    by_cases hec : p1.lex.error_count ≠ 0
    · rw [if_pos hec]
      refine ⟨by simp, by simp, ?_⟩
      intro ret p2 ml2 e
      simp only [Res.ok.injEq, Prod.mk.injEq] at e
      obtain ⟨rfl, rfl, rfl⟩ := e
      refine ⟨?_, fun _ => rfl, ms1, hml, ?_⟩
      · constructor
        · intro h; exact absurd h (by decide)
        · intro h; exact absurd h hec
      · intro h; exact absurd h (by decide)
    · rw [if_neg hec]
      refine ⟨by simp, by simp, ?_⟩
      intro ret p2 ml2 e
      simp only [Res.ok.injEq, Prod.mk.injEq] at e
      obtain ⟨rfl, rfl, rfl⟩ := e
      have hz : p1.lex.error_count = 0 := not_not.1 hec
      exact ⟨⟨fun _ => hz, fun _ => rfl⟩, fun h => absurd rfl h, ms1, hml, fun _ => hwf hz⟩

theorem pinv_init (lex : Lexer) : PInv (parser_init parser_blank lex) :=
  pinv_of_ringInv [] _ (ringInv_init parser_blank lex) (by simp)

/-- The status of `parse`: for every input file (and whatever the fresh
tokens hold), `parse` ends within the budget of the model, and when it
returns, the status is 0 exactly when the error counter is 0 at the end;
every other status is -3.  In the model `parse` fails only when a fresh
token is left with an undefined class; the model gives the value field that
the lexer left unwritten a kind, so this part says nothing of the reads of
such a field by `token_as_string`. -/
theorem compile_status (heap : Nat → Junk) (file : List Byte) :
    compile heap file ≠ .nofuel ∧ (HeapOK heap → compile heap file ≠ .abort) ∧
    ∀ ret count ml, compile heap file = .ok (ret, count, ml) →
      (ret = 0 ↔ count = 0) ∧ (ret ≠ 0 → ret = -3) := by
  obtain ⟨h1, h2, h3⟩ := parse_outcome heap (parser_init parser_blank (lexer_init_file file 0))
    ⟨0, 0⟩ [] (pinv_init _) rfl (by simp)
  have hml : make_tree_list = Tree.list ⟨0, 0⟩ [] := rfl
  unfold compile
  rw [hml]
  cases hg : parse heap (parser_init parser_blank (lexer_init_file file 0)) (.list ⟨0, 0⟩ []) with
  | nofuel => exact absurd hg h1
  | abort => exact ⟨by simp, fun hok => absurd hg (h2 hok), by simp⟩
  | ok r =>
    obtain ⟨ret, p1, ml1⟩ := r
    refine ⟨by simp, by simp, ?_⟩
    intro ret2 count ml e
    simp only [Res.ok.injEq, Prod.mk.injEq] at e
    obtain ⟨rfl, rfl, rfl⟩ := e
    obtain ⟨a, b, _⟩ := h3 _ _ _ hg
    exact ⟨a, b⟩

/-- C10: when `parse` returns 0, `module_list` is a list of `MODULE` nodes,
each with a `VALUE` name and a `LIST` holding only `FUNCTION` nodes, each of
these with a `VALUE` name and a `LIST` of groups that are `LIST`s holding
only `VALUE` nodes; no `error_mark_node` and no `NULL` occurs in it. -/
theorem compile_ast_well_formed (heap : Nat → Junk) (file : List Byte) (count : Int)
    (ml : Tree) (h : compile heap file = .ok (0, count, ml)) :
    wf_module_list ml = true := by
  obtain ⟨_, _, h3⟩ := parse_outcome heap (parser_init parser_blank (lexer_init_file file 0))
    ⟨0, 0⟩ [] (pinv_init _) rfl (by simp)
  have hml : make_tree_list = Tree.list ⟨0, 0⟩ [] := rfl
  unfold compile at h
  rw [hml] at h
  cases hg : parse heap (parser_init parser_blank (lexer_init_file file 0)) (.list ⟨0, 0⟩ []) with
  | nofuel => simp [hg] at h
  | abort => simp [hg] at h
  | ok r =>
    obtain ⟨ret, p1, ml1⟩ := r
    simp only [hg, Res.ok.injEq, Prod.mk.injEq] at h
    obtain ⟨rfl, _, rfl⟩ := h
    obtain ⟨_, _, ms1, hm, hwf⟩ := h3 _ _ _ hg
    rw [hm]
    simp only [wf_module_list, List.nil_append, List.all_eq_true]
    exact hwf rfl

set_option maxRecDepth 100000 in
/-- Two instances of `compile_status`: a file that parses, and one with two
errors. -/
theorem compile_status_witness :
    (compile heap_invalid (bytes "validate M \x7b function F \x7b (1,2), (3,4) \x7d \x7d") =
        .ok (0, 0, lnode [mnode (vnode 1 10 "M")
          [fnode (vnode 1 23 "F")
            [lnode [vnode 1 28 "1", vnode 1 30 "2"], lnode [vnode 1 35 "3", vnode 1 37 "4"]]]]) ∧
      (((0 : Int) = 0 ↔ (0 : Int) = 0) ∧ ((0 : Int) ≠ 0 → (0 : Int) = -3))) ∧
    (compile heap_invalid
        (bytes "validate A \x7b function F \x7b (1) \x7d \x7d validate B \x7b function G \x7b (1,2) ") =
        .ok (-3, 2, lnode [mnode (vnode 1 10 "A")
          [fnode (vnode 1 23 "F") [lnode [vnode 1 28 "1"]]]]) ∧
      (((-3 : Int) = 0 ↔ (2 : Int) = 0) ∧ ((-3 : Int) ≠ 0 → (-3 : Int) = -3))) :=
  ⟨⟨rfl, (compile_status heap_invalid
      (bytes "validate M \x7b function F \x7b (1,2), (3,4) \x7d \x7d")).2.2 0 0 _ rfl⟩,
   ⟨rfl, (compile_status heap_invalid
      (bytes "validate A \x7b function F \x7b (1) \x7d \x7d validate B \x7b function G \x7b (1,2) ")).2.2
      (-3) 2 _ rfl⟩⟩

set_option maxRecDepth 1000000 in
/-- C9 fails on the code for an input with the characters `08`: the lexer
counts an error and returns the token without having written its class or
its value (C7), and `parse` returns no status at all, neither 0 nor -3: when
the class left in the token is no defined class the assertion at
`return_token` stops the program, for the file `08`, for `08` inside a
module, and for `08` after fifteen identifiers and a closing brace. -/
theorem compile_zero_eight_no_status :
    compile heap_invalid (bytes "08") = .abort ∧
    compile heap_invalid (bytes "validate M \x7b 08 \x7d") = .abort ∧
    compile heap_invalid (bytes "a a a a a a a a a a a a a a a \x7d 08") = .abort :=
  ⟨rfl, rfl, rfl⟩

set_option maxRecDepth 100000 in
/-- C10, an instance: the module list of
`validate M { function F { (1,2), (3,4) } }`. -/
theorem compile_ast_well_formed_witness :
    compile heap_invalid (bytes "validate M \x7b function F \x7b (1,2), (3,4) \x7d \x7d") =
      .ok (0, 0, lnode [mnode (vnode 1 10 "M")
        [fnode (vnode 1 23 "F")
          [lnode [vnode 1 28 "1", vnode 1 30 "2"], lnode [vnode 1 35 "3", vnode 1 37 "4"]]]]) ∧
    wf_module_list (lnode [mnode (vnode 1 10 "M")
        [fnode (vnode 1 23 "F")
          [lnode [vnode 1 28 "1", vnode 1 30 "2"], lnode [vnode 1 35 "3", vnode 1 37 "4"]]]]) = true :=
  ⟨rfl, compile_ast_well_formed heap_invalid
    (bytes "validate M \x7b function F \x7b (1,2), (3,4) \x7d \x7d") 0 _ rfl⟩

/-! ## The parser on the texts of the grammar -/

theorem lexer_skip_space_spec (c : Byte) (rest : List Byte) (hc : isspace c = false) :
    ∀ (ws : List Byte) (fuel : Nat) (lex : Lexer), lex.is_eof = false →
      lex.file = ws ++ c :: rest → spaces ws = true → ws.length < fuel →
      lexer_skip_space fuel lex =
        .ok (c, { lex with file := rest, loc := (ws ++ [c]).foldl advance lex.loc }) := by
  intro ws
  induction ws with
  | nil =>
    intro fuel lex he hf _ hfuel
    obtain ⟨f, rfl⟩ : ∃ f, fuel = f + 1 := ⟨fuel - 1, by simp at hfuel; omega⟩
    have hg := lexer_getch_cons lex c rest he (by simpa using hf)
    unfold lexer_skip_space
    simp [hg, hc]
  | cons w ws ih =>
    intro fuel lex he hf hsp hfuel
    obtain ⟨f, rfl⟩ : ∃ f, fuel = f + 1 := ⟨fuel - 1, by simp at hfuel; omega⟩
    have hw : isspace w = true := by
      simp only [spaces, List.all_cons, Bool.and_eq_true] at hsp; exact hsp.1
    have hws : spaces ws = true := by
      simp only [spaces, List.all_cons, Bool.and_eq_true] at hsp; exact hsp.2
    have hne : w ≠ CEOF := by intro h; rw [h] at hw; exact absurd hw (by decide)
    have hg := lexer_getch_cons lex w (ws ++ c :: rest) he (by simpa using hf)
    unfold lexer_skip_space
    simp only [hg, hw, hne, ne_eq, not_false_eq_true, and_self, if_true]
    rw [ih f _ (by simpa using he) rfl hws (by simp at hfuel; omega)]
    simp

theorem lexer_get_token_spaces (junk : Junk) (lex : Lexer) (ws : List Byte) (c : Byte)
    (rest : List Byte) (he : lex.is_eof = false) (hf : lex.file = ws ++ c :: rest)
    (hsp : spaces ws = true) (hc : isspace c = false) :
    lexer_get_token junk lex =
      lexer_get_token junk { lex with file := c :: rest, loc := ws.foldl advance lex.loc } := by
  have hright : lexer_get_token junk
      { lex with file := c :: rest, loc := ws.foldl advance lex.loc } =
      lexer_dispatch ⟨junk.tok_class, false, junk.tval⟩ c
        ((ws ++ [c]).foldl advance lex.loc)
        { lex with file := rest, loc := (ws ++ [c]).foldl advance lex.loc } := by
    have hg := lexer_getch_cons { lex with file := c :: rest, loc := ws.foldl advance lex.loc }
      c rest he rfl
    unfold lexer_get_token
    simp only [hg, hc, Bool.false_eq_true, if_false]
    simp
  rw [hright]
  cases ws with
  | nil =>
    have hg := lexer_getch_cons lex c rest he (by simpa using hf)
    unfold lexer_get_token
    simp only [hg, hc, Bool.false_eq_true, if_false]
    simp
  | cons w ws =>
    have hw : isspace w = true := by
      simp only [spaces, List.all_cons, Bool.and_eq_true] at hsp; exact hsp.1
    have hws : spaces ws = true := by
      simp only [spaces, List.all_cons, Bool.and_eq_true] at hsp; exact hsp.2
    have hg := lexer_getch_cons lex w (ws ++ c :: rest) he (by simpa using hf)
    unfold lexer_get_token
    simp only [hg, hw, if_true]
    rw [lexer_skip_space_spec c rest hc ws _ _ (by simpa using he) rfl hws (by simp; omega)]
    simp

theorem lexer_read_comments_loop_spec (rest : List Byte) :
    ∀ (body : List Byte) (fuel : Nat) (lex : Lexer) (b : Buffer), lex.is_eof = false →
      lex.file = body ++ 10 :: rest → comment_body body = true → body.length < fuel →
      lexer_read_comments_loop fuel lex b =
        .ok ({ lex with file := rest, loc := (body ++ [10]).foldl advance lex.loc },
             add_all b body) := by
  intro body
  induction body with
  | nil =>
    intro fuel lex b he hf _ hfuel
    obtain ⟨f, rfl⟩ : ∃ f, fuel = f + 1 := ⟨fuel - 1, by simp at hfuel; omega⟩
    have hg := lexer_getch_cons lex 10 rest he (by simpa using hf)
    unfold lexer_read_comments_loop
    have h10 : (10 : Byte) ≠ CEOF := by decide
    simp [hg, h10, add_all]
  | cons x xs ih =>
    intro fuel lex b he hf hb hfuel
    obtain ⟨f, rfl⟩ : ∃ f, fuel = f + 1 := ⟨fuel - 1, by simp at hfuel; omega⟩
    simp only [comment_body, List.all_cons, Bool.and_eq_true, bne_iff_ne, ne_eq] at hb
    obtain ⟨⟨hx1, hx2⟩, hxs⟩ := hb
    have hg := lexer_getch_cons lex x (xs ++ 10 :: rest) he (by simpa using hf)
    unfold lexer_read_comments_loop
    simp only [hg, hx1, hx2, if_false]
    rw [ih f _ (buffer_add_char b x) (by simpa using he) rfl
      (by simpa [comment_body] using hxs) (by simp at hfuel; omega)]
    simp [add_all]

theorem lexer_get_token_comment (junk : Junk) (lex : Lexer) (body rest : List Byte)
    (he : lex.is_eof = false) (hf : lex.file = 35 :: body ++ 10 :: rest)
    (hb : comment_body body = true) :
    ∃ tok lex1, lexer_get_token junk lex = .ok (tok, lex1) ∧ tok.tok_class = tok_comments ∧
      LexAt lex lex1 rest := by
  have hg := lexer_getch_cons lex 35 (body ++ 10 :: rest) he (by simpa using hf)
  have h1 : isspace (35 : Byte) = false := by decide
  have h2 : (35 : Byte) ≠ CEOF := by decide
  have hloop := lexer_read_comments_loop_spec rest body (body.length + (rest.length + 1) + 1)
    { lex with file := body ++ 10 :: rest, loc := advance lex.loc 35 } { buf := none, size := 16 }
    he rfl hb (by omega)
  unfold lexer_get_token
  simp only [hg, h1, Bool.false_eq_true, if_false]
  unfold lexer_dispatch
  simp only [h2, if_false, if_true]
  unfold lexer_read_comments
  simp only [List.length_append, List.length_cons] at hloop ⊢
  rw [hloop]
  simp only [return_token]
  rw [buffer_add_char_buf]
  exact ⟨_, _, rfl, rfl, rfl, he, rfl, rfl⟩
set_option maxRecDepth 100000 in
theorem byte_facts_delim : ∀ d : Byte, is_delim d = true →
    d ≠ CEOF ∧ ident_char d = false ∧ isdigit d = false ∧ d ≠ 46 ∧ d ≠ 101 ∧ d ≠ 69 ∧
    d ≠ 120 ∧ d ≠ 88 := by
  decide

theorem starts_delim_cons (rest : List Byte) (h : starts_delim rest = true) :
    ∃ d tl, rest = d :: tl ∧ is_delim d = true := by
  cases rest with
  | nil => simp [starts_delim] at h
  | cons d tl => exact ⟨d, tl, rfl, by simpa [starts_delim] using h⟩

theorem peek_back_cons (lex : Lexer) (d : Byte) (tl : List Byte) (he : lex.is_eof = false)
    (hf : lex.file = d :: tl) (hd : d ≠ CEOF) :
    (peek_back lex).file = d :: tl ∧ (peek_back lex).is_eof = false ∧
    (peek_back lex).error_count = lex.error_count ∧
    (peek_back lex).error_notifications = lex.error_notifications := by
  unfold peek_back
  rw [lexer_getch_cons lex d tl he hf]
  simp [lexer_ungetch, hd, he]

theorem lexer_get_token_punct (junk : Junk) (lex : Lexer) (c : Byte) (k : TokenKind)
    (rest : List Byte) (he : lex.is_eof = false) (hf : lex.file = c :: rest)
    (hk : (c = 44 ∧ k = tv_comma) ∨ (c = 40 ∧ k = tv_lparen) ∨ (c = 41 ∧ k = tv_rparen) ∨
      (c = 123 ∧ k = tv_lbrace) ∨ (c = 125 ∧ k = tv_rbrace)) :
    lexer_get_token junk lex =
      .ok (⟨advance lex.loc c, tok_operator, false, k, []⟩,
           { lex with file := rest, loc := advance lex.loc c }) := by
  have hg := lexer_getch_cons lex c rest he hf
  unfold lexer_get_token
  rw [hg]
  rcases hk with ⟨rfl, rfl⟩ | ⟨rfl, rfl⟩ | ⟨rfl, rfl⟩ | ⟨rfl, rfl⟩ | ⟨rfl, rfl⟩ <;> rfl

theorem lexes_op (k : TokenKind)
    (hk : k = tv_comma ∨ k = tv_lparen ∨ k = tv_rparen ∨ k = tv_lbrace ∨ k = tv_rbrace) :
    Lexes (token_kind_name k) (.op k) := by
  have hc : ∃ c, token_kind_name k = [c] ∧ isspace c = false ∧ c ≠ 35 ∧ c ≠ CEOF ∧
      ((c = 44 ∧ k = tv_comma) ∨ (c = 40 ∧ k = tv_lparen) ∨ (c = 41 ∧ k = tv_rparen) ∨
      (c = 123 ∧ k = tv_lbrace) ∨ (c = 125 ∧ k = tv_rbrace)) := by
    rcases hk with rfl | rfl | rfl | rfl | rfl
    · exact ⟨44, rfl, by decide, by decide, by decide, by simp⟩
    · exact ⟨40, rfl, by decide, by decide, by decide, by simp⟩
    · exact ⟨41, rfl, by decide, by decide, by decide, by simp⟩
    · exact ⟨123, rfl, by decide, by decide, by decide, by simp⟩
    · exact ⟨125, rfl, by decide, by decide, by decide, by simp⟩
  obtain ⟨c, hw, h1, h2, h3, h4⟩ := hc
  rw [hw]
  refine ⟨⟨c, [], rfl, h1, h2, h3⟩, ?_⟩
  intro junk lex rest he hf _
  exact ⟨_, _, lexer_get_token_punct junk lex c k rest he hf h4, ⟨rfl, rfl, rfl⟩,
    ⟨rfl, he, rfl, rfl⟩⟩
theorem ends_token_of_delim (rest : List Byte) (h : starts_delim rest = true) :
    ends_token rest = true := by
  obtain ⟨d, tl, rfl, hd⟩ := starts_delim_cons rest h
  simp [ends_token, (byte_facts_delim d hd).2.1]

theorem lexAt_peek_back (lex : Lexer) (loc : Location) (rest : List Byte)
    (he : lex.is_eof = false) (h : starts_delim rest = true) :
    LexAt lex (peek_back { lex with file := rest, loc := loc }) rest := by
  obtain ⟨d, tl, rfl, hd⟩ := starts_delim_cons rest h
  have := peek_back_cons { lex with file := d :: tl, loc := loc } d tl he rfl
    (byte_facts_delim d hd).1
  exact ⟨this.1, this.2.1, this.2.2.1, this.2.2.2⟩

theorem lexes_ident_like (junk : Junk) (lex : Lexer) (c : Byte) (cs rest : List Byte)
    (hc : isalpha c = true) (hcs : cs.all ident_char = true)
    (he : lex.is_eof = false) (hf : lex.file = (c :: cs) ++ rest)
    (hsep : starts_delim rest = true) :
    ∃ lex1, lexer_get_token junk lex =
        .ok (ident_token junk (advance lex.loc c) (c :: cs), lex1) ∧ LexAt lex lex1 rest :=
  ⟨_, lexer_get_token_ident_eq junk lex c cs rest hc (by simpa using hcs)
      (ends_token_of_delim rest hsep) he (by simpa using hf),
    lexAt_peek_back lex _ rest he hsep⟩

theorem lexes_kw (k : TokenKind) (hk : k = tv_function ∨ k = tv_validate) :
    Lexes (token_kind_name k) (.kw k) := by
  rcases hk with rfl | rfl
  · refine ⟨⟨102, bytes "unction", rfl, by decide, by decide, by decide⟩, ?_⟩
    intro junk lex rest he hf hsep
    obtain ⟨lex1, h1, h2⟩ := lexes_ident_like junk lex 102 (bytes "unction") rest
      (by decide) (by decide) he hf hsep
    exact ⟨_, lex1, h1, ⟨rfl, rfl, rfl⟩, h2⟩
  · refine ⟨⟨118, bytes "alidate", rfl, by decide, by decide, by decide⟩, ?_⟩
    intro junk lex rest he hf hsep
    obtain ⟨lex1, h1, h2⟩ := lexes_ident_like junk lex 118 (bytes "alidate") rest
      (by decide) (by decide) he hf hsep
    exact ⟨_, lex1, h1, ⟨rfl, rfl, rfl⟩, h2⟩

theorem lexes_ident (w : List Byte) (hw : is_ident_text w = true) : Lexes w (.text w) := by
  cases w with
  | nil => simp [is_ident_text] at hw
  | cons c cs =>
    simp only [is_ident_text, Bool.and_eq_true, Bool.not_eq_true', decide_eq_false_iff_not] at hw
    obtain ⟨⟨hc, hcs⟩, hkw⟩ := hw
    obtain ⟨h1, h2, h3, h4, h5, h6⟩ := byte_facts_alpha c hc
    refine ⟨⟨c, cs, rfl, h2, h3, h1⟩, ?_⟩
    intro junk lex rest he hf hsep
    obtain ⟨lex1, e1, e2⟩ := lexes_ident_like junk lex c cs rest hc hcs he hf hsep
    refine ⟨_, lex1, e1, ?_, e2⟩
    have hv : c :: cs ≠ bytes "validate" := by
      intro h; exact hkw (by rw [h]; decide)
    have hfn : c :: cs ≠ bytes "function" := by
      intro h; exact hkw (by rw [h]; decide)
    have hnz : ∀ x ∈ c :: cs, x ≠ 0 := by
      intro x hx
      rcases List.mem_cons.1 hx with rfl | hx
      · exact h5
      · exact (byte_facts_ident x (by simpa using (List.all_eq_true.1 hcs) x hx)).2.1
    unfold ident_token
    rw [if_neg hv, if_neg hfn]
    refine ⟨rfl, ?_, ?_, ?_, ?_, ?_, ?_⟩
    · simp only [token_as_string, token_uses_buf, if_true]
      exact cstr_append_zero _ hnz
    all_goals simp
set_option maxRecDepth 100000 in
theorem byte_facts_digit : ∀ c : Byte, isdigit c = true →
    c ≠ CEOF ∧ c ≠ 101 ∧ c ≠ 69 ∧ c ≠ 46 ∧ c ≠ 0 ∧ isspace c = false ∧ c ≠ 35 ∧ c ≠ 34 ∧
    isalpha c = false ∧ c ≠ 92 := by
  decide

theorem lexer_read_number_loop_digits (d : Byte) (tl : List Byte) (hd : is_delim d = true) :
    ∀ (ds : List Byte) (fuel : Nat) (s : NumState), s.lex.is_eof = false →
      s.lex.file = ds ++ d :: tl → ds.all isdigit = true → ds.length < fuel →
      lexer_read_number_loop fuel s =
        .ok (some d, { s with
          lex := { s.lex with file := tl, loc := (ds ++ [d]).foldl advance s.lex.loc },
          b := add_all s.b ds }) := by
  obtain ⟨k1, k2, k3, k4, k5, k6, k7, k8⟩ := byte_facts_delim d hd
  intro ds
  induction ds with
  | nil =>
    intro fuel s he hf _ hfuel
    obtain ⟨f, rfl⟩ : ∃ f, fuel = f + 1 := ⟨fuel - 1, by simp at hfuel; omega⟩
    have hg := lexer_getch_cons s.lex d tl he (by simpa using hf)
    unfold lexer_read_number_loop
    simp [hg, k1, k3, k4, k5, k6, add_all]
  | cons x xs ih =>
    intro fuel s he hf hds hfuel
    obtain ⟨f, rfl⟩ : ∃ f, fuel = f + 1 := ⟨fuel - 1, by simp at hfuel; omega⟩
    simp only [List.all_cons, Bool.and_eq_true] at hds
    obtain ⟨hx, hxs⟩ := hds
    obtain ⟨x1, x2, x3, x4, x5, x6, x7, x8, x9, x10⟩ := byte_facts_digit x hx
    have hg := lexer_getch_cons s.lex x (xs ++ d :: tl) he (by simpa using hf)
    unfold lexer_read_number_loop
    simp only [hg, x1, x2, x3, x4, hx, if_false, or_self, Bool.not_true, Bool.false_eq_true]
    rw [ih f _ (by simpa using he) rfl hxs (by simp at hfuel; omega)]
    simp [add_all]

theorem lexer_read_number_digits (lex : Lexer) (c d : Byte) (ds tl : List Byte)
    (hc : isdigit c = true) (hds : ds.all isdigit = true) (hd : is_delim d = true)
    (he : lex.is_eof = false) (hf : lex.file = ds ++ d :: tl) :
    ∃ lex1 b1, lexer_read_number lex { buf := none, size := 16 } c = .ok (tok_intnum, lex1, b1) ∧
      b1.buf = some (c :: ds ++ [0]) ∧ LexAt lex lex1 (d :: tl) := by
  obtain ⟨x1, x2, x3, x4, x5, x6, x7, x8, x9, x10⟩ := byte_facts_digit c hc
  have hloop := lexer_read_number_loop_digits d tl hd ds (lex.file.length + 1)
    ⟨lex, buffer_add_char { buf := none, size := 16 } c, false, false, false⟩ he hf hds
    (by rw [hf]; simp; omega)
  unfold lexer_read_number
  simp only [x4, if_false]
  rw [hloop]
  refine ⟨_, _, rfl, ?_, ?_⟩
  · simp only [lexer_read_number_finish]
    rw [buffer_add_char_buf]
    by_cases hnil : ds = []
    · subst hnil
      simp [add_all, buffer_add_char]
    · rw [add_all_buf ds _ hnil]
      simp [buffer_add_char]
  · simp only [lexer_read_number_finish, lexer_ungetch, (byte_facts_delim d hd).1, if_false]
    exact ⟨rfl, he, rfl, rfl⟩

theorem lexes_int (w : List Byte) (hw : is_int_text w = true) : Lexes w (.text w) := by
  obtain ⟨c, ds, rfl, hc, hds, hz⟩ : ∃ c ds, w = c :: ds ∧ isdigit c = true ∧
      ds.all isdigit = true ∧ (c = 48 → ds = []) := by
    cases w with
    | nil => simp [is_int_text] at hw
    | cons c ds =>
      cases ds with
      | nil => exact ⟨c, [], rfl, by simpa [is_int_text] using hw, rfl, fun _ => rfl⟩
      | cons x xs =>
        simp only [is_int_text, Bool.and_eq_true, bne_iff_ne, ne_eq] at hw
        exact ⟨c, x :: xs, rfl, hw.1.1, hw.2, fun h => absurd h hw.1.2⟩
  obtain ⟨x1, x2, x3, x4, x5, x6, x7, x8, x9, x10⟩ := byte_facts_digit c hc
  refine ⟨⟨c, ds, rfl, x6, x7, x1⟩, ?_⟩
  intro junk lex rest he hf hsep
  obtain ⟨d, tl, rfl, hd⟩ := starts_delim_cons rest hsep
  obtain ⟨k1, k2, k3, k4, k5, k6, k7, k8⟩ := byte_facts_delim d hd
  have hg := lexer_getch_cons lex c (ds ++ d :: tl) he (by simpa using hf)
  have hnz : ∀ x ∈ c :: ds, x ≠ 0 := by
    intro x hx
    rcases List.mem_cons.1 hx with rfl | hx
    · exact x5
    · exact (byte_facts_digit x ((List.all_eq_true.1 hds) x hx)).2.2.2.2.1
  have hfin : ∀ (lex0 : Lexer), lex0.is_eof = false → lex0.file = ds ++ d :: tl →
      lex0.error_count = lex.error_count →
      lex0.error_notifications = lex.error_notifications →
      ∃ tok lex1,
        (match lexer_read_number lex0 { buf := none, size := 16 } c with
          | .ok (cls, lex1, b1) =>
            return_token { tok_class := some cls, uses_buf := false, tval := junk.tval } b1
              (advance lex.loc c) lex1
          | .abort => .abort
          | .nofuel => .nofuel) = .ok (tok, lex1) ∧
        Matches tok (.text (c :: ds)) ∧ LexAt lex lex1 (d :: tl) := by
    intro lex0 he0 hf0 hec hen
    obtain ⟨lex1, b1, e1, e2, e3⟩ := lexer_read_number_digits lex0 c d ds tl hc hds hd he0 hf0
    rw [e1]
    simp only [return_token, e2]
    refine ⟨_, _, rfl, ⟨rfl, ?_, ?_⟩, ⟨e3.1, e3.2.1, e3.2.2.1.trans hec, e3.2.2.2.trans hen⟩⟩
    · simp only [token_as_string, token_uses_buf, if_true]
      exact cstr_append_zero _ hnz
    · simp
  unfold lexer_get_token
  simp only [hg, x6, Bool.false_eq_true, if_false]
  unfold lexer_dispatch
  simp only [x1, x7, x8, x9, x4, hc, if_false, if_true, Bool.false_eq_true]
  by_cases h0 : c = 48
  · have hds0 := hz h0
    subst hds0
    simp only [h0, if_true]
    have hg2 := lexer_getch_cons
      { lex with file := [] ++ d :: tl, loc := advance lex.loc 48 } d tl he rfl
    simp only [List.nil_append] at hg2
    simp only [List.nil_append, hg2, k7, k8, k3, or_self, if_false, Bool.false_eq_true]
    have := hfin (lexer_ungetch
      { lex with file := tl, loc := advance (advance lex.loc 48) d } d) he
      (by simp [lexer_ungetch, k1]) rfl rfl
    rw [h0] at this
    exact this
  · simp only [h0, if_false]
    exact hfin _ he rfl rfl rfl
theorem matches_class (tok : Token) (lx : Lx) (h : Matches tok lx) :
    token_class tok ≠ tok_comments ∧ token_class tok ≠ tok_whitespace := by
  unfold token_class
  cases lx with
  | kw k => obtain ⟨h1, _, _⟩ := h; rw [h1]; exact ⟨by decide, by decide⟩
  | op k => obtain ⟨h1, _, _⟩ := h; rw [h1]; exact ⟨by decide, by decide⟩
  | text s => obtain ⟨_, _, h3, h4, _⟩ := h; exact ⟨h3, h4⟩

theorem spaces_append (a b : List Byte) :
    spaces (a ++ b) = true ↔ spaces a = true ∧ spaces b = true := by
  simp [spaces, List.all_append]

theorem LexAt.lexAt_trans (a b c : Lexer) (r1 r2 : List Byte) (h1 : LexAt a b r1)
    (h2 : LexAt b c r2) : LexAt a c r2 :=
  ⟨h2.1, h2.2.1, h2.2.2.1.trans h1.2.2.1, h2.2.2.2.trans h1.2.2.2⟩

theorem lexer_get_token_lexes (junk : Junk) (lex : Lexer) (ws w rest : List Byte) (lx : Lx)
    (hw : Lexes w lx) (hsep : Sep lx rest) (hws : spaces ws = true)
    (he : lex.is_eof = false) (hf : lex.file = ws ++ w ++ rest) :
    ∃ tok lex1, lexer_get_token junk lex = .ok (tok, lex1) ∧ Matches tok lx ∧
      LexAt lex lex1 rest := by
  obtain ⟨⟨c, tl, rfl, hc, _, _⟩, hlex⟩ := hw
  rw [lexer_get_token_spaces junk lex ws c (tl ++ rest) he (by simpa using hf) hws hc]
  obtain ⟨tok, lex1, e1, e2, e3⟩ := hlex junk
    { lex with file := c :: (tl ++ rest), loc := ws.foldl advance lex.loc } rest he
    (by simp) hsep
  exact ⟨tok, lex1, e1, e2, e3⟩

theorem parser_skip_comments_gap (heap : Nat → Junk) (w rest : List Byte) (lx : Lx)
    (hw : Lexes w lx) (hsep : Sep lx rest) (g : List Byte) (hg : Gap g) :
    ∀ (fuel : Nat) (lex : Lexer) (n : Nat), lex.is_eof = false →
      lex.file = g ++ w ++ rest → lex.file.length < fuel →
      ∃ tok lex1 n1, parser_skip_comments heap fuel lex n = .ok (tok, lex1, n1) ∧
        Matches tok lx ∧ LexAt lex lex1 rest := by
  induction hg with
  | blank ws hws =>
    intro fuel lex n he hf hfuel
    obtain ⟨f, rfl⟩ : ∃ f, fuel = f + 1 := ⟨fuel - 1, by omega⟩
    obtain ⟨tok, lex1, e1, e2, e3⟩ :=
      lexer_get_token_lexes (heap n) lex ws w rest lx hw hsep hws he hf
    unfold parser_skip_comments
    rw [e1]
    simp only []
    rw [if_pos (matches_class tok lx e2)]
    exact ⟨tok, lex1, n + 1, rfl, e2, e3⟩
  | comment ws body g hws hbody _ ih =>
    intro fuel lex n he hf hfuel
    obtain ⟨f, rfl⟩ : ∃ f, fuel = f + 1 := ⟨fuel - 1, by omega⟩
    have hsp := lexer_get_token_spaces (heap n) lex ws 35 (body ++ 10 :: (g ++ w ++ rest)) he
      (by rw [hf]; simp) hws (by decide)
    obtain ⟨tok, lex1, e1, e2, e3⟩ := lexer_get_token_comment (heap n)
      { lex with file := 35 :: (body ++ 10 :: (g ++ w ++ rest)),
                 loc := ws.foldl advance lex.loc }
      body (g ++ w ++ rest) he rfl hbody
    have hlen : lex1.file.length < f := by
      rw [e3.1]
      rw [hf] at hfuel
      simp only [List.length_append, List.length_cons] at hfuel ⊢
      omega
    obtain ⟨tok2, lex2, n2, i1, i2, i3⟩ := ih f lex1 (n + 1) e3.2.1 e3.1 hlen
    unfold parser_skip_comments
    rw [hsp, e1]
    simp only []
    rw [if_neg (by unfold token_class; rw [e2]; simp)]
    exact ⟨tok2, lex2, n2, i1, i2, LexAt.lexAt_trans _ _ _ _ _ e3 i3⟩
theorem lexer_skip_space_eof :
    ∀ (ws : List Byte) (fuel : Nat) (lex : Lexer), lex.is_eof = false →
      lex.file = ws → spaces ws = true → ws.length < fuel →
      lexer_skip_space fuel lex =
        .ok (CEOF, { lex with file := [], is_eof := true, loc := ws.foldl advance lex.loc }) := by
  intro ws
  induction ws with
  | nil =>
    intro fuel lex he hf _ hfuel
    obtain ⟨f, rfl⟩ : ∃ f, fuel = f + 1 := ⟨fuel - 1, by simp at hfuel; omega⟩
    have hg := lexer_getch_nil lex he hf
    unfold lexer_skip_space
    simp [hg, hf]
  | cons w ws ih =>
    intro fuel lex he hf hsp hfuel
    obtain ⟨f, rfl⟩ : ∃ f, fuel = f + 1 := ⟨fuel - 1, by simp at hfuel; omega⟩
    have hw : isspace w = true := by
      simp only [spaces, List.all_cons, Bool.and_eq_true] at hsp; exact hsp.1
    have hws : spaces ws = true := by
      simp only [spaces, List.all_cons, Bool.and_eq_true] at hsp; exact hsp.2
    have hne : w ≠ CEOF := by intro h; rw [h] at hw; exact absurd hw (by decide)
    have hg := lexer_getch_cons lex w ws he hf
    unfold lexer_skip_space
    simp only [hg, hw, hne, ne_eq, not_false_eq_true, and_self, if_true]
    rw [ih f _ (by simpa using he) rfl hws (by simp at hfuel; omega)]
    simp

theorem lexer_get_token_blank_eof (junk : Junk) (lex : Lexer) (ws : List Byte)
    (he : lex.is_eof = false) (hf : lex.file = ws) (hws : spaces ws = true) :
    ∃ tok lex1, lexer_get_token junk lex = .ok (tok, lex1) ∧ TokEof tok ∧ LexEnd lex lex1 := by
  have hs : isspace CEOF = false := by decide
  cases ws with
  | nil =>
    have hg := lexer_getch_nil lex he hf
    unfold lexer_get_token
    simp only [hg, hs, Bool.false_eq_true, if_false]
    exact ⟨_, _, rfl, ⟨rfl, rfl, rfl⟩, ⟨rfl, rfl, rfl⟩⟩
  | cons w ws =>
    have hw : isspace w = true := by
      simp only [spaces, List.all_cons, Bool.and_eq_true] at hws; exact hws.1
    have hws2 : spaces ws = true := by
      simp only [spaces, List.all_cons, Bool.and_eq_true] at hws; exact hws.2
    have hg := lexer_getch_cons lex w ws he hf
    unfold lexer_get_token
    simp only [hg, hw, if_true]
    rw [lexer_skip_space_eof ws _ _ (by simpa using he) rfl hws2 (by simp)]
    exact ⟨_, _, rfl, ⟨rfl, rfl, rfl⟩, ⟨rfl, rfl, rfl⟩⟩

theorem parser_skip_comments_gap_eof (heap : Nat → Junk) (g : List Byte) (hg : Gap g) :
    ∀ (fuel : Nat) (lex : Lexer) (n : Nat), lex.is_eof = false →
      lex.file = g → lex.file.length < fuel →
      ∃ tok lex1 n1, parser_skip_comments heap fuel lex n = .ok (tok, lex1, n1) ∧
        TokEof tok ∧ LexEnd lex lex1 := by
  induction hg with
  | blank ws hws =>
    intro fuel lex n he hf hfuel
    obtain ⟨f, rfl⟩ : ∃ f, fuel = f + 1 := ⟨fuel - 1, by omega⟩
    obtain ⟨tok, lex1, e1, e2, e3⟩ := lexer_get_token_blank_eof (heap n) lex ws he hf hws
    unfold parser_skip_comments
    rw [e1]
    simp only []
    rw [if_pos (by unfold token_class; rw [e2.1]; exact ⟨by decide, by decide⟩)]
    exact ⟨tok, lex1, n + 1, rfl, e2, e3⟩
  | comment ws body g hws hbody _ ih =>
    intro fuel lex n he hf hfuel
    obtain ⟨f, rfl⟩ : ∃ f, fuel = f + 1 := ⟨fuel - 1, by omega⟩
    have hsp := lexer_get_token_spaces (heap n) lex ws 35 (body ++ 10 :: g) he
      (by rw [hf]; simp) hws (by decide)
    obtain ⟨tok, lex1, e1, e2, e3⟩ := lexer_get_token_comment (heap n)
      { lex with file := 35 :: (body ++ 10 :: g), loc := ws.foldl advance lex.loc }
      body g he rfl hbody
    have hlen : lex1.file.length < f := by
      rw [e3.1]
      rw [hf] at hfuel
      simp only [List.length_append, List.length_cons] at hfuel ⊢
      omega
    obtain ⟨tok2, lex2, n2, i1, i2, i3⟩ := ih f lex1 (n + 1) e3.2.1 e3.1 hlen
    unfold parser_skip_comments
    rw [hsp, e1]
    simp only []
    rw [if_neg (by unfold token_class; rw [e2]; simp)]
    exact ⟨tok2, lex2, n2, i1, i2, i3.1, i3.2.1.trans e3.2.2.1, i3.2.2.trans e3.2.2.2⟩

theorem parser_skip_comments_at_eof (heap : Nat → Junk) (fuel : Nat) (lex : Lexer) (n : Nat)
    (he : lex.is_eof = true) (hfuel : 0 < fuel) :
    ∃ tok, parser_skip_comments heap fuel lex n = .ok (tok, lex, n + 1) ∧ TokEof tok := by
  obtain ⟨f, rfl⟩ : ∃ f, fuel = f + 1 := ⟨fuel - 1, by omega⟩
  unfold parser_skip_comments
  rw [lexer_get_token_at_eof (heap n) lex he]
  simp only []
  rw [if_pos (by unfold token_class; exact ⟨by simp, by simp⟩)]
  exact ⟨_, rfl, rfl, rfl, rfl⟩
theorem just_pinv (p : Parser) (tok : Token) (h : Just p tok) : PInv p := by
  obtain ⟨toks, hring, hm⟩ := h
  exact pinv_of_ringInv _ p hring hm

theorem just_unget_idx (p : Parser) (tok : Token) (h : Just p tok) : p.unget_idx = 0 := by
  obtain ⟨toks, hring, _⟩ := h
  exact hring.2.2.1

theorem just_lex (p : Parser) (tok : Token) (lex : Lexer) (h : Just p tok) :
    Just { p with lex := lex } tok := by
  obtain ⟨toks, hring, hm⟩ := h
  exact ⟨toks, ringInv_congr _ _ _ hring rfl rfl rfl rfl rfl, hm⟩

theorem fresh_read (heap : Nat → Junk) (p : Parser) (tok : Token) (lex1 : Lexer) (n1 : Nat)
    (hp : PInv p) (hu : p.unget_idx = 0)
    (hs : parser_skip_comments heap (p.lex.file.length + 1) p.lex p.ntok = .ok (tok, lex1, n1)) :
    ∃ p1, parser_get_token heap p = .ok (tok, p1) ∧ Just p1 tok ∧ p1.lex = lex1 := by
  rw [parser_get_token_eq heap p hp]
  obtain ⟨toks, hring, hmark, hu1, hu2⟩ := hp
  obtain ⟨_, _, s3⟩ := parser_skip_comments_outcome heap (p.lex.file.length + 1) p.lex p.ntok
    (by omega)
  obtain ⟨hstep, hnm, hprog⟩ := s3 tok lex1 n1 hs
  obtain ⟨c1, c2, c3, c4, c5, c6, c7⟩ :=
    count_brackets_buffer { p with lex := lex1, ntok := n1 } tok
  have hq : RingInv toks (count_brackets { p with lex := lex1, ntok := n1 } tok) :=
    ringInv_congr toks _ _ hring c1 c2 c3 c4 (by rw [c5]; exact hu)
  obtain ⟨slot, p1, hpush⟩ := buffer_push_ok toks _ tok hq
  obtain ⟨hring1, hlex1, _⟩ := ringInv_push toks _ p1 tok slot hq hpush
  have hm1 : ∀ t ∈ toks ++ [tok], NoMarker t := by
    intro t ht
    rcases List.mem_append.1 ht with h | h
    · exact hmark t h
    · simp only [List.mem_singleton] at h
      rw [h]; exact hnm
  unfold parser_get_lexer_token
  rw [if_pos hu, hs]
  simp only []
  rw [hpush]
  exact ⟨p1, rfl, ⟨toks, hring1, hm1⟩, by rw [hlex1, c6]⟩

theorem read_pending (heap : Nat → Junk) (p : Parser) (tok : Token) (hu : p.unget_idx = 1)
    (hj : Just { p with unget_idx := 0 } tok) :
    parser_get_token heap p = .ok (tok, { p with unget_idx := 0 }) := by
  obtain ⟨toks, hring, hm⟩ := hj
  have hp : PInv p := by
    refine ⟨toks ++ [tok], hring, hm, by omega, ?_⟩
    rw [hu]; simp
  rw [parser_get_token_eq heap p hp]
  have hr := ringInv_replay (toks ++ [tok]) { p with unget_idx := 0 } 1 tok hring (le_refl _)
    (by omega) (by simp) (by simp)
  have hpe : ({ ({ p with unget_idx := 0 } : Parser) with unget_idx := 1 } : Parser) = p := by
    cases p; simp_all
  rw [hpe] at hr
  unfold parser_get_lexer_token
  rw [if_neg (by omega), hr]

theorem unget_just (p : Parser) (tok : Token) (h : Just p tok) :
    parser_unget p = .ok { p with unget_idx := 1 } := by
  obtain ⟨toks, hring, _⟩ := h
  unfold parser_unget
  rw [hring.1, hring.2.2.1, if_pos (by omega)]

theorem ahead_of_unget (p : Parser) (tok : Token) (lxs : List Lx) (hj : Just p tok)
    (hm : MatchesHead tok lxs) (hr : Ready p lxs.tail) : Ahead { p with unget_idx := 1 } lxs := by
  have hu := just_unget_idx p tok hj
  have hpe : ({ ({ p with unget_idx := 1 } : Parser) with unget_idx := 0 } : Parser) = p := by
    cases p; simp_all
  refine Or.inr ⟨tok, hm, rfl, ?_, ?_⟩
  · rw [hpe]; exact hj
  · rw [hpe]; exact hr

theorem read_ready (heap : Nat → Junk) (p : Parser) (lx : Lx) (lxs : List Lx)
    (h : Ready p (lx :: lxs)) :
    ∃ tok p1, parser_get_token heap p = .ok (tok, p1) ∧ Matches tok lx ∧ Ready p1 lxs ∧
      Just p1 tok ∧ Same p p1 := by
  obtain ⟨hp, hu, hl⟩ := h
  rcases hl with ⟨he, hl⟩ | ⟨_, hl⟩
  · obtain ⟨g, w, rest, hg, hw, hsep, hf, hrest⟩ := hl
    obtain ⟨tok, lex1, n1, e1, e2, e3⟩ := parser_skip_comments_gap heap w rest lx hw hsep g hg
      (p.lex.file.length + 1) p.lex p.ntok he hf (by omega)
    obtain ⟨p1, r1, r2, r3⟩ := fresh_read heap p tok lex1 n1 hp hu e1
    refine ⟨tok, p1, r1, e2, ⟨just_pinv p1 tok r2, just_unget_idx p1 tok r2, Or.inl ?_⟩, r2, ?_⟩
    · rw [r3, e3.1]; exact ⟨e3.2.1, hrest⟩
    · rw [Same, r3]; exact ⟨e3.2.2.1, e3.2.2.2⟩
  · exact absurd hl (by simp)

theorem read_ready_eof (heap : Nat → Junk) (p : Parser) (h : Ready p []) :
    ∃ tok p1, parser_get_token heap p = .ok (tok, p1) ∧ TokEof tok ∧ Ready p1 [] ∧
      Just p1 tok ∧ Same p p1 := by
  obtain ⟨hp, hu, hl⟩ := h
  rcases hl with ⟨he, hl⟩ | ⟨he, _⟩
  · obtain ⟨tok, lex1, n1, e1, e2, e3⟩ := parser_skip_comments_gap_eof heap p.lex.file hl
      (p.lex.file.length + 1) p.lex p.ntok he rfl (by omega)
    obtain ⟨p1, r1, r2, r3⟩ := fresh_read heap p tok lex1 n1 hp hu e1
    refine ⟨tok, p1, r1, e2, ⟨just_pinv p1 tok r2, just_unget_idx p1 tok r2, Or.inr ?_⟩, r2, ?_⟩
    · rw [r3]; exact ⟨e3.1, rfl⟩
    · rw [Same, r3]; exact ⟨e3.2.1, e3.2.2⟩
  · obtain ⟨tok, e1, e2⟩ := parser_skip_comments_at_eof heap (p.lex.file.length + 1) p.lex p.ntok
      he (by omega)
    obtain ⟨p1, r1, r2, r3⟩ := fresh_read heap p tok p.lex (p.ntok + 1) hp hu e1
    refine ⟨tok, p1, r1, e2, ⟨just_pinv p1 tok r2, just_unget_idx p1 tok r2, Or.inr ?_⟩, r2, ?_⟩
    · rw [r3]; exact ⟨he, rfl⟩
    · rw [Same, r3]; exact ⟨rfl, rfl⟩

theorem read_ahead (heap : Nat → Junk) (p : Parser) (lxs : List Lx) (h : Ahead p lxs) :
    ∃ tok p1, parser_get_token heap p = .ok (tok, p1) ∧ MatchesHead tok lxs ∧
      Ready p1 lxs.tail ∧ Just p1 tok ∧ Same p p1 := by
  rcases h with h | ⟨tok, hm, hu, hj, hr⟩
  · cases lxs with
    | nil => exact read_ready_eof heap p h
    | cons lx lxs => exact read_ready heap p lx lxs h
  · exact ⟨tok, _, read_pending heap p tok hu hj, hm, hr, hj, rfl, rfl⟩

theorem ahead_cons (heap : Nat → Junk) (p : Parser) (lx : Lx) (lxs : List Lx)
    (h : Ahead p (lx :: lxs)) :
    ∃ tok p1, parser_get_token heap p = .ok (tok, p1) ∧ Matches tok lx ∧
      Ready p1 lxs ∧ Just p1 tok ∧ Same p p1 :=
  read_ahead heap p (lx :: lxs) h
theorem ready_ahead (p : Parser) (lxs : List Lx) (h : Ready p lxs) : Ahead p lxs := Or.inl h

theorem Same.same_trans {a b c : Parser} (h1 : Same a b) (h2 : Same b c) : Same a c :=
  ⟨h2.1.trans h1.1, h2.2.trans h1.2⟩

theorem same_unget (p : Parser) : Same p { p with unget_idx := 1 } := ⟨rfl, rfl⟩

theorem layout_length : ∀ (lxs : List Lx) (file : List Byte), Layout lxs file →
    lxs.length ≤ file.length := by
  intro lxs
  induction lxs with
  | nil => intro file _; simp
  | cons lx lxs ih =>
    intro file h
    obtain ⟨g, w, rest, _, hw, _, hf, hrest⟩ := h
    obtain ⟨⟨c, tl, rfl, _⟩, _⟩ := hw
    have := ih rest hrest
    rw [hf]
    simp only [List.length_append, List.length_cons]
    omega

theorem ready_length (p : Parser) (lxs : List Lx) (h : Ready p lxs) :
    lxs.length ≤ p.lex.file.length := by
  obtain ⟨_, _, h | h⟩ := h
  · exact layout_length lxs _ h.2
  · rw [h.2]; simp

theorem sep_by_length (d : Lx) : ∀ xs : List (List Lx), (∀ x ∈ xs, x ≠ []) →
    xs.length ≤ (sep_by d xs).length := by
  intro xs
  induction xs with
  | nil => intro _; simp [sep_by]
  | cons x xs ih =>
    intro h
    have hx : 0 < x.length := List.length_pos.2 (h x (by simp))
    cases xs with
    | nil => simp only [sep_by, List.length_singleton]; omega
    | cons y ys =>
      have := ih (fun z hz => h z (by simp [hz]))
      simp only [sep_by, List.length_append, List.length_cons] at this ⊢
      omega

theorem not_comma_of_head (tok : Token) (more : List Lx) (h : MatchesHead tok more)
    (hm : more.head? ≠ some (.op tv_comma)) : token_is_operator tok tv_comma = false := by
  unfold token_is_operator token_class token_value
  cases more with
  | nil => obtain ⟨h1, _, _⟩ := h; simp [h1]
  | cons lx rest =>
    cases lx with
    | kw k => obtain ⟨h1, _, _⟩ := h; simp [h1]
    | op k =>
      obtain ⟨h1, _, h3⟩ := h
      have : k ≠ tv_comma := by
        intro hk; apply hm; simp [hk]
      simp [h1, h3, this]
    | text s =>
      obtain ⟨_, _, _, _, h5, _⟩ := h
      simp [h5]

theorem is_comma (tok : Token) (h : Matches tok (.op tv_comma)) :
    token_is_operator tok tv_comma = true := by
  obtain ⟨h1, _, h3⟩ := h
  simp [token_is_operator, token_class, token_value, h1, h3]

theorem parser_forward_tval_op (heap : Nat → Junk) (p : Parser) (k : TokenKind) (lxs : List Lx)
    (h : Ahead p (.op k :: lxs)) :
    ∃ tok p1, parser_forward_tval heap p k = .ok (some tok, p1) ∧ Ready p1 lxs ∧ Same p p1 := by
  obtain ⟨tok, p1, e1, e2, e3, _, e5⟩ := ahead_cons heap p _ lxs h
  obtain ⟨_, h2, h3⟩ := e2
  unfold parser_forward_tval
  rw [e1]
  simp only [token_uses_buf, token_value, h2, h3]
  exact ⟨tok, p1, by simp, e3, e5⟩

theorem parser_forward_tval_kw (heap : Nat → Junk) (p : Parser) (k : TokenKind) (lxs : List Lx)
    (h : Ahead p (.kw k :: lxs)) :
    ∃ tok p1, parser_forward_tval heap p k = .ok (some tok, p1) ∧ Ready p1 lxs ∧ Same p p1 := by
  obtain ⟨tok, p1, e1, e2, e3, _, e5⟩ := ahead_cons heap p _ lxs h
  obtain ⟨_, h2, h3⟩ := e2
  unfold parser_forward_tval
  rw [e1]
  simp only [token_uses_buf, token_value, h2, h3]
  exact ⟨tok, p1, by simp, e3, e5⟩

theorem parser_forward_tval_eof (heap : Nat → Junk) (p : Parser) (k : TokenKind)
    (hk : k ≠ tv_eof) (h : Ahead p []) :
    ∃ p1, parser_forward_tval heap p k = .ok (none, p1) ∧ Ready p1 [] ∧
      p1.lex.error_count = p.lex.error_count + 1 ∧
      p1.lex.error_notifications = p.lex.error_notifications := by
  obtain ⟨tok, p1, e1, e2, e3, _, e5⟩ := read_ahead heap p [] h
  obtain ⟨_, h2, h3⟩ := e2
  unfold parser_forward_tval
  rw [e1]
  simp only [token_uses_buf, token_value, h2, h3]
  refine ⟨parser_error p1, by simp [Ne.symm hk], ?_, ?_, ?_⟩
  · obtain ⟨r1, r2, r3⟩ := e3
    exact ⟨pinv_lex p1 _ r1, r2, r3⟩
  · simp [parser_error, error_loc, e5.1]
  · simp [parser_error, error_loc, e5.2]

theorem handle_value_parses (heap : Nat → Junk) (v : List Byte) :
    Parses (handle_value heap) [.text v] (IsValue v) := by
  intro p more h
  obtain ⟨tok, p1, e1, e2, e3, _, e5⟩ := ahead_cons heap p _ more h
  unfold handle_value
  rw [e1]
  refine ⟨_, p1, rfl, ?_, e3, e5⟩
  obtain ⟨_, h2, _⟩ := e2
  exact ⟨token_location tok, by simp [make_value_tok, h2]⟩

theorem handle_list_loop_spec {α : Type} (heap : Nat → Junk) (H : Parser → Res (Tree × Parser))
    (lex : α → List Lx) (post : α → Tree → Prop) (more : List Lx) (l : Location)
    (hgood : ∀ a t, post a t → t.is_null = false ∧ t.is_error_mark = false)
    (hmore : more.head? ≠ some (.op tv_comma)) :
    ∀ (as : List α), as ≠ [] → (∀ a ∈ as, Parses H (lex a) (post a)) →
      ∀ (fuel : Nat) (acc : List Tree) (p : Parser), as.length ≤ fuel →
      Ahead p (sep_by (.op tv_comma) (as.map lex) ++ more) →
      ∃ ts p1, handle_list_loop heap H tv_comma fuel (.list l acc) p =
          .ok (.list l (acc ++ ts), p1) ∧
        List.Forall₂ post as ts ∧ Ahead p1 more ∧ Same p p1 := by
  intro as
  induction as with
  | nil => intro h; exact absurd rfl h
  | cons a as ih =>
    intro _ hH fuel acc p hfuel hp
    obtain ⟨f, rfl⟩ : ∃ f, fuel = f + 1 := ⟨fuel - 1, by simp at hfuel; omega⟩
    cases as with
    | nil =>
      simp only [List.map_cons, List.map_nil, sep_by] at hp
      obtain ⟨t, p1, e1, e2, e3, e4⟩ := hH a (by simp) p more hp
      obtain ⟨g1, g2⟩ := hgood a t e2
      obtain ⟨tok, p2, r1, r2, r3, r4, r5⟩ := read_ahead heap p1 more (Or.inl e3)
      unfold handle_list_loop
      rw [e1]
      simp only [g1, g2, Bool.not_false, Bool.and_self, if_true, tree_list_append]
      rw [r1]
      simp only [not_comma_of_head tok more r2 hmore, Bool.not_false, if_true]
      rw [unget_just p2 tok r4]
      exact ⟨[t], _, rfl, List.Forall₂.cons e2 List.Forall₂.nil,
        ahead_of_unget p2 tok more r4 r2 r3, (e4.same_trans r5).same_trans (same_unget p2)⟩
    | cons b bs =>
      simp only [List.map_cons, sep_by, List.append_assoc, List.cons_append] at hp
      obtain ⟨t, p1, e1, e2, e3, e4⟩ := hH a (by simp) p _ hp
      obtain ⟨g1, g2⟩ := hgood a t e2
      obtain ⟨tok, p2, r1, r2, r3, r4, r5⟩ := read_ready heap p1 _ _ e3
      obtain ⟨ts, p3, i1, i2, i3, i4⟩ := ih (by simp) (fun x hx => hH x (by simp [hx])) f
        (acc ++ [t]) p2 (by simp at hfuel ⊢; omega)
        (by simp only [List.map_cons]; exact Or.inl r3)
      unfold handle_list_loop
      rw [e1]
      simp only [g1, g2, Bool.not_false, Bool.and_self, if_true, tree_list_append]
      rw [r1]
      simp only [is_comma tok r2, Bool.not_true, Bool.false_eq_true, if_false]
      rw [i1]
      exact ⟨t :: ts, p3, by simp, List.Forall₂.cons e2 i2, i3,
        (e4.same_trans r5).same_trans i4⟩
theorem handle_list_spec {α : Type} (heap : Nat → Junk) (H : Parser → Res (Tree × Parser))
    (lex : α → List Lx) (post : α → Tree → Prop) (more : List Lx)
    (hgood : ∀ a t, post a t → t.is_null = false ∧ t.is_error_mark = false)
    (hmore : more.head? ≠ some (.op tv_comma))
    (as : List α) (has : as ≠ []) (hH : ∀ a ∈ as, Parses H (lex a) (post a))
    (hne : ∀ a ∈ as, lex a ≠ []) (p : Parser)
    (hp : Ahead p (sep_by (.op tv_comma) (as.map lex) ++ more)) :
    ∃ ts p1, handle_list heap p H tv_comma = .ok (.list ⟨0, 0⟩ ts, p1) ∧
      List.Forall₂ post as ts ∧ Ahead p1 more ∧ Same p p1 := by
  cases as with
  | nil => exact absurd rfl has
  | cons a as =>
    cases as with
    | nil =>
      simp only [List.map_cons, List.map_nil, sep_by] at hp
      obtain ⟨t, p1, e1, e2, e3, e4⟩ := hH a (by simp) p more hp
      obtain ⟨g1, g2⟩ := hgood a t e2
      obtain ⟨tok, p2, r1, r2, r3, r4, r5⟩ := read_ahead heap p1 more (Or.inl e3)
      unfold handle_list
      rw [e1]
      simp only [g2, Bool.false_eq_true, if_false]
      rw [r1]
      simp only [not_comma_of_head tok more r2 hmore, Bool.not_false, if_true, tree_list_append,
        make_tree_list, make_tree]
      rw [unget_just p2 tok r4]
      exact ⟨[t], _, rfl, List.Forall₂.cons e2 List.Forall₂.nil,
        ahead_of_unget p2 tok more r4 r2 r3, (e4.same_trans r5).same_trans (same_unget p2)⟩
    | cons b bs =>
      simp only [List.map_cons, sep_by, List.append_assoc, List.cons_append] at hp
      obtain ⟨t, p1, e1, e2, e3, e4⟩ := hH a (by simp) p _ hp
      obtain ⟨g1, g2⟩ := hgood a t e2
      obtain ⟨tok, p2, r1, r2, r3, r4, r5⟩ := read_ready heap p1 _ _ e3
      have hlen : (b :: bs).length ≤ parser_fuel p2 := by
        have h1 := ready_length p2 _ r3
        have h2 := sep_by_length (.op tv_comma) ((b :: bs).map lex) (by
          intro x hx
          obtain ⟨y, hy, rfl⟩ := List.mem_map.1 hx
          exact hne y (by simp at hy ⊢; tauto))
        simp only [List.length_append, List.length_map, List.map_cons] at h1 h2
        have h3 : (List.map lex bs).length = bs.length := List.length_map _ _
        unfold parser_fuel
        simp only [List.length_cons] at h2 ⊢
        omega
      obtain ⟨ts, p3, i1, i2, i3, i4⟩ := handle_list_loop_spec heap H lex post more ⟨0, 0⟩
        hgood hmore (b :: bs) (by simp) (fun x hx => hH x (by simp at hx ⊢; tauto))
        (parser_fuel p2) [t] p2 hlen (by simp only [List.map_cons]; exact Or.inl r3)
      unfold handle_list
      rw [e1]
      simp only [g2, Bool.false_eq_true, if_false]
      rw [r1]
      simp only [is_comma tok r2, Bool.not_true, Bool.false_eq_true, if_false, tree_list_append,
        make_tree_list, make_tree]
      simp only [List.nil_append]
      rw [i1]
      exact ⟨t :: ts, p3, by simp, List.Forall₂.cons e2 i2, i3,
        (e4.same_trans r5).same_trans i4⟩

theorem isValue_good (v : List Byte) (t : Tree) (h : IsValue v t) :
    t.is_null = false ∧ t.is_error_mark = false := by
  obtain ⟨loc, rfl⟩ := h
  exact ⟨rfl, rfl⟩

theorem isGroup_good (vs : List (List Byte)) (t : Tree) (h : IsGroup vs t) :
    t.is_null = false ∧ t.is_error_mark = false := by
  obtain ⟨ts, rfl, _⟩ := h
  exact ⟨rfl, rfl⟩

theorem isFunction_good (f : FunctionAst) (t : Tree) (h : IsFunction f t) :
    t.is_null = false ∧ t.is_error_mark = false := by
  obtain ⟨n, gs, rfl, _⟩ := h
  exact ⟨rfl, rfl⟩

theorem handle_args_parses (heap : Nat → Junk) (vs : List (List Byte)) (hvs : vs ≠ []) :
    Parses (handle_args heap) (group_lex vs) (IsGroup vs) := by
  intro p more h
  simp only [group_lex, List.cons_append, List.append_assoc, List.singleton_append] at h
  obtain ⟨tok, p1, e1, e2, e3⟩ := parser_forward_tval_op heap p tv_lparen _ h
  obtain ⟨ts, p2, l1, l2, l3, l4⟩ := handle_list_spec heap (handle_value heap)
    (fun v => [Lx.text v]) IsValue (.op tv_rparen :: more) isValue_good (by simp) vs hvs
    (fun v _ => handle_value_parses heap v) (by simp) p1 (Or.inl e2)
  obtain ⟨tok3, p3, f1, f2, f3⟩ := parser_forward_tval_op heap p2 tv_rparen more l3
  unfold handle_args
  rw [e1]
  simp only []
  rw [l1]
  simp only []
  rw [f1]
  exact ⟨_, p3, rfl, ⟨ts, rfl, l2⟩, f2, (e3.same_trans l4).same_trans f3⟩

theorem group_lex_ne (vs : List (List Byte)) : group_lex vs ≠ [] := by
  simp [group_lex]

theorem handle_cases_open (heap : Nat → Junk) (f : FunctionAst) (hf : f.wf = true)
    (more : List Lx) (hmore : more.head? ≠ some (.op tv_comma))
    (p : Parser) (h : Ahead p (function_open_lex f ++ more)) :
    ∃ p1 p2 p3 p4 t0 t1 t2 gs n,
      parser_forward_tval heap p tv_function = .ok (some t0, p1) ∧
      parser_get_token heap p1 = .ok (t1, p2) ∧
      make_value_tok t1 = n ∧ IsValue f.name n ∧
      parser_forward_tval heap p2 tv_lbrace = .ok (some t2, p3) ∧
      handle_list heap p3 (handle_args heap) tv_comma = .ok (.list ⟨0, 0⟩ gs, p4) ∧
      List.Forall₂ IsGroup f.groups gs ∧ Ahead p4 more ∧ Same p p4 := by
  simp only [function_open_lex, List.cons_append] at h
  simp only [FunctionAst.wf, Bool.and_eq_true, bne_iff_ne, ne_eq, List.all_eq_true] at hf
  obtain ⟨hg1, hg2⟩ := hf
  obtain ⟨t0, p1, e1, e2, e3⟩ := parser_forward_tval_kw heap p tv_function _ h
  obtain ⟨t1, p2, r1, r2, r3, _, r5⟩ := read_ready heap p1 _ _ e2
  obtain ⟨t2, p3, b1, b2, b3⟩ := parser_forward_tval_op heap p2 tv_lbrace _ (Or.inl r3)
  obtain ⟨gs, p4, l1, l2, l3, l4⟩ := handle_list_spec heap (handle_args heap) group_lex IsGroup
    more isGroup_good hmore f.groups hg1
    (fun vs hvs => handle_args_parses heap vs (hg2 vs hvs))
    (fun vs _ => group_lex_ne vs) p3 (Or.inl b2)
  exact ⟨p1, p2, p3, p4, t0, t1, t2, gs, _, e1, r1, rfl,
    ⟨token_location t1, by simp [make_value_tok, r2.2.1]⟩, b1, l1, l2, l3,
    ((e3.same_trans r5).same_trans b3).same_trans l4⟩

theorem handle_cases_parses (heap : Nat → Junk) (f : FunctionAst) (hf : f.wf = true) :
    Parses (handle_cases heap) (function_lex f) (IsFunction f) := by
  intro p more h
  simp only [function_lex, List.append_assoc, List.singleton_append] at h
  obtain ⟨p1, p2, p3, p4, t0, t1, t2, gs, n, e1, e2, e3, e4, e5, e6, e7, e8, e9⟩ :=
    handle_cases_open heap f hf (.op tv_rbrace :: more) (by simp) p h
  obtain ⟨t5, p5, c1, c2, c3⟩ := parser_forward_tval_op heap p4 tv_rbrace more e8
  unfold handle_cases
  rw [e1]
  simp only []
  rw [e2]
  simp only [set_tree_operand, make_tree, if_true, e3]
  rw [e5]
  simp only []
  rw [e6]
  simp only [show ¬ ((1 : Int) = 0) from by decide, if_false, if_true]
  rw [c1]
  exact ⟨_, p5, rfl, ⟨n, gs, rfl, e4, e7⟩, c2, e9.same_trans c3⟩
theorem handle_cases_eof (heap : Nat → Junk) (f : FunctionAst) (hf : f.wf = true)
    (p : Parser) (h : Ahead p (function_open_lex f)) :
    ∃ p1, handle_cases heap p = .ok (.error_mark, p1) ∧ Ready p1 [] ∧
      p1.lex.error_count = p.lex.error_count + 1 ∧
      p1.lex.error_notifications = p.lex.error_notifications := by
  obtain ⟨p1, p2, p3, p4, t0, t1, t2, gs, n, e1, e2, e3, e4, e5, e6, e7, e8, e9⟩ :=
    handle_cases_open heap f hf [] (by simp) p (by simpa using h)
  obtain ⟨p5, c1, c2, c3, c4⟩ := parser_forward_tval_eof heap p4 tv_rbrace (by decide) e8
  unfold handle_cases
  rw [e1]
  simp only []
  rw [e2]
  simp only [set_tree_operand, make_tree, if_true, e3]
  rw [e5]
  simp only []
  rw [e6]
  simp only [show ¬ ((1 : Int) = 0) from by decide, if_false, if_true]
  rw [c1]
  exact ⟨p5, rfl, c2, by rw [c3, e9.1], by rw [c4, e9.2]⟩

theorem is_function_kw (tok : Token) (h : Matches tok (.kw tv_function)) :
    token_is_keyword tok tv_function = true := by
  obtain ⟨h1, _, h3⟩ := h
  simp [token_is_keyword, token_class, token_value, h1, h3]

theorem not_function_of_head (tok : Token) (more : List Lx) (h : MatchesHead tok more)
    (hm : more.head? ≠ some (.kw tv_function)) : token_is_keyword tok tv_function = false := by
  unfold token_is_keyword token_class token_value
  cases more with
  | nil => obtain ⟨h1, _, _⟩ := h; simp [h1]
  | cons lx rest =>
    cases lx with
    | op k => obtain ⟨h1, _, _⟩ := h; simp [h1]
    | kw k =>
      obtain ⟨h1, _, h3⟩ := h
      have : k ≠ tv_function := by
        intro hk; apply hm; simp [hk]
      simp [h1, h3, this]
    | text s =>
      obtain ⟨_, _, _, _, _, h6, _⟩ := h
      simp [h6]

theorem handle_module_loop_prefix (heap : Nat → Junk) (l l1 : Location) (name : Tree)
    (more : List Lx) :
    ∀ (fs : List FunctionAst), (∀ f ∈ fs, f.wf = true) →
      ∀ (acc : List Tree) (p : Parser), Ready p (functions_lex fs ++ more) →
      ∃ ts p1, List.Forall₂ IsFunction fs ts ∧ Ready p1 more ∧ Same p p1 ∧
        ∀ fuel, handle_module_loop heap (fs.length + fuel) (.module l name (.list l1 acc)) p =
          handle_module_loop heap fuel (.module l name (.list l1 (acc ++ ts))) p1 := by
  intro fs
  induction fs with
  | nil =>
    intro _ acc p hp
    exact ⟨[], p, List.Forall₂.nil, by simpa [functions_lex] using hp, ⟨rfl, rfl⟩,
      by intro fuel; simp⟩
  | cons f fs ih =>
    intro hwf acc p hp
    obtain ⟨tl, htl⟩ : ∃ tl, function_lex f ++ (functions_lex fs ++ more) =
        .kw tv_function :: tl := ⟨_, rfl⟩
    have hp2 : Ready p (.kw tv_function :: tl) := by
      rw [← htl]; simpa [functions_lex] using hp
    obtain ⟨tok, p1, r1, r2, r3, r4, r5⟩ := read_ready heap p _ _ hp2
    have ha := ahead_of_unget p1 tok (.kw tv_function :: tl) r4 r2 r3
    rw [← htl] at ha
    obtain ⟨t, p3, c1, c2, c3, c4⟩ := handle_cases_parses heap f (hwf f (by simp))
      { p1 with unget_idx := 1 } (functions_lex fs ++ more) ha
    obtain ⟨ts, p4, i1, i2, i3, i4⟩ := ih (fun x hx => hwf x (by simp [hx])) (acc ++ [t]) p3 c3
    refine ⟨t :: ts, p4, List.Forall₂.cons c2 i1, i2,
      ((r5.same_trans (same_unget p1)).same_trans c4).same_trans i3, ?_⟩
    intro fuel
    rw [show (f :: fs).length + fuel = (fs.length + fuel) + 1 from by simp; omega]
    rw [handle_module_loop]
    rw [r1]
    simp only [is_function_kw tok r2, if_true]
    rw [unget_just p1 tok r4]
    simp only []
    rw [c1]
    simp only [get_tree_operand, tree_list_append, set_tree_operand,
      show ¬ ((1 : Int) = 0) from by decide, if_false, if_true]
    rw [i4 fuel]
    simp

theorem handle_module_loop_end (heap : Nat → Junk) (module : Tree) (p : Parser) (fuel : Nat)
    (lxs : List Lx) (hl : lxs.head? ≠ some (.kw tv_function)) (hp : Ready p lxs) :
    ∃ tok p1, handle_module_loop heap (fuel + 1) module p = .ok (module, p1) ∧
      MatchesHead tok lxs ∧ Ready p1 lxs.tail ∧ Just p1 tok ∧ Same p p1 := by
  obtain ⟨tok, p1, r1, r2, r3, r4, r5⟩ := read_ahead heap p lxs (Or.inl hp)
  rw [handle_module_loop, r1]
  simp only [not_function_of_head tok lxs r2 hl, Bool.false_eq_true, if_false]
  exact ⟨tok, p1, rfl, r2, r3, r4, r5⟩

theorem functions_lex_length : ∀ fs : List FunctionAst, fs.length ≤ (functions_lex fs).length := by
  intro fs
  induction fs with
  | nil => simp
  | cons f fs ih =>
    simp only [functions_lex, function_lex, function_open_lex, List.length_append,
      List.length_cons, List.length_nil]
    omega

theorem handle_module_open (heap : Nat → Junk) (m : ModuleAst) (hm : m.wf = true)
    (more : List Lx) (p : Parser)
    (h : Ahead p (.kw tv_validate :: .text m.name :: .op tv_lbrace ::
      (functions_lex m.functions ++ more))) :
    ∃ p1 p2 p3 p4 t0 t1 t2 n fs,
      parser_forward_tval heap p tv_validate = .ok (some t0, p1) ∧
      parser_get_token heap p1 = .ok (t1, p2) ∧
      make_value_tok t1 = n ∧ IsValue m.name n ∧
      parser_forward_tval heap p2 tv_lbrace = .ok (some t2, p3) ∧
      List.Forall₂ IsFunction m.functions fs ∧ Ready p4 more ∧ Same p p4 ∧
      m.functions.length + more.length ≤ parser_fuel p3 ∧
      ∀ fuel, handle_module_loop heap (m.functions.length + fuel)
          (.module ⟨0, 0⟩ n (.list ⟨0, 0⟩ [])) p3 =
        handle_module_loop heap fuel (.module ⟨0, 0⟩ n (.list ⟨0, 0⟩ fs)) p4 := by
  simp only [ModuleAst.wf, List.all_eq_true] at hm
  obtain ⟨t0, p1, e1, e2, e3⟩ := parser_forward_tval_kw heap p tv_validate _ h
  obtain ⟨t1, p2, r1, r2, r3, _, r5⟩ := read_ready heap p1 _ _ e2
  obtain ⟨t2, p3, b1, b2, b3⟩ := parser_forward_tval_op heap p2 tv_lbrace _ (Or.inl r3)
  obtain ⟨fs, p4, l1, l2, l3, l4⟩ := handle_module_loop_prefix heap ⟨0, 0⟩ ⟨0, 0⟩
    (make_value_tok t1) more m.functions hm [] p3 b2
  have hlen : m.functions.length + more.length ≤ parser_fuel p3 := by
    have h1 := ready_length p3 _ b2
    have h2 := functions_lex_length m.functions
    simp only [List.length_append] at h1
    unfold parser_fuel
    omega
  exact ⟨p1, p2, p3, p4, t0, t1, t2, _, fs, e1, r1, rfl,
    ⟨token_location t1, by simp [make_value_tok, r2.2.1]⟩, b1, l1, l2,
    ((e3.same_trans r5).same_trans b3).same_trans l3, hlen, by simpa using l4⟩
theorem isModule_good (m : ModuleAst) (t : Tree) (h : IsModule m t) :
    t.is_null = false ∧ t.is_error_mark = false := by
  obtain ⟨n, fs, rfl, _⟩ := h
  exact ⟨rfl, rfl⟩

theorem handle_module_parses (heap : Nat → Junk) (m : ModuleAst) (hm : m.wf = true) :
    Parses (handle_module heap) (module_lex m) (IsModule m) := by
  intro p more h
  simp only [module_lex, List.cons_append, List.append_assoc, List.singleton_append] at h
  obtain ⟨p1, p2, p3, p4, t0, t1, t2, n, fs, e1, e2, e3, e4, e5, e6, e7, e8, e9, e10⟩ :=
    handle_module_open heap m hm (.op tv_rbrace :: more) p h
  obtain ⟨k, hk⟩ : ∃ k, parser_fuel p3 = m.functions.length + (k + 1) := by
    simp only [List.length_cons] at e9
    exact ⟨parser_fuel p3 - m.functions.length - 1, by omega⟩
  obtain ⟨tok, p5, d1, d2, d3, d4, d5⟩ := handle_module_loop_end heap
    (.module ⟨0, 0⟩ n (.list ⟨0, 0⟩ fs)) p4 k (.op tv_rbrace :: more) (by simp) e7
  have ha := ahead_of_unget p5 tok (.op tv_rbrace :: more) d4 d2 d3
  obtain ⟨t6, p6, c1, c2, c3⟩ := parser_forward_tval_op heap _ tv_rbrace more ha
  unfold handle_module
  rw [e1]
  simp only []
  rw [e2]
  simp only [set_tree_operand, make_tree, if_true, e3]
  rw [e5]
  simp only [show ¬ ((1 : Int) = 0) from by decide, if_false, if_true, make_tree_list, make_tree]
  rw [hk, e10 (k + 1), d1]
  simp only []
  rw [unget_just p5 tok d4]
  simp only []
  rw [c1]
  exact ⟨_, p6, rfl, ⟨n, fs, rfl, e4, e6⟩, c2,
    ((e8.same_trans d5).same_trans (same_unget p5)).same_trans c3⟩

theorem handle_module_eof (heap : Nat → Junk) (m : ModuleAst) (hm : m.wf = true)
    (f : FunctionAst) (hf : f.wf = true) (p : Parser)
    (h : Ahead p (.kw tv_validate :: .text m.name :: .op tv_lbrace ::
      (functions_lex m.functions ++ function_open_lex f))) :
    ∃ p1, handle_module heap p = .ok (.error_mark, p1) ∧ Ready p1 [] ∧
      p1.lex.error_count = p.lex.error_count + 2 ∧
      p1.lex.error_notifications = p.lex.error_notifications := by
  obtain ⟨p1, p2, p3, p4, t0, t1, t2, n, fs, e1, e2, e3, e4, e5, e6, e7, e8, e9, e10⟩ :=
    handle_module_open heap m hm (function_open_lex f) p h
  obtain ⟨k, hk⟩ : ∃ k, parser_fuel p3 = m.functions.length + ((k + 1) + 1) := by
    simp only [function_open_lex, List.length_cons] at e9
    exact ⟨parser_fuel p3 - m.functions.length - 2, by omega⟩
  -- the function that is not closed
  obtain ⟨tl, htl⟩ : ∃ tl, function_open_lex f = .kw tv_function :: tl := ⟨_, rfl⟩
  have e7b : Ready p4 (.kw tv_function :: tl) := by rw [← htl]; exact e7
  obtain ⟨tok, p5, r1, r2, r3, r4, r5⟩ := read_ready heap p4 _ _ e7b
  have ha := ahead_of_unget p5 tok (.kw tv_function :: tl) r4 r2 r3
  rw [← htl] at ha
  obtain ⟨p6, c1, c2, c3, c4⟩ := handle_cases_eof heap f hf { p5 with unget_idx := 1 } ha
  -- the end of the input ends the loop
  obtain ⟨tok7, p7, d1, d2, d3, d4, d5⟩ := handle_module_loop_end heap
    (.module ⟨0, 0⟩ n (.list ⟨0, 0⟩ (fs ++ [.error_mark]))) p6 k [] (by simp) c2
  have ha8 := ahead_of_unget p7 tok7 [] d4 d2 d3
  obtain ⟨p9, g1, g2, g3, g4⟩ := parser_forward_tval_eof heap _ tv_rbrace (by decide) ha8
  unfold handle_module
  rw [e1]
  simp only []
  rw [e2]
  simp only [set_tree_operand, make_tree, if_true, e3]
  rw [e5]
  simp only [show ¬ ((1 : Int) = 0) from by decide, if_false, if_true, make_tree_list, make_tree]
  rw [hk, e10 ((k + 1) + 1)]
  rw [handle_module_loop, r1]
  simp only [is_function_kw tok r2, if_true]
  rw [unget_just p5 tok r4]
  simp only []
  rw [c1]
  simp only [get_tree_operand, tree_list_append, set_tree_operand,
    show ¬ ((1 : Int) = 0) from by decide, if_false, if_true]
  rw [d1]
  simp only []
  rw [unget_just p7 tok7 d4]
  simp only []
  rw [g1]
  refine ⟨p9, rfl, g2, ?_, ?_⟩
  · rw [g3]
    show p7.lex.error_count + 1 = p.lex.error_count + 2
    rw [d5.1, c3]
    show p5.lex.error_count + 1 + 1 = p.lex.error_count + 2
    rw [r5.1, e8.1]
    omega
  · rw [g4]
    show p7.lex.error_notifications = p.lex.error_notifications
    rw [d5.2, c4]
    show p5.lex.error_notifications = p.lex.error_notifications
    rw [r5.2, e8.2]
theorem strcmp_eq_zero : ∀ a b : List Byte, strcmp a b = 0 → a = b := by
  intro a
  induction a with
  | nil =>
    intro b h
    cases b with
    | nil => rfl
    | cons y ys => simp [strcmp] at h
  | cons x xs ih =>
    intro b h
    cases b with
    | nil => simp [strcmp] at h
    | cons y ys =>
      unfold strcmp at h
      by_cases h1 : x.val < y.val
      · rw [if_pos h1] at h; exact absurd h (by decide)
      · rw [if_neg h1] at h
        by_cases h2 : y.val < x.val
        · rw [if_pos h2] at h; exact absurd h (by decide)
        · rw [if_neg h2] at h
          have : x = y := Fin.ext (by omega)
          rw [this, ih ys h]

theorem module_exists_loop_fresh (name : List Byte) :
    ∀ (done : List ModuleAst) (acc : List Tree), List.Forall₂ IsModule done acc →
      name ∉ done.map ModuleAst.name → module_exists_loop name acc = .ok .null := by
  intro done acc h
  induction h with
  | nil => intro _; rfl
  | cons hm _ ih =>
    intro hn
    obtain ⟨n, fs, rfl, ⟨loc, rfl⟩, _⟩ := hm
    simp only [List.map_cons, List.mem_cons, not_or] at hn
    have hne : strcmp _ name ≠ 0 := fun h0 => hn.1 (strcmp_eq_zero _ _ h0).symm
    unfold module_exists_loop
    simp only [get_tree_operand, tree_value, if_true, hne, if_false]
    exact ih hn.2

theorem register_module_fresh (m : ModuleAst) (t : Tree) (p : Parser) (l : Location)
    (done : List ModuleAst) (acc : List Tree) (ht : IsModule m t)
    (hacc : List.Forall₂ IsModule done acc) (hn : m.name ∉ done.map ModuleAst.name) :
    register_module t p (.list l acc) = .ok (p, .list l (acc ++ [t])) := by
  have hex := module_exists_loop_fresh m.name done acc hacc hn
  obtain ⟨n, fs, rfl, ⟨loc, rfl⟩, _⟩ := ht
  unfold register_module
  simp only [Tree.is_null, Tree.is_error_mark, Bool.not_false, Bool.and_self, if_true,
    get_tree_operand, tree_value, module_exists, hex, tree_list_append]

theorem ready_lex (p : Parser) (lex : Lexer) (lxs : List Lx) (h : Ready p lxs)
    (h1 : lex.file = p.lex.file) (h2 : lex.is_eof = p.lex.is_eof) :
    Ready { p with lex := lex } lxs := by
  obtain ⟨r1, r2, r3⟩ := h
  refine ⟨pinv_lex p lex r1, r2, ?_⟩
  simp only [h1, h2]
  exact r3

theorem ahead_lex (p : Parser) (lex : Lexer) (lxs : List Lx) (h : Ahead p lxs)
    (h1 : lex.file = p.lex.file) (h2 : lex.is_eof = p.lex.is_eof) :
    Ahead { p with lex := lex } lxs := by
  rcases h with h | ⟨tok, a1, a2, a3, a4⟩
  · exact Or.inl (ready_lex p lex lxs h h1 h2)
  · exact Or.inr ⟨tok, a1, a2, just_lex _ tok lex a3, ready_lex _ lex _ a4 h1 h2⟩

theorem program_lex_length : ∀ ms : List ModuleAst, ms.length ≤ (program_lex ms).length := by
  intro ms
  induction ms with
  | nil => simp
  | cons m ms ih =>
    simp only [program_lex, module_lex, List.length_append, List.length_cons, List.length_nil]
    omega

theorem parse_loop_prefix (heap : Nat → Junk) (l : Location) (more : List Lx) :
    ∀ (ms : List ModuleAst), (∀ m ∈ ms, m.wf = true) →
      ∀ (done : List ModuleAst) (acc : List Tree) (p : Parser),
      List.Forall₂ IsModule done acc → ((done ++ ms).map ModuleAst.name).Nodup →
      p.lex.error_notifications = false → Ready p (program_lex ms ++ more) →
      ∃ ts p1, List.Forall₂ IsModule (done ++ ms) (acc ++ ts) ∧ Ready p1 more ∧ Same p p1 ∧
        ∀ fuel, parse_loop heap (ms.length + fuel) p (.list l acc) =
          parse_loop heap fuel p1 (.list l (acc ++ ts)) := by
  intro ms
  induction ms with
  | nil =>
    intro _ done acc p hacc _ _ hp
    exact ⟨[], p, by simpa using hacc, by simpa [program_lex] using hp, ⟨rfl, rfl⟩,
      by intro fuel; simp⟩
  | cons m ms ih =>
    intro hwf done acc p hacc hnd hflag hp
    obtain ⟨tl, htl⟩ : ∃ tl, module_lex m ++ (program_lex ms ++ more) =
        .kw tv_validate :: tl := ⟨_, rfl⟩
    have hp2 : Ready p (.kw tv_validate :: tl) := by
      rw [← htl]; simpa [program_lex] using hp
    obtain ⟨tok, p1, r1, r2, r3, r4, r5⟩ := read_ready heap p _ _ hp2
    have ha := ahead_of_unget p1 tok (.kw tv_validate :: tl) r4 r2 r3
    rw [← htl] at ha
    have ha2 : Ahead (set_notifications { p1 with unget_idx := 1 } true)
        (module_lex m ++ (program_lex ms ++ more)) :=
      ahead_lex _ _ _ ha rfl rfl
    obtain ⟨t, p3, c1, c2, c3, c4⟩ := handle_module_parses heap m (hwf m (by simp)) _ _ ha2
    have hn : m.name ∉ done.map ModuleAst.name := by
      intro hmem
      rw [List.map_append, List.map_cons] at hnd
      have := (List.nodup_append.1 hnd).2.2
      exact this hmem (by simp)
    have hreg := register_module_fresh m t p3 l done acc c2 hacc hn
    have hr4 : Ready (set_notifications p3 false) (program_lex ms ++ more) :=
      ready_lex p3 _ _ c3 rfl rfl
    have hacc2 : List.Forall₂ IsModule (done ++ [m]) (acc ++ [t]) :=
      List.rel_append hacc (List.Forall₂.cons c2 List.Forall₂.nil)
    obtain ⟨ts, p5, i1, i2, i3, i4⟩ := ih (fun x hx => hwf x (by simp [hx])) (done ++ [m])
      (acc ++ [t]) (set_notifications p3 false) hacc2 (by simpa using hnd) rfl hr4
    refine ⟨t :: ts, p5, by simpa using i1, i2, ?_, ?_⟩
    · refine ⟨?_, ?_⟩
      · rw [i3.1]
        show p3.lex.error_count = p.lex.error_count
        rw [c4.1]
        show p1.lex.error_count = p.lex.error_count
        exact r5.1
      · rw [i3.2]
        exact hflag.symm
    · intro fuel
      rw [show (m :: ms).length + fuel = (ms.length + fuel) + 1 from by simp; omega]
      rw [parse_loop, r1]
      have hcls : token_class tok ≠ tok_eof := by
        unfold token_class; rw [r2.1]; decide
      simp only [hcls, ne_eq, not_false_eq_true, if_true]
      rw [unget_just p1 tok r4]
      simp only []
      rw [c1]
      simp only []
      rw [hreg]
      simp only []
      rw [i4 fuel]
      simp

theorem parse_loop_end (heap : Nat → Junk) (p : Parser) (ml : Tree) (fuel : Nat)
    (hp : Ready p []) :
    ∃ p1, parse_loop heap (fuel + 1) p ml = .ok (p1, ml) ∧ Same p p1 := by
  obtain ⟨tok, p1, r1, r2, _, _, r5⟩ := read_ready_eof heap p hp
  rw [parse_loop, r1]
  have hcls : ¬ (token_class tok ≠ tok_eof) := by
    unfold token_class; rw [r2.1]; simp
  simp only [hcls, if_false]
  exact ⟨p1, rfl, r5⟩
set_option maxRecDepth 100000 in
theorem byte_facts_xdigit : ∀ c : Byte, isxdigit c = true → c ≠ 0 := by
  decide

set_option maxRecDepth 100000 in
theorem byte_facts_delim2 : ∀ d : Byte, is_delim d = true →
    isxdigit d = false ∧ ¬ (48 ≤ d.val ∧ d.val < 56) := by
  decide

theorem lexer_read_hex_loop_spec (d : Byte) (tl : List Byte) (hd : is_delim d = true) :
    ∀ (hs : List Byte) (fuel : Nat) (lex : Lexer) (b : Buffer) (c : Byte),
      lex.is_eof = false → lex.file = hs ++ d :: tl → hs.all isxdigit = true →
      hs.length < fuel →
      lexer_read_hex_loop fuel lex b c =
        .ok (d, { lex with file := tl, loc := (hs ++ [d]).foldl advance lex.loc },
             add_all b (c :: hs)) := by
  intro hs
  induction hs with
  | nil =>
    intro fuel lex b c he hf _ hfuel
    obtain ⟨f, rfl⟩ : ∃ f, fuel = f + 1 := ⟨fuel - 1, by simp at hfuel; omega⟩
    have hg := lexer_getch_cons lex d tl he (by simpa using hf)
    unfold lexer_read_hex_loop
    simp [hg, (byte_facts_delim2 d hd).1, add_all]
  | cons x xs ih =>
    intro fuel lex b c he hf hhs hfuel
    obtain ⟨f, rfl⟩ : ∃ f, fuel = f + 1 := ⟨fuel - 1, by simp at hfuel; omega⟩
    simp only [List.all_cons, Bool.and_eq_true] at hhs
    have hg := lexer_getch_cons lex x (xs ++ d :: tl) he (by simpa using hf)
    unfold lexer_read_hex_loop
    simp only [hg, hhs.1, if_true]
    rw [ih f _ _ x (by simpa using he) rfl hhs.2 (by simp at hfuel; omega)]
    simp [add_all]

theorem lexer_read_hex_number_spec (lex0 : Lexer) (tok : PTok) (x d : Byte) (hs tl : List Byte)
    (hx : x = 120 ∨ x = 88) (hhs : hs.all isxdigit = true) (hd : is_delim d = true)
    (he : lex0.is_eof = false) (hf : lex0.file = x :: hs ++ d :: tl) :
    ∃ lex1 b1, lexer_read_hex_number lex0 tok { buf := none, size := 16 } 48 =
        .ok (lex1, { tok with tok_class := some tok_hexnum, uses_buf := true }, b1) ∧
      b1.buf = some (48 :: x :: hs ++ [0]) ∧ LexAt lex0 lex1 (d :: tl) := by
  have hg := lexer_getch_cons lex0 x (hs ++ d :: tl) he (by simpa using hf)
  have hloop := lexer_read_hex_loop_spec d tl hd hs ((hs ++ d :: tl).length + 1)
    { lex0 with file := hs ++ d :: tl, loc := advance lex0.loc x }
    (buffer_add_char { buf := none, size := 16 } 48) x he rfl hhs (by simp; omega)
  have hx2 : ¬ (¬ x = 120 ∧ ¬ x = 88) := by tauto
  unfold lexer_read_hex_number
  simp only [ne_eq, not_true_eq_false, if_false, hg, hx2]
  rw [hloop]
  refine ⟨_, _, rfl, ?_, ?_⟩
  · rw [buffer_add_char_buf, add_all_buf _ _ (by simp)]
    simp [buffer_add_char]
  · simp only [lexer_ungetch, (byte_facts_delim d hd).1, if_false]
    exact ⟨rfl, he, rfl, rfl⟩

theorem lexes_hex (w : List Byte) (hw : is_hex_text w = true) : Lexes w (.text w) := by
  obtain ⟨x, hs, rfl, hx, hhs⟩ : ∃ x hs, w = 48 :: x :: hs ∧ (x = 120 ∨ x = 88) ∧
      hs.all isxdigit = true := by
    match w, hw with
    | z :: x :: hs, hw =>
      simp only [is_hex_text, Bool.and_eq_true, Bool.or_eq_true, beq_iff_eq] at hw
      exact ⟨x, hs, by rw [hw.1.1], hw.1.2, hw.2⟩
  refine ⟨⟨48, x :: hs, rfl, by decide, by decide, by decide⟩, ?_⟩
  intro junk lex rest he hf hsep
  obtain ⟨d, tl, rfl, hd⟩ := starts_delim_cons rest hsep
  have hx0 : x ≠ 0 ∧ x ≠ CEOF := by
    rcases hx with rfl | rfl <;> exact ⟨by decide, by decide⟩
  have hg := lexer_getch_cons lex 48 (x :: hs ++ d :: tl) he (by simpa using hf)
  have hg2 := lexer_getch_cons
    { lex with file := x :: hs ++ d :: tl, loc := advance lex.loc 48 } x (hs ++ d :: tl) he
    (by simp)
  have hnz : ∀ y ∈ 48 :: x :: hs, y ≠ 0 := by
    intro y hy
    rcases List.mem_cons.1 hy with rfl | hy
    · decide
    · rcases List.mem_cons.1 hy with rfl | hy
      · exact hx0.1
      · exact byte_facts_xdigit y ((List.all_eq_true.1 hhs) y hy)
  obtain ⟨lex1, b1, e1, e2, e3⟩ := lexer_read_hex_number_spec
    (lexer_ungetch { lex with file := hs ++ d :: tl, loc := advance (advance lex.loc 48) x } x)
    { tok_class := junk.tok_class, uses_buf := false, tval := junk.tval } x d hs tl hx hhs hd he
    (by simp [lexer_ungetch, hx0.2])
  unfold lexer_get_token
  simp only [hg, show isspace (48 : Byte) = false from by decide, Bool.false_eq_true, if_false]
  unfold lexer_dispatch
  simp only [show (48 : Byte) ≠ CEOF from by decide, show (48 : Byte) ≠ 35 from by decide,
    show (48 : Byte) ≠ 34 from by decide, show isalpha (48 : Byte) = false from by decide,
    show (48 : Byte) ≠ 46 from by decide, show isdigit (48 : Byte) = true from by decide,
    if_false, if_true, Bool.false_eq_true]
  simp only [hg2, hx, if_true]
  rw [e1]
  simp only [return_token, e2]
  refine ⟨_, _, rfl, ⟨rfl, ?_, by simp, by simp, by simp, by simp, by simp⟩,
    ⟨e3.1, e3.2.1, e3.2.2.1, e3.2.2.2⟩⟩
  simp only [token_as_string, token_uses_buf, if_true]
  exact cstr_append_zero _ hnz

set_option maxRecDepth 100000 in
theorem byte_facts_octal : ∀ c : Byte, 48 ≤ c.val ∧ c.val < 56 →
    c ≠ 0 ∧ c ≠ CEOF ∧ isdigit c = true ∧ c ≠ 120 ∧ c ≠ 88 := by
  decide

theorem lexer_read_octal_loop_spec (d : Byte) (tl : List Byte) (hd : is_delim d = true) :
    ∀ (ds : List Byte) (fuel : Nat) (lex : Lexer) (b : Buffer) (c : Byte),
      lex.is_eof = false → lex.file = ds ++ d :: tl →
      ds.all (fun x => decide (48 ≤ x.val ∧ x.val < 56)) = true →
      ds.length < fuel →
      lexer_read_octal_loop fuel lex b c =
        .ok (d, { lex with file := tl, loc := (ds ++ [d]).foldl advance lex.loc },
             add_all b (c :: ds)) := by
  intro ds
  induction ds with
  | nil =>
    intro fuel lex b c he hf _ hfuel
    obtain ⟨f, rfl⟩ : ∃ f, fuel = f + 1 := ⟨fuel - 1, by simp at hfuel; omega⟩
    have hg := lexer_getch_cons lex d tl he (by simpa using hf)
    unfold lexer_read_octal_loop
    simp only [hg, (byte_facts_delim2 d hd).2, if_false]
    simp [add_all]
  | cons x xs ih =>
    intro fuel lex b c he hf hds hfuel
    obtain ⟨f, rfl⟩ : ∃ f, fuel = f + 1 := ⟨fuel - 1, by simp at hfuel; omega⟩
    simp only [List.all_cons, Bool.and_eq_true, decide_eq_true_eq] at hds
    have hg := lexer_getch_cons lex x (xs ++ d :: tl) he (by simpa using hf)
    unfold lexer_read_octal_loop
    simp only [hg, hds.1, and_self, if_true]
    rw [ih f _ _ x (by simpa using he) rfl (by simpa using hds.2) (by simp at hfuel; omega)]
    simp [add_all]

theorem lexes_octal (w : List Byte) (hw : is_octal_text w = true) :
    Lexes w (.text (48 :: w)) := by
  obtain ⟨x, ds, rfl, hx, hds⟩ : ∃ x ds, w = 48 :: x :: ds ∧ (48 ≤ x.val ∧ x.val < 56) ∧
      (x :: ds).all (fun x => decide (48 ≤ x.val ∧ x.val < 56)) = true := by
    match w, hw with
    | z :: x :: ds, hw =>
      simp only [is_octal_text, Bool.and_eq_true, beq_iff_eq] at hw
      refine ⟨x, ds, by rw [hw.1], ?_, hw.2⟩
      have := hw.2
      simp only [List.all_cons, Bool.and_eq_true, decide_eq_true_eq] at this
      exact this.1
  refine ⟨⟨48, x :: ds, rfl, by decide, by decide, by decide⟩, ?_⟩
  intro junk lex rest he hf hsep
  obtain ⟨d, tl, rfl, hd⟩ := starts_delim_cons rest hsep
  obtain ⟨x1, x2, x3, x4, x5⟩ := byte_facts_octal x hx
  have hg := lexer_getch_cons lex 48 (x :: ds ++ d :: tl) he (by simpa using hf)
  have hg2 := lexer_getch_cons
    { lex with file := x :: ds ++ d :: tl, loc := advance lex.loc 48 } x (ds ++ d :: tl) he
    (by simp)
  have hnz : ∀ y ∈ 48 :: 48 :: x :: ds, y ≠ 0 := by
    intro y hy
    rcases List.mem_cons.1 hy with rfl | hy
    · decide
    · rcases List.mem_cons.1 hy with rfl | hy
      · decide
      · have := (List.all_eq_true.1 hds) y hy
        exact (byte_facts_octal y (by simpa using this)).1
  have hloop := lexer_read_octal_loop_spec d tl hd (x :: ds)
    (((x :: ds) ++ d :: tl).length + 1)
    (lexer_ungetch { lex with file := ds ++ d :: tl, loc := advance (advance lex.loc 48) x } x)
    (buffer_add_char { buf := none, size := 16 } 48) 48 he
    (by simp [lexer_ungetch, x2]) hds (by simp; omega)
  have hlen : (lexer_ungetch
      { lex with file := ds ++ d :: tl, loc := advance (advance lex.loc 48) x } x).file.length + 1
      = ((x :: ds) ++ d :: tl).length + 1 := by
    simp [lexer_ungetch, x2]
  unfold lexer_get_token
  simp only [hg, show isspace (48 : Byte) = false from by decide, Bool.false_eq_true, if_false]
  unfold lexer_dispatch
  simp only [show (48 : Byte) ≠ CEOF from by decide, show (48 : Byte) ≠ 35 from by decide,
    show (48 : Byte) ≠ 34 from by decide, show isalpha (48 : Byte) = false from by decide,
    show (48 : Byte) ≠ 46 from by decide, show isdigit (48 : Byte) = true from by decide,
    if_false, if_true, Bool.false_eq_true]
  simp only [hg2, x3, x4, x5, or_self, if_false, if_true]
  rw [if_neg (not_not.2 ⟨hx.1, by omega⟩)]
  unfold lexer_read_octal_number
  simp only [ne_eq, not_true_eq_false, if_false]
  rw [hlen, hloop]
  simp only [return_token]
  rw [buffer_add_char_buf, add_all_buf _ _ (by simp)]
  refine ⟨_, _, rfl, ⟨rfl, ?_, by simp, by simp, by simp, by simp, by simp⟩, ?_⟩
  · simp only [token_as_string, token_uses_buf, if_true, buffer_add_char, Option.getD_some,
      List.singleton_append, List.cons_append]
    exact cstr_append_zero _ hnz
  · simp only [lexer_ungetch, (byte_facts_delim d hd).1, x2, if_false]
    exact ⟨rfl, he, rfl, rfl⟩

theorem lexer_read_string_loop_spec (rest : List Byte) :
    ∀ (n : Nat) (body : List Byte) (fuel : Nat) (lex : Lexer) (b : Buffer),
      body.length ≤ n → lex.is_eof = false → lex.file = body ++ 34 :: rest →
      string_body false body = true → body.length < fuel →
      lexer_read_string_loop 34 fuel lex b =
        .ok (true, { lex with file := rest, loc := (body ++ [34]).foldl advance lex.loc },
             add_all b (body ++ [34])) := by
  intro n
  induction n with
  | zero =>
    intro body fuel lex b hn he hf _ hfuel
    obtain ⟨f, rfl⟩ : ∃ f, fuel = f + 1 := ⟨fuel - 1, by omega⟩
    have hb : body = [] := List.length_eq_zero.1 (by omega)
    subst hb
    have hg := lexer_getch_cons lex 34 rest he (by simpa using hf)
    unfold lexer_read_string_loop
    simp [hg, show (34 : Byte) ≠ CEOF from by decide, show (34 : Byte) ≠ 92 from by decide,
      add_all]
  | succ n ih =>
    intro body fuel lex b hn he hf hbody hfuel
    obtain ⟨f, rfl⟩ : ∃ f, fuel = f + 1 := ⟨fuel - 1, by omega⟩
    cases body with
    | nil =>
      have hg := lexer_getch_cons lex 34 rest he (by simpa using hf)
      unfold lexer_read_string_loop
      simp [hg, show (34 : Byte) ≠ CEOF from by decide, show (34 : Byte) ≠ 92 from by decide,
        add_all]
    | cons c cs =>
      have hg := lexer_getch_cons lex c (cs ++ 34 :: rest) he (by simpa using hf)
      by_cases hc : c = 92
      · subst hc
        cases cs with
        | nil => simp [string_body] at hbody
        | cons e es =>
          simp only [string_body, if_true, Bool.and_eq_true, bne_iff_ne, ne_eq] at hbody
          obtain ⟨⟨h1, h2⟩, h3⟩ := hbody
          have hg2 := lexer_getch_cons
            { lex with file := e :: es ++ 34 :: rest, loc := advance lex.loc 92 } e
            (es ++ 34 :: rest) he (by simp)
          unfold lexer_read_string_loop
          simp only [hg, show (92 : Byte) ≠ CEOF from by decide, if_false, if_true]
          simp only [List.cons_append] at hg2
          simp only [List.cons_append, hg2, h1, if_false]
          rw [ih es f _ _ (by simp at hn; omega) (by simpa using he) rfl h3
            (by simp at hfuel; omega)]
          simp [add_all]
      · simp only [string_body, hc, if_false, Bool.and_eq_true, bne_iff_ne, ne_eq] at hbody
        obtain ⟨⟨⟨h1, h2⟩, h3⟩, h4⟩ := hbody
        unfold lexer_read_string_loop
        simp only [hg, h1, hc, h2, if_false]
        rw [ih cs f _ _ (by simp at hn; omega) (by simpa using he) rfl h4
          (by simp at hfuel; omega)]
        simp [add_all]

theorem string_body_nz : ∀ (body : List Byte) (esc : Bool), string_body esc body = true →
    ∀ x ∈ body, x ≠ 0 := by
  intro body
  induction body with
  | nil => intro _ _ x hx; simp at hx
  | cons c cs ih =>
    intro esc h x hx
    cases esc with
    | true =>
      simp only [string_body, Bool.and_eq_true, bne_iff_ne, ne_eq] at h
      rcases List.mem_cons.1 hx with rfl | hx
      · exact h.1.2
      · exact ih false h.2 x hx
    | false =>
      by_cases hc : c = 92
      · simp only [string_body, hc, if_true] at h
        rcases List.mem_cons.1 hx with rfl | hx
        · rw [hc]; decide
        · exact ih true h x hx
      · simp only [string_body, hc, if_false, Bool.and_eq_true, bne_iff_ne, ne_eq] at h
        rcases List.mem_cons.1 hx with rfl | hx
        · exact h.1.2
        · exact ih false h.2 x hx

theorem lexes_string (body : List Byte) (hb : string_body false body = true) :
    Lexes (34 :: body ++ [34]) (.text (34 :: body ++ [34])) := by
  refine ⟨⟨34, body ++ [34], by simp, by decide, by decide, by decide⟩, ?_⟩
  intro junk lex rest he hf _
  have hg := lexer_getch_cons lex 34 (body ++ 34 :: rest) he (by simpa using hf)
  have hloop := lexer_read_string_loop_spec rest body.length body
    ((body ++ 34 :: rest).length + 1)
    { lex with file := body ++ 34 :: rest, loc := advance lex.loc 34 }
    (buffer_add_char { buf := none, size := 16 } 34) (le_refl _) he rfl hb (by simp; omega)
  have hnz : ∀ y ∈ 34 :: body ++ [34], y ≠ 0 := by
    intro y hy
    simp only [List.cons_append, List.mem_cons, List.mem_append, List.mem_singleton,
      List.not_mem_nil, or_false] at hy
    rcases hy with rfl | hy | rfl
    · decide
    · exact string_body_nz body false hb y hy
    · decide
  unfold lexer_get_token
  simp only [hg, show isspace (34 : Byte) = false from by decide, Bool.false_eq_true, if_false]
  unfold lexer_dispatch
  simp only [show (34 : Byte) ≠ CEOF from by decide, show (34 : Byte) ≠ 35 from by decide,
    if_false, if_true]
  unfold lexer_read_string
  simp only [ne_eq, not_true_eq_false, if_false]
  rw [hloop]
  simp only [return_token]
  rw [buffer_add_char_buf, add_all_buf _ _ (by simp)]
  refine ⟨_, _, rfl, ⟨rfl, ?_, by simp, by simp, by simp, by simp, by simp⟩,
    ⟨rfl, he, rfl, rfl⟩⟩
  simp only [token_as_string, token_uses_buf, if_true, buffer_add_char, Option.getD_some,
    List.singleton_append]
  exact cstr_append_zero _ hnz

theorem add_all_some (l : List Byte) : ∀ (b : Buffer) (pre : List Byte), b.buf = some pre →
    (add_all b l).buf = some (pre ++ l) := by
  induction l with
  | nil => intro b pre h; simpa [add_all] using h
  | cons x xs ih =>
    intro b pre h
    have h1 : (buffer_add_char b x).buf = some (pre ++ [x]) := by
      rw [buffer_add_char_buf, h]; rfl
    have := ih (buffer_add_char b x) (pre ++ [x]) h1
    simpa [add_all] using this

theorem lexer_read_exp_digits_spec (d : Byte) (tl : List Byte) (hd : is_delim d = true) :
    ∀ (ds : List Byte) (fuel : Nat) (lex : Lexer) (b : Buffer),
      lex.is_eof = false → lex.file = ds ++ d :: tl → ds.all isdigit = true →
      ds.length < fuel →
      lexer_read_exp_digits fuel lex b =
        .ok (d, { lex with file := tl, loc := (ds ++ [d]).foldl advance lex.loc },
             add_all b ds) := by
  intro ds
  induction ds with
  | nil =>
    intro fuel lex b he hf _ hfuel
    obtain ⟨f, rfl⟩ : ∃ f, fuel = f + 1 := ⟨fuel - 1, by simp at hfuel; omega⟩
    have hg := lexer_getch_cons lex d tl he (by simpa using hf)
    unfold lexer_read_exp_digits
    simp [hg, (byte_facts_delim d hd).2.2.1, add_all]
  | cons x xs ih =>
    intro fuel lex b he hf hds hfuel
    obtain ⟨f, rfl⟩ : ∃ f, fuel = f + 1 := ⟨fuel - 1, by simp at hfuel; omega⟩
    simp only [List.all_cons, Bool.and_eq_true] at hds
    have hg := lexer_getch_cons lex x (xs ++ d :: tl) he (by simpa using hf)
    unfold lexer_read_exp_digits
    simp only [hg, hds.1, if_true]
    rw [ih f _ _ (by simpa using he) rfl hds.2 (by simp at hfuel; omega)]
    simp [add_all]

theorem number_loop_delim (s : NumState) (pre : List Byte) (d : Byte) (tl : List Byte)
    (fuel : Nat) (hd : is_delim d = true) (he : s.lex.is_eof = false)
    (hf : s.lex.file = d :: tl) (hb : s.b.buf = some pre) :
    NumDone s pre [] d tl (lexer_read_number_loop (fuel + 1) s) := by
  obtain ⟨k1, k2, k3, k4, k5, k6, k7, k8⟩ := byte_facts_delim d hd
  have hg := lexer_getch_cons s.lex d tl he hf
  unfold lexer_read_number_loop
  simp only [hg, k1, k3, k4, k5, k6, or_self, if_false, Bool.not_false, if_true]
  exact ⟨_, rfl, by simpa using hb, rfl, he, rfl, rfl⟩

theorem number_loop_digits (rest : List Byte) :
    ∀ (ds : List Byte) (fuel : Nat) (s : NumState), s.lex.is_eof = false →
      s.lex.file = ds ++ rest → ds.all isdigit = true →
      lexer_read_number_loop (ds.length + fuel) s =
        lexer_read_number_loop fuel { s with
          lex := { s.lex with file := rest, loc := ds.foldl advance s.lex.loc },
          b := add_all s.b ds } := by
  intro ds
  induction ds with
  | nil =>
    intro fuel s he hf _
    simp only [List.nil_append] at hf
    simp only [List.length_nil, Nat.zero_add, List.foldl_nil, add_all]
    congr 1
    cases s with
    | mk lex b r sd se =>
      cases lex
      simp_all
  | cons x xs ih =>
    intro fuel s he hf hds
    simp only [List.all_cons, Bool.and_eq_true] at hds
    obtain ⟨x1, x2, x3, x4, x5, x6, x7, x8, x9, x10⟩ := byte_facts_digit x hds.1
    have hg := lexer_getch_cons s.lex x (xs ++ rest) he (by simpa using hf)
    rw [show (x :: xs).length + fuel = (xs.length + fuel) + 1 from by simp; omega]
    rw [lexer_read_number_loop]
    simp only [hg, x1, x2, x3, x4, hds.1, if_false, or_self, Bool.not_true, Bool.false_eq_true]
    rw [ih fuel _ (by simpa using he) rfl hds.2]
    simp [add_all]

theorem number_loop_exp (s : NumState) (pre ex : List Byte) (d : Byte) (tl : List Byte)
    (fuel : Nat) (hd : is_delim d = true) (hex : dec_exp ex = true)
    (he : s.lex.is_eof = false) (hf : s.lex.file = ex ++ d :: tl) (hb : s.b.buf = some pre)
    (hse : s.saw_exp = false) (hfuel : ex.length < fuel) :
    NumDone s pre ex d tl (lexer_read_number_loop fuel s) := by
  obtain ⟨f, rfl⟩ : ∃ f, fuel = f + 1 := ⟨fuel - 1, by omega⟩
  match ex, hex with
  | [], _ => exact number_loop_delim s pre d tl f hd he (by simpa using hf) hb
  | e :: c :: ds, hex =>
    simp only [dec_exp, Bool.and_eq_true, Bool.or_eq_true, beq_iff_eq] at hex
    obtain ⟨hE, hrest⟩ := hex
    have hE1 : e ≠ CEOF := by rcases hE with rfl | rfl <;> decide
    have hg := lexer_getch_cons s.lex e (c :: ds ++ d :: tl) he (by simpa using hf)
    have hg2 := lexer_getch_cons
      { s.lex with file := c :: ds ++ d :: tl, loc := advance s.lex.loc e } c (ds ++ d :: tl) he
      (by simp)
    have hb1 : (buffer_add_char s.b e).buf = some (pre ++ [e]) := by
      rw [buffer_add_char_buf, hb]; rfl
    unfold lexer_read_number_loop
    simp only [hg, hE1, hE, hse, if_false, if_true, Bool.false_eq_true]
    simp only [List.cons_append] at hg2
    simp only [List.cons_append, hg2]
    by_cases hsign : c = 43 ∨ c = 45
    · rw [if_pos hsign] at hrest
      simp only [Bool.and_eq_true, bne_iff_ne, ne_eq] at hrest
      obtain ⟨hne, hds⟩ := hrest
      obtain ⟨y, ys, rfl⟩ := List.exists_cons_of_ne_nil hne
      simp only [List.all_cons, Bool.and_eq_true] at hds
      have hg3 := lexer_getch_cons
        { s.lex with file := y :: ys ++ d :: tl, loc := advance (advance s.lex.loc e) c } y
        (ys ++ d :: tl) he (by simp)
      simp only [List.cons_append] at hg3
      simp only [hsign, if_true, List.cons_append, hg3, hds.1, Bool.not_true,
        Bool.false_eq_true, if_false]
      rw [lexer_read_exp_digits_spec d tl hd ys _ _ _ (by simpa using he) rfl hds.2 (by simp; omega)]
      refine ⟨_, rfl, ?_, rfl, he, rfl, rfl⟩
      have hb2 : (buffer_add_char (buffer_add_char (buffer_add_char s.b e) c) y).buf =
          some (pre ++ [e] ++ [c] ++ [y]) := by
        rw [buffer_add_char_buf, buffer_add_char_buf, hb1]; rfl
      rw [add_all_some ys _ _ hb2]
      simp
    · rw [if_neg hsign] at hrest
      simp only [List.all_cons, Bool.and_eq_true] at hrest
      simp only [hsign, if_false, hrest.1, Bool.not_true, Bool.false_eq_true]
      rw [lexer_read_exp_digits_spec d tl hd ds _ _ _ (by simpa using he) rfl hrest.2 (by simp; omega)]
      refine ⟨_, rfl, ?_, rfl, he, rfl, rfl⟩
      have hb2 : (buffer_add_char (buffer_add_char s.b e) c).buf = some (pre ++ [e] ++ [c]) := by
        rw [buffer_add_char_buf, hb1]; rfl
      rw [add_all_some ds _ _ hb2]
      simp

theorem NumDone.rebase (s s0 : NumState) (pre pre0 text text0 : List Byte) (d : Byte)
    (tl : List Byte) (r : Res (Option Byte × NumState)) (h : NumDone s pre text d tl r)
    (hpre : pre ++ text = pre0 ++ text0) (h1 : s.lex.error_count = s0.lex.error_count)
    (h2 : s.lex.error_notifications = s0.lex.error_notifications) :
    NumDone s0 pre0 text0 d tl r := by
  obtain ⟨s1, e1, e2, e3, e4, e5, e6⟩ := h
  exact ⟨s1, e1, by rw [e2, hpre], e3, e4, e5.trans h1, e6.trans h2⟩

theorem number_loop_tail (s : NumState) (pre fp ex : List Byte) (d : Byte) (tl : List Byte)
    (fuel : Nat) (hd : is_delim d = true) (hfp : dec_frac fp = true) (hex : dec_exp ex = true)
    (he : s.lex.is_eof = false) (hf : s.lex.file = fp ++ ex ++ d :: tl)
    (hb : s.b.buf = some pre) (hsd : s.saw_dot = false) (hse : s.saw_exp = false)
    (hfuel : (fp ++ ex).length < fuel) :
    NumDone s pre (fp ++ ex) d tl (lexer_read_number_loop fuel s) := by
  match fp, hfp with
  | [], _ =>
    exact number_loop_exp s pre ex d tl fuel hd hex he (by simpa using hf) hb hse
      (by simpa using hfuel)
  | c :: ds, hfp =>
    simp only [dec_frac, Bool.and_eq_true, beq_iff_eq] at hfp
    obtain ⟨rfl, hds⟩ := hfp
    obtain ⟨f, rfl⟩ : ∃ f, fuel = ds.length + f + 1 := ⟨fuel - ds.length - 1, by
      simp only [List.length_append, List.length_cons] at hfuel; omega⟩
    have hg := lexer_getch_cons s.lex 46 (ds ++ ex ++ d :: tl) he (by simpa using hf)
    have hb1 : (buffer_add_char s.b 46).buf = some (pre ++ [46]) := by
      rw [buffer_add_char_buf, hb]; rfl
    rw [lexer_read_number_loop]
    simp only [hg, show (46 : Byte) ≠ CEOF from by decide, show (46 : Byte) ≠ 101 from by decide,
      show (46 : Byte) ≠ 69 from by decide, or_self, if_false, if_true, hsd, Bool.false_eq_true]
    rw [number_loop_digits (ex ++ d :: tl) ds f _ (by simpa using he) (by simp) hds]
    refine NumDone.rebase _ s (pre ++ [46] ++ ds) pre ex (46 :: ds ++ ex) d tl _
      (number_loop_exp _ (pre ++ [46] ++ ds) ex d tl f hd hex (by simpa using he) rfl
        (add_all_some ds _ _ hb1) hse ?_) (by simp) rfl rfl
    simp only [List.length_append, List.length_cons] at hfuel
    omega

set_option maxRecDepth 100000 in
theorem byte_facts_number : ∀ c : Byte, (isdigit c = true ∨ c = 46 ∨ c = 101 ∨ c = 69 ∨
    c = 43 ∨ c = 45) → c ≠ 0 ∧ c ≠ CEOF ∧ c ≠ 120 ∧ c ≠ 88 := by
  decide

theorem dec_frac_chars (fp : List Byte) (h : dec_frac fp = true) :
    ∀ x ∈ fp, isdigit x = true ∨ x = 46 ∨ x = 101 ∨ x = 69 ∨ x = 43 ∨ x = 45 := by
  match fp, h with
  | [], _ => intro x hx; simp at hx
  | c :: ds, h =>
    simp only [dec_frac, Bool.and_eq_true, beq_iff_eq] at h
    intro x hx
    rcases List.mem_cons.1 hx with rfl | hx
    · exact Or.inr (Or.inl h.1)
    · exact Or.inl ((List.all_eq_true.1 h.2) x hx)

theorem dec_exp_chars (ex : List Byte) (h : dec_exp ex = true) :
    ∀ x ∈ ex, isdigit x = true ∨ x = 46 ∨ x = 101 ∨ x = 69 ∨ x = 43 ∨ x = 45 := by
  match ex, h with
  | [], _ => intro x hx; simp at hx
  | e :: c :: ds, h =>
    simp only [dec_exp, Bool.and_eq_true, Bool.or_eq_true, beq_iff_eq] at h
    obtain ⟨hE, hrest⟩ := h
    intro x hx
    rcases List.mem_cons.1 hx with rfl | hx
    · rcases hE with rfl | rfl <;> simp
    · by_cases hsign : c = 43 ∨ c = 45
      · rw [if_pos hsign] at hrest
        simp only [Bool.and_eq_true] at hrest
        rcases List.mem_cons.1 hx with rfl | hx
        · rcases hsign with rfl | rfl <;> simp
        · exact Or.inl ((List.all_eq_true.1 hrest.2) x hx)
      · rw [if_neg hsign] at hrest
        exact Or.inl ((List.all_eq_true.1 hrest) x hx)

theorem tail_head (fp ex : List Byte) (d : Byte) (tl : List Byte) (hd : is_delim d = true)
    (hfp : dec_frac fp = true) (hex : dec_exp ex = true) :
    ∃ n rest, fp ++ ex ++ d :: tl = n :: rest ∧ n ≠ CEOF ∧ n ≠ 120 ∧ n ≠ 88 ∧
      isdigit n = false := by
  obtain ⟨k1, k2, k3, k4, k5, k6, k7, k8⟩ := byte_facts_delim d hd
  match fp, hfp with
  | c :: ds, hfp =>
    simp only [dec_frac, Bool.and_eq_true, beq_iff_eq] at hfp
    exact ⟨c, ds ++ ex ++ d :: tl, by simp, by rw [hfp.1]; decide, by rw [hfp.1]; decide,
      by rw [hfp.1]; decide, by rw [hfp.1]; decide⟩
  | [], _ =>
    match ex, hex with
    | [], _ => exact ⟨d, tl, by simp, k1, k7, k8, k3⟩
    | e :: c :: ds, hex =>
      simp only [dec_exp, Bool.and_eq_true, Bool.or_eq_true, beq_iff_eq] at hex
      refine ⟨e, c :: ds ++ d :: tl, by simp, ?_, ?_, ?_, ?_⟩ <;>
        rcases hex.1 with rfl | rfl <;> decide

theorem lexer_read_number_decimal (lex0 : Lexer) (c d : Byte) (ds fp ex tl : List Byte)
    (hc : isdigit c = true) (hds : ds.all isdigit = true) (hfp : dec_frac fp = true)
    (hex : dec_exp ex = true) (hd : is_delim d = true)
    (he : lex0.is_eof = false) (hf : lex0.file = ds ++ (fp ++ ex ++ d :: tl)) :
    ∃ cls lex1 b1, lexer_read_number lex0 { buf := none, size := 16 } c = .ok (cls, lex1, b1) ∧
      (cls = tok_intnum ∨ cls = tok_realnum) ∧
      b1.buf = some (c :: ds ++ (fp ++ ex) ++ [0]) ∧ LexAt lex0 lex1 (d :: tl) := by
  obtain ⟨x1, x2, x3, x4, x5, x6, x7, x8, x9, x10⟩ := byte_facts_digit c hc
  have hlen : lex0.file.length + 1 = ds.length + ((fp ++ ex).length + (tl.length + 1) + 1) := by
    rw [hf]; simp only [List.length_append, List.length_cons]; omega
  have hb0 : (buffer_add_char { buf := none, size := 16 } c).buf = some [c] := rfl
  have hdone := number_loop_tail
    { lex := { lex0 with file := fp ++ ex ++ d :: tl, loc := ds.foldl advance lex0.loc },
      b := add_all (buffer_add_char { buf := none, size := 16 } c) ds,
      isreal := false, saw_dot := false, saw_exp := false }
    ([c] ++ ds) fp ex d tl ((fp ++ ex).length + (tl.length + 1) + 1) hd hfp hex he rfl
    (add_all_some ds _ _ hb0) rfl rfl (by omega)
  obtain ⟨s1, e1, e2, e3, e4, e5, e6⟩ := hdone
  unfold lexer_read_number
  simp only [x4, if_false]
  rw [hlen, number_loop_digits (fp ++ ex ++ d :: tl) ds _ _ he hf hds, e1]
  refine ⟨_, _, _, rfl, ?_, ?_, ?_⟩
  · simp only [lexer_read_number_finish]
    by_cases hr : s1.isreal = true <;> simp [hr]
  · simp only [lexer_read_number_finish]
    rw [buffer_add_char_buf, e2]
    simp
  · simp only [lexer_read_number_finish, lexer_ungetch, (byte_facts_delim d hd).1, if_false]
    exact ⟨by rw [e3], e4, e5, e6⟩

theorem int_text_parts (w : List Byte) (hw : is_int_text w = true) :
    ∃ c ds, w = c :: ds ∧ isdigit c = true ∧ ds.all isdigit = true ∧ (c = 48 → ds = []) := by
  cases w with
  | nil => simp [is_int_text] at hw
  | cons c ds =>
    cases ds with
    | nil => exact ⟨c, [], rfl, by simpa [is_int_text] using hw, rfl, fun _ => rfl⟩
    | cons x xs =>
      simp only [is_int_text, Bool.and_eq_true, bne_iff_ne, ne_eq] at hw
      exact ⟨c, x :: xs, rfl, hw.1.1, hw.2, fun h => absurd h hw.1.2⟩

theorem number_text_nz (l : List Byte)
    (h : ∀ x ∈ l, isdigit x = true ∨ x = 46 ∨ x = 101 ∨ x = 69 ∨ x = 43 ∨ x = 45) :
    ∀ x ∈ l, x ≠ 0 :=
  fun x hx => (byte_facts_number x (h x hx)).1

theorem lexes_decimal (ip fp ex : List Byte) (hip : is_int_text ip = true)
    (hfp : dec_frac fp = true) (hex : dec_exp ex = true) :
    Lexes (ip ++ fp ++ ex) (.text (ip ++ fp ++ ex)) := by
  obtain ⟨c, ds, rfl, hc, hds, hz⟩ := int_text_parts ip hip
  obtain ⟨x1, x2, x3, x4, x5, x6, x7, x8, x9, x10⟩ := byte_facts_digit c hc
  refine ⟨⟨c, ds ++ fp ++ ex, by simp, x6, x7, x1⟩, ?_⟩
  intro junk lex rest he hf hsep
  obtain ⟨d, tl, rfl, hd⟩ := starts_delim_cons rest hsep
  obtain ⟨k1, k2, k3, k4, k5, k6, k7, k8⟩ := byte_facts_delim d hd
  have hf2 : lex.file = c :: (ds ++ (fp ++ ex ++ d :: tl)) := by rw [hf]; simp
  have hg := lexer_getch_cons lex c _ he hf2
  have hchars : ∀ x ∈ c :: ds ++ (fp ++ ex),
      isdigit x = true ∨ x = 46 ∨ x = 101 ∨ x = 69 ∨ x = 43 ∨ x = 45 := by
    intro x hx
    simp only [List.cons_append, List.mem_cons, List.mem_append] at hx
    rcases hx with rfl | hx | hx | hx
    · exact Or.inl hc
    · exact Or.inl ((List.all_eq_true.1 hds) x hx)
    · exact dec_frac_chars fp hfp x hx
    · exact dec_exp_chars ex hex x hx
  have hfin : ∀ (lex0 : Lexer), lex0.is_eof = false → lex0.file = ds ++ (fp ++ ex ++ d :: tl) →
      lex0.error_count = lex.error_count →
      lex0.error_notifications = lex.error_notifications →
      ∃ tok lex1,
        (match lexer_read_number lex0 { buf := none, size := 16 } c with
          | .ok (cls, lex1, b1) =>
            return_token { tok_class := some cls, uses_buf := false, tval := junk.tval } b1
              (advance lex.loc c) lex1
          | .abort => .abort
          | .nofuel => .nofuel) = .ok (tok, lex1) ∧
        Matches tok (.text (c :: ds ++ fp ++ ex)) ∧ LexAt lex lex1 (d :: tl) := by
    intro lex0 he0 hf0 hec hen
    obtain ⟨cls, lex1, b1, e1, e2, e3, e4⟩ :=
      lexer_read_number_decimal lex0 c d ds fp ex tl hc hds hfp hex hd he0 hf0
    rw [e1]
    simp only [return_token, e3]
    refine ⟨_, _, rfl, ⟨rfl, ?_, ?_, ?_, ?_, ?_, ?_⟩,
      ⟨e4.1, e4.2.1, e4.2.2.1.trans hec, e4.2.2.2.trans hen⟩⟩
    · simp only [token_as_string, token_uses_buf, if_true]
      rw [cstr_append_zero _ (number_text_nz _ hchars)]
      simp
    all_goals rcases e2 with rfl | rfl <;> simp
  unfold lexer_get_token
  simp only [hg, x6, Bool.false_eq_true, if_false]
  unfold lexer_dispatch
  simp only [x1, x7, x8, x9, x4, hc, if_false, if_true, Bool.false_eq_true]
  by_cases h0 : c = 48
  · have hds0 := hz h0
    subst hds0
    obtain ⟨n, rest, hn, n1, n2, n3, n4⟩ := tail_head fp ex d tl hd hfp hex
    simp only [List.nil_append] at hn ⊢
    have hg2 := lexer_getch_cons
      { lex with file := fp ++ ex ++ d :: tl, loc := advance lex.loc c } n rest he hn
    simp only [h0, if_true]
    rw [h0] at hg2
    simp only [hg2, n2, n3, n4, or_self, if_false, Bool.false_eq_true]
    have := hfin (lexer_ungetch
      { lex with file := rest, loc := advance (advance lex.loc 48) n } n) he
      (by simp [lexer_ungetch, n1, hn]) rfl rfl
    rw [h0] at this
    simpa using this
  · simp only [h0, if_false]
    exact hfin _ he rfl rfl rfl

theorem lexes_point (y : Byte) (ds ex : List Byte) (hy : isdigit y = true)
    (hds : ds.all isdigit = true) (hex : dec_exp ex = true) :
    Lexes (46 :: y :: ds ++ ex) (.text (46 :: y :: ds ++ ex)) := by
  refine ⟨⟨46, y :: ds ++ ex, by simp, by decide, by decide, by decide⟩, ?_⟩
  intro junk lex rest he hf hsep
  obtain ⟨d, tl, rfl, hd⟩ := starts_delim_cons rest hsep
  have hf2 : lex.file = 46 :: y :: (ds ++ (ex ++ d :: tl)) := by rw [hf]; simp
  have hg := lexer_getch_cons lex 46 _ he hf2
  have hg2 := lexer_getch_cons
    { lex with file := y :: (ds ++ (ex ++ d :: tl)), loc := advance lex.loc 46 } y _ he rfl
  have hchars : ∀ x ∈ 46 :: y :: ds ++ ex,
      isdigit x = true ∨ x = 46 ∨ x = 101 ∨ x = 69 ∨ x = 43 ∨ x = 45 := by
    intro x hx
    simp only [List.cons_append, List.mem_cons, List.mem_append] at hx
    rcases hx with rfl | rfl | hx | hx
    · simp
    · exact Or.inl hy
    · exact Or.inl ((List.all_eq_true.1 hds) x hx)
    · exact dec_exp_chars ex hex x hx
  have hb0 : (buffer_add_char (buffer_add_char { buf := none, size := 16 } 46) y).buf =
      some [46, y] := rfl
  have hlen : (ds ++ (ex ++ d :: tl)).length + 1 = ds.length + (ex.length + (tl.length + 1) + 1) := by
    simp only [List.length_append, List.length_cons]; omega
  have hdone := number_loop_exp
    (NumState.mk
      { lex with file := ex ++ d :: tl, loc := ds.foldl advance (advance (advance lex.loc 46) y) }
      (add_all (buffer_add_char (buffer_add_char { buf := none, size := 16 } 46) y) ds)
      true true false)
    ([46, y] ++ ds) ex d tl (ex.length + (tl.length + 1) + 1) hd hex he rfl
    (add_all_some ds _ _ hb0) rfl (by omega)
  obtain ⟨s1, e1, e2, e3, e4, e5, e6⟩ := hdone
  unfold lexer_get_token
  simp only [hg, show isspace (46 : Byte) = false from by decide, Bool.false_eq_true, if_false]
  unfold lexer_dispatch
  simp only [show (46 : Byte) ≠ CEOF from by decide, show (46 : Byte) ≠ 35 from by decide,
    show (46 : Byte) ≠ 34 from by decide, show isalpha (46 : Byte) = false from by decide,
    if_false, if_true, Bool.false_eq_true]
  unfold lexer_read_number
  simp only [if_true, hg2, hy, Bool.not_true, Bool.false_eq_true, if_false]
  rw [hlen, number_loop_digits (ex ++ d :: tl) ds _ _ he rfl hds, e1]
  simp only [lexer_read_number_finish, return_token]
  rw [buffer_add_char_buf, e2]
  refine ⟨_, _, rfl, ⟨rfl, ?_, ?_, ?_, ?_, ?_, ?_⟩, ?_⟩
  · simp only [token_as_string, token_uses_buf, if_true, Option.getD_some]
    rw [show [46, y] ++ ds ++ ex ++ [0] = (46 :: y :: ds ++ ex) ++ [0] from by simp]
    exact cstr_append_zero _ (number_text_nz _ hchars)
  · by_cases hr : s1.isreal = true <;> simp [hr]
  · by_cases hr : s1.isreal = true <;> simp [hr]
  · by_cases hr : s1.isreal = true <;> simp [hr]
  · by_cases hr : s1.isreal = true <;> simp [hr]
  · by_cases hr : s1.isreal = true <;> simp [hr]
  · simp only [lexer_ungetch, (byte_facts_delim d hd).1, if_false]
    exact ⟨by rw [e3], e4, e5, e6⟩

theorem lexeme_lexes (w : List Byte) (lx : Lx) (h : Lexeme w lx) : Lexes w lx := by
  cases h with
  | kw k hk => exact lexes_kw k hk
  | op k hk => exact lexes_op k hk
  | ident w hw => exact lexes_ident w hw
  | int w hw => exact lexes_int w hw
  | decimal ip fp ex h1 h2 h3 => exact lexes_decimal ip fp ex h1 h2 h3
  | point y ds ex h1 h2 h3 => exact lexes_point y ds ex h1 h2 h3
  | hex w hw => exact lexes_hex w hw
  | octal w hw => exact lexes_octal w hw
  | string body hb => exact lexes_string body hb

theorem source_layout : ∀ (lxs : List Lx) (file : List Byte), Source lxs file →
    Layout lxs file := by
  intro lxs
  induction lxs with
  | nil => intro file h; exact h
  | cons lx lxs ih =>
    intro file h
    obtain ⟨g, w, rest, h1, h2, h3, h4, h5⟩ := h
    exact ⟨g, w, rest, h1, lexeme_lexes w lx h2, h3, h4, ih rest h5⟩

theorem spaces_takeWhile (file : List Byte) : spaces (file.takeWhile isspace) = true := by
  induction file with
  | nil => rfl
  | cons c cs ih =>
    by_cases hc : isspace c = true
    · simp only [List.takeWhile_cons, hc, if_true, spaces, List.all_cons, Bool.true_and]
      exact ih
    · simp [List.takeWhile_cons, hc, spaces]

theorem lexeme_of_ok (lx : Lx) (h : lexeme_ok lx = true) : Lexeme (lexeme_text lx) lx := by
  cases lx with
  | kw k =>
    simp only [lexeme_ok, Bool.or_eq_true, beq_iff_eq] at h
    exact Lexeme.kw k h
  | op k =>
    simp only [lexeme_ok, Bool.or_eq_true, beq_iff_eq] at h
    exact Lexeme.op k (by tauto)
  | text s =>
    simp only [lexeme_ok, Bool.or_eq_true] at h
    rcases h with h | h
    · exact Lexeme.ident s h
    · exact Lexeme.int s h

theorem source_of_ok : ∀ (lxs : List Lx) (file : List Byte), source_ok lxs file = true →
    Source lxs file := by
  intro lxs
  induction lxs with
  | nil => intro file h; exact Gap.blank file h
  | cons lx lxs ih =>
    intro file h
    simp only [source_ok, Bool.and_eq_true] at h
    obtain ⟨⟨⟨h1, h2⟩, h3⟩, h4⟩ := h
    rw [List.isPrefixOf_iff_prefix] at h2
    obtain ⟨t, ht⟩ := h2
    have hd : (file.dropWhile isspace).drop (lexeme_text lx).length = t := by
      rw [← ht]; simp
    rw [hd] at h3 h4
    refine ⟨file.takeWhile isspace, lexeme_text lx, t, Gap.blank _ (spaces_takeWhile file),
      lexeme_of_ok lx h1, ?_, ?_, ih t h4⟩
    · cases lx <;> simp_all [Sep, sep_ok]
    · rw [List.append_assoc, ht, List.takeWhile_append_dropWhile]

theorem forall2_map_eq {α : Type} (post : α → Tree → Prop) (er : Tree → Tree) (mk : α → Tree)
    (h : ∀ a t, post a t → er t = mk a) :
    ∀ (as : List α) (ts : List Tree), List.Forall₂ post as ts → ts.map er = as.map mk := by
  intro as ts hf
  induction hf with
  | nil => rfl
  | cons h1 _ ih => simp [h _ _ h1, ih]

theorem isValue_erase (v : List Byte) (t : Tree) (h : IsValue v t) :
    erase_value t = value_tree v := by
  obtain ⟨loc, rfl⟩ := h
  rfl

theorem isGroup_erase (vs : List (List Byte)) (t : Tree) (h : IsGroup vs t) :
    erase_group t = group_tree vs := by
  obtain ⟨ts, rfl, h2⟩ := h
  simp only [erase_group, group_tree, lnode]
  rw [forall2_map_eq IsValue erase_value value_tree isValue_erase vs ts h2]

theorem isFunction_erase (f : FunctionAst) (t : Tree) (h : IsFunction f t) :
    erase_function t = function_tree f := by
  obtain ⟨n, gs, rfl, h1, h2⟩ := h
  simp only [erase_function, function_tree, fnode, lnode]
  rw [forall2_map_eq IsGroup erase_group group_tree isGroup_erase f.groups gs h2,
    isValue_erase _ _ h1]

theorem isModule_erase (m : ModuleAst) (t : Tree) (h : IsModule m t) :
    erase_module t = module_tree m := by
  obtain ⟨n, fs, rfl, h1, h2⟩ := h
  simp only [erase_module, module_tree, mnode, lnode]
  rw [forall2_map_eq IsFunction erase_function function_tree isFunction_erase m.functions fs h2,
    isValue_erase _ _ h1]

theorem isProgram_erase (ms : List ModuleAst) (ts : List Tree)
    (h : List.Forall₂ IsModule ms ts) :
    erase_locations (.list ⟨0, 0⟩ ts) = program_tree ms := by
  simp only [erase_locations, program_tree, lnode]
  rw [forall2_map_eq IsModule erase_module module_tree isModule_erase ms ts h]

theorem ready_init (file : List Byte) (lxs : List Lx) (h : Layout lxs file) :
    Ready (compile_start file) lxs :=
  ⟨pinv_lex _ _ (pinv_init _), rfl, Or.inl ⟨rfl, h⟩⟩

theorem compile_of_parse_loop (heap : Nat → Junk) (file : List Byte) (p1 : Parser) (ml : Tree)
    (h : parse_loop heap (parser_fuel (compile_start file)) (compile_start file)
      (.list ⟨0, 0⟩ []) = .ok (p1, ml)) :
    compile heap file =
      .ok (if p1.lex.error_count ≠ 0 then -3 else 0, p1.lex.error_count, ml) := by
  unfold compile parse
  simp only [make_tree_list, make_tree]
  unfold compile_start at h
  rw [h]
  by_cases hc : p1.lex.error_count = 0 <;> simp [hc]

theorem compile_program (heap : Nat → Junk) (ms : List ModuleAst) (file : List Byte)
    (hwf : ∀ m ∈ ms, m.wf = true) (hnd : (ms.map ModuleAst.name).Nodup)
    (hsrc : Source (program_lex ms) file) :
    ∃ ml, compile heap file = .ok (0, 0, ml) ∧ erase_locations ml = program_tree ms := by
  have hr := ready_init file (program_lex ms ++ []) (by
    simpa using source_layout _ _ hsrc)
  obtain ⟨ts, p1, i1, i2, i3, i4⟩ := parse_loop_prefix heap ⟨0, 0⟩ [] ms hwf [] [] _
    List.Forall₂.nil (by simpa using hnd) rfl hr
  have hlen : (program_lex ms ++ []).length ≤ file.length := ready_length _ _ hr
  have hlen2 := program_lex_length ms
  simp only [List.append_nil] at hlen
  obtain ⟨k, hk⟩ : ∃ k, parser_fuel (compile_start file) = ms.length + (k + 1) :=
    ⟨file.length + 1 - ms.length, by
      show file.length + 0 + 2 = _
      have : ms.length ≤ file.length := le_trans hlen2 hlen
      omega⟩
  obtain ⟨p2, e1, e2⟩ := parse_loop_end heap p1 (.list ⟨0, 0⟩ ([] ++ ts)) k i2
  have hec : p2.lex.error_count = 0 := by rw [e2.1, i3.1]; rfl
  refine ⟨.list ⟨0, 0⟩ ts, ?_, isProgram_erase ms ts (by simpa using i1)⟩
  rw [compile_of_parse_loop heap file p2 (.list ⟨0, 0⟩ ts) (by
    rw [hk, i4 (k + 1)]
    simpa using e1)]
  simp [hec]

/-- C6, amended: let the input hold the tokens of well-formed modules `ms`
with pairwise distinct names and then the tokens of a module `m` up to the
inside of a function `f`, after at least one complete argument group, so
that the closing braces of `f` and of `m` are both missing (names and
values are identifiers, numeric literals or string literals; white space
and comments may stand between the tokens).  Then `parse` counts exactly
two errors, one for each missing brace, returns -3, and `module_list` holds
exactly the modules `ms` in their order. -/
theorem missing_function_brace_two_errors (heap : Nat → Junk) (ms : List ModuleAst)
    (m : ModuleAst) (f : FunctionAst) (file : List Byte)
    (hwf : ∀ x ∈ ms, x.wf = true) (hm : m.wf = true) (hf : f.wf = true)
    (hnd : (ms.map ModuleAst.name).Nodup)
    (hsrc : Source (program_lex ms ++ unclosed_lex m f) file) :
    ∃ ml, compile heap file = .ok (-3, 2, ml) ∧ erase_locations ml = program_tree ms := by
  have hr := ready_init file (program_lex ms ++ unclosed_lex m f) (source_layout _ _ hsrc)
  obtain ⟨ts, p1, i1, i2, i3, i4⟩ := parse_loop_prefix heap ⟨0, 0⟩ (unclosed_lex m f) ms hwf [] []
    _ List.Forall₂.nil (by simpa using hnd) rfl hr
  have hlen : (program_lex ms ++ unclosed_lex m f).length ≤ file.length :=
    ready_length _ _ hr
  have hlen2 := program_lex_length ms
  obtain ⟨k, hk⟩ : ∃ k, parser_fuel (compile_start file) = ms.length + ((k + 1) + 1) :=
    ⟨file.length - ms.length, by
      show file.length + 0 + 2 = _
      simp only [List.length_append, unclosed_lex, List.length_cons] at hlen
      have : ms.length + 3 ≤ file.length := by omega
      omega⟩
  -- the module that is not closed
  obtain ⟨tok, p2, r1, r2, r3, r4, r5⟩ := read_ready heap p1 _ _ i2
  have ha := ahead_of_unget p2 tok (unclosed_lex m f) r4 r2 r3
  have ha2 : Ahead (set_notifications { p2 with unget_idx := 1 } true) (unclosed_lex m f) :=
    ahead_lex _ _ _ ha rfl rfl
  obtain ⟨p3, c1, c2, c3, c4⟩ := handle_module_eof heap m hm f hf _ ha2
  have hr4 : Ready (set_notifications p3 false) [] := ready_lex p3 _ _ c2 rfl rfl
  obtain ⟨p5, e1, e2⟩ := parse_loop_end heap (set_notifications p3 false)
    (.list ⟨0, 0⟩ ([] ++ ts)) k hr4
  have hec : p5.lex.error_count = 2 := by
    rw [e2.1]
    show p3.lex.error_count = 2
    rw [c3]
    show p2.lex.error_count + 2 = 2
    rw [r5.1, i3.1]
    rfl
  refine ⟨.list ⟨0, 0⟩ ts, ?_, isProgram_erase ms ts (by simpa using i1)⟩
  have hcls : token_class tok ≠ tok_eof := by
    unfold token_class; rw [r2.1]; decide
  rw [compile_of_parse_loop heap file p5 (.list ⟨0, 0⟩ ts) (by
    rw [hk, i4 ((k + 1) + 1)]
    rw [parse_loop, r1]
    simp only [hcls, ne_eq, not_false_eq_true, if_true]
    rw [unget_just p2 tok r4]
    simp only []
    rw [c1]
    simp only [register_module, Tree.is_null, Tree.is_error_mark, Bool.not_true, Bool.and_false,
      Bool.false_eq_true, if_false]
    simpa using e1)]
  simp [hec]

set_option maxRecDepth 100000 in
/-- C6, an instance: the input
`validate A { function F { (1) } } validate B { function G { (1,2) `. -/
theorem missing_function_brace_two_errors_witness :
    source_ok
      (program_lex [⟨bytes "A", [⟨bytes "F", [[bytes "1"]]⟩]⟩] ++
        unclosed_lex ⟨bytes "B", []⟩ ⟨bytes "G", [[bytes "1", bytes "2"]]⟩)
      (bytes "validate A \x7b function F \x7b (1) \x7d \x7d validate B \x7b function G \x7b (1,2) ") = true ∧
    ∃ ml, compile heap_invalid
        (bytes "validate A \x7b function F \x7b (1) \x7d \x7d validate B \x7b function G \x7b (1,2) ") =
        .ok (-3, 2, ml) ∧
      erase_locations ml = program_tree [⟨bytes "A", [⟨bytes "F", [[bytes "1"]]⟩]⟩] :=
  ⟨by decide,
   missing_function_brace_two_errors heap_invalid [⟨bytes "A", [⟨bytes "F", [[bytes "1"]]⟩]⟩]
    ⟨bytes "B", []⟩ ⟨bytes "G", [[bytes "1", bytes "2"]]⟩
    (bytes "validate A \x7b function F \x7b (1) \x7d \x7d validate B \x7b function G \x7b (1,2) ")
    (by decide) (by decide) (by decide) (by decide) (source_of_ok _ _ (by decide))⟩

/-! ## Tearing down a tree -/

theorem node_at_lt (m : Memory) (p : Nat) (n : Node) (h : node_at m p = some n) :
    p < m.nodes.length := by
  unfold node_at at h
  by_contra hlt
  rw [List.getElem?_eq_none (by omega)] at h
  simp at h

theorem node_at_set_self (m : Memory) (p : Nat) (n : Node) (h : p < m.nodes.length) :
    node_at (set_node m p n) p = some n := by
  unfold node_at set_node
  simp [List.getElem?_set_eq_of_lt, h]

theorem node_at_set_other (m : Memory) (p q : Nat) (n : Node) (h : q ≠ p) :
    node_at (set_node m p n) q = node_at m q := by
  unfold node_at set_node
  simp only []
  rw [List.getElem?_set_ne (Ne.symm h)]

theorem tomb_set (m0 : Memory) (root : Nat) (m : Memory) (done : List Nat) (p : Nat) (n : Node)
    (h : Tomb m0 root m done) (hp : p ∉ done) : Tomb m0 root (set_node m p n) done := by
  obtain ⟨h1, h2, h3, h4, h5, h6, h7⟩ := h
  refine ⟨h1, h2, ?_, h4, h5, h6, h7⟩
  intro q hq
  rw [node_at_set_other m p q n (fun e => hp (e ▸ hq))]
  exact h3 q hq

theorem untouched_set (rank : Nat → Nat) (m0 : Memory) (root : Nat) (m : Memory)
    (done : List Nat) (p : Nat) (n : Node) (r : Nat)
    (h : Untouched rank m0 root m done (rank p)) (hr : r < rank p) :
    Untouched rank m0 root (set_node m p n) done r := by
  intro q hq hd hle
  rw [node_at_set_other m p q n (fun e => by rw [e] at hle; omega)]
  exact h q hq hd (by omega)

theorem untouched_mono (rank : Nat → Nat) (m0 : Memory) (root : Nat) (m : Memory)
    (done : List Nat) (r s : Nat) (h : Untouched rank m0 root m done r) (hs : s ≤ r) :
    Untouched rank m0 root m done s :=
  fun q hq hd hle => h q hq hd (le_trans hle hs)
theorem free_list_loop_tears (rank : Nat → Nat) (m0 : Memory) (root : Nat)
    (free : Memory → Nat → Res Memory) (bound p : Nat)
    (hfree : Tears rank m0 root free bound) (hb : rank p ≤ bound) :
    ∀ (es : List Nat) (m : Memory) (done : List Nat) (np : Node),
      Tomb m0 root m done → p ∉ done → node_at m p = some np → np.list = es →
      (∀ e ∈ es, is_node m0 e = true → Reach m0 root e ∧ rank e < rank p) →
      (∀ q, Reach m0 root q → q ∉ done → rank q < rank p → node_at m q = node_at m0 q) →
      ∃ m1 more, free_list_loop free p es m = .ok m1 ∧ Tomb m0 root m1 (done ++ more) ∧
        (∀ e ∈ es, is_node m0 e = true → e ∈ done ++ more) ∧
        (∀ q ∈ more, rank q < rank p) ∧
        (∀ q, q ∉ more → q ≠ p → node_at m1 q = node_at m q) ∧
        node_at m1 p = some { np with list := [] } := by
  intro es
  induction es with
  | nil =>
    intro m done np ht hp hn hl _ _
    refine ⟨m, [], rfl, by simpa using ht, by simp, by simp, fun _ _ _ => rfl, ?_⟩
    rw [hn, ← hl]
  | cons e rest ih =>
    intro m done np ht hp hn hl hes hu
    have hlt : p < m.nodes.length := node_at_lt m p np hn
    have ht1 := tomb_set m0 root m done p { np with list := rest } ht hp
    have hu1 : ∀ q, Reach m0 root q → q ∉ done → rank q < rank p →
        node_at (set_node m p { np with list := rest }) q = node_at m0 q := by
      intro q hq hd hr
      rw [node_at_set_other _ _ _ _ (fun e => by rw [e] at hr; omega)]
      exact hu q hq hd hr
    obtain ⟨m1, more1, f1, f2, f3, f4, f5, f6⟩ := hfree _ done e ht1 (fun hn => by
      obtain ⟨a, b⟩ := hes e (by simp) hn
      exact ⟨a, by omega, fun q hq hd hr => hu1 q hq hd (by omega)⟩)
    have hpm : p ∉ more1 := by
      intro hmem
      by_cases hne : is_node m0 e = true
      · have := f4 p hmem
        have := (hes e (by simp) hne).2
        omega
      · rw [f5 (by simpa using hne)] at hmem
        simp at hmem
    have hn1 : node_at m1 p = some { np with list := rest } := by
      rw [f6 p hpm]
      exact node_at_set_self m p _ hlt
    obtain ⟨m2, more2, g1, g2, g3, g4, g5, g6⟩ := ih m1 (done ++ more1) { np with list := rest }
      f2 (by simp [hp, hpm]) hn1 rfl (fun x hx => hes x (by simp [hx])) (by
        intro q hq hd hr
        simp only [List.mem_append, not_or] at hd
        rw [f6 q hd.2]
        exact hu1 q hq hd.1 hr)
    refine ⟨m2, more1 ++ more2, ?_, by simpa [List.append_assoc] using g2, ?_, ?_, ?_, ?_⟩
    · unfold free_list_loop
      simp only [hn, hl, if_true]
      rw [f1]
      exact g1
    · intro x hx hnode
      rcases List.mem_cons.1 hx with rfl | hx
      · have := f3 hnode
        simp only [List.mem_append] at this ⊢
        tauto
      · have := g3 x hx hnode
        simp only [List.mem_append] at this ⊢
        tauto
    · intro q hq
      rcases List.mem_append.1 hq with h | h
      · by_cases hne : is_node m0 e = true
        · have := f4 q h
          have := (hes e (by simp) hne).2
          omega
        · rw [f5 (by simpa using hne)] at h
          simp at h
      · exact g4 q h
    · intro q hq hqp
      simp only [List.mem_append, not_or] at hq
      rw [g5 q hq.2 hqp, f6 q hq.1, node_at_set_other _ _ _ _ hqp]
    · rw [g6]
theorem free_operands_loop_tears (rank : Nat → Nat) (m0 : Memory) (root : Nat)
    (free : Memory → Nat → Res Memory) (bound p : Nat)
    (hfree : Tears rank m0 root free bound) (hb : rank p ≤ bound) :
    ∀ (k i : Nat) (m : Memory) (done : List Nat) (np : Node),
      Tomb m0 root m done → p ∉ done → node_at m p = some np →
      i + k = tree_code_operands np.code →
      np.operands.length = tree_code_operands np.code →
      (∀ j c, i ≤ j → np.operands[j]? = some c → is_node m0 c = true →
        Reach m0 root c ∧ rank c < rank p) →
      (∀ q, Reach m0 root q → q ∉ done → rank q < rank p → node_at m q = node_at m0 q) →
      ∃ m1 more np1, free_operands_loop free p k i m = .ok m1 ∧
        Tomb m0 root m1 (done ++ more) ∧
        (∀ j c, i ≤ j → np.operands[j]? = some c → is_node m0 c = true → c ∈ done ++ more) ∧
        (∀ q ∈ more, rank q < rank p) ∧
        (∀ q, q ∉ more → q ≠ p → node_at m1 q = node_at m q) ∧
        node_at m1 p = some np1 ∧ np1.code = np.code := by
  intro k
  induction k with
  | zero =>
    intro i m done np ht hp hn hik hlen _ _
    refine ⟨m, [], np, rfl, by simpa using ht, ?_, by simp, fun _ _ _ => rfl, hn, rfl⟩
    intro j c hj hc _
    have : j < np.operands.length := by
      by_contra hlt
      rw [List.getElem?_eq_none (by omega)] at hc
      simp at hc
    omega
  | succ k ih =>
    intro i m done np ht hp hn hik hlen hops hu
    have hlt : p < m.nodes.length := node_at_lt m p np hn
    have hi : i < np.operands.length := by omega
    obtain ⟨c, hc⟩ : ∃ c, np.operands[i]? = some c := ⟨_, List.getElem?_eq_getElem hi⟩
    obtain ⟨m1, more1, f1, f2, f3, f4, f5, f6⟩ := hfree m done c ht (fun hnode => by
      obtain ⟨a, b⟩ := hops i c (le_refl _) hc hnode
      exact ⟨a, by omega, fun q hq hd hr => hu q hq hd (by omega)⟩)
    have hpm : p ∉ more1 := by
      intro hmem
      by_cases hne : is_node m0 c = true
      · have := f4 p hmem
        have := (hops i c (le_refl _) hc hne).2
        omega
      · rw [f5 (by simpa using hne)] at hmem
        simp at hmem
    have hn1 : node_at m1 p = some np := by rw [f6 p hpm]; exact hn
    have hlt1 : p < m1.nodes.length := node_at_lt m1 p np hn1
    have ht1 := tomb_set m0 root m1 (done ++ more1) p
      { np with operands := np.operands.set i 0 } f2 (by simp [hp, hpm])
    obtain ⟨m2, more2, np2, g1, g2, g3, g4, g5, g6, g7⟩ := ih (i + 1)
      (set_node m1 p { np with operands := np.operands.set i 0 }) (done ++ more1)
      { np with operands := np.operands.set i 0 } ht1 (by simp [hp, hpm])
      (node_at_set_self m1 p _ hlt1) (by simp only []; omega) (by simpa using hlen)
      (by
        intro j x hj hx hnode
        simp only [] at hx
        rw [List.getElem?_set_ne (by omega)] at hx
        exact hops j x (by omega) hx hnode)
      (by
        intro q hq hd hr
        simp only [List.mem_append, not_or] at hd
        rw [node_at_set_other _ _ _ _ (fun e => by rw [e] at hr; omega), f6 q hd.2]
        exact hu q hq hd.1 hr)
    refine ⟨m2, more1 ++ more2, np2, ?_, by simpa [List.append_assoc] using g2, ?_, ?_, ?_, g6,
      g7⟩
    · unfold free_operands_loop
      simp only [hn, hc]
      rw [if_pos (by omega), f1]
      simp only [hn1]
      rw [if_pos (by omega)]
      exact g1
    · intro j x hj hx hnode
      by_cases hji : j = i
      · subst hji
        rw [hc] at hx
        simp only [Option.some.injEq] at hx
        subst hx
        have := f3 hnode
        simp only [List.mem_append] at this ⊢
        tauto
      · have hx2 : ({ np with operands := np.operands.set i 0 } : Node).operands[j]? = some x := by
          simp only []
          rw [List.getElem?_set_ne (by omega)]
          exact hx
        have := g3 j x (by omega) hx2 hnode
        simp only [List.mem_append] at this ⊢
        tauto
    · intro q hq
      rcases List.mem_append.1 hq with h | h
      · by_cases hne : is_node m0 c = true
        · have := f4 q h
          have := (hops i c (le_refl _) hc hne).2
          omega
        · rw [f5 (by simpa using hne)] at h
          simp at h
      · exact g4 q h
    · intro q hq hqp
      simp only [List.mem_append, not_or] at hq
      rw [g5 q hq.2 hqp, node_at_set_other _ _ _ _ hqp, f6 q hq.1]
theorem tombstone_node (m0 : Memory) (root : Nat) (m2 : Memory) (done2 : List Nat) (c : Nat)
    (n n2 : Node) (h1 : done2.Nodup) (h2 : ∀ p ∈ done2, Reach m0 root p)
    (h3 : ∀ p ∈ done2, ∃ n, node_at m2 p = some n ∧ n.code = .EMPTY_MARK)
    (h4 : ∀ p ∈ done2, ∀ n, node_at m0 p = some n → ∀ c ∈ kids n, is_node m0 c = true →
      c ∈ done2)
    (h5 : m2.atomic_trees = m0.atomic_trees ++ done2)
    (h6 : m2.freed = m0.freed ++ (done2 ++ [c]).filterMap (owned_text m0))
    (h7 : m2.error_mark_node = m0.error_mark_node)
    (hc : c ∉ done2) (hr : Reach m0 root c) (hn2 : node_at m2 c = some n2)
    (hn : node_at m0 c = some n) (hk : ∀ x ∈ kids n, is_node m0 x = true → x ∈ done2)
    (ha : c ∉ m0.atomic_trees) :
    ∃ m3, atomic_trees_add (set_node m2 c { n2 with code := .EMPTY_MARK }) c = .ok m3 ∧
      Tomb m0 root m3 (done2 ++ [c]) ∧ ∀ q, q ≠ c → node_at m3 q = node_at m2 q := by
  have hlt : c < m2.nodes.length := node_at_lt m2 c n2 hn2
  have hs := node_at_set_self m2 c { n2 with code := .EMPTY_MARK } hlt
  have hmem : c ∉ (set_node m2 c { n2 with code := .EMPTY_MARK }).atomic_trees := by
    show c ∉ m2.atomic_trees
    rw [h5]
    simp [ha, hc]
  unfold atomic_trees_add
  rw [hs]
  simp only [ne_eq, not_true_eq_false, if_false, hmem]
  refine ⟨_, rfl, ⟨?_, ?_, ?_, ?_, ?_, ?_, ?_⟩, ?_⟩
  · exact List.nodup_append.2 ⟨h1, by simp, by
      intro a ha1 ha2
      simp only [List.mem_singleton] at ha2
      exact hc (ha2 ▸ ha1)⟩
  · intro p hp
    rcases List.mem_append.1 hp with h | h
    · exact h2 p h
    · simp only [List.mem_singleton] at h; rw [h]; exact hr
  · intro p hp
    rcases List.mem_append.1 hp with h | h
    · have hne : p ≠ c := fun e => hc (e ▸ h)
      obtain ⟨x, hx1, hx2⟩ := h3 p h
      exact ⟨x, by
        show node_at (set_node m2 c _) p = some x
        rw [node_at_set_other _ _ _ _ hne]; exact hx1, hx2⟩
    · simp only [List.mem_singleton] at h
      rw [h]
      exact ⟨_, hs, rfl⟩
  · intro p hp x hx y hy hnode
    rcases List.mem_append.1 hp with h | h
    · exact List.mem_append.2 (Or.inl (h4 p h x hx y hy hnode))
    · simp only [List.mem_singleton] at h
      rw [h, hn] at hx
      simp only [Option.some.injEq] at hx
      rw [← hx] at hy
      exact List.mem_append.2 (Or.inl (hk y hy hnode))
  · show m2.atomic_trees ++ [c] = m0.atomic_trees ++ (done2 ++ [c])
    rw [h5, List.append_assoc]
  · exact h6
  · exact h7
  · intro q hq
    show node_at (set_node m2 c _) q = node_at m2 q
    exact node_at_set_other _ _ _ _ hq
theorem owned_text_none (m : Memory) (p : Nat) (n : Node) (hn : node_at m p = some n)
    (hc : n.code ≠ .VALUE) : owned_text m p = none := by
  simp [owned_text, hn, hc]

theorem filterMap_snoc_none (f : Nat → Option Nat) (l : List Nat) (c : Nat) (h : f c = none) :
    (l ++ [c]).filterMap f = l.filterMap f := by
  simp [List.filterMap_append, h]

theorem free_tree_live (rank : Nat → Nat) (m0 : Memory) (root : Nat) (fuel : Nat)
    (hast : Ast rank m0 root) (hT : Tears rank m0 root (free_tree fuel) (fuel - 1))
    (m : Memory) (done : List Nat) (c : Nat) (ht : Tomb m0 root m done)
    (hnode : is_node m0 c = true) (hr : Reach m0 root c) (hrank : rank c < fuel)
    (hu : Untouched rank m0 root m done (rank c)) (hd : c ∉ done) :
    ∃ m1 more, free_tree (fuel + 1) m c = .ok m1 ∧ Tomb m0 root m1 (done ++ more) ∧
      c ∈ done ++ more ∧ (∀ q ∈ more, rank q ≤ rank c) ∧
      ∀ q, q ∉ more → node_at m1 q = node_at m q := by
  obtain ⟨t1, t2, t3, t4, t5, t6, t7⟩ := ht
  have ht : Tomb m0 root m done := ⟨t1, t2, t3, t4, t5, t6, t7⟩
  obtain ⟨n, hn0, hlive, hlen, hatom, hkids⟩ := hast.1 c hr
  have hn : node_at m c = some n := by rw [hu c hr hd (le_refl _)]; exact hn0
  have hne : ¬ (c = 0 ∨ c = m.error_mark_node) := by
    rw [t7]
    simp only [is_node, Bool.and_eq_true, bne_iff_ne, ne_eq] at hnode
    tauto
  have hb : rank c ≤ fuel - 1 := by omega
  have hU : ∀ q, Reach m0 root q → q ∉ done → rank q < rank c → node_at m q = node_at m0 q :=
    fun q hq hd hr => hu q hq hd (by omega)
  have hkr : ∀ x ∈ kids n, is_node m0 x = true → Reach m0 root x ∧ rank x < rank c :=
    fun x hx hnx => ⟨Reach.kid c x n hr hn0 hx hnx, hkids x hx hnx⟩
  -- the end of the procedure, after the entries and operands were torn down
  have hend : ∀ (m2 : Memory) (more : List Nat) (n2 : Node),
      Tomb m0 root m2 (done ++ more) → c ∉ more → node_at m2 c = some n2 →
      (∀ x ∈ kids n, is_node m0 x = true → x ∈ done ++ more) →
      (∀ q ∈ more, rank q < rank c) →
      (∀ q, q ∉ more → q ≠ c → node_at m2 q = node_at m q) →
      n.code ≠ .VALUE →
      ∃ m3, atomic_trees_add (set_node m2 c { n2 with code := .EMPTY_MARK }) c = .ok m3 ∧
        Tomb m0 root m3 (done ++ (more ++ [c])) ∧ c ∈ done ++ (more ++ [c]) ∧
        (∀ q ∈ more ++ [c], rank q ≤ rank c) ∧
        ∀ q, q ∉ more ++ [c] → node_at m3 q = node_at m q := by
    intro m2 more n2 ⟨s1, s2, s3, s4, s5, s6, s7⟩ hcm hn2 hk hrk hfr hcode
    obtain ⟨m3, a1, a2, a3⟩ := tombstone_node m0 root m2 (done ++ more) c n n2 s1 s2 s3 s4 s5
      (by rw [filterMap_snoc_none _ _ _ (owned_text_none m0 c n hn0 hcode)]; exact s6) s7
      (by simp [hd, hcm]) hr hn2 hn0 hk hatom
    refine ⟨m3, a1, by simpa [List.append_assoc] using a2, by simp, ?_, ?_⟩
    · intro q hq
      rcases List.mem_append.1 hq with h | h
      · exact le_of_lt (hrk q h)
      · simp only [List.mem_singleton] at h; rw [h]
    · intro q hq
      simp only [List.mem_append, List.mem_singleton, not_or] at hq
      rw [a3 q hq.2, hfr q hq.1 hq.2]
  unfold free_tree
  rw [if_neg hne]
  simp only [hn]
  cases hcode : n.code with
  | EMPTY_MARK => rw [hcode] at hlive; exact absurd hlive (by decide)
  | ERROR_MARK => rw [hcode] at hlive; exact absurd hlive (by decide)
  | LIST =>
    have hk : kids n = n.list := by simp [kids, hcode]
    obtain ⟨m1, more, f1, f2, f3, f4, f5, f6⟩ := free_list_loop_tears rank m0 root
      (free_tree fuel) (fuel - 1) c hT hb n.list m done n ht hd hn rfl
      (fun e he => hkr e (by rw [hk]; exact he)) hU
    have hcm : c ∉ more := fun h => by have := f4 c h; omega
    obtain ⟨m3, a1, a2, a3, a4, a5⟩ := hend m1 more _ f2 hcm f6
      (fun x hx => f3 x (by rw [← hk]; exact hx)) f4 f5 (by rw [hcode]; decide)
    simp only [reduceCtorEq, if_false, f1, tree_code_operands, free_operands_loop, f6]
    exact ⟨m3, more ++ [c], a1, a2, a3, a4, a5⟩
  | VALUE =>
    have hk : kids n = [] := by simp [kids, hcode]
    have hlt : c < m.nodes.length := node_at_lt m c n hn
    have howned : owned_text m0 c = if n.value = 0 then none else some n.value := by
      simp [owned_text, hn0, hcode]
    by_cases hv : n.value = 0
    · obtain ⟨m3, a1, a2, a3⟩ := tombstone_node m0 root m done c n n t1 t2 t3 t4 t5
        (by
          rw [filterMap_snoc_none _ _ _ (by rw [howned, if_pos hv])]
          exact t6) t7 hd hr hn hn0 (by rw [hk]; simp) hatom
      simp only [reduceCtorEq, if_false, if_pos hv, tree_code_operands, free_operands_loop, hn]
      exact ⟨m3, [c], a1, a2, by simp, by simp, fun q hq => a3 q (by simpa using hq)⟩
    · obtain ⟨m3, a1, a2, a3⟩ := tombstone_node m0 root
        { m with freed := m.freed ++ [n.value] } done c n n t1 t2 t3 t4 t5
        (by
          show m.freed ++ [n.value] = _
          rw [t6, List.filterMap_append, ← List.append_assoc]
          simp [howned, hv]) t7 hd hr hn hn0 (by rw [hk]; simp) hatom
      have hn' : node_at { m with freed := m.freed ++ [n.value] } c = some n := hn
      simp only [reduceCtorEq, if_false, hv, tree_code_operands, free_operands_loop, hn']
      exact ⟨m3, [c], a1, a2, by simp, by simp, fun q hq => a3 q (by simpa using hq)⟩
  | MODULE =>
    have hk : kids n = n.operands := by simp [kids, hcode]
    obtain ⟨m1, more, n1, f1, f2, f3, f4, f5, f6, f7⟩ := free_operands_loop_tears rank m0 root
      (free_tree fuel) (fuel - 1) c hT hb 2 0 m done n ht hd hn (by rw [hcode]; rfl) hlen
      (fun j x _ hx => hkr x (by rw [hk]; exact List.mem_iff_getElem?.2 ⟨j, hx⟩)) hU
    have hcm : c ∉ more := fun h => by have := f4 c h; omega
    obtain ⟨m3, a1, a2, a3, a4, a5⟩ := hend m1 more n1 f2 hcm f6
      (fun x hx hnx => by
        rw [hk] at hx
        obtain ⟨j, hj⟩ := List.mem_iff_getElem?.1 hx
        exact f3 j x (Nat.zero_le _) hj hnx) f4 f5 (by rw [hcode]; decide)
    simp only [reduceCtorEq, if_false, tree_code_operands, f1, f6]
    exact ⟨m3, more ++ [c], a1, a2, a3, a4, a5⟩
  | FUNCTION =>
    have hk : kids n = n.operands := by simp [kids, hcode]
    obtain ⟨m1, more, n1, f1, f2, f3, f4, f5, f6, f7⟩ := free_operands_loop_tears rank m0 root
      (free_tree fuel) (fuel - 1) c hT hb 2 0 m done n ht hd hn (by rw [hcode]; rfl) hlen
      (fun j x _ hx => hkr x (by rw [hk]; exact List.mem_iff_getElem?.2 ⟨j, hx⟩)) hU
    have hcm : c ∉ more := fun h => by have := f4 c h; omega
    obtain ⟨m3, a1, a2, a3, a4, a5⟩ := hend m1 more n1 f2 hcm f6
      (fun x hx hnx => by
        rw [hk] at hx
        obtain ⟨j, hj⟩ := List.mem_iff_getElem?.1 hx
        exact f3 j x (Nat.zero_le _) hj hnx) f4 f5 (by rw [hcode]; decide)
    simp only [reduceCtorEq, if_false, tree_code_operands, f1, f6]
    exact ⟨m3, more ++ [c], a1, a2, a3, a4, a5⟩
theorem free_tree_tears (rank : Nat → Nat) (m0 : Memory) (root : Nat)
    (hast : Ast rank m0 root) :
    ∀ fuel, 0 < fuel → Tears rank m0 root (free_tree fuel) (fuel - 1) := by
  intro fuel
  induction fuel with
  | zero => intro h; omega
  | succ fuel ih =>
    intro _ m done c ht hc
    by_cases hnode : is_node m0 c = true
    · obtain ⟨hr, hrank, hu⟩ := hc hnode
      by_cases hd : c ∈ done
      · obtain ⟨x, hx1, hx2⟩ := ht.2.2.1 c hd
        have hne : ¬ (c = 0 ∨ c = m.error_mark_node) := by
          rw [ht.2.2.2.2.2.2]
          simp only [is_node, Bool.and_eq_true, bne_iff_ne, ne_eq] at hnode
          tauto
        refine ⟨m, [], ?_, by simpa using ht, fun _ => by simpa using hd, by simp,
          fun _ => rfl, fun _ _ => rfl⟩
        unfold free_tree
        rw [if_neg hne]
        simp [hx1, hx2]
      · have hfuel : 0 < fuel := by
          simp only [Nat.add_sub_cancel] at hrank; omega
        obtain ⟨m1, more, a1, a2, a3, a4, a5⟩ := free_tree_live rank m0 root fuel hast
          (ih hfuel) m done c ht hnode hr (by simpa using hrank) hu hd
        exact ⟨m1, more, a1, a2, fun _ => a3, a4, (fun h => by rw [hnode] at h; cases h), a5⟩
    · have hz : c = 0 ∨ c = m.error_mark_node := by
        rw [ht.2.2.2.2.2.2]
        simp only [is_node, Bool.and_eq_true, bne_iff_ne, ne_eq, not_and, not_not] at hnode
        by_cases h0 : c = 0
        · exact Or.inl h0
        · exact Or.inr (hnode h0)
      refine ⟨m, [], ?_, by simpa using ht, fun h => absurd h hnode, by simp,
        fun _ => rfl, fun _ _ => rfl⟩
      unfold free_tree
      rw [if_pos hz]

theorem tomb_start (m0 : Memory) (root : Nat) : Tomb m0 root m0 [] :=
  ⟨List.nodup_nil, by simp, by simp, by simp, by simp, by simp, rfl⟩

theorem reach_done (m0 : Memory) (root : Nat) (done : List Nat)
    (hroot : is_node m0 root = true → root ∈ done)
    (hclosed : ∀ p ∈ done, ∀ n, node_at m0 p = some n → ∀ c ∈ kids n, is_node m0 c = true →
      c ∈ done) :
    ∀ p, Reach m0 root p → p ∈ done := by
  intro p hp
  induction hp with
  | root h => exact hroot h
  | kid p c n _ hn hc hnode ih => exact hclosed p ih n hn c hc hnode

theorem nodup_filterMap_of_inj (f : Nat → Option Nat) :
    ∀ l : List Nat, l.Nodup →
      (∀ p ∈ l, ∀ q ∈ l, ∀ t, f p = some t → f q = some t → p = q) →
      (l.filterMap f).Nodup := by
  intro l
  induction l with
  | nil => intro _ _; simp
  | cons a l ih =>
    intro hnd hinj
    have hnd' := List.nodup_cons.1 hnd
    have ih' := ih hnd'.2 (fun p hp q hq t => hinj p (by simp [hp]) q (by simp [hq]) t)
    cases hfa : f a with
    | none => simpa [List.filterMap_cons, hfa] using ih'
    | some t =>
      rw [List.filterMap_cons, hfa]
      refine List.nodup_cons.2 ⟨?_, ih'⟩
      intro hmem
      obtain ⟨q, hq, hfq⟩ := List.mem_filterMap.1 hmem
      have := hinj a (by simp) q (by simp [hq]) t hfa hfq
      exact hnd'.1 (this ▸ hq)

theorem ast_of_check (rank : Nat → Nat) (m : Memory) (root : Nat) (nodes : List Nat)
    (h : ast_check rank m root nodes = true) : Ast rank m root := by
  simp only [ast_check, Bool.and_eq_true, Bool.or_eq_true, Bool.not_eq_true',
    List.all_eq_true, decide_eq_true_eq] at h
  obtain ⟨⟨h1, h2⟩, h3⟩ := h
  have hnode : ∀ p ∈ nodes, ∃ n, node_at m p = some n ∧ live_code n.code = true ∧
      n.operands.length = tree_code_operands n.code ∧ p ∉ m.atomic_trees ∧
      ∀ c ∈ kids n, is_node m c = true → c ∈ nodes ∧ rank c < rank p := by
    intro p hp
    have := h2 p hp
    cases hn : node_at m p with
    | none => simp [hn] at this
    | some n =>
      simp only [hn, Bool.and_eq_true, beq_iff_eq, Bool.not_eq_true', List.all_eq_true,
        Bool.or_eq_true, decide_eq_true_eq] at this
      obtain ⟨⟨⟨a, b⟩, c⟩, d⟩ := this
      refine ⟨n, rfl, a, b, c, ?_⟩
      intro x hx hnx
      rcases d x hx with e | e
      · rw [hnx] at e; cases e
      · exact e
  have hreach : ∀ p, Reach m root p → p ∈ nodes := by
    intro p hp
    induction hp with
    | root hr =>
      rcases h1 with e | e
      · rw [hr] at e; cases e
      · exact e
    | kid p c n _ hn hc hnc ih =>
      obtain ⟨n', e1, _, _, _, e5⟩ := hnode p ih
      rw [hn] at e1
      simp only [Option.some.injEq] at e1
      subst e1
      exact (e5 c hc hnc).1
  refine ⟨?_, ?_⟩
  · intro p hp
    obtain ⟨n, e1, e2, e3, e4, e5⟩ := hnode p (hreach p hp)
    exact ⟨n, e1, e2, e3, e4, fun c hc hnc => (e5 c hc hnc).2⟩
  · intro p q t hp hq ht1 ht2
    have := h3 p (hreach p hp) q (hreach q hq)
    simp only [ht1, ht2, bne_self_eq_false, Bool.false_or, beq_iff_eq] at this
    exact this

/-- C11: `free_tree` on the root of an AST in which nodes (`VALUE` nodes
among them) may be pointed to from several parents returns, with enough
fuel for the depth of the AST; afterwards every node that was reachable from
the root has the code `EMPTY_MARK`, the nodes added to `atomic_trees` are
exactly these nodes, each once, and the texts handed to `free` are exactly
the texts of the reachable `VALUE` nodes, each once. -/
theorem free_tree_tombstones (rank : Nat → Nat) (m : Memory) (root fuel : Nat)
    (hast : Ast rank m root) (hfuel : rank root + 1 < fuel) :
    ∃ m1 done, free_tree fuel m root = .ok m1 ∧
      (∀ p, p ∈ done ↔ Reach m root p) ∧ done.Nodup ∧
      (∀ p, Reach m root p → ∃ n, node_at m1 p = some n ∧ n.code = .EMPTY_MARK) ∧
      m1.atomic_trees = m.atomic_trees ++ done ∧
      m1.freed = m.freed ++ done.filterMap (owned_text m) ∧
      (done.filterMap (owned_text m)).Nodup := by
  obtain ⟨m1, done, a1, a2, a3, _, _, _⟩ := free_tree_tears rank m root hast fuel (by omega)
    m [] root (tomb_start m root)
    (fun hn => ⟨Reach.root hn, by omega, fun _ _ _ _ => rfl⟩)
  simp only [List.nil_append] at a2 a3
  obtain ⟨t1, t2, t3, t4, t5, t6, _⟩ := a2
  have hreach := reach_done m root done a3 t4
  refine ⟨m1, done, a1, fun p => ⟨t2 p, hreach p⟩, t1, fun p hp => t3 p (hreach p hp), t5, t6,
    ?_⟩
  exact nodup_filterMap_of_inj _ done t1
    (fun p hp q hq t h1 h2 => hast.2 p q t (t2 p hp) (t2 q hq) h1 h2)

/-- C11, an instance: a module whose name is also the name of its
function, with a value entered twice in one list and once in another. -/
theorem free_tree_tombstones_witness :
    ast_check (fun p => p) shared_value_memory 7 [2, 3, 4, 5, 6, 7] = true ∧
    ∃ m1 done, free_tree 9 shared_value_memory 7 = .ok m1 ∧
      (∀ p, p ∈ done ↔ Reach shared_value_memory 7 p) ∧ done.Nodup ∧
      (∀ p, Reach shared_value_memory 7 p →
        ∃ n, node_at m1 p = some n ∧ n.code = .EMPTY_MARK) ∧
      m1.atomic_trees = shared_value_memory.atomic_trees ++ done ∧
      m1.freed = shared_value_memory.freed ++ done.filterMap (owned_text shared_value_memory) ∧
      (done.filterMap (owned_text shared_value_memory)).Nodup :=
  ⟨by decide,
   free_tree_tombstones (fun p => p) shared_value_memory 7 9
    (ast_of_check _ _ _ [2, 3, 4, 5, 6, 7] (by decide)) (by decide)⟩

/-! ## Recovery after an error at the level of a module -/

theorem parser_forward_tval_wrong (heap : Nat → Junk) (p : Parser) (k : TokenKind) (lx : Lx)
    (lxs : List Lx) (hk : lx_kind lx ≠ some k) (h : Ahead p (lx :: lxs)) :
    ∃ p1, parser_forward_tval heap p k = .ok (none, p1) ∧ Ready p1 lxs ∧
      p1.lex.error_count = p.lex.error_count + 1 ∧
      p1.lex.error_notifications = p.lex.error_notifications := by
  obtain ⟨tok, p1, e1, e2, e3, _, e5⟩ := ahead_cons heap p lx lxs h
  have hfail : (token_uses_buf tok || token_value tok != k) = true := by
    unfold token_uses_buf token_value
    cases lx with
    | kw k1 =>
      obtain ⟨_, h2, h3⟩ := e2
      have : k1 ≠ k := fun e => hk (by rw [e]; rfl)
      simp [h2, h3, this]
    | op k1 =>
      obtain ⟨_, h2, h3⟩ := e2
      have : k1 ≠ k := fun e => hk (by rw [e]; rfl)
      simp [h2, h3, this]
    | text s =>
      obtain ⟨h1, _⟩ := e2
      simp [h1]
  unfold parser_forward_tval
  rw [e1]
  simp only [hfail, if_true]
  refine ⟨parser_error p1, rfl, ?_, ?_, ?_⟩
  · obtain ⟨r1, r2, r3⟩ := e3
    exact ⟨pinv_lex p1 _ r1, r2, r3⟩
  · simp [parser_error, error_loc, e5.1]
  · simp [parser_error, error_loc, e5.2]

theorem parser_get_until_tval_loop_skip (heap : Nat → Junk) (k : TokenKind) (more : List Lx) :
    ∀ (junk : List Lx) (fuel : Nat) (p : Parser), junk.length < fuel →
      (∀ j ∈ junk, lx_kind j ≠ some k) → Ahead p (junk ++ .op k :: more) →
      ∃ tok p1, parser_get_until_tval_loop heap k fuel p = .ok (tok, p1) ∧ Ready p1 more ∧
        Same p p1 := by
  intro junk
  induction junk with
  | nil =>
    intro fuel p hfuel _ h
    obtain ⟨f, rfl⟩ : ∃ f, fuel = f + 1 := ⟨fuel - 1, by simp at hfuel; omega⟩
    obtain ⟨tok, p1, e1, e2, e3, _, e5⟩ := ahead_cons heap p _ more h
    obtain ⟨_, h2, h3⟩ := e2
    unfold parser_get_until_tval_loop
    rw [e1]
    simp only [token_uses_buf, token_value, h2, h3, Bool.not_false, beq_self_eq_true,
      Bool.and_self, if_true]
    exact ⟨tok, p1, rfl, e3, e5⟩
  | cons j junk ih =>
    intro fuel p hfuel hj h
    obtain ⟨f, rfl⟩ : ∃ f, fuel = f + 1 := ⟨fuel - 1, by simp at hfuel; omega⟩
    obtain ⟨tok, p1, e1, e2, e3, _, e5⟩ := ahead_cons heap p j (junk ++ .op k :: more) h
    have hno : (!token_uses_buf tok && token_value tok == k) = false := by
      unfold token_uses_buf token_value
      have hjk := hj j (by simp)
      cases j with
      | kw k1 =>
        obtain ⟨_, h2, h3⟩ := e2
        have : k1 ≠ k := fun e => hjk (by rw [e]; rfl)
        simp [h2, h3, this]
      | op k1 =>
        obtain ⟨_, h2, h3⟩ := e2
        have : k1 ≠ k := fun e => hjk (by rw [e]; rfl)
        simp [h2, h3, this]
      | text s =>
        obtain ⟨h1, _⟩ := e2
        simp [h1]
    have hcls : token_class tok ≠ tok_eof := by
      unfold token_class
      cases j with
      | kw k1 => rw [e2.1]; decide
      | op k1 => rw [e2.1]; decide
      | text s => exact e2.2.2.2.2.2.2
    obtain ⟨tok2, p2, i1, i2, i3⟩ := ih f p1 (by simp at hfuel; omega)
      (fun x hx => hj x (by simp [hx])) (Or.inl e3)
    unfold parser_get_until_tval_loop
    rw [e1]
    simp only [hno, Bool.false_eq_true, if_false, hcls, ne_eq, not_false_eq_true, if_true]
    exact ⟨tok2, p2, i1, i2, e5.same_trans i3⟩

theorem handle_error_skip (heap : Nat → Junk) (k : TokenKind) (junk more : List Lx)
    (p : Parser) (hj : ∀ j ∈ junk, lx_kind j ≠ some k)
    (h : Ready p (junk ++ .op k :: more)) :
    ∃ p1, handle_error heap p k = .ok (.error_mark, p1) ∧ Ready p1 more ∧ Same p p1 := by
  have hlen := ready_length p _ h
  obtain ⟨tok, p1, e1, e2, e3⟩ := parser_get_until_tval_loop_skip heap k more junk
    (parser_fuel p) p (by
      simp only [List.length_append, List.length_cons] at hlen
      unfold parser_fuel; omega) hj (Or.inl h)
  unfold handle_error parser_get_until_tval
  rw [e1]
  exact ⟨p1, rfl, e2, e3⟩

theorem handle_module_bad (heap : Nat → Junk) (bad more : List Lx) (hb : BadModule bad)
    (p : Parser) (h : Ahead p (bad ++ more)) :
    ∃ p1, handle_module heap p = .ok (.error_mark, p1) ∧ Ready p1 more ∧
      p1.lex.error_count = p.lex.error_count + 1 ∧
      p1.lex.error_notifications = p.lex.error_notifications := by
  cases hb with
  | close m t hm ht1 ht2 =>
    simp only [List.cons_append, List.append_assoc, List.singleton_append] at h
    obtain ⟨p1, p2, p3, p4, t0, t1, t2, n, fs, e1, e2, e3, e4, e5, e6, e7, e8, e9, e10⟩ :=
      handle_module_open heap m hm (t :: more) p h
    obtain ⟨k, hk⟩ : ∃ k, parser_fuel p3 = m.functions.length + (k + 1) := by
      simp only [List.length_cons] at e9
      exact ⟨parser_fuel p3 - m.functions.length - 1, by omega⟩
    obtain ⟨tok, p5, d1, d2, d3, d4, d5⟩ := handle_module_loop_end heap
      (.module ⟨0, 0⟩ n (.list ⟨0, 0⟩ fs)) p4 k (t :: more) (by simpa using ht1) e7
    have ha := ahead_of_unget p5 tok (t :: more) d4 d2 d3
    obtain ⟨p6, c1, c2, c3, c4⟩ := parser_forward_tval_wrong heap _ tv_rbrace t more ht2 ha
    unfold handle_module
    rw [e1]
    simp only []
    rw [e2]
    simp only [set_tree_operand, make_tree, if_true, e3]
    rw [e5]
    simp only [show ¬ ((1 : Int) = 0) from by decide, if_false, if_true, make_tree_list,
      make_tree]
    rw [hk, e10 (k + 1), d1]
    simp only []
    rw [unget_just p5 tok d4]
    simp only []
    rw [c1]
    refine ⟨p6, rfl, c2, ?_, ?_⟩
    · rw [c3]
      show p5.lex.error_count + 1 = p.lex.error_count + 1
      rw [d5.1, e8.1]
    · rw [c4]
      show p5.lex.error_notifications = p.lex.error_notifications
      rw [d5.2, e8.2]
  | opening name x junk hx hj =>
    simp only [List.cons_append, List.append_assoc, List.singleton_append] at h
    obtain ⟨t0, p1, e1, e2, e3⟩ := parser_forward_tval_kw heap p tv_validate _ h
    obtain ⟨t1, p2, r1, r2, r3, _, r5⟩ := read_ready heap p1 _ _ e2
    obtain ⟨p3, b1, b2, b3, b4⟩ := parser_forward_tval_wrong heap p2 tv_lbrace x _ hx (Or.inl r3)
    obtain ⟨p4, g1, g2, g3⟩ := handle_error_skip heap tv_rbrace junk more p3
      (fun j hjm => hj j (by simp [hjm])) b2
    unfold handle_module
    rw [e1]
    simp only []
    rw [r1]
    simp only [set_tree_operand, make_tree, if_true]
    rw [b1]
    simp only []
    rw [g1]
    refine ⟨p4, rfl, g2, ?_, ?_⟩
    · rw [g3.1, b3, r5.1, e3.1]
    · rw [g3.2, b4, r5.2, e3.2]
theorem badModule_head (bad : List Lx) (h : BadModule bad) :
    ∃ tl, bad = .kw tv_validate :: tl ∧ 3 ≤ tl.length := by
  cases h with
  | close m t _ _ _ => exact ⟨_, rfl, by simp⟩
  | opening name x junk _ _ => exact ⟨_, rfl, by simp⟩

/-- C12, amended: let the input hold well-formed modules `ms1`, then a
module with a syntax error at the level of the module itself (another token
where its closing brace should stand; or another token where its opening
brace should stand and no closing brace before the one that ends it), then
well-formed modules `ms2`, the names of `ms1` and `ms2` pairwise distinct.
Then the module with the error is discarded, exactly one error is counted
(the status is -3), and `module_list` holds `ms1` and `ms2`, in their
order. -/
theorem sibling_modules_parse (heap : Nat → Junk) (ms1 ms2 : List ModuleAst) (bad : List Lx)
    (file : List Byte) (hwf1 : ∀ x ∈ ms1, x.wf = true) (hwf2 : ∀ x ∈ ms2, x.wf = true)
    (hbad : BadModule bad) (hnd : ((ms1 ++ ms2).map ModuleAst.name).Nodup)
    (hsrc : Source (program_lex ms1 ++ (bad ++ program_lex ms2)) file) :
    ∃ ml, compile heap file = .ok (-3, 1, ml) ∧
      erase_locations ml = program_tree (ms1 ++ ms2) := by
  have hr := ready_init file _ (source_layout _ _ hsrc)
  have hnd1 : (([] ++ ms1).map ModuleAst.name).Nodup := by
    rw [List.map_append] at hnd
    simpa using (List.nodup_append.1 hnd).1
  obtain ⟨ts1, p1, i1, i2, i3, i4⟩ := parse_loop_prefix heap ⟨0, 0⟩ (bad ++ program_lex ms2) ms1
    hwf1 [] [] _ List.Forall₂.nil hnd1 rfl hr
  obtain ⟨tl, htl, htl3⟩ := badModule_head bad hbad
  have hlen : (program_lex ms1 ++ (bad ++ program_lex ms2)).length ≤ file.length :=
    ready_length _ _ hr
  have hl1 := program_lex_length ms1
  have hl2 := program_lex_length ms2
  obtain ⟨k, hk⟩ : ∃ k, parser_fuel (compile_start file) =
      ms1.length + ((ms2.length + (k + 1)) + 1) :=
    ⟨file.length - ms1.length - ms2.length, by
      show file.length + 0 + 2 = _
      rw [htl] at hlen
      simp only [List.length_append, List.length_cons] at hlen
      omega⟩
  -- the module with the error
  have i2b : Ready p1 (.kw tv_validate :: (tl ++ program_lex ms2)) := by
    rw [htl] at i2; simpa using i2
  obtain ⟨tok, p2, r1, r2, r3, r4, r5⟩ := read_ready heap p1 _ _ i2b
  have ha := ahead_of_unget p2 tok (.kw tv_validate :: (tl ++ program_lex ms2)) r4 r2 r3
  have ha2 : Ahead (set_notifications { p2 with unget_idx := 1 } true)
      (bad ++ program_lex ms2) := by
    rw [htl]
    exact ahead_lex _ _ _ ha rfl rfl
  obtain ⟨p3, c1, c2, c3, c4⟩ := handle_module_bad heap bad (program_lex ms2) hbad _ ha2
  have hr4 : Ready (set_notifications p3 false) (program_lex ms2 ++ []) := by
    simpa using ready_lex p3 _ _ c2 rfl rfl
  -- the modules after it
  obtain ⟨ts2, p5, j1, j2, j3, j4⟩ := parse_loop_prefix heap ⟨0, 0⟩ [] ms2 hwf2 ms1 ([] ++ ts1)
    (set_notifications p3 false) (by simpa using i1) hnd rfl hr4
  obtain ⟨p6, e1, e2⟩ := parse_loop_end heap p5 (.list ⟨0, 0⟩ ([] ++ ts1 ++ ts2)) k j2
  have hec : p6.lex.error_count = 1 := by
    rw [e2.1, j3.1]
    show p3.lex.error_count = 1
    rw [c3]
    show p2.lex.error_count + 1 = 1
    rw [r5.1, i3.1]
    rfl
  have hcls : token_class tok ≠ tok_eof := by
    unfold token_class; rw [r2.1]; decide
  refine ⟨.list ⟨0, 0⟩ (ts1 ++ ts2), ?_, isProgram_erase (ms1 ++ ms2) (ts1 ++ ts2)
    (by simpa using j1)⟩
  rw [compile_of_parse_loop heap file p6 (.list ⟨0, 0⟩ (ts1 ++ ts2)) (by
    rw [hk, i4 ((ms2.length + (k + 1)) + 1)]
    rw [parse_loop, r1]
    simp only [hcls, ne_eq, not_false_eq_true, if_true]
    rw [unget_just p2 tok r4]
    simp only []
    rw [c1]
    simp only [register_module, Tree.is_null, Tree.is_error_mark, Bool.not_true, Bool.and_false,
      Bool.false_eq_true, if_false]
    rw [j4 (k + 1)]
    simpa using e1)]
  simp [hec]

set_option maxRecDepth 100000 in
/-- C12, an instance: in
`validate A { function F { (1) } ) validate B { function G { (2) } }` the
module `A` ends with `)`; it is discarded and `B` is parsed. -/
theorem sibling_modules_parse_witness :
    source_ok
      (program_lex [] ++
        ((.kw tv_validate :: .text (bytes "A") :: .op tv_lbrace ::
          (functions_lex [⟨bytes "F", [[bytes "1"]]⟩] ++ [.op tv_rparen])) ++
          program_lex [⟨bytes "B", [⟨bytes "G", [[bytes "2"]]⟩]⟩]))
      (bytes "validate A \x7b function F \x7b (1) \x7d ) validate B \x7b function G \x7b (2) \x7d \x7d") = true ∧
    ∃ ml, compile heap_invalid
        (bytes "validate A \x7b function F \x7b (1) \x7d ) validate B \x7b function G \x7b (2) \x7d \x7d") =
        .ok (-3, 1, ml) ∧
      erase_locations ml =
        program_tree ([] ++ [⟨bytes "B", [⟨bytes "G", [[bytes "2"]]⟩]⟩]) :=
  ⟨by decide,
   sibling_modules_parse heap_invalid [] [⟨bytes "B", [⟨bytes "G", [[bytes "2"]]⟩]⟩] _
    (bytes "validate A \x7b function F \x7b (1) \x7d ) validate B \x7b function G \x7b (2) \x7d \x7d")
    (by decide) (by decide)
    (BadModule.close ⟨bytes "A", [⟨bytes "F", [[bytes "1"]]⟩]⟩ (.op tv_rparen)
      (by decide) (by decide) (by decide))
    (by decide) (source_of_ok _ _ (by decide))⟩

set_option maxRecDepth 100000 in
/-- C12 as stated fails: in
`validate A { function F { (1 } } validate B { function G { (2) } }` the
closing parenthesis of the group is missing; the scan for a closing brace
that follows consumes the module `B`, and `module_list` stays empty. -/
theorem missing_paren_swallows_next_module :
    compile heap_invalid
        (bytes "validate A \x7b function F \x7b (1 \x7d \x7d validate B \x7b function G \x7b (2) \x7d \x7d") =
      .ok (-3, 4, lnode []) := by
  rfl

/-! ## Names of modules and functions -/

theorem matches_text (tok : Token) (lx : Lx) (h : Matches tok lx) :
    token_as_string tok = lexeme_text lx := by
  cases lx with
  | kw k => obtain ⟨_, h2, h3⟩ := h; simp [token_as_string, token_uses_buf, h2, h3, lexeme_text]
  | op k => obtain ⟨_, h2, h3⟩ := h; simp [token_as_string, token_uses_buf, h2, h3, lexeme_text]
  | text s => exact h.2.1

theorem ast_wf (f : FunctionSrc) : f.ast.wf = FunctionAst.wf ⟨lexeme_text f.name, f.groups⟩ := rfl

theorem handle_cases_named (heap : Nat → Junk) (f : FunctionSrc) (hf : f.ast.wf = true) :
    Parses (handle_cases heap) (function_src_lex f) (IsFunction f.ast) := by
  intro p more h
  simp only [function_src_lex, List.cons_append, List.append_assoc, List.singleton_append] at h
  simp only [FunctionSrc.ast, FunctionAst.wf, Bool.and_eq_true, bne_iff_ne, ne_eq,
    List.all_eq_true] at hf
  obtain ⟨hg1, hg2⟩ := hf
  obtain ⟨t0, p1, e1, e2, e3⟩ := parser_forward_tval_kw heap p tv_function _ h
  obtain ⟨t1, p2, r1, r2, r3, _, r5⟩ := read_ready heap p1 _ _ e2
  obtain ⟨t2, p3, b1, b2, b3⟩ := parser_forward_tval_op heap p2 tv_lbrace _ (Or.inl r3)
  obtain ⟨gs, p4, l1, l2, l3, l4⟩ := handle_list_spec heap (handle_args heap) group_lex IsGroup
    (.op tv_rbrace :: more) isGroup_good (by simp) f.groups hg1
    (fun vs hvs => handle_args_parses heap vs (hg2 vs hvs))
    (fun vs _ => group_lex_ne vs) p3 (Or.inl b2)
  obtain ⟨t5, p5, c1, c2, c3⟩ := parser_forward_tval_op heap p4 tv_rbrace more l3
  unfold handle_cases
  rw [e1]
  simp only []
  rw [r1]
  simp only [set_tree_operand, make_tree, if_true]
  rw [b1]
  simp only []
  rw [l1]
  simp only [show ¬ ((1 : Int) = 0) from by decide, if_false, if_true]
  rw [c1]
  exact ⟨_, p5, rfl,
    ⟨_, gs, rfl, ⟨token_location t1, by simp [make_value_tok, matches_text t1 _ r2,
      FunctionSrc.ast]⟩, l2⟩, c2,
    (((e3.same_trans r5).same_trans b3).same_trans l4).same_trans c3⟩

theorem handle_module_loop_prefix_named (heap : Nat → Junk) (l l1 : Location) (name : Tree)
    (more : List Lx) :
    ∀ (fs : List FunctionSrc), (∀ f ∈ fs, f.ast.wf = true) →
      ∀ (acc : List Tree) (p : Parser), Ready p (functions_src_lex fs ++ more) →
      ∃ ts p1, List.Forall₂ IsFunction (fs.map FunctionSrc.ast) ts ∧ Ready p1 more ∧
        Same p p1 ∧
        ∀ fuel, handle_module_loop heap (fs.length + fuel) (.module l name (.list l1 acc)) p =
          handle_module_loop heap fuel (.module l name (.list l1 (acc ++ ts))) p1 := by
  intro fs
  induction fs with
  | nil =>
    intro _ acc p hp
    exact ⟨[], p, List.Forall₂.nil, by simpa [functions_src_lex] using hp, ⟨rfl, rfl⟩,
      by intro fuel; simp⟩
  | cons f fs ih =>
    intro hwf acc p hp
    obtain ⟨tl, htl⟩ : ∃ tl, function_src_lex f ++ (functions_src_lex fs ++ more) =
        .kw tv_function :: tl := ⟨_, rfl⟩
    have hp2 : Ready p (.kw tv_function :: tl) := by
      rw [← htl]; simpa [functions_src_lex] using hp
    obtain ⟨tok, p1, r1, r2, r3, r4, r5⟩ := read_ready heap p _ _ hp2
    have ha := ahead_of_unget p1 tok (.kw tv_function :: tl) r4 r2 r3
    rw [← htl] at ha
    obtain ⟨t, p3, c1, c2, c3, c4⟩ := handle_cases_named heap f (hwf f (by simp))
      { p1 with unget_idx := 1 } (functions_src_lex fs ++ more) ha
    obtain ⟨ts, p4, i1, i2, i3, i4⟩ := ih (fun x hx => hwf x (by simp [hx])) (acc ++ [t]) p3 c3
    refine ⟨t :: ts, p4, List.Forall₂.cons c2 i1, i2,
      ((r5.same_trans (same_unget p1)).same_trans c4).same_trans i3, ?_⟩
    intro fuel
    rw [show (f :: fs).length + fuel = (fs.length + fuel) + 1 from by simp; omega]
    rw [handle_module_loop]
    rw [r1]
    simp only [is_function_kw tok r2, if_true]
    rw [unget_just p1 tok r4]
    simp only []
    rw [c1]
    simp only [get_tree_operand, tree_list_append, set_tree_operand,
      show ¬ ((1 : Int) = 0) from by decide, if_false, if_true]
    rw [i4 fuel]
    simp

theorem functions_src_lex_length :
    ∀ fs : List FunctionSrc, fs.length ≤ (functions_src_lex fs).length := by
  intro fs
  induction fs with
  | nil => simp
  | cons f fs ih =>
    simp only [functions_src_lex, function_src_lex, List.length_append,
      List.length_cons, List.length_nil]
    omega

theorem handle_module_named (heap : Nat → Junk) (m : ModuleSrc)
    (hm : ∀ f ∈ m.functions, f.ast.wf = true) :
    Parses (handle_module heap) (module_src_lex m) (IsModule m.ast) := by
  intro p more h
  simp only [module_src_lex, List.cons_append, List.append_assoc, List.singleton_append] at h
  obtain ⟨t0, p1, e1, e2, e3⟩ := parser_forward_tval_kw heap p tv_validate _ h
  obtain ⟨t1, p2, r1, r2, r3, _, r5⟩ := read_ready heap p1 _ _ e2
  obtain ⟨t2, p3, b1, b2, b3⟩ := parser_forward_tval_op heap p2 tv_lbrace _ (Or.inl r3)
  obtain ⟨fs, p4, l1, l2, l3, l4⟩ := handle_module_loop_prefix_named heap ⟨0, 0⟩ ⟨0, 0⟩
    (make_value_tok t1) (.op tv_rbrace :: more) m.functions hm [] p3 b2
  obtain ⟨k, hk⟩ : ∃ k, parser_fuel p3 = m.functions.length + (k + 1) := by
    have h1 := ready_length p3 _ b2
    have h2 := functions_src_lex_length m.functions
    simp only [List.length_append, List.length_cons] at h1
    exact ⟨parser_fuel p3 - m.functions.length - 1, by unfold parser_fuel; omega⟩
  obtain ⟨tok, p5, d1, d2, d3, d4, d5⟩ := handle_module_loop_end heap
    (.module ⟨0, 0⟩ (make_value_tok t1) (.list ⟨0, 0⟩ ([] ++ fs))) p4 k (.op tv_rbrace :: more)
    (by simp) l2
  have ha := ahead_of_unget p5 tok (.op tv_rbrace :: more) d4 d2 d3
  obtain ⟨t6, p6, c1, c2, c3⟩ := parser_forward_tval_op heap _ tv_rbrace more ha
  unfold handle_module
  rw [e1]
  simp only []
  rw [r1]
  simp only [set_tree_operand, make_tree, if_true]
  rw [b1]
  simp only [show ¬ ((1 : Int) = 0) from by decide, if_false, if_true, make_tree_list, make_tree]
  rw [hk, l4 (k + 1), d1]
  simp only []
  rw [unget_just p5 tok d4]
  simp only []
  rw [c1]
  exact ⟨_, p6, rfl,
    ⟨make_value_tok t1, fs, by simp, ⟨token_location t1, by simp [make_value_tok,
      matches_text t1 _ r2, ModuleSrc.ast]⟩, l1⟩, c2,
    ((((((e3.same_trans r5).same_trans b3).same_trans l3).same_trans d5).same_trans
      (same_unget p5)).same_trans c3)⟩
theorem program_src_lex_length :
    ∀ ms : List ModuleSrc, ms.length ≤ (program_src_lex ms).length := by
  intro ms
  induction ms with
  | nil => simp
  | cons m ms ih =>
    simp only [program_src_lex, module_src_lex, List.length_append, List.length_cons,
      List.length_nil]
    omega

theorem parse_loop_prefix_named (heap : Nat → Junk) (l : Location) (more : List Lx) :
    ∀ (ms : List ModuleSrc), (∀ m ∈ ms, ∀ f ∈ m.functions, f.ast.wf = true) →
      ∀ (done : List ModuleAst) (acc : List Tree) (p : Parser),
      List.Forall₂ IsModule done acc →
      ((done ++ ms.map ModuleSrc.ast).map ModuleAst.name).Nodup →
      p.lex.error_notifications = false → Ready p (program_src_lex ms ++ more) →
      ∃ ts p1, List.Forall₂ IsModule (done ++ ms.map ModuleSrc.ast) (acc ++ ts) ∧
        Ready p1 more ∧ Same p p1 ∧
        ∀ fuel, parse_loop heap (ms.length + fuel) p (.list l acc) =
          parse_loop heap fuel p1 (.list l (acc ++ ts)) := by
  intro ms
  induction ms with
  | nil =>
    intro _ done acc p hacc _ _ hp
    exact ⟨[], p, by simpa using hacc, by simpa [program_src_lex] using hp, ⟨rfl, rfl⟩,
      by intro fuel; simp⟩
  | cons m ms ih =>
    intro hwf done acc p hacc hnd hflag hp
    obtain ⟨tl, htl⟩ : ∃ tl, module_src_lex m ++ (program_src_lex ms ++ more) =
        .kw tv_validate :: tl := ⟨_, rfl⟩
    have hp2 : Ready p (.kw tv_validate :: tl) := by
      rw [← htl]; simpa [program_src_lex] using hp
    obtain ⟨tok, p1, r1, r2, r3, r4, r5⟩ := read_ready heap p _ _ hp2
    have ha := ahead_of_unget p1 tok (.kw tv_validate :: tl) r4 r2 r3
    rw [← htl] at ha
    have ha2 : Ahead (set_notifications { p1 with unget_idx := 1 } true)
        (module_src_lex m ++ (program_src_lex ms ++ more)) :=
      ahead_lex _ _ _ ha rfl rfl
    obtain ⟨t, p3, c1, c2, c3, c4⟩ := handle_module_named heap m (hwf m (by simp)) _ _ ha2
    have hn : m.ast.name ∉ done.map ModuleAst.name := by
      intro hmem
      rw [List.map_cons, List.map_append, List.map_cons] at hnd
      have := (List.nodup_append.1 hnd).2.2
      exact this hmem (by simp)
    have hreg := register_module_fresh m.ast t p3 l done acc c2 hacc hn
    have hr4 : Ready (set_notifications p3 false) (program_src_lex ms ++ more) :=
      ready_lex p3 _ _ c3 rfl rfl
    have hacc2 : List.Forall₂ IsModule (done ++ [m.ast]) (acc ++ [t]) :=
      List.rel_append hacc (List.Forall₂.cons c2 List.Forall₂.nil)
    obtain ⟨ts, p5, i1, i2, i3, i4⟩ := ih (fun x hx => hwf x (by simp [hx])) (done ++ [m.ast])
      (acc ++ [t]) (set_notifications p3 false) hacc2 (by simpa using hnd) rfl hr4
    refine ⟨t :: ts, p5, by simpa using i1, i2, ?_, ?_⟩
    · refine ⟨?_, ?_⟩
      · rw [i3.1]
        show p3.lex.error_count = p.lex.error_count
        rw [c4.1]
        show p1.lex.error_count = p.lex.error_count
        exact r5.1
      · rw [i3.2]
        exact hflag.symm
    · intro fuel
      rw [show (m :: ms).length + fuel = (ms.length + fuel) + 1 from by simp; omega]
      rw [parse_loop, r1]
      have hcls : token_class tok ≠ tok_eof := by
        unfold token_class; rw [r2.1]; decide
      simp only [hcls, ne_eq, not_false_eq_true, if_true]
      rw [unget_just p1 tok r4]
      simp only []
      rw [c1]
      simp only []
      rw [hreg]
      simp only []
      rw [i4 fuel]
      simp

theorem compile_named (heap : Nat → Junk) (ms : List ModuleSrc) (file : List Byte)
    (hwf : ∀ m ∈ ms, ∀ f ∈ m.functions, f.ast.wf = true)
    (hnd : ((ms.map ModuleSrc.ast).map ModuleAst.name).Nodup)
    (hsrc : Source (program_src_lex ms) file) :
    ∃ ml, compile heap file = .ok (0, 0, ml) ∧
      erase_locations ml = program_tree (ms.map ModuleSrc.ast) := by
  have hr := ready_init file (program_src_lex ms ++ []) (by
    simpa using source_layout _ _ hsrc)
  obtain ⟨ts, p1, i1, i2, i3, i4⟩ := parse_loop_prefix_named heap ⟨0, 0⟩ [] ms hwf [] [] _
    List.Forall₂.nil (by simpa using hnd) rfl hr
  have hlen : (program_src_lex ms ++ []).length ≤ file.length := ready_length _ _ hr
  have hlen2 := program_src_lex_length ms
  simp only [List.append_nil] at hlen
  obtain ⟨k, hk⟩ : ∃ k, parser_fuel (compile_start file) = ms.length + (k + 1) :=
    ⟨file.length + 1 - ms.length, by
      show file.length + 0 + 2 = _
      have : ms.length ≤ file.length := le_trans hlen2 hlen
      omega⟩
  obtain ⟨p2, e1, e2⟩ := parse_loop_end heap p1 (.list ⟨0, 0⟩ ([] ++ ts)) k i2
  have hec : p2.lex.error_count = 0 := by rw [e2.1, i3.1]; rfl
  refine ⟨.list ⟨0, 0⟩ ts, ?_, isProgram_erase _ ts (by simpa using i1)⟩
  rw [compile_of_parse_loop heap file p2 (.list ⟨0, 0⟩ ts) (by
    rw [hk, i4 (k + 1)]
    simpa using e1)]
  simp [hec]

/-- C13, amended: the parser does not test the class of a name token. Let
the input hold the tokens of a program in which the token after `validate`
and the token after `function` is any token at all (an identifier, a
number, a keyword, a punctuation token), every function has an argument
group and every group a value, and the texts of the module names differ.
Then `compile` returns 0 with the error counter at 0, and `module_list` is
the list of the `MODULE` nodes of these modules, the name of each module
and of each function being the `VALUE` node of the text of its name
token. -/
theorem name_token_of_any_class (heap : Nat → Junk) (ms : List ModuleSrc) (file : List Byte)
    (hwf : ∀ m ∈ ms, ∀ f ∈ m.functions, f.ast.wf = true)
    (hnd : ((ms.map ModuleSrc.ast).map ModuleAst.name).Nodup)
    (hsrc : Source (program_src_lex ms) file) :
    ∃ ml, compile heap file = .ok (0, 0, ml) ∧
      erase_locations ml = program_tree (ms.map ModuleSrc.ast) :=
  compile_named heap ms file hwf hnd hsrc

set_option maxRecDepth 100000 in
/-- The input `validate 123 { function validate { (1) } function ( { (2) } }`
is accepted: the module is named `123`, its functions `validate` and `(`. -/
theorem name_token_of_any_class_witness :
    source_ok
      (program_src_lex [⟨.text (bytes "123"),
        [⟨.kw tv_validate, [[bytes "1"]]⟩, ⟨.op tv_lparen, [[bytes "2"]]⟩]⟩])
      (bytes "validate 123 \x7b function validate \x7b (1) \x7d function ( \x7b (2) \x7d \x7d") = true ∧
    ∃ ml, compile heap_invalid
        (bytes "validate 123 \x7b function validate \x7b (1) \x7d function ( \x7b (2) \x7d \x7d") =
        .ok (0, 0, ml) ∧
      erase_locations ml = program_tree [⟨bytes "123",
        [⟨bytes "validate", [[bytes "1"]]⟩, ⟨bytes "(", [[bytes "2"]]⟩]⟩] :=
  ⟨by decide,
   name_token_of_any_class heap_invalid
    [⟨.text (bytes "123"), [⟨.kw tv_validate, [[bytes "1"]]⟩, ⟨.op tv_lparen, [[bytes "2"]]⟩]⟩]
    (bytes "validate 123 \x7b function validate \x7b (1) \x7d function ( \x7b (2) \x7d \x7d")
    (by decide) (by decide) (source_of_ok _ _ (by decide))⟩

set_option maxRecDepth 100000 in
/-- C13 as stated fails: in `validate 123 { function "f" { (1) } }` the
module name is a number and the function name a string, and `compile`
returns 0 with the error counter at 0 and the module in `module_list`. -/
theorem number_and_string_names_accepted :
    compile heap_invalid
        (bytes "validate 123 \x7b function \"f\" \x7b (1) \x7d \x7d") =
      .ok (0, 0, lnode [mnode (.value ⟨1, 10⟩ (bytes "123") 3)
        [fnode (.value ⟨1, 25⟩ (bytes "\"f\"") 3)
          [lnode [.value ⟨1, 32⟩ (bytes "1") 1]]]]) := by
  rfl

/-! ## Decimal literals -/

set_option maxRecDepth 100000 in
/-- C14: on the input `1e5e3` followed by a blank, `lexer_get_token` returns
the real literal `1e5` and leaves `e3` unread: the loop of
`lexer_read_number` ends after the digits of the first exponent, and the
test of `saw_exp`, which is never set, is not reached. In the same way the
second `.` of `1.5e3.2` is not seen. -/
theorem second_exponent_ends_literal (junk : Junk) :
    lexer_get_token junk (lexer_init_file (bytes "1e5e3 ") 0) =
      .ok (⟨⟨1, 1⟩, tok_realnum, true, junk.tval, bytes "1e5" ++ [0]⟩,
           { file := bytes "e3 ", is_eof := false, loc := ⟨1, 3⟩,
             error_notifications := false, error_count := 0 }) ∧
    first_token junk (bytes "1.5e3.2 ") = .ok (tok_realnum, bytes "1.5e3") :=
  ⟨rfl, rfl⟩

/-! ## Classes of numeric literals -/

theorem has_point_or_exp_snoc (t : List Byte) (x : Byte) :
    has_point_or_exp (t ++ [x]) = (has_point_or_exp t || (x == 46 || x == 101 || x == 69)) := by
  simp [has_point_or_exp, List.any_append]

theorem has_point_or_exp_digits (t ds : List Byte) (h : ds.all isdigit = true) :
    has_point_or_exp (t ++ ds) = has_point_or_exp t := by
  induction ds generalizing t with
  | nil => simp
  | cons d ds ih =>
    simp only [List.all_cons, Bool.and_eq_true] at h
    have := ih (t ++ [d]) h.2
    rw [List.append_assoc] at this
    simp only [List.singleton_append] at this
    rw [this, has_point_or_exp_snoc]
    obtain ⟨x1, x2, x3, x4, _⟩ := byte_facts_digit d h.1
    simp [x2, x3, x4]

theorem exp_digits_text : ∀ (fuel : Nat) (lex : Lexer) (b : Buffer) (t : List Byte),
    lex.file.length < fuel → b.buf = some t →
    ∃ c1 lex1 b1 ds, lexer_read_exp_digits fuel lex b = .ok (c1, lex1, b1) ∧
      b1.buf = some (t ++ ds) ∧ ds.all isdigit = true := by
  intro fuel
  induction fuel with
  | zero => intro lex b t h; omega
  | succ f ih =>
    intro lex b t h hb
    unfold lexer_read_exp_digits
    by_cases hc : isdigit (lexer_getch lex).1 = true
    · simp only [hc, if_true]
      have hs := getch_strict lex ((byte_facts_cont _).2.2.1 hc)
      obtain ⟨c1, lex1, b1, ds, hr, hbuf, hds⟩ :=
        ih (lexer_getch lex).2 (buffer_add_char b (lexer_getch lex).1)
          (t ++ [(lexer_getch lex).1]) (by omega) (by rw [buffer_add_char_buf, hb]; rfl)
      refine ⟨c1, lex1, b1, (lexer_getch lex).1 :: ds, hr, by simpa using hbuf, ?_⟩
      simp [hc, hds]
    · simp only [hc, Bool.false_eq_true, if_false]
      exact ⟨_, _, _, [], rfl, by simpa using hb, rfl⟩
theorem numText_add (s : NumState) (t : List Byte) (x : Byte) (lex : Lexer) (h : NumText s t)
    (hx : x ≠ 0) (hm : (x == 46 || x == 101 || x == 69) = false) :
    NumText { s with lex := lex, b := buffer_add_char s.b x } (t ++ [x]) := by
  obtain ⟨h1, h2, h3⟩ := h
  refine ⟨by simp only; rw [buffer_add_char_buf, h1]; rfl, ?_, ?_⟩
  · intro y hy
    rcases List.mem_append.1 hy with hy | hy
    · exact h2 y hy
    · simp only [List.mem_singleton] at hy; rw [hy]; exact hx
  · simp only [has_point_or_exp_snoc, hm, Bool.or_false]
    exact h3

theorem number_loop_text : ∀ (fuel : Nat) (s : NumState) (t : List Byte),
    s.lex.file.length < fuel → NumText s t →
    ∃ r s1 t1, lexer_read_number_loop fuel s = .ok (r, s1) ∧ NumText s1 t1 := by
  intro fuel
  induction fuel with
  | zero => intro s t h; omega
  | succ f ih =>
    intro s t h hn
    obtain ⟨hb, hnz, hreal⟩ := hn
    unfold lexer_read_number_loop
    simp only []
    by_cases hc : (lexer_getch s.lex).1 = CEOF
    · simp only [hc, if_true]
      exact ⟨_, _, t, rfl, hb, hnz, hreal⟩
    · simp only [hc, if_false]
      have hs := getch_strict s.lex hc
      by_cases he : (lexer_getch s.lex).1 = 101 ∨ (lexer_getch s.lex).1 = 69
      · simp only [he, if_true]
        have hce : (lexer_getch s.lex).1 ≠ 0 := by rcases he with h | h <;> rw [h] <;> decide
        have hme : ((lexer_getch s.lex).1 == 46 || (lexer_getch s.lex).1 == 101 ||
            (lexer_getch s.lex).1 == 69) = true := by rcases he with h | h <;> rw [h] <;> decide
        have hb1 : (buffer_add_char s.b (lexer_getch s.lex).1).buf =
            some (t ++ [(lexer_getch s.lex).1]) := by rw [buffer_add_char_buf, hb]; rfl
        have hnz1 : ∀ x ∈ t ++ [(lexer_getch s.lex).1], x ≠ 0 := by
          intro y hy
          rcases List.mem_append.1 hy with hy | hy
          · exact hnz y hy
          · simp only [List.mem_singleton] at hy; rw [hy]; exact hce
        have hm1 : has_point_or_exp (t ++ [(lexer_getch s.lex).1]) = true := by
          rw [has_point_or_exp_snoc, hme]; simp
        by_cases hse : s.saw_exp = true
        · simp only [hse, if_true]
          exact ⟨_, _, t, rfl, hb, hnz, hreal⟩
        · simp only [hse, Bool.false_eq_true, if_false]
          set r1 := lexer_getch (lexer_getch s.lex).2 with hr1
          have s1 := getch_step (lexer_getch s.lex).2
          by_cases hsign : r1.1 = 43 ∨ r1.1 = 45
          · simp only [hsign, if_true]
            have hcs : r1.1 ≠ 0 := by rcases hsign with h | h <;> rw [h] <;> decide
            have hms : (r1.1 == 46 || r1.1 == 101 || r1.1 == 69) = false := by
              rcases hsign with h | h <;> rw [h] <;> decide
            have hb2 : (buffer_add_char (buffer_add_char s.b (lexer_getch s.lex).1) r1.1).buf =
                some (t ++ [(lexer_getch s.lex).1] ++ [r1.1]) := by
              rw [buffer_add_char_buf, hb1]; rfl
            have hnz2 : ∀ x ∈ t ++ [(lexer_getch s.lex).1] ++ [r1.1], x ≠ 0 := by
              intro y hy
              rcases List.mem_append.1 hy with hy | hy
              · exact hnz1 y hy
              · simp only [List.mem_singleton] at hy; rw [hy]; exact hcs
            have hm2 : has_point_or_exp (t ++ [(lexer_getch s.lex).1] ++ [r1.1]) = true := by
              rw [has_point_or_exp_snoc, hm1]; simp
            by_cases hd : isdigit (lexer_getch r1.2).1 = true
            · simp only [hd, Bool.not_true, Bool.false_eq_true, if_false]
              have s2 := getch_step r1.2
              obtain ⟨c3, lex3, b3, ds, hr, hbuf, hds⟩ := exp_digits_text
                ((lexer_getch r1.2).2.file.length + 1) (lexer_getch r1.2).2
                (buffer_add_char (buffer_add_char (buffer_add_char s.b (lexer_getch s.lex).1) r1.1)
                  (lexer_getch r1.2).1)
                (t ++ [(lexer_getch s.lex).1] ++ [r1.1] ++ [(lexer_getch r1.2).1])
                (by omega) (by rw [buffer_add_char_buf, hb2]; rfl)
              rw [hr]
              have hall : ((lexer_getch r1.2).1 :: ds).all isdigit = true := by simp [hd, hds]
              refine ⟨_, _, t ++ [(lexer_getch s.lex).1] ++ [r1.1] ++ ((lexer_getch r1.2).1 :: ds),
                rfl, by simpa using hbuf, ?_, ?_⟩
              · intro y hy
                rcases List.mem_append.1 hy with hy | hy
                · exact hnz2 y hy
                · exact (byte_facts_digit y ((List.all_eq_true.1 hall) y hy)).2.2.2.2.1
              · simp only []
                rw [has_point_or_exp_digits _ _ hall, hm2]
            · simp only [hd, Bool.not_false, if_true]
              exact ⟨_, _, _, rfl, hb2, hnz2, by simp only []; rw [hm2]⟩
          · simp only [hsign, if_false]
            by_cases hd : isdigit r1.1 = true
            · simp only [hd, Bool.not_true, Bool.false_eq_true, if_false]
              obtain ⟨c3, lex3, b3, ds, hr, hbuf, hds⟩ := exp_digits_text
                (r1.2.file.length + 1) r1.2
                (buffer_add_char (buffer_add_char s.b (lexer_getch s.lex).1) r1.1)
                (t ++ [(lexer_getch s.lex).1] ++ [r1.1])
                (by omega) (by rw [buffer_add_char_buf, hb1]; rfl)
              rw [hr]
              have hall : (r1.1 :: ds).all isdigit = true := by simp [hd, hds]
              refine ⟨_, _, t ++ [(lexer_getch s.lex).1] ++ (r1.1 :: ds),
                rfl, by simpa using hbuf, ?_, ?_⟩
              · intro y hy
                rcases List.mem_append.1 hy with hy | hy
                · exact hnz1 y hy
                · exact (byte_facts_digit y ((List.all_eq_true.1 hall) y hy)).2.2.2.2.1
              · simp only []
                rw [has_point_or_exp_digits _ _ hall, hm1]
            · simp only [hd, Bool.not_false, if_true]
              exact ⟨_, _, _, rfl, hb1, hnz1, by simp only []; rw [hm1]⟩
      · simp only [he, if_false]
        by_cases hdot : (lexer_getch s.lex).1 = 46
        · simp only [hdot, if_true]
          by_cases hsd : s.saw_dot = true
          · simp only [hsd, if_true]
            exact ⟨_, _, t, rfl, hb, hnz, hreal⟩
          · simp only [hsd, Bool.false_eq_true, if_false]
            exact ih
              { s with lex := (lexer_getch s.lex).2, b := buffer_add_char s.b 46,
                       saw_dot := true, isreal := true } (t ++ [46])
              (by simp only; omega)
              ⟨by simp only; rw [buffer_add_char_buf, hb]; rfl,
               by
                intro y hy
                rcases List.mem_append.1 hy with hy | hy
                · exact hnz y hy
                · simp only [List.mem_singleton] at hy; rw [hy]; decide,
               by simp only []; rw [has_point_or_exp_snoc]; simp⟩
        · simp only [hdot, if_false]
          by_cases hd : isdigit (lexer_getch s.lex).1 = true
          · simp only [hd, Bool.not_true, Bool.false_eq_true, if_false]
            obtain ⟨x1, x2, x3, x4, x5, _⟩ := byte_facts_digit _ hd
            exact ih
              { s with lex := (lexer_getch s.lex).2,
                       b := buffer_add_char s.b (lexer_getch s.lex).1 }
              (t ++ [(lexer_getch s.lex).1])
              (by simp only; omega)
              (numText_add s t _ _ ⟨hb, hnz, hreal⟩ x5 (by simp [x2, x3, x4]))
          · simp only [hd, Bool.not_false, if_true]
            exact ⟨_, _, t, rfl, hb, hnz, hreal⟩
theorem lexer_read_number_class (lex : Lexer) (c : Byte) (hc : isdigit c = true ∨ c = 46) :
    ∃ cls lex1 b1 t, lexer_read_number lex { buf := none, size := 16 } c = .ok (cls, lex1, b1) ∧
      b1.buf = some (t ++ [0]) ∧ (∀ x ∈ t, x ≠ 0) ∧
      (cls = tok_unknown ∨ (cls = tok_intnum ∧ has_point_or_exp t = false) ∨
        (cls = tok_realnum ∧ has_point_or_exp t = true)) := by
  have fin : ∀ (r : Option Byte) (s1 : NumState) (t1 : List Byte), NumText s1 t1 →
      ∃ cls lex1 b1 t, lexer_read_number_finish (r, s1) = (cls, lex1, b1) ∧
        b1.buf = some (t ++ [0]) ∧ (∀ x ∈ t, x ≠ 0) ∧
        (cls = tok_unknown ∨ (cls = tok_intnum ∧ has_point_or_exp t = false) ∨
          (cls = tok_realnum ∧ has_point_or_exp t = true)) := by
    intro r s1 t1 ⟨h1, h2, h3⟩
    unfold lexer_read_number_finish
    cases r with
    | none =>
      exact ⟨_, _, _, t1, rfl, by rw [buffer_add_char_buf, h1]; rfl, h2, Or.inl rfl⟩
    | some d =>
      refine ⟨_, _, _, t1, rfl, by simp only []; rw [buffer_add_char_buf, h1]; rfl, h2, ?_⟩
      simp only []
      by_cases hr : s1.isreal = true
      · exact Or.inr (Or.inr ⟨by simp [hr], by rw [← h3]; exact hr⟩)
      · exact Or.inr (Or.inl ⟨by simp [hr], by rw [← h3]; simpa using hr⟩)
  unfold lexer_read_number
  simp only []
  by_cases hdot : c = 46
  · simp only [hdot, if_true]
    by_cases hd : isdigit (lexer_getch lex).1 = true
    · simp only [hd, Bool.not_true, Bool.false_eq_true, if_false]
      obtain ⟨x1, x2, x3, x4, x5, _⟩ := byte_facts_digit _ hd
      obtain ⟨r, s1, t1, hr, hn⟩ := number_loop_text ((lexer_getch lex).2.file.length + 1)
        ⟨(lexer_getch lex).2,
          buffer_add_char (buffer_add_char { buf := none, size := 16 } 46) (lexer_getch lex).1,
          true, true, false⟩ [46, (lexer_getch lex).1] (by simp only; omega)
        ⟨by simp only []; rw [buffer_add_char_buf]; rfl,
         by
          intro y hy
          simp only [List.mem_cons, List.mem_singleton, List.not_mem_nil, or_false] at hy
          rcases hy with rfl | rfl
          · decide
          · exact x5,
         by simp [has_point_or_exp]⟩
      rw [hr]
      obtain ⟨cls, lex1, b1, t, e1, e2, e3, e4⟩ := fin r s1 t1 hn
      exact ⟨cls, lex1, b1, t, by
        show Res.ok (lexer_read_number_finish (r, s1)) = _
        rw [e1], e2, e3, e4⟩
    · simp only [hd, Bool.not_false, if_true]
      exact ⟨_, _, _, [46], rfl, by rw [buffer_add_char_buf]; rfl,
        by intro y hy; simp only [List.mem_singleton] at hy; rw [hy]; decide, Or.inl rfl⟩
  · simp only [hdot, if_false]
    have hdig : isdigit c = true := by
      rcases hc with h | h
      · exact h
      · exact absurd h hdot
    obtain ⟨x1, x2, x3, x4, x5, _⟩ := byte_facts_digit c hdig
    obtain ⟨r, s1, t1, hr, hn⟩ := number_loop_text (lex.file.length + 1)
      ⟨lex, buffer_add_char { buf := none, size := 16 } c, false, false, false⟩ [c]
      (by simp only; omega)
      ⟨rfl, by simpa using x5, by simp [has_point_or_exp, x2, x3, x4]⟩
    rw [hr]
    obtain ⟨cls, lex1, b1, t, e1, e2, e3, e4⟩ := fin r s1 t1 hn
    exact ⟨cls, lex1, b1, t, by
        show Res.ok (lexer_read_number_finish (r, s1)) = _
        rw [e1], e2, e3, e4⟩
theorem number_token_class (junk : Junk) (lex : Lexer) (loc : Location) (c : Byte)
    (hc : isdigit c = true ∨ c = 46) :
    ∃ tok lex1,
      (match lexer_read_number lex { buf := none, size := 16 } c with
        | .ok (cls, lex1, b1) =>
          return_token { tok_class := some cls, uses_buf := false, tval := junk.tval } b1 loc lex1
        | .abort => .abort
        | .nofuel => .nofuel) = .ok (tok, lex1) ∧
      (tok.tok_class = tok_unknown ∨
        (tok.tok_class = tok_intnum ∧ has_point_or_exp (token_as_string tok) = false) ∨
        (tok.tok_class = tok_realnum ∧ has_point_or_exp (token_as_string tok) = true)) := by
  obtain ⟨cls, lex1, b1, t, e1, e2, e3, e4⟩ := lexer_read_number_class lex c hc
  rw [e1]
  simp only [return_token, e2]
  refine ⟨_, _, rfl, ?_⟩
  simp only [token_as_string, token_uses_buf, if_true]
  rw [cstr_append_zero t e3]
  exact e4

theorem byte_facts_point : (46 : Byte) ≠ CEOF ∧ (46 : Byte) ≠ 35 ∧ (46 : Byte) ≠ 34 ∧
    isalpha 46 = false ∧ isspace 46 = false := by
  decide

theorem byte_facts_eof : isdigit CEOF = false ∧ CEOF ≠ 120 ∧ CEOF ≠ 88 ∧ isxdigit CEOF = false := by
  decide

theorem lexer_get_token_decimal_path (junk : Junk) (lex : Lexer) (c : Byte) (rest : List Byte)
    (he : lex.is_eof = false) (hf : lex.file = c :: rest) (hs : decimal_start c rest = true) :
    ∃ tok lex1, lexer_get_token junk lex = .ok (tok, lex1) ∧
      (tok.tok_class = tok_unknown ∨
        (tok.tok_class = tok_intnum ∧ has_point_or_exp (token_as_string tok) = false) ∨
        (tok.tok_class = tok_realnum ∧ has_point_or_exp (token_as_string tok) = true)) := by
  have hg := lexer_getch_cons lex c rest he hf
  simp only [decimal_start, Bool.or_eq_true, Bool.and_eq_true, beq_iff_eq, bne_iff_ne,
    ne_eq] at hs
  rcases hs with (hdot | ⟨hd, hnz⟩) | ⟨hz, hnext⟩
  · obtain ⟨y1, y2, y3, y4, y5⟩ := byte_facts_point
    subst hdot
    unfold lexer_get_token
    simp only [hg, y5, Bool.false_eq_true, if_false]
    unfold lexer_dispatch
    simp only [y1, y2, y3, y4, if_false, if_true, Bool.false_eq_true]
    exact number_token_class junk _ _ 46 (Or.inr rfl)
  · obtain ⟨x1, x2, x3, x4, x5, x6, x7, x8, x9, x10⟩ := byte_facts_digit c hd
    unfold lexer_get_token
    simp only [hg, x6, Bool.false_eq_true, if_false]
    unfold lexer_dispatch
    simp only [x1, x7, x8, x9, x4, hd, hnz, if_false, if_true, Bool.false_eq_true]
    exact number_token_class junk _ _ c (Or.inl hd)
  · subst hz
    obtain ⟨x1, x2, x3, x4, x5, x6, x7, x8, x9, x10⟩ := byte_facts_digit 48 (by decide)
    have hd : isdigit 48 = true := by decide
    unfold lexer_get_token
    simp only [hg, x6, Bool.false_eq_true, if_false]
    unfold lexer_dispatch
    simp only [x1, x7, x8, x9, x4, hd, if_false, if_true, Bool.false_eq_true]
    have hpeek : isdigit (lexer_getch { lex with file := rest, loc := advance lex.loc 48 }).1 =
          false ∧
        (lexer_getch { lex with file := rest, loc := advance lex.loc 48 }).1 ≠ 120 ∧
        (lexer_getch { lex with file := rest, loc := advance lex.loc 48 }).1 ≠ 88 := by
      cases rest with
      | nil =>
        rw [lexer_getch_nil { lex with file := [], loc := advance lex.loc 48 } he rfl]
        exact ⟨byte_facts_eof.1, byte_facts_eof.2.1, byte_facts_eof.2.2.1⟩
      | cons d tl =>
        rw [lexer_getch_cons { lex with file := d :: tl, loc := advance lex.loc 48 } d tl he rfl]
        simp only [Bool.and_eq_true, Bool.not_eq_true', bne_iff_ne, ne_eq] at hnext
        exact ⟨hnext.1.1, hnext.1.2, hnext.2⟩
    obtain ⟨p1, p2, p3⟩ := hpeek
    simp only [p1, p2, p3, or_self, if_false, Bool.false_eq_true]
    exact number_token_class junk _ _ 48 (Or.inl hd)
theorem lexer_read_hex_loop_run (rest : List Byte)
    (hrest : ∀ d tl, rest = d :: tl → isxdigit d = false) :
    ∀ (hs : List Byte) (fuel : Nat) (lex : Lexer) (b : Buffer) (c : Byte),
      lex.is_eof = false → lex.file = hs ++ rest → hs.all isxdigit = true →
      hs.length < fuel →
      ∃ d lex1, lexer_read_hex_loop fuel lex b c = .ok (d, lex1, add_all b (c :: hs)) := by
  intro hs
  induction hs with
  | nil =>
    intro fuel lex b c he hf _ hfuel
    obtain ⟨f, rfl⟩ : ∃ f, fuel = f + 1 := ⟨fuel - 1, by simp at hfuel; omega⟩
    unfold lexer_read_hex_loop
    cases rest with
    | nil =>
      have hg := lexer_getch_nil lex he (by simpa using hf)
      simp only [hg, byte_facts_eof.2.2.2, Bool.false_eq_true, if_false]
      exact ⟨_, _, rfl⟩
    | cons d tl =>
      have hg := lexer_getch_cons lex d tl he (by simpa using hf)
      simp only [hg, hrest d tl rfl, Bool.false_eq_true, if_false]
      exact ⟨_, _, rfl⟩
  | cons x xs ih =>
    intro fuel lex b c he hf hhs hfuel
    obtain ⟨f, rfl⟩ : ∃ f, fuel = f + 1 := ⟨fuel - 1, by simp at hfuel; omega⟩
    simp only [List.all_cons, Bool.and_eq_true] at hhs
    have hg := lexer_getch_cons lex x (xs ++ rest) he (by simpa using hf)
    unfold lexer_read_hex_loop
    simp only [hg, hhs.1, if_true]
    obtain ⟨d, lex1, hr⟩ := ih f { lex with file := xs ++ rest, loc := advance lex.loc x }
      (buffer_add_char b c) x he rfl hhs.2 (by simp at hfuel; omega)
    rw [hr]
    exact ⟨d, lex1, by simp [add_all]⟩

theorem dropWhile_head (p : Byte → Bool) :
    ∀ (l : List Byte) (d : Byte) (tl : List Byte), l.dropWhile p = d :: tl → p d = false := by
  intro l
  induction l with
  | nil => intro d tl h; simp at h
  | cons x xs ih =>
    intro d tl h
    by_cases hx : p x = true
    · rw [List.dropWhile_cons_of_pos hx] at h
      exact ih d tl h
    · rw [List.dropWhile_cons_of_neg hx] at h
      simp only [List.cons.injEq] at h
      rw [← h.1]
      simpa using hx

theorem lexer_read_hex_number_text (lex0 : Lexer) (tok : PTok) (x : Byte) (rest : List Byte)
    (hx : x = 120 ∨ x = 88) (he : lex0.is_eof = false) (hf : lex0.file = x :: rest) :
    ∃ lex1 b1, lexer_read_hex_number lex0 tok { buf := none, size := 16 } 48 =
        .ok (lex1, { tok with tok_class := some tok_hexnum, uses_buf := true }, b1) ∧
      b1.buf = some (48 :: x :: rest.takeWhile isxdigit ++ [0]) := by
  have hg := lexer_getch_cons lex0 x rest he hf
  have hsplit : rest = rest.takeWhile isxdigit ++ rest.dropWhile isxdigit :=
    (List.takeWhile_append_dropWhile isxdigit rest).symm
  have hall : (rest.takeWhile isxdigit).all isxdigit = true := by
    rw [List.all_eq_true]
    intro y hy
    exact List.mem_takeWhile_imp hy
  have hlen : (rest.takeWhile isxdigit).length ≤ rest.length :=
    (List.takeWhile_prefix isxdigit).length_le
  obtain ⟨d, lex1, hloop⟩ := lexer_read_hex_loop_run (rest.dropWhile isxdigit)
    (fun d tl h => dropWhile_head isxdigit rest d tl h) (rest.takeWhile isxdigit)
    (rest.length + 1) { lex0 with file := rest, loc := advance lex0.loc x }
    (buffer_add_char { buf := none, size := 16 } 48) x he hsplit hall (by omega)
  have hx2 : ¬ (¬ x = 120 ∧ ¬ x = 88) := by tauto
  unfold lexer_read_hex_number
  simp only [ne_eq, not_true_eq_false, if_false, hg, hx2]
  rw [hloop]
  refine ⟨_, _, rfl, ?_⟩
  rw [buffer_add_char_buf, add_all_buf _ _ (by simp)]
  simp [buffer_add_char]

theorem lexer_get_token_hex (junk : Junk) (lex : Lexer) (x : Byte) (rest : List Byte)
    (he : lex.is_eof = false) (hf : lex.file = 48 :: x :: rest) (hx : x = 120 ∨ x = 88) :
    ∃ tok lex1, lexer_get_token junk lex = .ok (tok, lex1) ∧ tok.tok_class = tok_hexnum ∧
      token_as_string tok = 48 :: x :: rest.takeWhile isxdigit := by
  obtain ⟨x1, x2, x3, x4, x5, x6, x7, x8, x9, x10⟩ := byte_facts_digit 48 (by decide)
  have hd : isdigit 48 = true := by decide
  have hxe : x ≠ CEOF := by rcases hx with h | h <;> rw [h] <;> decide
  have hxz : x ≠ 0 := by rcases hx with h | h <;> rw [h] <;> decide
  have hg := lexer_getch_cons lex 48 (x :: rest) he hf
  have hg2 := lexer_getch_cons { lex with file := x :: rest, loc := advance lex.loc 48 } x rest
    he rfl
  obtain ⟨lex1, b1, e1, e2⟩ := lexer_read_hex_number_text
    (lexer_ungetch { lex with file := rest, loc := advance (advance lex.loc 48) x } x)
    ⟨junk.tok_class, false, junk.tval⟩ x rest hx he (by simp [lexer_ungetch, hxe])
  have hnz : ∀ y ∈ 48 :: x :: rest.takeWhile isxdigit, y ≠ 0 := by
    intro y hy
    simp only [List.mem_cons] at hy
    rcases hy with rfl | rfl | hy
    · exact x5
    · exact hxz
    · exact byte_facts_xdigit y (List.mem_takeWhile_imp hy)
  unfold lexer_get_token
  simp only [hg, x6, Bool.false_eq_true, if_false]
  unfold lexer_dispatch
  simp only [x1, x7, x8, x9, x4, hd, if_false, if_true, Bool.false_eq_true, hg2, hx]
  rw [e1]
  simp only [return_token, e2]
  refine ⟨_, _, rfl, rfl, ?_⟩
  simp only [token_as_string, token_uses_buf, if_true]
  rw [show (48 : Byte) :: x :: List.takeWhile isxdigit rest ++ [0] =
    (48 :: x :: List.takeWhile isxdigit rest) ++ [0] from rfl, cstr_append_zero _ hnz]
theorem lexer_get_token_octal (junk : Junk) (lex : Lexer) (d : Byte) (rest : List Byte)
    (he : lex.is_eof = false) (hf : lex.file = 48 :: d :: rest) (h1 : 48 ≤ d.val)
    (h2 : d.val ≤ 55) :
    ∃ tok lex1, lexer_get_token junk lex = .ok (tok, lex1) ∧ tok.tok_class = tok_octnum := by
  obtain ⟨x1, x2, x3, x4, x5, x6, x7, x8, x9, x10⟩ := byte_facts_digit 48 (by decide)
  obtain ⟨_, d1, d4, d2, d3⟩ := byte_facts_octal d ⟨h1, by omega⟩
  have hd : isdigit 48 = true := by decide
  have hg := lexer_getch_cons lex 48 (d :: rest) he hf
  have hg2 := lexer_getch_cons { lex with file := d :: rest, loc := advance lex.loc 48 } d rest
    he rfl
  obtain ⟨lex1, tok1, b1, e1, _, e3, e4⟩ := lexer_read_octal_ok
    (lexer_ungetch { lex with file := rest, loc := advance (advance lex.loc 48) d } d)
    ⟨junk.tok_class, false, junk.tval⟩ { buf := none, size := 16 }
  have hcls : tok1.tok_class = some tok_octnum := by
    unfold lexer_read_octal_number at e1
    simp only [ne_eq, not_true_eq_false, if_false] at e1
    split at e1
    · simp only [Res.ok.injEq, Prod.mk.injEq] at e1
      rw [← e1.2.1]
    · exact absurd e1 (by simp)
    · exact absurd e1 (by simp)
  obtain ⟨l, hl⟩ := e3
  unfold lexer_get_token
  simp only [hg, x6, Bool.false_eq_true, if_false]
  unfold lexer_dispatch
  simp only [x1, x7, x8, x9, x4, hd, if_false, if_true, Bool.false_eq_true, hg2, d2, d3, d4,
    or_self]
  rw [if_neg (not_not.2 ⟨h1, h2⟩), e1]
  simp only [return_token, hcls, hl]
  exact ⟨_, _, rfl, rfl⟩
theorem lexer_get_token_number (junk : Junk) (lex : Lexer) (ip fp ex : List Byte) (d : Byte)
    (tl : List Byte) (hip : is_int_text ip = true) (hfp : dec_frac fp = true)
    (hex : dec_exp ex = true) (hd : is_delim d = true) (he : lex.is_eof = false)
    (hf : lex.file = ip ++ fp ++ ex ++ d :: tl) :
    ∃ tok lex1, lexer_get_token junk lex = .ok (tok, lex1) ∧
      (tok.tok_class = tok_intnum ∨ tok.tok_class = tok_realnum) ∧
      token_as_string tok = ip ++ fp ++ ex := by
  obtain ⟨c, ds, rfl, hc, hds, hz⟩ := int_text_parts ip hip
  obtain ⟨x1, x2, x3, x4, x5, x6, x7, x8, x9, x10⟩ := byte_facts_digit c hc
  obtain ⟨k1, k2, k3, k4, k5, k6, k7, k8⟩ := byte_facts_delim d hd
  have hf2 : lex.file = c :: (ds ++ (fp ++ ex ++ d :: tl)) := by rw [hf]; simp
  have hg := lexer_getch_cons lex c _ he hf2
  have hchars : ∀ x ∈ c :: ds ++ (fp ++ ex),
      isdigit x = true ∨ x = 46 ∨ x = 101 ∨ x = 69 ∨ x = 43 ∨ x = 45 := by
    intro x hx
    simp only [List.cons_append, List.mem_cons, List.mem_append] at hx
    rcases hx with rfl | hx | hx | hx
    · exact Or.inl hc
    · exact Or.inl ((List.all_eq_true.1 hds) x hx)
    · exact dec_frac_chars fp hfp x hx
    · exact dec_exp_chars ex hex x hx
  have hfin : ∀ (lex0 : Lexer), lex0.is_eof = false → lex0.file = ds ++ (fp ++ ex ++ d :: tl) →
      ∃ tok lex1,
        (match lexer_read_number lex0 { buf := none, size := 16 } c with
          | .ok (cls, lex1, b1) =>
            return_token { tok_class := some cls, uses_buf := false, tval := junk.tval } b1
              (advance lex.loc c) lex1
          | .abort => .abort
          | .nofuel => .nofuel) = .ok (tok, lex1) ∧
        (tok.tok_class = tok_intnum ∨ tok.tok_class = tok_realnum) ∧
        token_as_string tok = c :: ds ++ fp ++ ex := by
    intro lex0 he0 hf0
    obtain ⟨cls, lex1, b1, e1, e2, e3, e4⟩ :=
      lexer_read_number_decimal lex0 c d ds fp ex tl hc hds hfp hex hd he0 hf0
    rw [e1]
    simp only [return_token, e3]
    refine ⟨_, _, rfl, e2, ?_⟩
    simp only [token_as_string, token_uses_buf, if_true]
    rw [cstr_append_zero _ (number_text_nz _ hchars)]
    simp
  unfold lexer_get_token
  simp only [hg, x6, Bool.false_eq_true, if_false]
  unfold lexer_dispatch
  simp only [x1, x7, x8, x9, x4, hc, if_false, if_true, Bool.false_eq_true]
  by_cases h0 : c = 48
  · have hds0 := hz h0
    subst hds0
    obtain ⟨n, rest, hn, n1, n2, n3, n4⟩ := tail_head fp ex d tl hd hfp hex
    simp only [List.nil_append] at hn ⊢
    have hg2 := lexer_getch_cons
      { lex with file := fp ++ ex ++ d :: tl, loc := advance lex.loc c } n rest he hn
    simp only [h0, if_true]
    rw [h0] at hg2
    simp only [hg2, n2, n3, n4, or_self, if_false, Bool.false_eq_true]
    have := hfin (lexer_ungetch
      { lex with file := rest, loc := advance (advance lex.loc 48) n } n) he
      (by simp [lexer_ungetch, n1, hn])
    rw [h0] at this
    simpa using this
  · simp only [h0, if_false]
    exact hfin _ he rfl

theorem lexer_get_token_point (junk : Junk) (lex : Lexer) (y : Byte) (ds ex : List Byte)
    (d : Byte) (tl : List Byte) (hy : isdigit y = true) (hds : ds.all isdigit = true)
    (hex : dec_exp ex = true) (hd : is_delim d = true) (he : lex.is_eof = false)
    (hf : lex.file = 46 :: y :: ds ++ ex ++ d :: tl) :
    ∃ tok lex1, lexer_get_token junk lex = .ok (tok, lex1) ∧
      (tok.tok_class = tok_intnum ∨ tok.tok_class = tok_realnum) ∧
      token_as_string tok = 46 :: y :: ds ++ ex := by
  have hf2 : lex.file = 46 :: y :: (ds ++ (ex ++ d :: tl)) := by rw [hf]; simp
  have hg := lexer_getch_cons lex 46 _ he hf2
  have hg2 := lexer_getch_cons
    { lex with file := y :: (ds ++ (ex ++ d :: tl)), loc := advance lex.loc 46 } y _ he rfl
  have hchars : ∀ x ∈ 46 :: y :: ds ++ ex,
      isdigit x = true ∨ x = 46 ∨ x = 101 ∨ x = 69 ∨ x = 43 ∨ x = 45 := by
    intro x hx
    simp only [List.cons_append, List.mem_cons, List.mem_append] at hx
    rcases hx with rfl | rfl | hx | hx
    · simp
    · exact Or.inl hy
    · exact Or.inl ((List.all_eq_true.1 hds) x hx)
    · exact dec_exp_chars ex hex x hx
  have hb0 : (buffer_add_char (buffer_add_char { buf := none, size := 16 } 46) y).buf =
      some [46, y] := rfl
  have hlen : (ds ++ (ex ++ d :: tl)).length + 1 = ds.length + (ex.length + (tl.length + 1) + 1) := by
    simp only [List.length_append, List.length_cons]; omega
  have hdone := number_loop_exp
    (NumState.mk
      { lex with file := ex ++ d :: tl, loc := ds.foldl advance (advance (advance lex.loc 46) y) }
      (add_all (buffer_add_char (buffer_add_char { buf := none, size := 16 } 46) y) ds)
      true true false)
    ([46, y] ++ ds) ex d tl (ex.length + (tl.length + 1) + 1) hd hex he rfl
    (add_all_some ds _ _ hb0) rfl (by omega)
  obtain ⟨s1, e1, e2, e3, e4, e5, e6⟩ := hdone
  unfold lexer_get_token
  simp only [hg, show isspace (46 : Byte) = false from by decide, Bool.false_eq_true, if_false]
  unfold lexer_dispatch
  simp only [show (46 : Byte) ≠ CEOF from by decide, show (46 : Byte) ≠ 35 from by decide,
    show (46 : Byte) ≠ 34 from by decide, show isalpha (46 : Byte) = false from by decide,
    if_false, if_true, Bool.false_eq_true]
  unfold lexer_read_number
  simp only [if_true, hg2, hy, Bool.not_true, Bool.false_eq_true, if_false]
  rw [hlen, number_loop_digits (ex ++ d :: tl) ds _ _ he rfl hds, e1]
  simp only [lexer_read_number_finish, return_token]
  rw [buffer_add_char_buf, e2]
  refine ⟨_, _, rfl, ?_, ?_⟩
  · by_cases hr : s1.isreal = true <;> simp [hr]
  · simp only [token_as_string, token_uses_buf, if_true, Option.getD_some]
    rw [show [46, y] ++ ds ++ ex ++ [0] = (46 :: y :: ds ++ ex) ++ [0] from by simp]
    exact cstr_append_zero _ (number_text_nz _ hchars)
theorem decimal_cases (w : List Byte) (hw : Decimal w) (d : Byte) (tl : List Byte)
    (hd : is_delim d = true) :
    ∃ c rest, w ++ d :: tl = c :: rest ∧ decimal_start c rest = true ∧ isspace c = false := by
  cases hw with
  | number ip fp ex hip hfp hex =>
    obtain ⟨c, ds, rfl, hc, hds, hz⟩ := int_text_parts ip hip
    obtain ⟨x1, x2, x3, x4, x5, x6, _⟩ := byte_facts_digit c hc
    refine ⟨c, ds ++ fp ++ ex ++ d :: tl, by simp, ?_, x6⟩
    by_cases h0 : c = 48
    · have hds0 := hz h0
      subst hds0
      obtain ⟨n, rest, hn, n1, n2, n3, n4⟩ := tail_head fp ex d tl hd hfp hex
      simp only [List.nil_append]
      rw [hn]
      simp [decimal_start, h0, n2, n3, n4]
    · simp [decimal_start, hc, h0]
  | point y ds ex hy hds hex =>
    exact ⟨46, y :: ds ++ ex ++ d :: tl, by simp, by simp [decimal_start], by decide⟩

theorem decimal_literal_class (junk : Junk) (lex : Lexer) (w : List Byte) (d : Byte)
    (tl : List Byte) (hw : Decimal w) (hd : is_delim d = true) (he : lex.is_eof = false)
    (hf : lex.file = w ++ d :: tl) :
    ∃ tok lex1, lexer_get_token junk lex = .ok (tok, lex1) ∧ token_as_string tok = w ∧
      tok.tok_class = if has_point_or_exp w then tok_realnum else tok_intnum := by
  obtain ⟨c, rest, hcr, hstart, _⟩ := decimal_cases w hw d tl hd
  obtain ⟨tok2, lex2, g1, g2⟩ := lexer_get_token_decimal_path junk lex c rest he
    (by rw [hf, hcr]) hstart
  have hpos : ∃ tok lex1, lexer_get_token junk lex = .ok (tok, lex1) ∧
      (tok.tok_class = tok_intnum ∨ tok.tok_class = tok_realnum) ∧ token_as_string tok = w := by
    cases hw with
    | number ip fp ex hip hfp hex =>
      exact lexer_get_token_number junk lex ip fp ex d tl hip hfp hex hd he hf
    | point y ds ex hy hds hex =>
      exact lexer_get_token_point junk lex y ds ex d tl hy hds hex hd he (by rw [hf])
  obtain ⟨tok, lex1, e1, e2, e3⟩ := hpos
  rw [e1] at g1
  simp only [Res.ok.injEq, Prod.mk.injEq] at g1
  obtain ⟨rfl, rfl⟩ := g1
  refine ⟨tok, lex1, e1, e3, ?_⟩
  rw [e3] at g2
  rcases g2 with g | ⟨g, gm⟩ | ⟨g, gm⟩
  · rcases e2 with e | e <;> rw [e] at g <;> exact absurd g (by decide)
  · rw [gm, g]; simp
  · rw [gm, g]; simp

/-- C15, amended: let the next token of the input start, after white space
`ws`, with `0`. When the next character is `x` or `X` the token is a
hexadecimal literal whose text is `0`, that marker and the hex digits that
follow; when the next character is a digit from 0 to 7 the token is an octal
literal. A token read by the decimal rules (it starts with `.`, with a digit
other than `0`, or with `0` followed by no digit and no `x` or `X`) is of
class unknown, or an integer literal whose text holds neither `.` nor
exponent marker, or a real literal whose text holds one. A well-formed
decimal literal followed by a delimiter is returned with its text, as a real
literal when it holds a `.` or an exponent marker and as an integer literal
otherwise. -/
theorem literal_class_by_start (junk : Junk) (lex : Lexer) (ws rest : List Byte)
    (he : lex.is_eof = false) (hsp : spaces ws = true) :
    (∀ x, (x = 120 ∨ x = 88) → lex.file = ws ++ 48 :: x :: rest →
      ∃ tok lex1, lexer_get_token junk lex = .ok (tok, lex1) ∧ tok.tok_class = tok_hexnum ∧
        token_as_string tok = 48 :: x :: rest.takeWhile isxdigit) ∧
    (∀ d, 48 ≤ d.val → d.val ≤ 55 → lex.file = ws ++ 48 :: d :: rest →
      ∃ tok lex1, lexer_get_token junk lex = .ok (tok, lex1) ∧ tok.tok_class = tok_octnum) ∧
    (∀ c, decimal_start c rest = true → lex.file = ws ++ c :: rest →
      ∃ tok lex1, lexer_get_token junk lex = .ok (tok, lex1) ∧
        (tok.tok_class = tok_unknown ∨
          (tok.tok_class = tok_intnum ∧ has_point_or_exp (token_as_string tok) = false) ∨
          (tok.tok_class = tok_realnum ∧ has_point_or_exp (token_as_string tok) = true))) ∧
    (∀ w d tl, Decimal w → is_delim d = true → lex.file = ws ++ w ++ d :: tl →
      ∃ tok lex1, lexer_get_token junk lex = .ok (tok, lex1) ∧ token_as_string tok = w ∧
        tok.tok_class = if has_point_or_exp w then tok_realnum else tok_intnum) := by
  refine ⟨?_, ?_, ?_, ?_⟩
  · intro x hx hf
    rw [lexer_get_token_spaces junk lex ws 48 (x :: rest) he hf hsp (by decide)]
    exact lexer_get_token_hex junk _ x rest he rfl hx
  · intro d h1 h2 hf
    rw [lexer_get_token_spaces junk lex ws 48 (d :: rest) he hf hsp (by decide)]
    exact lexer_get_token_octal junk _ d rest he rfl h1 h2
  · intro c hc hf
    have hns : isspace c = false := by
      simp only [decimal_start, Bool.or_eq_true, Bool.and_eq_true, beq_iff_eq] at hc
      rcases hc with (h | h) | h
      · rw [h]; decide
      · exact (byte_facts_digit c h.1).2.2.2.2.2.1
      · rw [h.1]; decide
    rw [lexer_get_token_spaces junk lex ws c rest he hf hsp hns]
    exact lexer_get_token_decimal_path junk _ c rest he rfl hc
  · intro w d tl hw hd hf
    obtain ⟨c, r, hcr, _, hns⟩ := decimal_cases w hw d tl hd
    rw [lexer_get_token_spaces junk lex ws c r he (by rw [hf, List.append_assoc, hcr]) hsp hns]
    exact decimal_literal_class junk _ w d tl hw hd he hcr.symm

set_option maxRecDepth 100000 in
/-- After a blank, `0x1Fg` gives the hexadecimal literal `0x1F`, `017` an
octal literal, `12` before a blank a token that is no real literal, and
`1.5e3` before a blank the real literal `1.5e3`. -/
theorem literal_class_by_start_witness :
    spaces (bytes " ") = true ∧
    (∃ tok lex1, lexer_get_token ⟨none, tv_eof⟩ (lexer_init_file (bytes " 0x1Fg") 0) =
        .ok (tok, lex1) ∧ tok.tok_class = tok_hexnum ∧
      token_as_string tok = 48 :: 120 :: (bytes "1Fg").takeWhile isxdigit) ∧
    (∃ tok lex1, lexer_get_token ⟨none, tv_eof⟩ (lexer_init_file (bytes " 017") 0) =
        .ok (tok, lex1) ∧ tok.tok_class = tok_octnum) ∧
    (∃ tok lex1, lexer_get_token ⟨none, tv_eof⟩ (lexer_init_file (bytes " 12 ") 0) =
        .ok (tok, lex1) ∧
      (tok.tok_class = tok_unknown ∨
        (tok.tok_class = tok_intnum ∧ has_point_or_exp (token_as_string tok) = false) ∨
        (tok.tok_class = tok_realnum ∧ has_point_or_exp (token_as_string tok) = true))) ∧
    (∃ tok lex1, lexer_get_token ⟨none, tv_eof⟩ (lexer_init_file (bytes " 1.5e3 ") 0) =
        .ok (tok, lex1) ∧ token_as_string tok = bytes "1.5e3" ∧
      tok.tok_class = if has_point_or_exp (bytes "1.5e3") then tok_realnum else tok_intnum) :=
  ⟨by decide,
   (literal_class_by_start ⟨none, tv_eof⟩ (lexer_init_file (bytes " 0x1Fg") 0) (bytes " ")
      (bytes "1Fg") rfl (by decide)).1 120 (Or.inl rfl) rfl,
   (literal_class_by_start ⟨none, tv_eof⟩ (lexer_init_file (bytes " 017") 0) (bytes " ")
      (bytes "7") rfl (by decide)).2.1 49 (by decide) (by decide) rfl,
   (literal_class_by_start ⟨none, tv_eof⟩ (lexer_init_file (bytes " 12 ") 0) (bytes " ")
      (bytes "2 ") rfl (by decide)).2.2.1 49 (by decide) rfl,
   (literal_class_by_start ⟨none, tv_eof⟩ (lexer_init_file (bytes " 1.5e3 ") 0) (bytes " ")
      [] rfl (by decide)).2.2.2 (bytes "1.5e3") 32 []
      (Decimal.number (bytes "1") (bytes ".5") (bytes "e3") (by decide) (by decide) (by decide))
      (by decide) rfl⟩

set_option maxRecDepth 100000 in
/-- C15 as stated fails for a literal that ends the input: `12` starts with
a digit other than `0` and holds neither `.` nor exponent, yet before the end
of the input the lexer returns it as a token of class unknown. -/
theorem integer_before_end_of_input_unknown :
    lexer_get_token ⟨none, tv_eof⟩ (lexer_init_file (bytes "12") 0) =
      .ok (⟨⟨1, 1⟩, tok_unknown, true, tv_eof, bytes "12" ++ [0]⟩,
           { file := [], is_eof := true, loc := ⟨1, 2⟩,
             error_notifications := false, error_count := 0 }) := by
  rfl

/-! ## String literals -/

theorem lexer_read_string_loop_quoted (rest : List Byte) :
    ∀ (n : Nat) (body : List Byte) (fuel : Nat) (lex : Lexer) (b : Buffer),
      body.length ≤ n → lex.is_eof = false → lex.file = body ++ 34 :: rest →
      quoted_body false body = true → body.length < fuel →
      lexer_read_string_loop 34 fuel lex b =
        .ok (true, { lex with file := rest, loc := (body ++ [34]).foldl advance lex.loc },
             add_all b (body ++ [34])) := by
  intro n
  induction n with
  | zero =>
    intro body fuel lex b hn he hf _ hfuel
    obtain ⟨f, rfl⟩ : ∃ f, fuel = f + 1 := ⟨fuel - 1, by omega⟩
    have hb : body = [] := List.length_eq_zero.1 (by omega)
    subst hb
    have hg := lexer_getch_cons lex 34 rest he (by simpa using hf)
    unfold lexer_read_string_loop
    simp [hg, show (34 : Byte) ≠ CEOF from by decide, show (34 : Byte) ≠ 92 from by decide,
      add_all]
  | succ n ih =>
    intro body fuel lex b hn he hf hbody hfuel
    obtain ⟨f, rfl⟩ : ∃ f, fuel = f + 1 := ⟨fuel - 1, by omega⟩
    cases body with
    | nil =>
      have hg := lexer_getch_cons lex 34 rest he (by simpa using hf)
      unfold lexer_read_string_loop
      simp [hg, show (34 : Byte) ≠ CEOF from by decide, show (34 : Byte) ≠ 92 from by decide,
        add_all]
    | cons c cs =>
      have hg := lexer_getch_cons lex c (cs ++ 34 :: rest) he (by simpa using hf)
      by_cases hc : c = 92
      · subst hc
        cases cs with
        | nil => simp [quoted_body] at hbody
        | cons e es =>
          simp only [quoted_body, if_true, Bool.and_eq_true, bne_iff_ne, ne_eq] at hbody
          obtain ⟨h1, h3⟩ := hbody
          have hg2 := lexer_getch_cons
            { lex with file := e :: es ++ 34 :: rest, loc := advance lex.loc 92 } e
            (es ++ 34 :: rest) he (by simp)
          unfold lexer_read_string_loop
          simp only [hg, show (92 : Byte) ≠ CEOF from by decide, if_false, if_true]
          simp only [List.cons_append] at hg2
          simp only [List.cons_append, hg2, h1, if_false]
          rw [ih es f _ _ (by simp at hn; omega) (by simpa using he) rfl h3
            (by simp at hfuel; omega)]
          simp [add_all]
      · simp only [quoted_body, hc, if_false, Bool.and_eq_true, bne_iff_ne, ne_eq] at hbody
        obtain ⟨⟨h1, h2⟩, h4⟩ := hbody
        unfold lexer_read_string_loop
        simp only [hg, h1, hc, h2, if_false]
        rw [ih cs f _ _ (by simp at hn; omega) (by simpa using he) rfl h4
          (by simp at hfuel; omega)]
        simp [add_all]

theorem lexer_read_string_loop_open :
    ∀ (n : Nat) (body : List Byte) (fuel : Nat) (lex : Lexer) (b : Buffer),
      body.length ≤ n → lex.is_eof = false → lex.file = body →
      open_body false body = true → body.length < fuel →
      ∃ lex1 b1, lexer_read_string_loop 34 fuel lex b = .ok (false, lex1, b1) ∧
        b1.buf ≠ none := by
  intro n
  induction n with
  | zero =>
    intro body fuel lex b hn he hf _ hfuel
    obtain ⟨f, rfl⟩ : ∃ f, fuel = f + 1 := ⟨fuel - 1, by omega⟩
    have hb : body = [] := List.length_eq_zero.1 (by omega)
    subst hb
    have hg := lexer_getch_nil lex he hf
    unfold lexer_read_string_loop
    simp only [hg, if_true]
    exact ⟨_, _, rfl, by rw [buffer_add_char_buf]; simp⟩
  | succ n ih =>
    intro body fuel lex b hn he hf hbody hfuel
    obtain ⟨f, rfl⟩ : ∃ f, fuel = f + 1 := ⟨fuel - 1, by omega⟩
    cases body with
    | nil =>
      have hg := lexer_getch_nil lex he hf
      unfold lexer_read_string_loop
      simp only [hg, if_true]
      exact ⟨_, _, rfl, by rw [buffer_add_char_buf]; simp⟩
    | cons c cs =>
      have hg := lexer_getch_cons lex c cs he hf
      by_cases hc : c = 92
      · subst hc
        cases cs with
        | nil =>
          have hg2 := lexer_getch_nil
            { lex with file := [], loc := advance lex.loc 92 } he rfl
          unfold lexer_read_string_loop
          simp only [hg, show (92 : Byte) ≠ CEOF from by decide, if_false, if_true, hg2]
          exact ⟨_, _, rfl, by rw [buffer_add_char_buf]; simp⟩
        | cons e es =>
          simp only [open_body, if_true, Bool.and_eq_true, bne_iff_ne, ne_eq] at hbody
          obtain ⟨h1, h3⟩ := hbody
          have hg2 := lexer_getch_cons
            { lex with file := e :: es, loc := advance lex.loc 92 } e es he rfl
          unfold lexer_read_string_loop
          simp only [hg, show (92 : Byte) ≠ CEOF from by decide, if_false, if_true]
          simp only [hg2, h1, if_false]
          exact ih es f _ _ (by simp at hn; omega) (by simpa using he) rfl h3
            (by simp at hfuel; omega)
      · simp only [open_body, hc, if_false, Bool.and_eq_true, bne_iff_ne, ne_eq] at hbody
        obtain ⟨⟨h1, h2⟩, h4⟩ := hbody
        unfold lexer_read_string_loop
        simp only [hg, h1, hc, h2, if_false]
        exact ih cs f _ _ (by simp at hn; omega) (by simpa using he) rfl h4
          (by simp at hfuel; omega)
theorem cstr_snoc_zero (t : List Byte) : cstr (t ++ [0]) = cstr t := by
  unfold cstr
  induction t with
  | nil => simp
  | cons x xs ih =>
    simp only [List.cons_append, List.takeWhile_cons]
    by_cases hx : x = 0
    · simp [hx]
    · simp only [bne_iff_ne, ne_eq, hx, not_false_eq_true, if_true]
      rw [ih]

theorem cstr_of_nz (t : List Byte) (h : ∀ x ∈ t, x ≠ 0) : cstr t = t := by
  rw [← cstr_snoc_zero, cstr_append_zero t h]

theorem lexer_get_token_quoted (junk : Junk) (lex : Lexer) (body rest : List Byte)
    (he : lex.is_eof = false) (hf : lex.file = 34 :: body ++ 34 :: rest)
    (hb : quoted_body false body = true) :
    ∃ tok lex1, lexer_get_token junk lex = .ok (tok, lex1) ∧ tok.tok_class = tok_string ∧
      token_as_string tok = cstr (34 :: body ++ [34]) := by
  have hg := lexer_getch_cons lex 34 (body ++ 34 :: rest) he (by simpa using hf)
  have hloop := lexer_read_string_loop_quoted rest body.length body
    ((body ++ 34 :: rest).length + 1)
    { lex with file := body ++ 34 :: rest, loc := advance lex.loc 34 }
    (buffer_add_char { buf := none, size := 16 } 34) (le_refl _) he rfl hb (by simp; omega)
  unfold lexer_get_token
  simp only [hg, show isspace (34 : Byte) = false from by decide, Bool.false_eq_true, if_false]
  unfold lexer_dispatch
  simp only [show (34 : Byte) ≠ CEOF from by decide, show (34 : Byte) ≠ 35 from by decide,
    if_false, if_true]
  unfold lexer_read_string
  simp only [ne_eq, not_true_eq_false, if_false]
  rw [hloop]
  simp only [return_token]
  rw [buffer_add_char_buf, add_all_buf _ _ (by simp)]
  refine ⟨_, _, rfl, rfl, ?_⟩
  simp only [token_as_string, token_uses_buf, if_true, buffer_add_char, Option.getD_some,
    List.singleton_append]
  exact cstr_snoc_zero _

theorem lexer_get_token_unclosed (junk : Junk) (lex : Lexer) (body : List Byte)
    (he : lex.is_eof = false) (hf : lex.file = 34 :: body)
    (hb : open_body false body = true) :
    ∃ tok lex1, lexer_get_token junk lex = .ok (tok, lex1) ∧ tok.tok_class = tok_unknown := by
  have hg := lexer_getch_cons lex 34 body he hf
  obtain ⟨lex1, b1, hloop, hbuf⟩ := lexer_read_string_loop_open body.length body
    (body.length + 1) { lex with file := body, loc := advance lex.loc 34 }
    (buffer_add_char { buf := none, size := 16 } 34) (le_refl _) he rfl hb (by omega)
  obtain ⟨data, hdata⟩ : ∃ data, b1.buf = some data := by
    cases h : b1.buf with
    | none => exact absurd h hbuf
    | some data => exact ⟨data, rfl⟩
  unfold lexer_get_token
  simp only [hg, show isspace (34 : Byte) = false from by decide, Bool.false_eq_true, if_false]
  unfold lexer_dispatch
  simp only [show (34 : Byte) ≠ CEOF from by decide, show (34 : Byte) ≠ 35 from by decide,
    if_false, if_true]
  unfold lexer_read_string
  simp only [ne_eq, not_true_eq_false, if_false]
  rw [hloop]
  simp only [return_token, hdata]
  exact ⟨_, _, rfl, rfl⟩

/-- C16, amended: let the input hold, after white space `ws`, a quote, a
body without the byte `0xFF` in which a quote stands only after a backslash
(a backslash escapes the character after it), and the closing quote. Then
`lexer_get_token` returns a token of class string whose text is the whole
text, both quotes and all escape sequences included, up to the first NUL of
the body: the whole text when the body holds no NUL. When the body is not
closed before the end of the input, also when the input ends after a
backslash, the token is of class unknown. -/
theorem string_literal_token (junk : Junk) (lex : Lexer) (ws body rest : List Byte)
    (he : lex.is_eof = false) (hsp : spaces ws = true) :
    (quoted_body false body = true → lex.file = ws ++ 34 :: body ++ 34 :: rest →
      ∃ tok lex1, lexer_get_token junk lex = .ok (tok, lex1) ∧ tok.tok_class = tok_string ∧
        token_as_string tok = cstr (34 :: body ++ [34]) ∧
        ((∀ x ∈ body, x ≠ 0) → token_as_string tok = 34 :: body ++ [34])) ∧
    (open_body false body = true → lex.file = ws ++ 34 :: body →
      ∃ tok lex1, lexer_get_token junk lex = .ok (tok, lex1) ∧
        tok.tok_class = tok_unknown) := by
  refine ⟨?_, ?_⟩
  · intro hb hf
    rw [lexer_get_token_spaces junk lex ws 34 (body ++ 34 :: rest) he (by simpa using hf) hsp
      (by decide)]
    obtain ⟨tok, lex1, e1, e2, e3⟩ := lexer_get_token_quoted junk
      { lex with file := 34 :: (body ++ 34 :: rest), loc := ws.foldl advance lex.loc }
      body rest he (by simp) hb
    refine ⟨tok, lex1, e1, e2, e3, ?_⟩
    intro hnz
    rw [e3]
    apply cstr_of_nz
    intro y hy
    simp only [List.cons_append, List.mem_cons, List.mem_append, List.mem_singleton,
      List.not_mem_nil, or_false] at hy
    rcases hy with rfl | hy | rfl
    · decide
    · exact hnz y hy
    · decide
  · intro hb hf
    rw [lexer_get_token_spaces junk lex ws 34 body he hf hsp (by decide)]
    exact lexer_get_token_unclosed junk
      { lex with file := 34 :: body, loc := ws.foldl advance lex.loc } body he rfl hb

set_option maxRecDepth 100000 in
/-- The string `"a\"b"` after a blank is returned whole; `"a\` at the end
of the input gives a token of class unknown. -/
theorem string_literal_token_witness :
    spaces (bytes " ") = true ∧
    (∃ tok lex1, lexer_get_token ⟨none, tv_eof⟩ (lexer_init_file (bytes " \"a\\\"b\" x") 0) =
        .ok (tok, lex1) ∧ tok.tok_class = tok_string ∧
      token_as_string tok = cstr (34 :: bytes "a\\\"b" ++ [34]) ∧
      ((∀ x ∈ bytes "a\\\"b", x ≠ 0) → token_as_string tok = 34 :: bytes "a\\\"b" ++ [34])) ∧
    (∃ tok lex1, lexer_get_token ⟨none, tv_eof⟩ (lexer_init_file (bytes " \"a\\") 0) =
        .ok (tok, lex1) ∧ tok.tok_class = tok_unknown) :=
  ⟨by decide,
   (string_literal_token ⟨none, tv_eof⟩ (lexer_init_file (bytes " \"a\\\"b\" x") 0) (bytes " ")
      (bytes "a\\\"b") (bytes " x") rfl (by decide)).1 (by decide) rfl,
   (string_literal_token ⟨none, tv_eof⟩ (lexer_init_file (bytes " \"a\\") 0) (bytes " ")
      (bytes "a\\") [] rfl (by decide)).2 (by decide) rfl⟩

set_option maxRecDepth 100000 in
/-- C16 as stated fails for a body that holds a NUL: the text of the token
returned for the quoted three bytes `a`, NUL, `b` is the opening quote and
`a`, since the text of a token is a C string. -/
theorem string_with_nul_is_cut :
    (match lexer_get_token ⟨none, tv_eof⟩
        (lexer_init_file ([34, 97, 0, 98, 34, 32] : List Byte) 0) with
      | .ok (tok, _) => some (tok.tok_class, token_as_string tok)
      | _ => none) = some (tok_string, [34, 97]) := by
  rfl

/-! ## Punctuation and unknown characters -/

theorem lexer_get_token_other (junk : Junk) (lex : Lexer) (c : Byte) (rest : List Byte)
    (he : lex.is_eof = false) (hf : lex.file = c :: rest)
    (h1 : isspace c = false) (h2 : c ≠ 35) (h3 : c ≠ 34) (h4 : isalpha c = false)
    (h5 : isdigit c = false) (h6 : c ≠ 46) (h7 : c ≠ 44) (h8 : c ≠ 40) (h9 : c ≠ 41)
    (h10 : c ≠ 123) (h11 : c ≠ 125) (h12 : c ≠ CEOF) :
    lexer_get_token junk lex =
      .ok (⟨advance lex.loc c, tok_unknown, true, junk.tval, [c, 0]⟩,
           { lex with file := rest, loc := advance lex.loc c }) := by
  have hg := lexer_getch_cons lex c rest he hf
  unfold lexer_get_token
  simp only [hg, h1, Bool.false_eq_true, if_false]
  unfold lexer_dispatch
  simp only [h2, h3, h4, h5, h6, h7, h8, h9, h10, h11, h12, if_false, Bool.false_eq_true,
    return_token]

/-- C17, amended: after white space `ws`, each of the characters `,` `(`
`)` `{` `}` gives an operator token of the matching kind that holds no
text, and every other character that is not white space, `#`, `"`, a
letter, a digit, `.` or the byte `0xFF` gives a token of class unknown whose
text is that one character, or is empty when the character is NUL. -/
theorem punctuation_and_unknown_tokens (junk : Junk) (lex : Lexer) (ws : List Byte) (c : Byte)
    (rest : List Byte) (he : lex.is_eof = false) (hsp : spaces ws = true)
    (hf : lex.file = ws ++ c :: rest) :
    (∀ k, ((c = 44 ∧ k = tv_comma) ∨ (c = 40 ∧ k = tv_lparen) ∨ (c = 41 ∧ k = tv_rparen) ∨
        (c = 123 ∧ k = tv_lbrace) ∨ (c = 125 ∧ k = tv_rbrace)) →
      ∃ tok lex1, lexer_get_token junk lex = .ok (tok, lex1) ∧
        tok.tok_class = tok_operator ∧ tok.tval = k ∧ tok.uses_buf = false ∧ tok.cval = []) ∧
    (isspace c = false → c ≠ 35 → c ≠ 34 → isalpha c = false → isdigit c = false → c ≠ 46 →
      c ≠ 44 → c ≠ 40 → c ≠ 41 → c ≠ 123 → c ≠ 125 → c ≠ CEOF →
      ∃ tok lex1, lexer_get_token junk lex = .ok (tok, lex1) ∧ tok.tok_class = tok_unknown ∧
        token_as_string tok = cstr [c] ∧ (c ≠ 0 → token_as_string tok = [c])) := by
  refine ⟨?_, ?_⟩
  · intro k hk
    have hns : isspace c = false := by
      rcases hk with ⟨h, _⟩ | ⟨h, _⟩ | ⟨h, _⟩ | ⟨h, _⟩ | ⟨h, _⟩ <;> rw [h] <;> decide
    rw [lexer_get_token_spaces junk lex ws c rest he hf hsp hns,
      lexer_get_token_punct junk
        { lex with file := c :: rest, loc := ws.foldl advance lex.loc } c k rest he rfl hk]
    exact ⟨_, _, rfl, rfl, rfl, rfl, rfl⟩
  · intro h1 h2 h3 h4 h5 h6 h7 h8 h9 h10 h11 h12
    rw [lexer_get_token_spaces junk lex ws c rest he hf hsp h1,
      lexer_get_token_other junk
        { lex with file := c :: rest, loc := ws.foldl advance lex.loc } c rest he rfl
        h1 h2 h3 h4 h5 h6 h7 h8 h9 h10 h11 h12]
    refine ⟨_, _, rfl, rfl, ?_, ?_⟩
    · simp only [token_as_string, token_uses_buf, if_true]
      exact cstr_snoc_zero [c]
    · intro hz
      simp only [token_as_string, token_uses_buf, if_true]
      exact cstr_append_zero [c] (by simpa using hz)

set_option maxRecDepth 100000 in
/-- After a blank, `(` gives the operator token of kind `tv_lparen` and `;`
a token of class unknown with the text `;`. -/
theorem punctuation_and_unknown_tokens_witness :
    spaces (bytes " ") = true ∧
    (∃ tok lex1, lexer_get_token ⟨none, tv_eof⟩ (lexer_init_file (bytes " (a") 0) =
        .ok (tok, lex1) ∧
      tok.tok_class = tok_operator ∧ tok.tval = tv_lparen ∧ tok.uses_buf = false ∧
      tok.cval = []) ∧
    (∃ tok lex1, lexer_get_token ⟨none, tv_eof⟩ (lexer_init_file (bytes " ;a") 0) =
        .ok (tok, lex1) ∧ tok.tok_class = tok_unknown ∧
      token_as_string tok = cstr [59] ∧ ((59 : Byte) ≠ 0 → token_as_string tok = [59])) :=
  ⟨by decide,
   (punctuation_and_unknown_tokens ⟨none, tv_eof⟩ (lexer_init_file (bytes " (a") 0) (bytes " ")
      40 (bytes "a") rfl (by decide) rfl).1 tv_lparen (Or.inr (Or.inl ⟨rfl, rfl⟩)),
   (punctuation_and_unknown_tokens ⟨none, tv_eof⟩ (lexer_init_file (bytes " ;a") 0) (bytes " ")
      59 (bytes "a") rfl (by decide) rfl).2 (by decide) (by decide) (by decide) (by decide)
      (by decide) (by decide) (by decide) (by decide) (by decide) (by decide) (by decide)
      (by decide)⟩

set_option maxRecDepth 100000 in
/-- C17 as stated fails for the character NUL: it is none of the characters
that the claim excludes, and the token returned for it is of class unknown
with an empty text, since the text of a token is a C string. -/
theorem nul_character_has_empty_text :
    (match lexer_get_token ⟨none, tv_eof⟩ (lexer_init_file ([0, 97] : List Byte) 0) with
      | .ok (tok, _) => some (tok.tok_class, token_as_string tok)
      | _ => none) = some (tok_unknown, []) := by
  rfl

/-! ## Locations of tokens -/

set_option maxRecDepth 100000 in
/-- C18: on the four bytes `a`, `0xFF`, blank, `b` the identifier `b`, the
fourth character of line 1, is returned with the location line 1, column 3.
The byte `0xFF` ends the identifier `a` as the `char` value of `EOF`;
`lexer_ungetch` then lowers the column, but `ungetc` puts nothing back. -/
theorem location_after_byte_ff (junk : Junk) :
    lexer_get_token junk (lexer_init_file [97, 255, 32, 98] 0) =
      .ok (⟨⟨1, 1⟩, tok_id, true, junk.tval, [97, 0]⟩,
           { file := [32, 98], is_eof := false, loc := ⟨1, 1⟩,
             error_notifications := false, error_count := 0 }) ∧
    lexer_get_token junk
        { file := [32, 98], is_eof := false, loc := ⟨1, 1⟩,
          error_notifications := false, error_count := 0 } =
      .ok (⟨⟨1, 3⟩, tok_id, true, junk.tval, [98, 0]⟩,
           { file := [], is_eof := true, loc := ⟨1, 2⟩,
             error_notifications := false, error_count := 0 }) ∧
    spec_position [97, 255, 32] = ⟨1, 4⟩ :=
  ⟨rfl, rfl, rfl⟩

/-! ## Names of the registered modules -/

theorem module_name_of_shape (t : Tree) (h : module_shape t = true) :
    ∃ v, module_name t = some v ∧ t.is_null = false ∧ t.is_error_mark = false := by
  match t, h with
  | .module l (.value l1 v n) (.list l2 fs), _ => exact ⟨v, rfl, rfl, rfl⟩

theorem module_name_some (t : Tree) (v : List Byte) (h : module_name t = some v) :
    t.is_null = false ∧ t.is_error_mark = false ∧
    ∃ name, get_tree_operand t 0 = .ok name ∧ tree_value name = .ok v := by
  unfold module_name at h
  cases t with
  | null => simp [get_tree_operand] at h
  | error_mark => simp [get_tree_operand] at h
  | list l es => simp [get_tree_operand] at h
  | value l v n => simp [get_tree_operand] at h
  | module l a b =>
    simp only [get_tree_operand, if_true] at h
    cases hv : tree_value a with
    | ok w =>
      rw [hv] at h
      simp only [Option.some.injEq] at h
      exact ⟨rfl, rfl, a, by simp [get_tree_operand], by rw [hv, h]⟩
    | abort => rw [hv] at h; simp at h
    | nofuel => rw [hv] at h; simp at h
  | function l a b =>
    simp only [get_tree_operand, if_true] at h
    cases hv : tree_value a with
    | ok w =>
      rw [hv] at h
      simp only [Option.some.injEq] at h
      exact ⟨rfl, rfl, a, by simp [get_tree_operand], by rw [hv, h]⟩
    | abort => rw [hv] at h; simp at h
    | nofuel => rw [hv] at h; simp at h

theorem module_exists_loop_null (v : List Byte) :
    ∀ (ms : List Tree) (found : Tree), module_exists_loop v ms = .ok found →
      found.is_null = true → some v ∉ ms.map module_name := by
  intro ms
  induction ms with
  | nil => intro _ _ _; simp
  | cons entry rest ih =>
    intro found h hn
    unfold module_exists_loop at h
    cases ho : get_tree_operand entry 0 with
    | abort => rw [ho] at h; simp at h
    | nofuel => rw [ho] at h; simp at h
    | ok name =>
      rw [ho] at h
      simp only [] at h
      cases hv : tree_value name with
      | abort => rw [hv] at h; simp at h
      | nofuel => rw [hv] at h; simp at h
      | ok w =>
        rw [hv] at h
        simp only [] at h
        have hname : module_name entry = some w := by
          unfold module_name; rw [ho]; simp only []; rw [hv]
        by_cases hc : strcmp w v = 0
        · rw [if_pos hc] at h
          simp only [Res.ok.injEq] at h
          rw [← h] at hn
          exact absurd hn (by rw [(module_name_some entry w hname).1]; simp)
        · rw [if_neg hc] at h
          simp only [List.map_cons, List.mem_cons, not_or]
          refine ⟨?_, ih found h hn⟩
          rw [hname]
          intro he
          simp only [Option.some.injEq] at he
          exact hc ((strcmp_eq_zero_iff w v).2 he.symm)

theorem register_module_names (t : Tree) (p p4 : Parser) (l : Location) (ms : List Tree)
    (ml1 : Tree) (h : register_module t p (.list l ms) = .ok (p4, ml1))
    (hnd : (ms.map module_name).Nodup) :
    ∃ ms1, ml1 = .list l ms1 ∧ (ms1.map module_name).Nodup := by
  unfold register_module at h
  by_cases h0 : (!t.is_null && !t.is_error_mark) = true
  · rw [if_pos h0] at h
    cases ho : get_tree_operand t 0 with
    | abort => rw [ho] at h; simp at h
    | nofuel => rw [ho] at h; simp at h
    | ok name =>
      rw [ho] at h
      simp only [] at h
      cases hv : tree_value name with
      | abort => rw [hv] at h; simp at h
      | nofuel => rw [hv] at h; simp at h
      | ok v =>
        rw [hv] at h
        simp only [module_exists] at h
        have hname : module_name t = some v := by
          unfold module_name; rw [ho]; simp only []; rw [hv]
        cases hx : module_exists_loop v ms with
        | abort => rw [hx] at h; simp at h
        | nofuel => rw [hx] at h; simp at h
        | ok found =>
          rw [hx] at h
          simp only [] at h
          by_cases hn : found.is_null = true
          · rw [if_pos hn] at h
            simp only [tree_list_append, Res.ok.injEq, Prod.mk.injEq] at h
            refine ⟨ms ++ [t], h.2.symm, ?_⟩
            rw [List.map_append, List.map_cons, List.map_nil]
            refine List.Nodup.append hnd (List.nodup_singleton _) ?_
            intro x hx1 hx2
            simp only [List.mem_singleton] at hx2
            rw [hx2, hname] at hx1
            exact module_exists_loop_null v ms found hx hn hx1
          · rw [if_neg hn] at h
            simp only [Res.ok.injEq, Prod.mk.injEq] at h
            exact ⟨ms, h.2.symm, hnd⟩
  · rw [if_neg h0] at h
    simp only [Res.ok.injEq, Prod.mk.injEq] at h
    exact ⟨ms, h.2.symm, hnd⟩

theorem parse_loop_names (heap : Nat → Junk) (l : Location) :
    ∀ (fuel : Nat) (p : Parser) (ms : List Tree), (ms.map module_name).Nodup →
      ∀ p5 ml5, parse_loop heap fuel p (.list l ms) = .ok (p5, ml5) →
      ∃ ms1, ml5 = .list l ms1 ∧ (ms1.map module_name).Nodup := by
  intro fuel
  induction fuel with
  | zero => intro p ms _ p5 ml5 h; simp [parse_loop] at h
  | succ f ih =>
    intro p ms hnd p5 ml5 h
    unfold parse_loop at h
    cases hg : parser_get_token heap p with
    | abort => rw [hg] at h; simp at h
    | nofuel => rw [hg] at h; simp at h
    | ok r =>
      obtain ⟨tok, p1⟩ := r
      rw [hg] at h
      simp only [] at h
      by_cases hc : token_class tok ≠ tok_eof
      · rw [if_pos hc] at h
        cases hu : parser_unget p1 with
        | abort => rw [hu] at h; simp at h
        | nofuel => rw [hu] at h; simp at h
        | ok p2 =>
          rw [hu] at h
          simp only [] at h
          cases hm : handle_module heap (set_notifications p2 true) with
          | abort => rw [hm] at h; simp at h
          | nofuel => rw [hm] at h; simp at h
          | ok r2 =>
            obtain ⟨t, p3⟩ := r2
            rw [hm] at h
            simp only [] at h
            cases hr : register_module t p3 (.list l ms) with
            | abort => rw [hr] at h; simp at h
            | nofuel => rw [hr] at h; simp at h
            | ok r3 =>
              obtain ⟨p4, ml1⟩ := r3
              rw [hr] at h
              simp only [] at h
              obtain ⟨ms1, rfl, hnd1⟩ := register_module_names t p3 p4 l ms ml1 hr hnd
              exact ih _ ms1 hnd1 p5 ml5 h
      · rw [if_neg hc] at h
        simp only [Res.ok.injEq, Prod.mk.injEq] at h
        exact ⟨ms, h.2.symm, hnd⟩
theorem module_exists_loop_found (v : List Byte) :
    ∀ (ms : List Tree), (∀ m ∈ ms, module_shape m = true) → some v ∈ ms.map module_name →
      ∃ found, module_exists_loop v ms = .ok found ∧ found.is_null = false := by
  intro ms
  induction ms with
  | nil => intro _ h; simp at h
  | cons entry rest ih =>
    intro hs hmem
    have he := hs entry (by simp)
    match entry, he with
    | .module l0 (.value l1 w n) (.list l2 fs), _ =>
      unfold module_exists_loop
      simp only [get_tree_operand, tree_value, if_true]
      by_cases hc : strcmp w v = 0
      · rw [if_pos hc]
        exact ⟨_, rfl, rfl⟩
      · rw [if_neg hc]
        simp only [List.map_cons, List.mem_cons] at hmem
        rcases hmem with h | h
        · have hw : module_name (.module l0 (.value l1 w n) (.list l2 fs)) = some w := rfl
          rw [hw] at h
          simp only [Option.some.injEq] at h
          exact absurd ((strcmp_eq_zero_iff w v).2 h.symm) hc
        · exact ih (fun m hm => hs m (by simp [hm])) h

theorem register_module_duplicate (t : Tree) (p : Parser) (l : Location) (ms : List Tree)
    (v : List Byte) (hs : ∀ m ∈ ms, module_shape m = true) (ht : module_name t = some v)
    (hmem : some v ∈ ms.map module_name) :
    register_module t p (.list l ms) = .ok (parser_error p, .list l ms) := by
  obtain ⟨h1, h2, name, h3, h4⟩ := module_name_some t v ht
  obtain ⟨found, hf, hn⟩ := module_exists_loop_found v ms hs hmem
  unfold register_module
  simp only [h1, h2, Bool.not_false, Bool.and_self, if_true, h3, h4, module_exists, hf, hn,
    Bool.false_eq_true, if_false]

theorem compile_modules (heap : Nat → Junk) (file : List Byte) (ret count : Int) (ml : Tree)
    (h : compile heap file = .ok (ret, count, ml)) :
    ∃ ms, ml = .list ⟨0, 0⟩ ms ∧ (∀ m ∈ ms, module_shape m = true) ∧
      (ms.map module_name).Nodup := by
  have hp0 : PInv (compile_start file) := pinv_lex _ _ (pinv_init _)
  obtain ⟨_, _, h3⟩ := parse_loop_outcome heap (parser_fuel (compile_start file))
    (compile_start file) ⟨0, 0⟩ [] hp0 rfl (by unfold parser_fuel; omega) (by simp)
  cases hg : parse_loop heap (parser_fuel (compile_start file)) (compile_start file)
      (.list ⟨0, 0⟩ []) with
  | nofuel =>
    unfold compile parse at h
    simp only [make_tree_list, make_tree] at h
    unfold compile_start at hg
    rw [hg] at h
    simp at h
  | abort =>
    unfold compile parse at h
    simp only [make_tree_list, make_tree] at h
    unfold compile_start at hg
    rw [hg] at h
    simp at h
  | ok r =>
    obtain ⟨p1, ml1⟩ := r
    rw [compile_of_parse_loop heap file p1 ml1 hg] at h
    simp only [Res.ok.injEq, Prod.mk.injEq] at h
    obtain ⟨_, _, rfl⟩ := h
    obtain ⟨_, ms1, e1, e2, _⟩ := h3 p1 ml1 hg
    obtain ⟨ms2, e3, e4⟩ := parse_loop_names heap ⟨0, 0⟩ _ _ [] (by simp) p1 ml1 hg
    rw [e3] at e1
    simp only [List.nil_append, Tree.list.injEq, true_and] at e1
    refine ⟨ms2, e3, ?_, e4⟩
    rw [e1]
    exact e2
/-- C19: for every input, `parse` ends within the budget of the model, and
when it returns, `module_list` is a list of module nodes no two of which
have the same name. A parsed module whose name is that of a module already
in `module_list` is not appended: `module_list` stays as it is and the error
counter is raised by one. -/
theorem module_names_distinct (heap : Nat → Junk) (file : List Byte) :
    compile heap file ≠ .nofuel ∧
    (∀ ret count ml, compile heap file = .ok (ret, count, ml) →
      ∃ ms, ml = .list ⟨0, 0⟩ ms ∧ (∀ m ∈ ms, module_shape m = true) ∧
        (ms.map module_name).Nodup) ∧
    (∀ (t : Tree) (p : Parser) (l : Location) (ms : List Tree) (v : List Byte),
      (∀ m ∈ ms, module_shape m = true) → module_name t = some v →
      some v ∈ ms.map module_name →
      register_module t p (.list l ms) = .ok (parser_error p, .list l ms) ∧
      (parser_error p).lex.error_count = p.lex.error_count + 1) :=
  ⟨(compile_status heap file).1,
   fun ret count ml h => compile_modules heap file ret count ml h,
   fun t p l ms v hs ht hmem => ⟨register_module_duplicate t p l ms v hs ht hmem, rfl⟩⟩

set_option maxRecDepth 100000 in
/-- In `validate M { function F { (1) } } validate M { function G { (2) } }`
the second module is not appended and one error is counted. -/
theorem module_names_distinct_witness :
    compile heap_invalid
        (bytes "validate M \x7b function F \x7b (1) \x7d \x7d validate M \x7b function G \x7b (2) \x7d \x7d") =
      .ok (-3, 1, lnode [mnode (vnode 1 10 "M") [fnode (vnode 1 23 "F")
        [lnode [vnode 1 28 "1"]]]]) ∧
    ∃ ms, lnode [mnode (vnode 1 10 "M") [fnode (vnode 1 23 "F") [lnode [vnode 1 28 "1"]]]] =
        .list ⟨0, 0⟩ ms ∧ (∀ m ∈ ms, module_shape m = true) ∧
      (ms.map module_name).Nodup :=
  ⟨rfl,
   (module_names_distinct heap_invalid
      (bytes "validate M \x7b function F \x7b (1) \x7d \x7d validate M \x7b function G \x7b (2) \x7d \x7d")).2.1
      (-3) 1 _ rfl⟩

/-! ## Locations of the nodes -/

set_option maxRecDepth 100000 in
/-- C20: for `validate M { function F { (1) } }` the `VALUE` nodes carry the
locations of their tokens, while the `MODULE` node, the `FUNCTION` node and
the `LIST` nodes have the location (0, 0) that the `memset` of `make_tree`
left: `handle_module`, `handle_cases` and `handle_list` store no location
in the nodes that they build. -/
theorem module_function_list_location_zero :
    compile heap_invalid (bytes "validate M \x7b function F \x7b (1) \x7d \x7d") =
      .ok (0, 0,
        .list ⟨0, 0⟩
          [.module ⟨0, 0⟩ (.value ⟨1, 10⟩ (bytes "M") 1)
            (.list ⟨0, 0⟩
              [.function ⟨0, 0⟩ (.value ⟨1, 23⟩ (bytes "F") 1)
                (.list ⟨0, 0⟩ [.list ⟨0, 0⟩ [.value ⟨1, 28⟩ (bytes "1") 1]])])]) := by
  rfl

/-! ## The exit status -/

theorem codegen_atomic_value_of_wf (t : Tree) (h : wf_group t = true) :
    codegen_atomic_value t = true := by
  match t, h with
  | .list l es, h =>
    simp only [wf_group, List.all_eq_true] at h
    simp only [codegen_atomic_value, List.all_eq_true]
    intro e he
    have := h e he
    match e, this with
    | .value _ _ _, _ => rfl

theorem codegen_function_of_wf (t : Tree) (h : wf_function t = true) :
    codegen_function t = true := by
  cases t with
  | function l a b =>
    cases b with
    | list l2 gs =>
      cases a with
      | value l1 v n =>
        simp only [wf_function, Tree.is_value, Bool.true_and, List.all_eq_true] at h
        have hall : gs.all codegen_atomic_value = true := by
          rw [List.all_eq_true]
          intro g hg
          exact codegen_atomic_value_of_wf g (h g hg)
        simp [codegen_function, get_tree_operand, tree_value, hall]
      | _ => simp [wf_function, Tree.is_value] at h
    | _ => simp [wf_function] at h
  | _ => simp [wf_function] at h

theorem codegen_module_of_wf (t : Tree) (h : wf_module t = true) :
    codegen_module t = true := by
  cases t with
  | module l a b =>
    cases b with
    | list l2 fs =>
      cases a with
      | value l1 v n =>
        simp only [wf_module, Tree.is_value, Bool.true_and, List.all_eq_true] at h
        have hall : fs.all codegen_function = true := by
          rw [List.all_eq_true]
          intro f hf
          exact codegen_function_of_wf f (h f hf)
        simp [codegen_module, get_tree_operand, tree_value, hall]
      | _ => simp [wf_module, Tree.is_value] at h
    | _ => simp [wf_module] at h
  | _ => simp [wf_module] at h

theorem codegen_of_wf (ml : Tree) (h : wf_module_list ml = true) : codegen ml true = .ok 0 := by
  match ml, h with
  | .list l ms, h =>
    simp only [wf_module_list, List.all_eq_true] at h
    have : ms.all codegen_module = true := by
      rw [List.all_eq_true]
      intro m hm
      exact codegen_module_of_wf m (h m hm)
    simp [codegen, this]
theorem compile_result (heap : Nat → Junk) (file : List Byte) (ret count : Int) (ml : Tree)
    (h : compile heap file = .ok (ret, count, ml)) :
    (ret = 0 ↔ count = 0) ∧ (ret ≠ 0 → ret = -3) ∧ (ret = 0 → wf_module_list ml = true) := by
  obtain ⟨_, _, h3⟩ := parse_outcome heap (parser_init parser_blank (lexer_init_file file 0))
    ⟨0, 0⟩ [] (pinv_init _) rfl (by simp)
  have hml : make_tree_list = Tree.list ⟨0, 0⟩ [] := rfl
  unfold compile at h
  rw [hml] at h
  cases hg : parse heap (parser_init parser_blank (lexer_init_file file 0)) (.list ⟨0, 0⟩ []) with
  | nofuel => simp [hg] at h
  | abort => simp [hg] at h
  | ok r =>
    obtain ⟨ret1, p1, ml1⟩ := r
    simp only [hg, Res.ok.injEq, Prod.mk.injEq] at h
    obtain ⟨rfl, rfl, rfl⟩ := h
    obtain ⟨a, b, ms1, hm, hwf⟩ := h3 _ _ _ hg
    refine ⟨a, b, ?_⟩
    intro h0
    rw [hm]
    simp only [wf_module_list, List.nil_append, List.all_eq_true]
    exact hwf h0

/-- C21, amended: the exit status that `main` computes is `EXIT_SUCCESS`
(0) on success and the one value `EXIT_FAILURE` in each of the three
failure cases. The status `ret` from which it is computed takes three
distinct values in these cases: -1 when no file name is given, -2 when the
input file cannot be opened, -3 when `parse` has counted an error. Success
is a run in which `parse` counts no error and the output file can be
written. -/
theorem exit_status_of_main (heap : Nat → Junk) (writable : Bool) :
    (main_ret heap none writable = .ok (-1) ∧ main heap none writable = .ok EXIT_FAILURE) ∧
    (main_ret heap (some none) writable = .ok (-2) ∧
      main heap (some none) writable = .ok EXIT_FAILURE) ∧
    (∀ file ret count ml, compile heap file = .ok (ret, count, ml) → count ≠ 0 →
      main_ret heap (some (some file)) writable = .ok (-3) ∧
      main heap (some (some file)) writable = .ok EXIT_FAILURE) ∧
    (∀ file ret count ml, compile heap file = .ok (ret, count, ml) → count = 0 →
      main_ret heap (some (some file)) true = .ok 0 ∧
      main heap (some (some file)) true = .ok EXIT_SUCCESS) ∧
    EXIT_SUCCESS = 0 ∧ EXIT_FAILURE ≠ 0 := by
  refine ⟨⟨rfl, rfl⟩, ⟨rfl, rfl⟩, ?_, ?_, rfl, by decide⟩
  · intro file ret count ml h hc
    obtain ⟨a, b, _⟩ := compile_result heap file ret count ml h
    have hr : ret ≠ 0 := fun h0 => hc (a.1 h0)
    have hr3 : ret = -3 := b hr
    subst hr3
    have e1 : main_ret heap (some (some file)) writable = .ok (-3) := by
      simp [main_ret, h]
    exact ⟨e1, by simp [main, e1, EXIT_FAILURE]⟩
  · intro file ret count ml h hc
    obtain ⟨a, _, c⟩ := compile_result heap file ret count ml h
    have hr : ret = 0 := a.2 hc
    subst hr
    have e1 : main_ret heap (some (some file)) true = .ok 0 := by
      simp [main_ret, h, codegen_of_wf ml (c rfl)]
    exact ⟨e1, by simp [main, e1, EXIT_SUCCESS]⟩

set_option maxRecDepth 100000 in
/-- The file `validate M { function F { (1) } }` compiles with exit status
0; the file `validate` gives `ret = -3` and the exit status
`EXIT_FAILURE`. -/
theorem exit_status_of_main_witness :
    (compile heap_invalid (bytes "validate") = .ok (-3, 1, lnode []) ∧
      main_ret heap_invalid (some (some (bytes "validate"))) true = .ok (-3) ∧
      main heap_invalid (some (some (bytes "validate"))) true = .ok EXIT_FAILURE) ∧
    (compile heap_invalid (bytes "validate M \x7b function F \x7b (1) \x7d \x7d") =
        .ok (0, 0, lnode [mnode (vnode 1 10 "M") [fnode (vnode 1 23 "F")
          [lnode [vnode 1 28 "1"]]]]) ∧
      main_ret heap_invalid
        (some (some (bytes "validate M \x7b function F \x7b (1) \x7d \x7d"))) true = .ok 0 ∧
      main heap_invalid
        (some (some (bytes "validate M \x7b function F \x7b (1) \x7d \x7d"))) true =
        .ok EXIT_SUCCESS) :=
  ⟨⟨rfl, (exit_status_of_main heap_invalid true).2.2.1 (bytes "validate") (-3) 1 _ rfl
      (by decide)⟩,
   ⟨rfl, (exit_status_of_main heap_invalid true).2.2.2.1
      (bytes "validate M \x7b function F \x7b (1) \x7d \x7d") 0 0 _ rfl rfl⟩⟩

/-- C21 as stated fails: with no file name and with a file that cannot be
opened `main` computes the same exit status, and it is the status of a
parse with errors as well. -/
theorem failure_exit_statuses_coincide :
    main heap_invalid none true = .ok 1 ∧ main heap_invalid (some none) true = .ok 1 ∧
    main heap_invalid (some (some (bytes "validate"))) true = .ok 1 := by
  refine ⟨rfl, rfl, ?_⟩
  rfl

/-! ## The list combinator -/

theorem kept_elements_cons (t : Tree) (ts : List Tree) :
    kept_elements (t :: ts) =
      (if !t.is_null && !t.is_error_mark then [t] else []) ++ kept_elements ts := by
  unfold kept_elements
  by_cases h : (!t.is_null && !t.is_error_mark) = true <;> simp [List.filter_cons, h]

theorem kept_elements_append (a b : List Tree) :
    kept_elements (a ++ b) = kept_elements a ++ kept_elements b := by
  simp [kept_elements, List.filter_append]

theorem handle_list_loop_run (heap : Nat → Junk) (handler : Parser → Res (Tree × Parser))
    (delim : TokenKind) (l : Location) :
    ∀ (fuel : Nat) (es : List Tree) (p : Parser) (r : Tree) (pe : Parser),
      handle_list_loop heap handler delim fuel (.list l es) p = .ok (r, pe) →
      ∃ ts tok, ListRun heap handler delim p ts tok pe ∧ r = .list l (es ++ kept_elements ts) := by
  intro fuel
  induction fuel with
  | zero => intro es p r pe h; simp [handle_list_loop] at h
  | succ f ih =>
    intro es p r pe h
    unfold handle_list_loop at h
    cases hh : handler p with
    | abort => rw [hh] at h; simp at h
    | nofuel => rw [hh] at h; simp at h
    | ok x =>
      obtain ⟨t, p1⟩ := x
      rw [hh] at h
      simp only [] at h
      have happ : (if (!t.is_null && !t.is_error_mark) = true then
            tree_list_append (.list l es) t else .ok (.list l es)) =
          .ok (.list l (es ++ kept_elements [t])) := by
        by_cases hk : (!t.is_null && !t.is_error_mark) = true
        · rw [if_pos hk]; simp [tree_list_append, kept_elements, hk]
        · rw [if_neg hk]; simp [kept_elements, hk]
      rw [happ] at h
      simp only [] at h
      cases hg : parser_get_token heap p1 with
      | abort => rw [hg] at h; simp at h
      | nofuel => rw [hg] at h; simp at h
      | ok y =>
        obtain ⟨tok, p2⟩ := y
        rw [hg] at h
        simp only [] at h
        by_cases hd : token_is_operator tok delim = true
        · simp only [hd, Bool.not_true, Bool.false_eq_true, if_false] at h
          obtain ⟨ts, tok1, hrun, hr⟩ := ih _ p2 r pe h
          refine ⟨t :: ts, tok1, ListRun.more p p1 p2 pe t tok ts tok1 hh hg hd hrun, ?_⟩
          rw [hr, show t :: ts = [t] ++ ts from rfl, kept_elements_append, List.append_assoc]
        · have hd2 : token_is_operator tok delim = false := by simpa using hd
          simp only [hd2, Bool.not_false, if_true] at h
          cases hu : parser_unget p2 with
          | abort => rw [hu] at h; simp at h
          | nofuel => rw [hu] at h; simp at h
          | ok p3 =>
            rw [hu] at h
            simp only [Res.ok.injEq, Prod.mk.injEq] at h
            obtain ⟨rfl, rfl⟩ := h
            exact ⟨[t], tok, ListRun.last p p1 p2 p3 t tok hh hg hd2 hu, rfl⟩

theorem handle_list_loop_complete (heap : Nat → Junk) (handler : Parser → Res (Tree × Parser))
    (delim : TokenKind) (l : Location) (p : Parser) (ts : List Tree) (tok : Token)
    (pe : Parser) (hrun : ListRun heap handler delim p ts tok pe) :
    ∀ (fuel : Nat) (es : List Tree), ts.length ≤ fuel →
      handle_list_loop heap handler delim fuel (.list l es) p =
        .ok (.list l (es ++ kept_elements ts), pe) := by
  induction hrun with
  | last p p1 p2 p3 t tok hh hg hd hu =>
    intro fuel es hfuel
    obtain ⟨f, rfl⟩ : ∃ f, fuel = f + 1 := ⟨fuel - 1, by simp at hfuel; omega⟩
    unfold handle_list_loop
    rw [hh]
    simp only []
    by_cases hk : (!t.is_null && !t.is_error_mark) = true
    · rw [if_pos hk]
      simp only [tree_list_append, hg, hd, Bool.not_false, if_true, hu]
      simp [kept_elements, hk]
    · rw [if_neg hk]
      simp only [hg, hd, Bool.not_false, if_true, hu]
      simp [kept_elements, hk]
  | more p p1 p2 pe t tok0 ts tok hh hg hd _ ih =>
    intro fuel es hfuel
    obtain ⟨f, rfl⟩ : ∃ f, fuel = f + 1 := ⟨fuel - 1, by simp at hfuel; omega⟩
    unfold handle_list_loop
    rw [hh]
    simp only []
    by_cases hk : (!t.is_null && !t.is_error_mark) = true
    · rw [if_pos hk]
      simp only [tree_list_append, hg, hd, Bool.not_true, Bool.false_eq_true, if_false]
      rw [ih f (es ++ [t]) (by simp at hfuel; omega), kept_elements_cons, if_pos hk]
      simp
    · rw [if_neg hk]
      simp only [hg, hd, Bool.not_true, Bool.false_eq_true, if_false]
      rw [ih f es (by simp at hfuel; omega), kept_elements_cons, if_neg hk]
      simp
/-- C22, amended: when the handler call for the first element gives
`error_mark_node`, `handle_list` returns `error_mark_node` at once. Otherwise
it returns a `LIST` that holds, in order, the first element and those of
the later elements whose handler call gave a node: a later element that
failed is dropped, the elements go on while the delimiter follows, and the
first token that is no delimiter is ungot for the enclosing rule. Every
such run within the budget of the loop is what `handle_list` returns. -/
theorem handle_list_elements (heap : Nat → Junk) (handler : Parser → Res (Tree × Parser))
    (delim : TokenKind) (p : Parser) :
    (∀ t p1, handler p = .ok (t, p1) → t.is_error_mark = true →
      handle_list heap p handler delim = .ok (t, p1)) ∧
    (∀ r pe, handle_list heap p handler delim = .ok (r, pe) →
      (∃ t, handler p = .ok (t, pe) ∧ t.is_error_mark = true ∧ r = t) ∨
      (∃ t ts tok, ListRun heap handler delim p (t :: ts) tok pe ∧ t.is_error_mark = false ∧
        r = .list ⟨0, 0⟩ (t :: kept_elements ts))) ∧
    (∀ t ts tok pe, ListRun heap handler delim p (t :: ts) tok pe → t.is_error_mark = false →
      (∀ p1 tok0 p2, handler p = .ok (t, p1) → parser_get_token heap p1 = .ok (tok0, p2) →
        ts.length ≤ parser_fuel p2) →
      handle_list heap p handler delim = .ok (.list ⟨0, 0⟩ (t :: kept_elements ts), pe)) := by
  refine ⟨?_, ?_, ?_⟩
  · intro t p1 hh he
    unfold handle_list
    rw [hh]
    simp [he]
  · intro r pe h
    unfold handle_list at h
    cases hh : handler p with
    | abort => rw [hh] at h; simp at h
    | nofuel => rw [hh] at h; simp at h
    | ok x =>
      obtain ⟨t, p1⟩ := x
      rw [hh] at h
      simp only [] at h
      by_cases he : t.is_error_mark = true
      · rw [if_pos he] at h
        simp only [Res.ok.injEq, Prod.mk.injEq] at h
        obtain ⟨rfl, rfl⟩ := h
        exact Or.inl ⟨t, rfl, he, rfl⟩
      · have he2 : t.is_error_mark = false := by simpa using he
        rw [if_neg he] at h
        cases hg : parser_get_token heap p1 with
        | abort => rw [hg] at h; simp at h
        | nofuel => rw [hg] at h; simp at h
        | ok y =>
          obtain ⟨tok, p2⟩ := y
          rw [hg] at h
          simp only [tree_list_append, make_tree_list, make_tree] at h
          by_cases hd : token_is_operator tok delim = true
          · simp only [hd, Bool.not_true, Bool.false_eq_true, if_false] at h
            obtain ⟨ts, tok1, hrun, hr⟩ := handle_list_loop_run heap handler delim ⟨0, 0⟩ _ _ p2
              r pe h
            exact Or.inr ⟨t, ts, tok1, ListRun.more p p1 p2 pe t tok ts tok1 hh hg hd hrun, he2,
              by simpa using hr⟩
          · have hd2 : token_is_operator tok delim = false := by simpa using hd
            simp only [hd2, Bool.not_false, if_true] at h
            cases hu : parser_unget p2 with
            | abort => rw [hu] at h; simp at h
            | nofuel => rw [hu] at h; simp at h
            | ok p3 =>
              rw [hu] at h
              simp only [Res.ok.injEq, Prod.mk.injEq] at h
              obtain ⟨rfl, rfl⟩ := h
              exact Or.inr ⟨t, [], tok, ListRun.last p p1 p2 p3 t tok hh hg hd2 hu, he2,
                by simp [kept_elements]⟩
  · intro t ts tok pe hrun he hfuel
    unfold handle_list
    cases hrun
    · rename_i p1 p2 _ _ _ _
      have hh : handler p = .ok (t, p1) := by assumption
      have hg : parser_get_token heap p1 = .ok (tok, p2) := by assumption
      have hd : token_is_operator tok delim = false := by assumption
      have hu : parser_unget p2 = .ok pe := by assumption
      rw [hh]
      simp only [he, Bool.false_eq_true, if_false, hg, hd, Bool.not_false, if_true,
        tree_list_append, make_tree_list, make_tree, hu]
      simp [kept_elements]
    · rename_i p1 p2 tok0 _ _ _ hrest
      have hh : handler p = .ok (t, p1) := by assumption
      have hg : parser_get_token heap p1 = .ok (tok0, p2) := by assumption
      have hd : token_is_operator tok0 delim = true := by assumption
      rw [hh]
      simp only [he, Bool.false_eq_true, if_false, hg, hd, Bool.not_true,
        tree_list_append, make_tree_list, make_tree]
      rw [handle_list_loop_complete heap handler delim ⟨0, 0⟩ p2 ts tok pe hrest
        (parser_fuel p2) _ (hfuel p1 tok0 p2 hh hg)]
      simp

set_option maxRecDepth 100000 in
/-- On the tokens `1 , 2 )` the list of the two values is returned. -/
theorem handle_list_elements_witness :
    ∃ r pe,
      handle_list heap_invalid (parser_init parser_blank (lexer_init_file (bytes "1 , 2 )") 0))
        (handle_value heap_invalid) tv_comma = .ok (r, pe) ∧
      ((∃ t, handle_value heap_invalid
            (parser_init parser_blank (lexer_init_file (bytes "1 , 2 )") 0)) = .ok (t, pe) ∧
          t.is_error_mark = true ∧ r = t) ∨
        (∃ t ts tok, ListRun heap_invalid (handle_value heap_invalid) tv_comma
            (parser_init parser_blank (lexer_init_file (bytes "1 , 2 )") 0)) (t :: ts) tok pe ∧
          t.is_error_mark = false ∧ r = .list ⟨0, 0⟩ (t :: kept_elements ts))) :=
  ⟨_, _, rfl,
    (handle_list_elements heap_invalid (handle_value heap_invalid) tv_comma
      (parser_init parser_blank (lexer_init_file (bytes "1 , 2 )") 0))).2.1 _ _ rfl⟩

set_option maxRecDepth 100000 in
/-- C22 as stated fails for a first element that fails: on the tokens
`1 ) , ( 2 ) x` the first group lacks its `(`, and `handle_list` returns
`error_mark_node` without reading the delimiter and the group `( 2 )` that
follow. -/
theorem first_element_failure_ends_list :
    (match handle_list heap_invalid
        (parser_init parser_blank (lexer_init_file (bytes "1 ) , ( 2 ) x") 0))
        (handle_args heap_invalid) tv_comma with
      | .ok (t, p1) => some (t.is_error_mark, p1.lex.file, p1.unget_idx)
      | _ => none) = some (true, bytes " , ( 2 ) x", 0) := by
  rfl

/-! ## The scan for a closing token -/

theorem parser_get_until_tval_loop_run (heap : Nat → Junk) (k : TokenKind) :
    ∀ (fuel : Nat) (p : Parser) (tok : Token) (p1 : Parser),
      parser_get_until_tval_loop heap k fuel p = .ok (tok, p1) →
      ∃ pre, TokenRun heap p (pre ++ [tok]) p1 ∧
        (∀ t ∈ pre, is_kind t k = false ∧ token_class t ≠ tok_eof) ∧
        (is_kind tok k = true ∨ token_class tok = tok_eof) := by
  intro fuel
  induction fuel with
  | zero => intro p tok p1 h; simp [parser_get_until_tval_loop] at h
  | succ f ih =>
    intro p tok p1 h
    unfold parser_get_until_tval_loop at h
    cases hg : parser_get_token heap p with
    | abort => rw [hg] at h; simp at h
    | nofuel => rw [hg] at h; simp at h
    | ok r =>
      obtain ⟨t, p2⟩ := r
      rw [hg] at h
      simp only [] at h
      by_cases hk : (!token_uses_buf t && token_value t == k) = true
      · rw [if_pos hk] at h
        simp only [Res.ok.injEq, Prod.mk.injEq] at h
        obtain ⟨rfl, rfl⟩ := h
        exact ⟨[], TokenRun.step p p2 p2 t [] hg (TokenRun.done p2), by simp, Or.inl hk⟩
      · rw [if_neg hk] at h
        by_cases hc : token_class t ≠ tok_eof
        · rw [if_pos hc] at h
          obtain ⟨pre, hrun, hpre, hlast⟩ := ih p2 tok p1 h
          refine ⟨t :: pre, TokenRun.step p p2 p1 t (pre ++ [tok]) hg hrun, ?_, hlast⟩
          intro x hx
          rcases List.mem_cons.1 hx with rfl | hx
          · exact ⟨by simpa [is_kind] using hk, hc⟩
          · exact hpre x hx
        · rw [if_neg hc] at h
          simp only [Res.ok.injEq, Prod.mk.injEq] at h
          obtain ⟨rfl, rfl⟩ := h
          exact ⟨[], TokenRun.step p p2 p2 t [] hg (TokenRun.done p2), by simp,
            Or.inr (not_not.1 hc)⟩

/-- C23: called in a state of the parser during `parse`,
`parser_get_until_tval` returns within the budget of the model (it fails
only on an undefined class left in a fresh token). The token `tok` that it
returns is the last of the tokens that `parser_get_token` has returned one
after the other: none of the tokens before it is a token without text of
kind `k` or the eof token, `tok` is one of the two, and the parser is as the
call that returned `tok` left it. -/
theorem parser_get_until_tval_first (heap : Nat → Junk) (p : Parser) (k : TokenKind)
    (hp : PInv p) :
    parser_get_until_tval heap p k ≠ .nofuel ∧
    (HeapOK heap → parser_get_until_tval heap p k ≠ .abort) ∧
    ∀ tok p1, parser_get_until_tval heap p k = .ok (tok, p1) →
      ∃ pre, TokenRun heap p (pre ++ [tok]) p1 ∧
        (∀ t ∈ pre, is_kind t k = false ∧ token_class t ≠ tok_eof) ∧
        (is_kind tok k = true ∨ token_class tok = tok_eof) := by
  obtain ⟨h1, h2, _⟩ := parser_get_until_tval_loop_outcome heap k (parser_fuel p) p hp
    (by unfold parser_fuel; omega)
  exact ⟨h1, h2, fun tok p1 h =>
    parser_get_until_tval_loop_run heap k (parser_fuel p) p tok p1 h⟩

set_option maxRecDepth 100000 in
/-- On the tokens `a ( b ) c` the scan for `)` returns the fourth token and
leaves `c` unread. -/
theorem parser_get_until_tval_first_witness :
    PInv (parser_init parser_blank (lexer_init_file (bytes "a ( b ) c") 0)) ∧
    ∃ tok p1,
      parser_get_until_tval heap_invalid
        (parser_init parser_blank (lexer_init_file (bytes "a ( b ) c") 0)) tv_rparen =
        .ok (tok, p1) ∧
      token_value tok = tv_rparen ∧ p1.lex.file = bytes " c" ∧
      ∃ pre, TokenRun heap_invalid
          (parser_init parser_blank (lexer_init_file (bytes "a ( b ) c") 0)) (pre ++ [tok]) p1 ∧
        (∀ t ∈ pre, is_kind t tv_rparen = false ∧ token_class t ≠ tok_eof) ∧
        (is_kind tok tv_rparen = true ∨ token_class tok = tok_eof) :=
  ⟨pinv_init _, _, _, rfl, rfl, rfl,
    (parser_get_until_tval_first heap_invalid
      (parser_init parser_blank (lexer_init_file (bytes "a ( b ) c") 0)) tv_rparen
      (pinv_init _)).2.2 _ _ rfl⟩

/-! ## What the ring buffer retains -/

theorem ringInv_cursors (toks : List Token) (p : Parser) (hinv : RingInv toks p) :
    p.buf_start < 16 ∧ p.buf_end < 16 ∧
    (p.buf_end + p.buf_size - p.buf_start) % p.buf_size = min toks.length 15 ∧
    (∀ i, i < min toks.length 15 →
      (p.buf_start + i) % p.buf_size = (toks.length - min toks.length 15 + i) % 16) ∧
    ((p.buf_end + 1) % p.buf_size = p.buf_start ↔ 15 ≤ toks.length) := by
  obtain ⟨h1, _, _, h4, h5, _⟩ := hinv
  rw [h1, h4, h5]
  by_cases hn : toks.length < 15
  · rw [if_pos hn]
    have hm : toks.length % 16 = toks.length := Nat.mod_eq_of_lt (by omega)
    refine ⟨by omega, by omega, ?_, ?_, ?_⟩
    · rw [hm]; omega
    · intro i hi
      have : min toks.length 15 = toks.length := by omega
      rw [this]
      simp
    · rw [hm]; omega
  · rw [if_neg hn]
    refine ⟨Nat.mod_lt _ (by omega), Nat.mod_lt _ (by omega), ?_, ?_, ?_⟩
    · omega
    · intro i hi
      omega
    · omega

theorem ringInv_held (toks : List Token) (p : Parser) (hinv : RingInv toks p) :
    ring_held p = (toks.drop (toks.length - 15)).map some := by
  obtain ⟨c1, c2, c3, c4, _⟩ := ringInv_cursors toks p hinv
  have hslots := hinv.2.2.2.2.2
  unfold ring_held
  rw [c3]
  apply List.ext_getElem?
  intro i
  rw [List.getElem?_map, List.getElem?_map, List.getElem?_drop]
  by_cases hi : i < min toks.length 15
  · rw [List.getElem?_range hi]
    simp only [Option.map_some']
    rw [c4 i hi]
    have hj : toks.length - min toks.length 15 + i < toks.length := by omega
    have hget : toks[toks.length - min toks.length 15 + i]? =
        some (toks[toks.length - min toks.length 15 + i]) := List.getElem?_eq_getElem hj
    rw [hslots _ _ hget (by omega)]
    have he : toks.length - 15 + i = toks.length - min toks.length 15 + i := by omega
    rw [he, hget]
    rfl
  · have h1 : (List.range (min toks.length 15))[i]? = none :=
      List.getElem?_eq_none (by simp only [List.length_range]; omega)
    have h2 : toks[toks.length - 15 + i]? = none := List.getElem?_eq_none (by omega)
    rw [h1, h2]
    rfl

/-- What the ring buffer retains: after `n` fresh reads through
`parser_get_lexer_token` from `parser_init` on, `buf_start` and `buf_end`
are below 16, and what the buffer holds from `buf_start` to `buf_end` are
the most recent `min n 15` tokens, in the order read. The next read evicts
the oldest token exactly when the buffer holds 15 tokens. -/
theorem ring_buffer_retains (heap : Nat → Junk) (p0 : Parser) (lex : Lexer) (n : Nat)
    (toks : List Token) (p : Parser)
    (h : reads heap n (parser_init p0 lex) = .ok (toks, p)) :
    toks.length = n ∧ p.buf_start < 16 ∧ p.buf_end < 16 ∧
    ring_held p = (toks.drop (n - 15)).map some ∧ (ring_held p).length = min n 15 ∧
    ((p.buf_end + 1) % p.buf_size = p.buf_start ↔ 15 ≤ n) := by
  obtain ⟨hinv, hlen⟩ := reads_ringInv heap n [] toks _ p (ringInv_init p0 lex) h
  simp only [List.nil_append] at hinv
  obtain ⟨c1, c2, _, _, c5⟩ := ringInv_cursors toks p hinv
  have hheld := ringInv_held toks p hinv
  rw [hlen] at hheld c5
  refine ⟨hlen, c1, c2, hheld, ?_, c5⟩
  rw [hheld, List.length_map, List.length_drop, hlen]
  omega

set_option maxRecDepth 100000 in
/-- After three reads from `a ( 1 )` the buffer holds the three tokens. -/
theorem ring_buffer_retains_witness :
    ∃ toks p,
      reads heap_invalid 3 (parser_init parser_blank (lexer_init_file (bytes "a ( 1 )") 0)) =
        .ok (toks, p) ∧
      toks.length = 3 ∧ p.buf_start < 16 ∧ p.buf_end < 16 ∧
      ring_held p = (toks.drop (3 - 15)).map some ∧ (ring_held p).length = min 3 15 ∧
      ((p.buf_end + 1) % p.buf_size = p.buf_start ↔ 15 ≤ 3) :=
  ⟨_, _, rfl,
    ring_buffer_retains heap_invalid parser_blank (lexer_init_file (bytes "a ( 1 )") 0) 3 _ _
      rfl⟩

set_option maxRecDepth 100000 in
/-- C24 fails on the code for `n = N = 16`, the number of tokens that the
comment of `struct parser` says the buffer holds: after 16 tokens were read
from a file of 16 commas the buffer holds 15 of them, the first one was
freed by the 16th read, made when the buffer held 15 tokens. -/
theorem sixteenth_read_evicts_first_token :
    ∃ toks p,
      reads heap_invalid 16
        (parser_init parser_blank (lexer_init_file (bytes ",,,,,,,,,,,,,,,,") 0)) = .ok (toks, p) ∧
      toks.length = 16 ∧ p.buf_start = 1 ∧ p.buf_end = 0 ∧ (ring_held p).length = 15 ∧
      p.token_buffer[0]? = some none :=
  ⟨_, _, rfl, rfl, rfl, rfl, rfl, rfl⟩

/-! ## The bound of `parser_unget` -/

theorem held_of_ringInv (toks : List Token) (q : Parser) (u : Nat) (h : RingInv toks q) :
    Held (toks.drop (toks.length - 15)) { q with unget_idx := u } := by
  obtain ⟨c1, c2, c3, c4, _⟩ := ringInv_cursors toks q h
  obtain ⟨h1, h2, h3, h4, h5, h6⟩ := h
  have hl : (toks.drop (toks.length - 15)).length = min toks.length 15 := by
    rw [List.length_drop]; omega
  refine ⟨h1, h2, c1, by rw [hl]; omega, ?_, ?_⟩
  · show q.buf_end = (q.buf_start + _) % 16
    rw [hl]
    rw [h1] at c3
    omega
  · intro i tok hi
    have hlt : i < min toks.length 15 := by
      by_contra hc
      rw [List.getElem?_eq_none (by omega)] at hi
      cases hi
    rw [List.getElem?_drop] at hi
    have := c4 i hlt
    rw [h1] at this
    show q.token_buffer[(q.buf_start + i) % 16]? = _
    rw [this]
    have e : toks.length - min toks.length 15 + i = toks.length - 15 + i := by omega
    rw [e]
    exact h6 _ tok hi (by omega)

set_option maxRecDepth 100000 in
/-- Pasting on a buffer with three tokens ungot, a depth that `parse` never
reaches: with `\left`, `(` and `x` in the buffer, all three ungot, the call
returns `\left(`, the slot freed is the one of `x`, the buffer holds the
joined token and `(`, and the next call returns `(` once more. -/
theorem pasting_frees_latest_token :
    ∃ tok2 p3 p4,
      parser_get_token heap_invalid
        (ring_of [] [text_token "\\left" 0, operator_token tv_lparen 5, text_token "x" 7] 3) =
          .ok (tok2, p3) ∧
      token_as_string tok2 = bytes "\\left(" ∧
      ring_held p3 = [some tok2, some (operator_token tv_lparen 5)] ∧
      p3.token_buffer[2]? = some none ∧ p3.buf_end = 2 ∧ p3.unget_idx = 1 ∧
      parser_get_token heap_invalid p3 = .ok (operator_token tv_lparen 5, p4) :=
  ⟨_, _, _, rfl, rfl, rfl, rfl, rfl, rfl, rfl⟩

/-! ## The range of operand indices -/

theorem tree_operand_in_range_iff (code : NodeCode) (idx : Int) :
    tree_operand_in_range code idx = true ↔ 0 ≤ idx ∧ idx < (tree_code_operands code : Int) := by
  unfold tree_operand_in_range
  simp only [Bool.and_eq_true, decide_eq_true_eq]
  omega

/-- C27: on a node that has the operand slots of its code,
`get_tree_operand` and `set_tree_operand` succeed exactly for an index
`idx` with `0 ≤ idx` below the number of operands of the code of the node,
then reading or writing the operand of that index; for every other index,
and on a node whose code has no operands, they fail their assertion. The
accessors of the trees of the parser behave alike. -/
theorem operand_access_in_range (m : Memory) (node : Nat) (n : Node) (idx : Int) (v : Nat)
    (hn : node_at m node = some n) (hops : n.operands.length = tree_code_operands n.code) :
    ((∃ r, m.get_tree_operand node idx = .ok r) ↔
      0 ≤ idx ∧ idx < (tree_code_operands n.code : Int)) ∧
    ((∃ m1, m.set_tree_operand node idx v = .ok m1) ↔
      0 ≤ idx ∧ idx < (tree_code_operands n.code : Int)) ∧
    (0 ≤ idx ∧ idx < (tree_code_operands n.code : Int) →
      m.get_tree_operand node idx = .ok (n.operands.getD idx.toNat 0) ∧
      m.set_tree_operand node idx v =
        .ok (set_node m node { n with operands := n.operands.set idx.toNat v })) ∧
    (¬ (0 ≤ idx ∧ idx < (tree_code_operands n.code : Int)) →
      m.get_tree_operand node idx = .abort ∧ m.set_tree_operand node idx v = .abort) ∧
    (tree_code_operands n.code = 0 →
      m.get_tree_operand node idx = .abort ∧ m.set_tree_operand node idx v = .abort) ∧
    (∀ (t w : Tree) (c : NodeCode), t.code = some c →
      ((∃ r, get_tree_operand t idx = .ok r) ↔ 0 ≤ idx ∧ idx < (tree_code_operands c : Int)) ∧
      ((∃ r, set_tree_operand t idx w = .ok r) ↔
        0 ≤ idx ∧ idx < (tree_code_operands c : Int))) := by
  have hin : (0 ≤ idx ∧ idx < (tree_code_operands n.code : Int)) →
      m.get_tree_operand node idx = .ok (n.operands.getD idx.toNat 0) ∧
      m.set_tree_operand node idx v =
        .ok (set_node m node { n with operands := n.operands.set idx.toNat v }) := by
    intro hr
    have h1 := (tree_operand_in_range_iff n.code idx).2 hr
    have hpos : tree_code_operands n.code > 0 := by omega
    have hlt : idx.toNat < n.operands.length := by omega
    unfold Memory.get_tree_operand Memory.set_tree_operand
    simp [hn, h1, hpos, hlt, List.getD_eq_getElem?_getD, List.getElem?_eq_getElem hlt]
  have hout : ¬ (0 ≤ idx ∧ idx < (tree_code_operands n.code : Int)) →
      m.get_tree_operand node idx = .abort ∧ m.set_tree_operand node idx v = .abort := by
    intro hr
    have h1 : tree_operand_in_range n.code idx = false := by
      cases h : tree_operand_in_range n.code idx with
      | false => rfl
      | true => exact absurd ((tree_operand_in_range_iff n.code idx).1 h) hr
    unfold Memory.get_tree_operand Memory.set_tree_operand
    simp [hn, h1]
  refine ⟨?_, ?_, hin, hout, ?_, ?_⟩
  · constructor
    · rintro ⟨r, hr⟩
      by_contra hc
      rw [(hout hc).1] at hr
      cases hr
    · intro hr
      exact ⟨_, (hin hr).1⟩
  · constructor
    · rintro ⟨r, hr⟩
      by_contra hc
      rw [(hout hc).2] at hr
      cases hr
    · intro hr
      exact ⟨_, (hin hr).2⟩
  · intro h0
    apply hout
    omega
  · intro t w c hc
    cases t with
    | null => cases hc
    | error_mark =>
      cases hc
      simp [get_tree_operand, set_tree_operand, tree_code_operands]
    | list l es =>
      cases hc
      simp [get_tree_operand, set_tree_operand, tree_code_operands]
    | value l x k =>
      cases hc
      simp [get_tree_operand, set_tree_operand, tree_code_operands]
    | module l a b =>
      cases hc
      simp only [get_tree_operand, set_tree_operand, tree_code_operands]
      constructor
      · constructor
        · rintro ⟨r, hr⟩
          by_cases h0 : idx = 0
          · omega
          · by_cases h1 : idx = 1
            · omega
            · simp [h0, h1] at hr
        · intro hr
          by_cases h0 : idx = 0
          · rw [if_pos h0]
            exact ⟨_, rfl⟩
          · have h1 : idx = 1 := by omega
            rw [if_neg h0, if_pos h1]
            exact ⟨_, rfl⟩
      · constructor
        · rintro ⟨r, hr⟩
          by_cases h0 : idx = 0
          · omega
          · by_cases h1 : idx = 1
            · omega
            · simp [h0, h1] at hr
        · intro hr
          by_cases h0 : idx = 0
          · rw [if_pos h0]
            exact ⟨_, rfl⟩
          · have h1 : idx = 1 := by omega
            rw [if_neg h0, if_pos h1]
            exact ⟨_, rfl⟩
    | function l a b =>
      cases hc
      simp only [get_tree_operand, set_tree_operand, tree_code_operands]
      constructor
      · constructor
        · rintro ⟨r, hr⟩
          by_cases h0 : idx = 0
          · omega
          · by_cases h1 : idx = 1
            · omega
            · simp [h0, h1] at hr
        · intro hr
          by_cases h0 : idx = 0
          · rw [if_pos h0]
            exact ⟨_, rfl⟩
          · have h1 : idx = 1 := by omega
            rw [if_neg h0, if_pos h1]
            exact ⟨_, rfl⟩
      · constructor
        · rintro ⟨r, hr⟩
          by_cases h0 : idx = 0
          · omega
          · by_cases h1 : idx = 1
            · omega
            · simp [h0, h1] at hr
        · intro hr
          by_cases h0 : idx = 0
          · rw [if_pos h0]
            exact ⟨_, rfl⟩
          · have h1 : idx = 1 := by omega
            rw [if_neg h0, if_pos h1]
            exact ⟨_, rfl⟩

/-- The function node at 5 of `shared_value_memory` has two operands:
index 1 is read and written, index 2 is refused. -/
theorem operand_access_in_range_witness :
    node_at shared_value_memory 5 = some ⟨.FUNCTION, [4, 3], [], 0⟩ ∧
    shared_value_memory.get_tree_operand 5 1 = .ok 3 ∧
    shared_value_memory.set_tree_operand 5 1 0 =
      .ok (set_node shared_value_memory 5 ⟨.FUNCTION, [4, 0], [], 0⟩) ∧
    shared_value_memory.get_tree_operand 5 2 = .abort ∧
    shared_value_memory.get_tree_operand 3 0 = .abort :=
  ⟨rfl,
   ((operand_access_in_range shared_value_memory 5 ⟨.FUNCTION, [4, 3], [], 0⟩ 1 0 rfl
      rfl).2.2.1 (by decide)).1,
   ((operand_access_in_range shared_value_memory 5 ⟨.FUNCTION, [4, 3], [], 0⟩ 1 0 rfl
      rfl).2.2.1 (by decide)).2,
   rfl, rfl⟩

/-! ## The binary search of the keyword table -/

theorem strcmp_self : ∀ a : List Byte, strcmp a a = 0 := by
  intro a
  exact (strcmp_eq_zero_iff a a).2 rfl

theorem strcmp_lt_trans : ∀ a b c : List Byte,
    strcmp a b < 0 → strcmp b c < 0 → strcmp a c < 0 := by
  intro a
  induction a with
  | nil =>
    intro b c h1 h2
    cases b with
    | nil => simp [strcmp] at h1
    | cons y ys =>
      cases c with
      | nil => simp [strcmp] at h2
      | cons z zs => simp [strcmp]
  | cons x xs ih =>
    intro b c h1 h2
    cases b with
    | nil => simp [strcmp] at h1
    | cons y ys =>
      cases c with
      | nil => simp [strcmp] at h2
      | cons z zs =>
        simp only [strcmp] at h1 h2 ⊢
        by_cases hxy : x.val < y.val
        · by_cases hyz : y.val < z.val
          · rw [if_pos (by omega)]; decide
          · rw [if_neg hyz] at h2
            by_cases hzy : z.val < y.val
            · rw [if_pos hzy] at h2; omega
            · rw [if_pos (by omega)]; decide
        · rw [if_neg hxy] at h1
          by_cases hyx : y.val < x.val
          · rw [if_pos hyx] at h1; omega
          · rw [if_neg hyx] at h1
            by_cases hyz : y.val < z.val
            · rw [if_pos (by omega)]; decide
            · rw [if_neg hyz] at h2
              by_cases hzy : z.val < y.val
              · rw [if_pos hzy] at h2; omega
              · rw [if_neg hzy] at h2
                rw [if_neg (by omega), if_neg (by omega)]
                exact ih ys zs h1 h2

theorem strcmp_pos_swap : ∀ a b : List Byte, 0 < strcmp a b → strcmp b a < 0 := by
  intro a
  induction a with
  | nil =>
    intro b h
    cases b with
    | nil => simp [strcmp] at h
    | cons y ys => simp [strcmp] at h
  | cons x xs ih =>
    intro b h
    cases b with
    | nil => simp [strcmp]
    | cons y ys =>
      simp only [strcmp] at h ⊢
      by_cases hxy : x.val < y.val
      · rw [if_pos hxy] at h; omega
      · rw [if_neg hxy] at h
        by_cases hyx : y.val < x.val
        · rw [if_pos hyx]; decide
        · rw [if_neg hyx] at h
          rw [if_neg hyx, if_neg hxy]
          exact ih ys h

theorem strcmp_lt_ne (a b : List Byte) (h : strcmp a b < 0) : a ≠ b := by
  intro e
  rw [e, strcmp_self] at h
  omega

theorem sorted_entries (table : List (List Byte))
    (h : table.Chain' (fun a b => strcmp a b < 0)) (i j : Nat) (x y : List Byte)
    (hij : i < j) (hx : table[i]? = some x) (hy : table[j]? = some y) : strcmp x y < 0 := by
  haveI : IsTrans (List Byte) (fun a b => strcmp a b < 0) := ⟨strcmp_lt_trans⟩
  have hp := List.chain'_iff_pairwise.1 h
  rw [List.pairwise_iff_getElem] at hp
  have hj : j < table.length := by
    by_contra hc
    rw [List.getElem?_eq_none (by omega)] at hy
    cases hy
  have hi : i < table.length := by omega
  rw [List.getElem?_eq_getElem hi] at hx
  rw [List.getElem?_eq_getElem hj] at hy
  cases hx
  cases hy
  exact hp i j hi hj hij

theorem kw_bsearch_loop_sorted (key : List Byte) (table : List (List Byte)) (len : Nat)
    (hlen : table.length = len) (h : table.Chain' (fun a b => strcmp a b < 0)) :
    ∀ (fuel l r : Nat), l ≤ r → r ≤ len → r - l < fuel →
      (∀ j x, j < l → table[j]? = some x → strcmp x key < 0) →
      (∀ j x, r ≤ j → table[j]? = some x → strcmp key x < 0) →
      ∃ i, kw_bsearch_loop key table len fuel l r = .ok i ∧
        ((i < len ∧ table[i]? = some key) ∨ (i = len ∧ key ∉ table)) := by
  intro fuel
  induction fuel with
  | zero => intro l r _ _ hf; omega
  | succ fuel ih =>
    intro l r hlr hr hf hlo hhi
    unfold kw_bsearch_loop
    by_cases hl : l < r
    · rw [if_pos hl]
      have hhit : (l + r) / 2 < table.length := by omega
      simp only [List.getElem?_eq_getElem hhit]
      have hget : table[(l + r) / 2]? = some (table[(l + r) / 2]) :=
        List.getElem?_eq_getElem hhit
      by_cases h0 : strcmp key table[(l + r) / 2] = 0
      · rw [if_pos h0]
        refine ⟨_, rfl, Or.inl ⟨by omega, ?_⟩⟩
        rw [hget, (strcmp_eq_zero_iff _ _).1 h0]
      · rw [if_neg h0]
        by_cases hneg : strcmp key table[(l + r) / 2] < 0
        · rw [if_pos hneg]
          apply ih l ((l + r) / 2) (by omega) (by omega) (by omega) hlo
          intro j x hj hx
          by_cases hje : j = (l + r) / 2
          · subst hje
            rw [hget] at hx
            cases hx
            exact hneg
          · exact strcmp_lt_trans _ _ _ hneg
              (sorted_entries table h _ j _ x (by omega) hget hx)
        · rw [if_neg hneg]
          have hpos : 0 < strcmp key table[(l + r) / 2] := by omega
          apply ih ((l + r) / 2 + 1) r (by omega) hr (by omega) _ hhi
          intro j x hj hx
          by_cases hje : j = (l + r) / 2
          · subst hje
            rw [hget] at hx
            cases hx
            exact strcmp_pos_swap _ _ hpos
          · exact strcmp_lt_trans _ _ _
              (sorted_entries table h j _ x _ (by omega) hx hget)
              (strcmp_pos_swap _ _ hpos)
    · rw [if_neg hl]
      refine ⟨_, rfl, Or.inr ⟨rfl, ?_⟩⟩
      intro hmem
      obtain ⟨j, hj, hjx⟩ := List.getElem_of_mem hmem
      have hget : table[j]? = some key := by
        rw [List.getElem?_eq_getElem hj, hjx]
      by_cases hjl : j < l
      · exact strcmp_lt_ne _ _ (hlo j key hjl hget) rfl
      · exact strcmp_lt_ne _ _ (hhi j key (by omega) hget) rfl

/-- C28: on a table of `len` strings in strictly increasing order of
`strcmp`, `kw_bsearch` returns an index below `len` at which the table
holds `key` when `key` occurs in the table, and `len` when it does not. -/
theorem kw_bsearch_sorted (key : List Byte) (table : List (List Byte)) (len : Nat)
    (hlen : table.length = len) (h : table.Chain' (fun a b => strcmp a b < 0)) :
    ∃ i, kw_bsearch key table len = .ok i ∧
      (key ∈ table → i < len ∧ table[i]? = some key) ∧ (key ∉ table → i = len) := by
  obtain ⟨i, hi, hcase⟩ := kw_bsearch_loop_sorted key table len hlen h (len + 1) 0 len
    (by omega) (le_refl _) (by omega) (fun j x hj _ => by omega)
    (fun j x hj hx => by
      rw [List.getElem?_eq_none (by omega)] at hx
      cases hx)
  refine ⟨i, hi, ?_, ?_⟩
  · intro hmem
    rcases hcase with hc | hc
    · exact hc
    · exact absurd hmem hc.2
  · intro hnot
    rcases hcase with hc | hc
    · exact absurd (List.mem_iff_getElem?.2 ⟨_, hc.2⟩) hnot
    · exact hc.1

theorem keywords_sorted : keywords.Chain' (fun a b => strcmp a b < 0) := by
  unfold keywords
  rw [List.chain'_pair]
  decide

/-- The keyword table is sorted: `validate` is found at index 1 and `while`
is not found. -/
theorem kw_bsearch_sorted_witness :
    keywords.length = keywords_length ∧
    keywords.Chain' (fun a b => strcmp a b < 0) ∧
    kw_bsearch (bytes "validate") keywords keywords_length = .ok 1 ∧
    kw_bsearch (bytes "while") keywords keywords_length = .ok keywords_length ∧
    ∃ i, kw_bsearch (bytes "function") keywords keywords_length = .ok i ∧
      (bytes "function" ∈ keywords → i < keywords_length ∧
        keywords[i]? = some (bytes "function")) ∧
      (bytes "function" ∉ keywords → i = keywords_length) :=
  ⟨rfl, keywords_sorted, by decide, by decide,
    kw_bsearch_sorted (bytes "function") keywords keywords_length rfl keywords_sorted⟩

/-! ## Comparison and copy of tokens -/

theorem tokenClass_index_inj (x y : TokenClass) (h : x.toCtorIdx = y.toCtorIdx) : x = y := by
  revert h
  cases x <;> cases y <;> decide

theorem tokenKind_index_inj (x y : TokenKind) (h : x.toCtorIdx = y.toCtorIdx) : x = y := by
  revert h
  cases x <;> cases y <;> decide

theorem token_compare_zero_iff (a b : Token) :
    token_compare a b = 0 ↔
      a.tok_class = b.tok_class ∧ a.uses_buf = b.uses_buf ∧
      (if a.uses_buf = true then cstr a.cval = cstr b.cval else a.tval = b.tval) := by
  unfold token_compare token_uses_buf
  by_cases h1 : a.tok_class.toCtorIdx < b.tok_class.toCtorIdx
  · rw [if_pos h1]
    constructor
    · intro h; omega
    · rintro ⟨e, _⟩
      rw [e] at h1
      omega
  · rw [if_neg h1]
    by_cases h2 : a.tok_class.toCtorIdx > b.tok_class.toCtorIdx
    · rw [if_pos h2]
      constructor
      · intro h; omega
      · rintro ⟨e, _⟩
        rw [e] at h2
        omega
    · rw [if_neg h2]
      have hc : a.tok_class = b.tok_class := tokenClass_index_inj _ _ (by omega)
      by_cases h3 : a.uses_buf = b.uses_buf
      · have h3b : (a.uses_buf != b.uses_buf) = false := by rw [h3]; simp
        rw [h3b]
        simp only [Bool.false_eq_true, if_false]
        by_cases h4 : a.uses_buf = true
        · rw [if_pos h4, if_pos h4, strcmp_eq_zero_iff]
          exact ⟨fun h => ⟨hc, h3, h⟩, fun h => h.2.2⟩
        · rw [if_neg h4, if_neg h4]
          by_cases h5 : a.tval.toCtorIdx < b.tval.toCtorIdx
          · rw [if_pos h5]
            constructor
            · intro h; omega
            · rintro ⟨_, _, e⟩
              rw [e] at h5
              omega
          · rw [if_neg h5]
            by_cases h6 : a.tval.toCtorIdx > b.tval.toCtorIdx
            · rw [if_pos h6]
              constructor
              · intro h; omega
              · rintro ⟨_, _, e⟩
                rw [e] at h6
                omega
            · rw [if_neg h6]
              exact ⟨fun _ => ⟨hc, h3, tokenKind_index_inj _ _ (by omega)⟩, fun _ => rfl⟩
      · have h3b : (a.uses_buf != b.uses_buf) = true := by
          cases ha : a.uses_buf <;> cases hb : b.uses_buf <;> simp_all
        rw [h3b]
        simp only [if_true]
        constructor
        · intro h
          exfalso
          split at h <;> omega
        · rintro ⟨_, e, _⟩
          exact absurd e h3

/-- C29: `token_compare` gives 0 exactly for two tokens of the same class
that both hold a text or both hold an enumerated value, with equal texts or
equal values; the locations play no part. A token compared with its copy by
`token_copy` gives 0, and the copy has the location of the token. -/
theorem token_compare_content (a b : Token) (junk : Junk) :
    (token_compare a b = 0 ↔
      token_class a = token_class b ∧ token_uses_buf a = token_uses_buf b ∧
      (if token_uses_buf a = true then token_as_string a = token_as_string b
       else token_value a = token_value b)) ∧
    (∀ l1 l2 : Location,
      token_compare { a with loc := l1 } { b with loc := l2 } = token_compare a b) ∧
    token_compare a a = 0 ∧
    (∃ c, token_copy junk (some a) = some c ∧ token_compare a c = 0 ∧
      token_location c = token_location a) ∧
    token_copy junk none = none := by
  refine ⟨?_, fun _ _ => rfl, ?_, ?_, rfl⟩
  · rw [token_compare_zero_iff]
    unfold token_class token_uses_buf token_value token_as_string token_uses_buf
    by_cases ha : a.uses_buf = true
    · simp only [ha, if_true]
      constructor
      · rintro ⟨h1, h2, h3⟩
        refine ⟨h1, h2, ?_⟩
        rw [← h2, if_pos rfl]
        exact h3
      · rintro ⟨h1, h2, h3⟩
        refine ⟨h1, h2, ?_⟩
        rw [← h2, if_pos rfl] at h3
        exact h3
    · simp only [ha, if_false]
      simp
  · rw [token_compare_zero_iff]
    refine ⟨rfl, rfl, ?_⟩
    split <;> rfl
  · by_cases ha : token_uses_buf a = true
    · simp only [token_copy, if_pos ha]
      refine ⟨_, rfl, ?_, rfl⟩
      rw [token_compare_zero_iff]
      refine ⟨rfl, rfl, ?_⟩
      have ha1 : a.uses_buf = true := ha
      rw [if_pos ha1]
      show cstr a.cval = cstr (cstr a.cval ++ [0])
      rw [cstr_snoc_zero]
      symm
      apply cstr_of_nz
      intro x hx
      unfold cstr at hx
      simpa using List.mem_takeWhile_imp hx
    · simp only [token_copy, if_neg ha]
      refine ⟨_, rfl, ?_, rfl⟩
      rw [token_compare_zero_iff]
      refine ⟨rfl, rfl, ?_⟩
      have ha1 : ¬ a.uses_buf = true := ha
      rw [if_neg ha1]

/-! ## A second call of `free_tree` -/

theorem free_tree_absent (m : Memory) (node fuel : Nat)
    (h : node = 0 ∨ node = m.error_mark_node ∨
      ∃ n, node_at m node = some n ∧ n.code = .EMPTY_MARK) :
    free_tree (fuel + 1) m node = .ok m := by
  unfold free_tree
  by_cases h0 : node = 0 ∨ node = m.error_mark_node
  · rw [if_pos h0]
  · rw [if_neg h0]
    rcases h with h | h | ⟨n, hn, hc⟩
    · exact absurd (Or.inl h) h0
    · exact absurd (Or.inr h) h0
    · simp only [hn, hc, if_true]

theorem atomic_trees_add_node (m m1 : Memory) (t : Nat)
    (h : atomic_trees_add m t = .ok m1) :
    m1.nodes = m.nodes ∧ m1.error_mark_node = m.error_mark_node ∧
    m1.atomic_trees = m.atomic_trees ++ [t] ∧ t ∉ m.atomic_trees := by
  unfold atomic_trees_add at h
  cases hn : node_at m t with
  | none => simp [hn] at h
  | some n =>
    simp only [hn] at h
    by_cases hc : n.code ≠ .EMPTY_MARK
    · rw [if_pos hc] at h
      cases h
    · rw [if_neg hc] at h
      by_cases hmem : t ∈ m.atomic_trees
      · simp only [hmem, if_true] at h
        cases h
      · simp only [hmem, if_false, Res.ok.injEq] at h
        subst h
        exact ⟨rfl, rfl, rfl, hmem⟩

theorem free_tree_marks (m m1 : Memory) (node fuel : Nat)
    (h : free_tree fuel m node = .ok m1) :
    node = 0 ∨ node = m1.error_mark_node ∨
      ∃ n, node_at m1 node = some n ∧ n.code = .EMPTY_MARK := by
  cases fuel with
  | zero => simp [free_tree] at h
  | succ fuel =>
    unfold free_tree at h
    by_cases h0 : node = 0 ∨ node = m.error_mark_node
    · rw [if_pos h0] at h
      simp only [Res.ok.injEq] at h
      subst h
      rcases h0 with h0 | h0
      · exact Or.inl h0
      · exact Or.inr (Or.inl h0)
    · rw [if_neg h0] at h
      cases hn : node_at m node with
      | none => simp [hn] at h
      | some n =>
        simp only [hn] at h
        by_cases hc : n.code = .EMPTY_MARK
        · rw [if_pos hc] at h
          simp only [Res.ok.injEq] at h
          subst h
          exact Or.inr (Or.inr ⟨n, hn, hc⟩)
        · rw [if_neg hc] at h
          split at h
          · split at h
            · split at h
              · cases h
              · rename_i m2 _ _ n2 hn2
                obtain ⟨e1, _, _, _⟩ := atomic_trees_add_node _ _ _ h
                refine Or.inr (Or.inr ⟨{ n2 with code := .EMPTY_MARK }, ?_, rfl⟩)
                have hlt := node_at_lt m2 node n2 hn2
                have := node_at_set_self m2 node { n2 with code := .EMPTY_MARK } hlt
                unfold node_at at this ⊢
                rw [e1]
                exact this
            · cases h
            · cases h
          · cases h
          · cases h

/-- C30: `free_tree` called on `NULL`, on `error_mark_node` or on a node
with the code `EMPTY_MARK` returns and leaves the memory as it is, nodes
and `atomic_trees` alike. After a call of `free_tree` that has returned, a
second call on the same pointer returns with the memory unchanged, so it
does not reach the test for a double insert; on the root of an AST the
first call does return. -/
theorem free_tree_twice (m : Memory) (node fuel : Nat) :
    (node = 0 ∨ node = m.error_mark_node ∨
        (∃ n, node_at m node = some n ∧ n.code = .EMPTY_MARK) →
      free_tree (fuel + 1) m node = .ok m) ∧
    (∀ m1, free_tree fuel m node = .ok m1 → free_tree fuel m1 node = .ok m1) ∧
    (∀ rank : Nat → Nat, Ast rank m node → rank node + 1 < fuel →
      ∃ m1, free_tree fuel m node = .ok m1 ∧ free_tree fuel m1 node = .ok m1) := by
  have h2 : ∀ m1, free_tree fuel m node = .ok m1 → free_tree fuel m1 node = .ok m1 := by
    intro m1 h
    have hmark := free_tree_marks m m1 node fuel h
    cases fuel with
    | zero => simp [free_tree] at h
    | succ fuel => exact free_tree_absent m1 node fuel hmark
  refine ⟨free_tree_absent m node fuel, h2, ?_⟩
  intro rank hast hfuel
  obtain ⟨m1, done, a1, _⟩ := free_tree_tears rank m node hast fuel (by omega)
    m [] node (tomb_start m node)
    (fun hn => ⟨Reach.root hn, by omega, fun _ _ _ _ => rfl⟩)
  exact ⟨m1, a1, h2 m1 a1⟩

/-- The module at 7 of `shared_value_memory` is torn down by the first
call; the second call changes nothing. -/
theorem free_tree_twice_witness :
    Ast (fun p => p) shared_value_memory 7 ∧
    ∃ m1, free_tree 9 shared_value_memory 7 = .ok m1 ∧ free_tree 9 m1 7 = .ok m1 :=
  ⟨ast_of_check _ _ _ [2, 3, 4, 5, 6, 7] (by decide),
   (free_tree_twice shared_value_memory 7 9).2.2 (fun p => p)
    (ast_of_check _ _ _ [2, 3, 4, 5, 6, 7] (by decide)) (by decide)⟩

/-! ## The arithmetic of `buf_idx_inc` -/

theorem buf_idx_inc_rem (idx : Nat) (inc : Int) (size : Nat) (h0 : 0 < size)
    (hs : size ≤ 9223372036854775808) :
    ((buf_idx_inc idx inc size : Nat) : Int) =
      (((idx : Int) + inc) % 18446744073709551616) % (size : Int) ∧
    buf_idx_inc idx inc size < size := by
  have hpos : (0 : Int) < (size : Int) := by exact_mod_cast h0
  have h1 : 0 ≤ (((idx : Int) + inc) % 18446744073709551616) % (size : Int) :=
    Int.emod_nonneg _ (by omega)
  have h2 : (((idx : Int) + inc) % 18446744073709551616) % (size : Int) < (size : Int) :=
    Int.emod_lt_of_pos _ hpos
  have hv : buf_idx_inc idx inc size =
      ((((idx : Int) + inc) % 18446744073709551616) % (size : Int)).toNat := by
    unfold buf_idx_inc
    simp only []
    generalize (((idx : Int) + inc) % 18446744073709551616) % (size : Int) = r at h1 h2
    have hd : (if r < 9223372036854775808 then r else r - 18446744073709551616) = r :=
      if_pos (by omega)
    rw [hd, if_neg (by omega)]
  rw [hv]
  generalize (((idx : Int) + inc) % 18446744073709551616) % (size : Int) = r at h1 h2
  constructor
  · exact Int.toNat_of_nonneg h1
  · omega

theorem buf_idx_inc_residue_iff (idx : Nat) (inc : Int) (size : Nat) (h0 : 0 < size)
    (hs : size ≤ 9223372036854775808) (hi : idx < size)
    (hinc : -(size : Int) ≤ inc ∧ inc ≤ (size : Int)) :
    ((buf_idx_inc idx inc size : Nat) : Int) = ((idx : Int) + inc) % (size : Int) ↔
      (0 ≤ (idx : Int) + inc ∨ (size : Int) ∣ 18446744073709551616) := by
  rw [(buf_idx_inc_rem idx inc size h0 hs).1]
  by_cases hn : 0 ≤ (idx : Int) + inc
  · have : ((idx : Int) + inc) % 18446744073709551616 = (idx : Int) + inc :=
      Int.emod_eq_of_lt hn (by omega)
    rw [this]
    exact ⟨fun _ => Or.inl hn, fun _ => rfl⟩
  · have : ((idx : Int) + inc) % 18446744073709551616 =
        (idx : Int) + inc + 18446744073709551616 := by
      rw [← Int.add_emod_self]
      exact Int.emod_eq_of_lt (by omega) (by omega)
    rw [this, Int.emod_eq_emod_iff_emod_sub_eq_zero]
    constructor
    · intro h
      right
      apply Int.dvd_of_emod_eq_zero
      rw [← h]
      congr 1
      ring
    · intro h
      rcases h with h | h
      · exact absurd h hn
      · have e : (idx : Int) + inc + 18446744073709551616 - ((idx : Int) + inc) =
            18446744073709551616 := by ring
        rw [e]
        exact Int.emod_eq_zero_of_dvd h

theorem buf_idx_inc_sixteen (idx : Nat) (inc : Int) (hi : idx < 16)
    (hinc : -16 ≤ inc ∧ inc ≤ 16) :
    ((buf_idx_inc idx inc 16 : Nat) : Int) = ((idx : Int) + inc) % 16 ∧
    buf_idx_inc idx inc 16 < 16 :=
  ⟨(buf_idx_inc_residue_iff idx inc 16 (by decide) (by decide) hi hinc).2
      (Or.inr (by decide)),
   (buf_idx_inc_rem idx inc 16 (by decide) (by decide)).2⟩

/-- A size that does not divide `2 ^ 64`, which no call of the function
passes: with `size = 3`, `idx = 0` and `inc = -1` the remainder is taken of
`2 ^ 64 - 1`, and the result is 0 where the residue of `-1` modulo 3 is 2;
with the size 16 of the token buffer the result is the residue 15. -/
theorem buf_idx_inc_size_three :
    buf_idx_inc 0 (-1) 3 = 0 ∧ (((0 : Nat) : Int) + (-1)) % ((3 : Nat) : Int) = 2 ∧
    buf_idx_inc 0 (-1) 16 = 15 := by
  decide

/-! ## The watched run of the parser -/

theorem pinv_held_length (p : Parser) (hp : PInv p) :
    p.unget_idx ≤ 1 ∧ p.unget_idx ≤ (ring_held p).length := by
  obtain ⟨toks, hring, _, h1, h2⟩ := hp
  have hh := ringInv_held toks _ hring
  have he : ring_held { p with unget_idx := 0 } = ring_held p := rfl
  rw [he] at hh
  refine ⟨h1, ?_⟩
  rw [hh, List.length_map, List.length_drop]
  omega

theorem parser_get_token_watched_eq (heap : Nat → Junk) (p : Parser) (hp : PInv p) :
    parser_get_token_watched heap p = parser_get_token heap p := by
  obtain ⟨h1, h2⟩ := pinv_held_length p hp
  obtain ⟨_, _, h3⟩ := parser_get_lexer_token_outcome heap p hp
  have heq := parser_get_token_eq heap p hp
  unfold parser_get_token_watched
  rw [if_neg (by omega)]
  cases hg : parser_get_lexer_token heap p with
  | nofuel => rw [heq, hg]
  | abort => rw [heq, hg]
  | ok r =>
    obtain ⟨tok, slot, p1⟩ := r
    obtain ⟨_, _, _, _, hnm, _⟩ := h3 tok slot p1 hg
    simp only []
    by_cases hub : token_uses_buf tok = true
    · have := hnm hub
      simp [hub, this]
    · simp [hub]

theorem parser_unget_watched_eq (p : Parser) (h0 : p.unget_idx = 0)
    (h1 : PInv { p with unget_idx := 1 }) :
    parser_unget_watched p = .ok { p with unget_idx := 1 } ∧
    parser_unget p = .ok { p with unget_idx := 1 } := by
  obtain ⟨_, h2⟩ := pinv_held_length _ h1
  have he : ring_held { p with unget_idx := 1 } = ring_held p := rfl
  rw [he] at h2
  have hs := pinv_buf_size _ h1
  have hun : parser_unget p = .ok { p with unget_idx := 1 } := by
    unfold parser_unget
    rw [if_pos (by rw [h0]; show 0 + 1 < p.buf_size; rw [show p.buf_size = 16 from hs]; omega), h0]
  refine ⟨?_, hun⟩
  unfold parser_unget_watched
  rw [if_pos ⟨h0, h2⟩, hun]

theorem parser_get_until_tval_loop_watched_eq (heap : Nat → Junk) (k : TokenKind) :
    ∀ (fuel : Nat) (p : Parser), PInv p →
      parser_get_until_tval_loop_watched heap k fuel p =
        parser_get_until_tval_loop heap k fuel p := by
  intro fuel
  induction fuel with
  | zero => intro p _; rfl
  | succ fuel ih =>
    intro p hp
    unfold parser_get_until_tval_loop_watched parser_get_until_tval_loop
    rw [parser_get_token_watched_eq heap p hp]
    obtain ⟨_, _, g3⟩ := parser_get_token_outcome heap p hp
    cases hg : parser_get_token heap p with
    | nofuel => rfl
    | abort => rfl
    | ok r =>
      obtain ⟨tok, p1⟩ := r
      obtain ⟨hp1, _, _⟩ := g3 tok p1 hg
      simp only []
      rw [ih p1 hp1]

theorem parser_get_until_tval_watched_eq (heap : Nat → Junk) (p : Parser) (k : TokenKind)
    (hp : PInv p) :
    parser_get_until_tval_watched heap p k = parser_get_until_tval heap p k := by
  unfold parser_get_until_tval_watched parser_get_until_tval
  exact parser_get_until_tval_loop_watched_eq heap k _ p hp

theorem parser_forward_tval_watched_eq (heap : Nat → Junk) (p : Parser) (k : TokenKind)
    (hp : PInv p) :
    parser_forward_tval_watched heap p k = parser_forward_tval heap p k := by
  unfold parser_forward_tval_watched parser_forward_tval
  rw [parser_get_token_watched_eq heap p hp]

theorem handle_value_watched_eq (heap : Nat → Junk) (p : Parser) (hp : PInv p) :
    handle_value_watched heap p = handle_value heap p := by
  unfold handle_value_watched handle_value
  rw [parser_get_token_watched_eq heap p hp]

theorem handle_error_watched_eq (heap : Nat → Junk) (p : Parser) (k : TokenKind)
    (hp : PInv p) : handle_error_watched heap p k = handle_error heap p k := by
  unfold handle_error_watched handle_error
  rw [parser_get_until_tval_watched_eq heap p k hp]

theorem handle_list_loop_watched_eq (heap : Nat → Junk) (H Hw : Parser → Res (Tree × Parser))
    (wfE : Tree → Bool) (delim : TokenKind)
    (hH : ∀ p, PInv p → POutcome heap p (H p) (ElemPost wfE p))
    (hHw : ∀ p, PInv p → Hw p = H p) :
    ∀ (fuel : Nat) (list : Tree) (p : Parser), PInv p →
      handle_list_loop_watched heap Hw delim fuel list p =
        handle_list_loop heap H delim fuel list p := by
  intro fuel
  induction fuel with
  | zero => intro list p _; rfl
  | succ fuel ih =>
    intro list p hp
    unfold handle_list_loop_watched handle_list_loop
    rw [hHw p hp]
    cases hh : H p with
    | nofuel => rfl
    | abort => rfl
    | ok r =>
      obtain ⟨t, p1⟩ := r
      obtain ⟨hp1, _, _⟩ := (hH p hp).2.2 t p1 hh
      simp only []
      cases (if (!t.is_null && !t.is_error_mark) = true then tree_list_append list t
          else Res.ok list) with
      | nofuel => rfl
      | abort => rfl
      | ok list1 =>
        simp only []
        rw [parser_get_token_watched_eq heap p1 hp1]
        obtain ⟨_, _, g3⟩ := parser_get_token_outcome heap p1 hp1
        cases hg : parser_get_token heap p1 with
        | nofuel => rfl
        | abort => rfl
        | ok r2 =>
          obtain ⟨tok, p2⟩ := r2
          obtain ⟨hp2, _, hu2, hp2u, _⟩ := g3 tok p2 hg
          obtain ⟨u1, u2⟩ := parser_unget_watched_eq p2 hu2 hp2u
          simp only []
          rw [u1, u2, ih list1 p2 hp2]

theorem handle_list_watched_eq (heap : Nat → Junk) (H Hw : Parser → Res (Tree × Parser))
    (wfE : Tree → Bool) (delim : TokenKind)
    (hH : ∀ p, PInv p → POutcome heap p (H p) (ElemPost wfE p))
    (hHw : ∀ p, PInv p → Hw p = H p) (p : Parser) (hp : PInv p) :
    handle_list_watched heap p Hw delim = handle_list heap p H delim := by
  unfold handle_list_watched handle_list
  rw [hHw p hp]
  cases hh : H p with
  | nofuel => rfl
  | abort => rfl
  | ok r =>
    obtain ⟨t, p1⟩ := r
    obtain ⟨hp1, _, _⟩ := (hH p hp).2.2 t p1 hh
    simp only []
    rw [parser_get_token_watched_eq heap p1 hp1]
    obtain ⟨_, _, g3⟩ := parser_get_token_outcome heap p1 hp1
    cases hg : parser_get_token heap p1 with
    | nofuel => rfl
    | abort => rfl
    | ok r2 =>
      obtain ⟨tok, p2⟩ := r2
      obtain ⟨hp2, _, hu2, hp2u, _⟩ := g3 tok p2 hg
      obtain ⟨u1, u2⟩ := parser_unget_watched_eq p2 hu2 hp2u
      simp only []
      rw [u1, u2]
      cases tree_list_append make_tree_list t with
      | nofuel => rfl
      | abort => rfl
      | ok l =>
        simp only []
        rw [handle_list_loop_watched_eq heap H Hw wfE delim hH hHw _ l p2 hp2]

theorem handle_args_watched_eq (heap : Nat → Junk) (p : Parser) (hp : PInv p) :
    handle_args_watched heap p = handle_args heap p := by
  unfold handle_args_watched handle_args
  rw [parser_forward_tval_watched_eq heap p tv_lparen hp]
  obtain ⟨_, _, f3⟩ := parser_forward_tval_outcome heap p tv_lparen hp
  cases hf : parser_forward_tval heap p tv_lparen with
  | nofuel => rfl
  | abort => rfl
  | ok r =>
    obtain ⟨o, p1⟩ := r
    obtain ⟨hp1, _, _⟩ := f3 o p1 hf
    cases o with
    | none => exact handle_error_watched_eq heap p1 tv_rparen hp1
    | some tok =>
      simp only []
      rw [handle_list_watched_eq heap (handle_value heap) (handle_value_watched heap)
        Tree.is_value tv_comma (handle_value_outcome heap) (handle_value_watched_eq heap) p1 hp1]
      obtain ⟨_, _, l3⟩ := handle_list_outcome heap (handle_value heap) Tree.is_value tv_comma
        (handle_value_outcome heap) p1 hp1
      cases hl : handle_list heap p1 (handle_value heap) tv_comma with
      | nofuel => rfl
      | abort => rfl
      | ok r2 =>
        obtain ⟨t, p2⟩ := r2
        obtain ⟨hp2, _, _⟩ := l3 t p2 hl
        simp only []
        rw [parser_forward_tval_watched_eq heap p2 tv_rparen hp2]

theorem handle_cases_watched_eq (heap : Nat → Junk) (p : Parser) (hp : PInv p) :
    handle_cases_watched heap p = handle_cases heap p := by
  unfold handle_cases_watched handle_cases
  rw [parser_forward_tval_watched_eq heap p tv_function hp]
  obtain ⟨_, _, f3⟩ := parser_forward_tval_outcome heap p tv_function hp
  cases hf : parser_forward_tval heap p tv_function with
  | nofuel => rfl
  | abort => rfl
  | ok r =>
    obtain ⟨o, p1⟩ := r
    obtain ⟨hp1, _, _⟩ := f3 o p1 hf
    cases o with
    | none => exact handle_error_watched_eq heap p1 tv_rbrace hp1
    | some tok0 =>
      simp only []
      rw [parser_get_token_watched_eq heap p1 hp1]
      obtain ⟨_, _, g3⟩ := parser_get_token_outcome heap p1 hp1
      cases hg : parser_get_token heap p1 with
      | nofuel => rfl
      | abort => rfl
      | ok r2 =>
        obtain ⟨tok, p2⟩ := r2
        obtain ⟨hp2, _, _⟩ := g3 tok p2 hg
        simp only []
        cases set_tree_operand (make_tree .FUNCTION) 0 (make_value_tok tok) with
        | nofuel => rfl
        | abort => rfl
        | ok function0 =>
          simp only []
          rw [parser_forward_tval_watched_eq heap p2 tv_lbrace hp2]
          obtain ⟨_, _, f3b⟩ := parser_forward_tval_outcome heap p2 tv_lbrace hp2
          cases hf2 : parser_forward_tval heap p2 tv_lbrace with
          | nofuel => rfl
          | abort => rfl
          | ok r3 =>
            obtain ⟨o3, p3⟩ := r3
            obtain ⟨hp3, _, _⟩ := f3b o3 p3 hf2
            cases o3 with
            | none => exact handle_error_watched_eq heap p3 tv_rbrace hp3
            | some tok3 =>
              simp only []
              rw [handle_list_watched_eq heap (handle_args heap) (handle_args_watched heap)
                wf_group tv_comma (handle_args_outcome heap) (handle_args_watched_eq heap)
                p3 hp3]
              obtain ⟨_, _, l3⟩ := handle_list_outcome heap (handle_args heap) wf_group
                tv_comma (handle_args_outcome heap) p3 hp3
              cases hl : handle_list heap p3 (handle_args heap) tv_comma with
              | nofuel => rfl
              | abort => rfl
              | ok r4 =>
                obtain ⟨t, p4⟩ := r4
                obtain ⟨hp4, _, _⟩ := l3 t p4 hl
                simp only []
                cases set_tree_operand function0 1 t with
                | nofuel => rfl
                | abort => rfl
                | ok function1 =>
                  simp only []
                  rw [parser_forward_tval_watched_eq heap p4 tv_rbrace hp4]

theorem handle_module_loop_watched_eq (heap : Nat → Junk) :
    ∀ (fuel : Nat) (module : Tree) (p : Parser), PInv p →
      handle_module_loop_watched heap fuel module p = handle_module_loop heap fuel module p := by
  intro fuel
  induction fuel with
  | zero => intro module p _; rfl
  | succ fuel ih =>
    intro module p hp
    unfold handle_module_loop_watched handle_module_loop
    rw [parser_get_token_watched_eq heap p hp]
    obtain ⟨_, _, g3⟩ := parser_get_token_outcome heap p hp
    cases hg : parser_get_token heap p with
    | nofuel => rfl
    | abort => rfl
    | ok r =>
      obtain ⟨tok, p1⟩ := r
      obtain ⟨hp1, _, hu1, hp1u, _⟩ := g3 tok p1 hg
      obtain ⟨u1, u2⟩ := parser_unget_watched_eq p1 hu1 hp1u
      simp only []
      rw [u1, u2]
      simp only []
      rw [handle_cases_watched_eq heap _ hp1u]
      obtain ⟨_, _, c3⟩ := handle_cases_outcome heap _ hp1u
      cases hc : handle_cases heap { p1 with unget_idx := 1 } with
      | nofuel => rfl
      | abort => rfl
      | ok r2 =>
        obtain ⟨t, p3⟩ := r2
        obtain ⟨hp3, _, _⟩ := c3 t p3 hc
        simp only []
        cases get_tree_operand module 1 with
        | nofuel => rfl
        | abort => rfl
        | ok fns =>
          simp only []
          cases tree_list_append fns t with
          | nofuel => rfl
          | abort => rfl
          | ok fns1 =>
            simp only []
            cases set_tree_operand module 1 fns1 with
            | nofuel => rfl
            | abort => rfl
            | ok module1 =>
              simp only []
              rw [ih module1 p3 hp3]

theorem handle_module_watched_eq (heap : Nat → Junk) (p : Parser) (hp : PInv p) :
    handle_module_watched heap p = handle_module heap p := by
  unfold handle_module_watched handle_module
  rw [parser_forward_tval_watched_eq heap p tv_validate hp]
  obtain ⟨_, _, f3⟩ := parser_forward_tval_outcome heap p tv_validate hp
  cases hf : parser_forward_tval heap p tv_validate with
  | nofuel => rfl
  | abort => rfl
  | ok r =>
    obtain ⟨o, p1⟩ := r
    obtain ⟨hp1, _, _⟩ := f3 o p1 hf
    cases o with
    | none => exact handle_error_watched_eq heap p1 tv_rbrace hp1
    | some tok0 =>
      simp only []
      rw [parser_get_token_watched_eq heap p1 hp1]
      obtain ⟨_, _, g3⟩ := parser_get_token_outcome heap p1 hp1
      cases hg : parser_get_token heap p1 with
      | nofuel => rfl
      | abort => rfl
      | ok r2 =>
        obtain ⟨name, p2⟩ := r2
        obtain ⟨hp2, _, _⟩ := g3 name p2 hg
        have hset0 : set_tree_operand (make_tree .MODULE) 0 (make_value_tok name) =
            .ok (.module ⟨0, 0⟩ (make_value_tok name) .null) := rfl
        simp only [hset0]
        rw [parser_forward_tval_watched_eq heap p2 tv_lbrace hp2]
        obtain ⟨_, _, f3b⟩ := parser_forward_tval_outcome heap p2 tv_lbrace hp2
        cases hf2 : parser_forward_tval heap p2 tv_lbrace with
        | nofuel => rfl
        | abort => rfl
        | ok r3 =>
          obtain ⟨o3, p3⟩ := r3
          obtain ⟨hp3, _, hu3, _⟩ := f3b o3 p3 hf2
          cases o3 with
          | none => exact handle_error_watched_eq heap p3 tv_rbrace hp3
          | some tok3 =>
            have hset1 : set_tree_operand (.module ⟨0, 0⟩ (make_value_tok name) .null) 1
                make_tree_list = .ok (.module ⟨0, 0⟩ (make_value_tok name) (.list ⟨0, 0⟩ [])) :=
              rfl
            simp only [hset1]
            rw [handle_module_loop_watched_eq heap _ _ p3 hp3]
            obtain ⟨_, _, l3⟩ := handle_module_loop_outcome heap (parser_fuel p3) ⟨0, 0⟩
              (make_value_tok name) ⟨0, 0⟩ [] p3 hp3 hu3 (by unfold parser_fuel; omega)
            cases hl : handle_module_loop heap (parser_fuel p3)
                (.module ⟨0, 0⟩ (make_value_tok name) (.list ⟨0, 0⟩ [])) p3 with
            | nofuel => rfl
            | abort => rfl
            | ok r4 =>
              obtain ⟨t, p4⟩ := r4
              obtain ⟨hp4, _, hu4, hp4u, _⟩ := l3 t p4 hl
              obtain ⟨u1, u2⟩ := parser_unget_watched_eq p4 hu4 hp4u
              simp only []
              rw [u1, u2]
              simp only []
              rw [parser_forward_tval_watched_eq heap _ tv_rbrace hp4u]

theorem register_module_state (t : Tree) (p p1 : Parser) (ml ml1 : Tree)
    (h : register_module t p ml = .ok (p1, ml1)) : p1 = p ∨ p1 = parser_error p := by
  unfold register_module at h
  split at h
  · split at h
    · split at h
      · split at h
        · split at h
          · split at h
            · simp only [Res.ok.injEq, Prod.mk.injEq] at h
              exact Or.inl h.1.symm
            · cases h
            · cases h
          · simp only [Res.ok.injEq, Prod.mk.injEq] at h
            exact Or.inr h.1.symm
        · cases h
        · cases h
      · cases h
      · cases h
    · cases h
    · cases h
  · simp only [Res.ok.injEq, Prod.mk.injEq] at h
    exact Or.inl h.1.symm

theorem parse_loop_watched_eq (heap : Nat → Junk) :
    ∀ (fuel : Nat) (p : Parser) (ml : Tree), PInv p →
      parse_loop_watched heap fuel p ml = parse_loop heap fuel p ml := by
  intro fuel
  induction fuel with
  | zero => intro p ml _; rfl
  | succ fuel ih =>
    intro p ml hp
    unfold parse_loop_watched parse_loop
    rw [parser_get_token_watched_eq heap p hp]
    obtain ⟨_, _, g3⟩ := parser_get_token_outcome heap p hp
    cases hg : parser_get_token heap p with
    | nofuel => rfl
    | abort => rfl
    | ok r =>
      obtain ⟨tok, p1⟩ := r
      obtain ⟨hp1, _, hu1, hp1u, _⟩ := g3 tok p1 hg
      obtain ⟨u1, u2⟩ := parser_unget_watched_eq p1 hu1 hp1u
      simp only []
      rw [u1, u2]
      simp only []
      have hp2 : PInv (set_notifications { p1 with unget_idx := 1 } true) := pinv_lex _ _ hp1u
      rw [handle_module_watched_eq heap _ hp2]
      obtain ⟨_, _, m3⟩ := handle_module_outcome heap _ hp2
      cases hm : handle_module heap (set_notifications { p1 with unget_idx := 1 } true) with
      | nofuel => rfl
      | abort => rfl
      | ok r2 =>
        obtain ⟨t, p3⟩ := r2
        obtain ⟨hp3, _, _⟩ := m3 t p3 hm
        simp only []
        cases hr : register_module t p3 ml with
        | nofuel => rfl
        | abort => rfl
        | ok r3 =>
          obtain ⟨p4, ml1⟩ := r3
          have hp4 : PInv (set_notifications p4 false) := by
            rcases register_module_state t p3 p4 ml ml1 hr with e | e
            · rw [e]; exact pinv_lex _ _ hp3
            · rw [e]; exact pinv_lex _ _ (pinv_lex _ _ hp3)
          simp only []
          rw [ih _ ml1 hp4]

theorem parse_watched_eq (heap : Nat → Junk) (p : Parser) (ml : Tree) (hp : PInv p) :
    parse_watched heap p ml = parse heap p ml := by
  unfold parse_watched parse
  simp only []
  rw [parse_loop_watched_eq heap _ _ ml (pinv_lex p _ hp)]

theorem pinv_replay_ok (heap : Nat → Junk) (p : Parser) (hp : PInv p) (h1 : p.unget_idx = 1) :
    ∃ tok slot p1, parser_get_lexer_token heap p = .ok (tok, slot, p1) := by
  obtain ⟨toks, hring, _, _, h2⟩ := hp
  have hlt : toks.length - 1 < toks.length := by omega
  have hr := ringInv_replay toks _ 1 _ hring (le_refl _) (by omega) (by omega)
    (List.getElem?_eq_getElem hlt)
  have he : ({ { p with unget_idx := 0 } with unget_idx := 1 } : Parser) = p := by
    cases p
    simp only [Parser.mk.injEq, true_and, and_true]
    exact h1.symm
  rw [he] at hr
  have hg : parser_get_lexer_token heap p = buffer_replay p := by
    unfold parser_get_lexer_token
    rw [if_neg (by omega)]
  rw [hg, hr]
  exact ⟨_, _, _, rfl⟩

/-- C31: the run of `parse` on any input file gives what the watched run
gives, in which a read is given up when more than one token is ungot or
the buffer holds fewer tokens than are ungot, and a `parser_unget` is given
up unless no token is ungot and the buffer holds a token; `parse` never has
the result of a call given up, so no such call occurs. In every state of the
invariant of `parse` at most one token is ungot and the buffer holds it, a
read at depth 1 returns, and after every read `parser_unget` returns with
depth 1: the assertions on the depth do not fail. -/
theorem unget_depth_during_parse (heap : Nat → Junk) (file : List Byte) :
    parse_watched heap (parser_init parser_blank (lexer_init_file file 0)) make_tree_list =
      parse heap (parser_init parser_blank (lexer_init_file file 0)) make_tree_list ∧
    parse heap (parser_init parser_blank (lexer_init_file file 0)) make_tree_list ≠ .nofuel ∧
    PInv (parser_init parser_blank (lexer_init_file file 0)) ∧
    ∀ p, PInv p →
      p.unget_idx ≤ 1 ∧ p.unget_idx ≤ (ring_held p).length ∧ p.buf_size = 16 ∧
      (p.unget_idx = 1 → ∃ tok slot p1, parser_get_lexer_token heap p = .ok (tok, slot, p1)) ∧
      ∀ tok p1, parser_get_token heap p = .ok (tok, p1) →
        PInv p1 ∧ p1.unget_idx = 0 ∧ 0 < (ring_held p1).length ∧
        parser_unget p1 = .ok { p1 with unget_idx := 1 } ∧ PInv { p1 with unget_idx := 1 } := by
  have hp0 := pinv_init (lexer_init_file file 0)
  obtain ⟨o1, _, _⟩ := parse_outcome heap (parser_init parser_blank (lexer_init_file file 0))
    ⟨0, 0⟩ [] hp0 rfl (by simp)
  refine ⟨parse_watched_eq heap _ _ hp0, o1, hp0, ?_⟩
  intro p hp
  obtain ⟨a1, a2⟩ := pinv_held_length p hp
  refine ⟨a1, a2, pinv_buf_size p hp, ?_, ?_⟩
  · intro h1
    exact pinv_replay_ok heap p hp h1
  · intro tok p1 hg
    obtain ⟨hp1, _, hu1, hp1u, _⟩ := (parser_get_token_outcome heap p hp).2.2 tok p1 hg
    obtain ⟨_, b2⟩ := pinv_held_length _ hp1u
    have he : ring_held { p1 with unget_idx := 1 } = ring_held p1 := rfl
    rw [he] at b2
    exact ⟨hp1, hu1, b2, (parser_unget_watched_eq p1 hu1 hp1u).2, hp1u⟩

set_option maxRecDepth 100000 in
/-- The watched run on a file with one module gives the result of `parse`,
status 0. -/
theorem unget_depth_during_parse_witness :
    parse_watched heap_invalid
        (parser_init parser_blank (lexer_init_file (bytes "validate M \x7b \x7d") 0))
        make_tree_list =
      parse heap_invalid
        (parser_init parser_blank (lexer_init_file (bytes "validate M \x7b \x7d") 0))
        make_tree_list ∧
    (match parse heap_invalid
        (parser_init parser_blank (lexer_init_file (bytes "validate M \x7b \x7d") 0))
        make_tree_list with
      | .ok (ret, _, _) => some ret
      | _ => none) = some 0 :=
  ⟨(unget_depth_during_parse heap_invalid (bytes "validate M \x7b \x7d")).1, rfl⟩

/-! ## Termination of the parser -/

theorem lexer_get_token_consumes (junk : Junk) (lex : Lexer) (t : Token) (lex1 : Lexer)
    (h : lexer_get_token junk lex = .ok (t, lex1)) (he : lex.is_eof = false)
    (hf : lex.file ≠ []) : lex1.file.length < lex.file.length := by
  have hfirst : (lexer_getch lex).2.file.length < lex.file.length := by
    rcases lexer_getch_cases lex with ⟨h1, _⟩ | ⟨_, h1, _⟩ | ⟨ch, rest, _, h1, h2⟩
    · rw [he] at h1; cases h1
    · exact absurd h1 hf
    · rw [h2, h1]; simp
  unfold lexer_get_token at h
  simp only [] at h
  by_cases hsp : isspace (lexer_getch lex).1 = true
  · rw [if_pos hsp] at h
    obtain ⟨r1, hr, hstep⟩ := lexer_skip_space_total ((lexer_getch lex).2.file.length + 1)
      (lexer_getch lex).2 (by omega)
    rw [hr] at h
    have hd := lexer_dispatch_outcome ⟨junk.tok_class, false, junk.tval⟩ r1.1 r1.2.loc r1.2 rfl
    obtain ⟨h1, _⟩ := hd.2.2 t lex1 h
    have := hstep.1
    have := h1.1
    omega
  · rw [if_neg hsp] at h
    have hd := lexer_dispatch_outcome ⟨junk.tok_class, false, junk.tval⟩ (lexer_getch lex).1
      (lexer_getch lex).2.loc (lexer_getch lex).2 rfl
    obtain ⟨h1, _⟩ := hd.2.2 t lex1 h
    have := h1.1
    omega

theorem tokEof_class (tok : Token) (h : token_class tok ≠ tok_eof) : ¬ TokEof tok :=
  fun ⟨he, _⟩ => h he

/-- C32: `parse` comes to its end on every input file, within the budget
of loop rounds that the length of the file gives. A call of
`lexer_get_token` returns within its budget, never leaves more characters
unread than it found, and leaves fewer when the input was not at its end.
A round of the loop of `parse`, of `handle_module` or of `handle_list` that
is followed by another round has read a fresh token, so that fewer
characters are unread; a round of the loop of `parser_get_until_tval` that
is followed by another has lowered the number of unread characters and
ungot tokens. -/
theorem parse_terminates (heap : Nat → Junk) (file : List Byte) :
    parse heap (parser_init parser_blank (lexer_init_file file 0)) make_tree_list ≠ .nofuel ∧
    compile heap file ≠ .nofuel ∧
    (∀ junk lex, lexer_get_token junk lex ≠ .nofuel ∧
      ∀ t lex1, lexer_get_token junk lex = .ok (t, lex1) →
        lex1.file.length ≤ lex.file.length ∧
        (lex.is_eof = false → lex.file ≠ [] → lex1.file.length < lex.file.length)) ∧
    (∀ p, PInv p → p.unget_idx = 0 → ∀ tok p1 p2 t p3 ml p4 ml1,
      parser_get_token heap p = .ok (tok, p1) → token_class tok ≠ tok_eof →
      parser_unget p1 = .ok p2 → handle_module heap (set_notifications p2 true) = .ok (t, p3) →
      register_module t p3 ml = .ok (p4, ml1) →
      (set_notifications p4 false).lex.file.length < p.lex.file.length) ∧
    (∀ p, PInv p → p.unget_idx = 0 → ∀ tok p1 p2 t p3,
      parser_get_token heap p = .ok (tok, p1) → token_is_keyword tok tv_function = true →
      parser_unget p1 = .ok p2 → handle_cases heap p2 = .ok (t, p3) →
      p3.lex.file.length < p.lex.file.length) ∧
    (∀ (H : Parser → Res (Tree × Parser)) (wfE : Tree → Bool) (delim : TokenKind),
      (∀ p, PInv p → POutcome heap p (H p) (ElemPost wfE p)) →
      ∀ p, PInv p → ∀ t p1 tok p2, H p = .ok (t, p1) →
        parser_get_token heap p1 = .ok (tok, p2) → token_is_operator tok delim = true →
        p2.lex.file.length < p.lex.file.length) ∧
    (∀ p, PInv p → ∀ tok p1, parser_get_token heap p = .ok (tok, p1) →
      token_class tok ≠ tok_eof →
      p1.lex.file.length + p1.unget_idx < p.lex.file.length + p.unget_idx) := by
  have hp0 := pinv_init (lexer_init_file file 0)
  obtain ⟨o1, _, _⟩ := parse_outcome heap (parser_init parser_blank (lexer_init_file file 0))
    ⟨0, 0⟩ [] hp0 rfl (by simp)
  refine ⟨o1, (compile_status heap file).1, ?_, ?_, ?_, ?_, ?_⟩
  · intro junk lex
    obtain ⟨l1, _, l3⟩ := lexer_get_token_outcome junk lex
    refine ⟨l1, fun t lex1 h => ⟨(l3 t lex1 h).1.1, fun he hf => ?_⟩⟩
    exact lexer_get_token_consumes junk lex t lex1 h he hf
  · intro p hp hu tok p1 p2 t p3 ml p4 ml1 hg hc hun hm hr
    obtain ⟨hp1, _, hu1, hp1u, _, hread⟩ := (parser_get_token_outcome heap p hp).2.2 tok p1 hg
    have hlt : p1.lex.file.length < p.lex.file.length := by
      rcases hread hu with h | h
      · exact h
      · exact absurd h (tokEof_class tok hc)
    rw [(parser_unget_watched_eq p1 hu1 hp1u).2] at hun
    simp only [Res.ok.injEq] at hun
    subst hun
    have hp2 : PInv (set_notifications { p1 with unget_idx := 1 } true) := pinv_lex _ _ hp1u
    obtain ⟨_, hs, _⟩ := (handle_module_outcome heap _ hp2).2.2 t p3 hm
    have h3 : p3.lex.file.length ≤ p1.lex.file.length := hs.1
    have h4 : p4.lex.file.length = p3.lex.file.length := by
      rcases register_module_state t p3 p4 ml ml1 hr with e | e
      · rw [e]
      · rw [e]; rfl
    show p4.lex.file.length < _
    omega
  · intro p hp hu tok p1 p2 t p3 hg hk hun hc
    obtain ⟨hp1, _, hu1, hp1u, _, hread⟩ := (parser_get_token_outcome heap p hp).2.2 tok p1 hg
    have hlt : p1.lex.file.length < p.lex.file.length := by
      rcases hread hu with h | h
      · exact h
      · exact absurd h (keyword_not_eof tok _ hk)
    rw [(parser_unget_watched_eq p1 hu1 hp1u).2] at hun
    simp only [Res.ok.injEq] at hun
    subst hun
    obtain ⟨_, hs, _⟩ := (handle_cases_outcome heap _ hp1u).2.2 t p3 hc
    have h3 : p3.lex.file.length ≤ p1.lex.file.length := hs.1
    omega
  · intro H wfE delim hH p hp t p1 tok p2 hh hg hop
    obtain ⟨hp1, hs, hu1, _⟩ := (hH p hp).2.2 t p1 hh
    obtain ⟨_, _, _, _, _, hread⟩ := (parser_get_token_outcome heap p1 hp1).2.2 tok p2 hg
    have h1 : p1.lex.file.length ≤ p.lex.file.length := hs.1
    rcases hread hu1 with h | h
    · omega
    · exact absurd h (operator_not_eof tok _ hop)
  · intro p hp tok p1 hg hc
    obtain ⟨hu, _⟩ := pinv_held_length p hp
    obtain ⟨_, hs, hu1, _, _, hread⟩ := (parser_get_token_outcome heap p hp).2.2 tok p1 hg
    have h1 : p1.lex.file.length ≤ p.lex.file.length := hs.1
    by_cases h0 : p.unget_idx = 0
    · rcases hread h0 with h | h
      · omega
      · exact absurd h (tokEof_class tok hc)
    · omega

set_option maxRecDepth 100000 in
/-- The identifier `ab` is read from the file `ab c` with the two
characters consumed, and `parse` ends on the file with status -3. -/
theorem parse_terminates_witness :
    (∃ t lex1, lexer_get_token ⟨none, tv_eof⟩ (lexer_init_file (bytes "ab c") 0) =
        .ok (t, lex1) ∧ lex1.file.length < (lexer_init_file (bytes "ab c") 0).file.length) ∧
    compile heap_invalid (bytes "ab c") ≠ .nofuel :=
  ⟨⟨_, _, rfl,
     ((parse_terminates heap_invalid []).2.2.1 ⟨none, tv_eof⟩
       (lexer_init_file (bytes "ab c") 0)).2 _ _ rfl |>.2 rfl (by decide)⟩,
   (parse_terminates heap_invalid (bytes "ab c")).2.1⟩

/-! ## No marker text comes from the lexer -/

theorem token_kind_name_not_marker (k : TokenKind) : is_marker (token_kind_name k) = false := by
  cases k <;> decide

theorem lexer_token_not_marker (junk : Junk) (lex : Lexer) (t : Token) (lex1 : Lexer)
    (h : lexer_get_token junk lex = .ok (t, lex1)) (hc : token_class t ≠ tok_comments) :
    is_marker (token_as_string t) = false := by
  obtain ⟨_, htext, _⟩ := (lexer_get_token_outcome junk lex).2.2 t lex1 h
  by_cases hub : t.uses_buf = true
  · rcases htext hub with h1 | h1
    · exact absurd h1 hc
    · exact h1
  · unfold token_as_string token_uses_buf
    rw [if_neg hub]
    exact token_kind_name_not_marker _

theorem lexer_get_token_backslash (junk : Junk) (lex : Lexer) (ws rest : List Byte)
    (he : lex.is_eof = false) (hsp : spaces ws = true) (hf : lex.file = ws ++ 92 :: rest) :
    ∃ tok lex1, lexer_get_token junk lex = .ok (tok, lex1) ∧
      token_class tok = tok_unknown ∧ token_as_string tok = [92] ∧ lex1.file = rest := by
  rw [lexer_get_token_spaces junk lex ws 92 rest he hf hsp (by decide),
    lexer_get_token_other junk
      { lex with file := 92 :: rest, loc := ws.foldl advance lex.loc } 92 rest he rfl
      (by decide) (by decide) (by decide) (by decide) (by decide) (by decide) (by decide)
      (by decide) (by decide) (by decide) (by decide) (by decide)]
  refine ⟨_, _, rfl, rfl, ?_, rfl⟩
  simp only [token_as_string, token_uses_buf, if_true]
  apply cstr_append_zero [92]
  intro x hx
  rw [List.mem_singleton] at hx
  rw [hx]
  decide

/-- C33: no token that `lexer_get_token` returns, comments apart, has the
text `\left` or `\right`; a backslash, after white space, is returned as a
token of class unknown whose text is the backslash alone. In every state of
the invariant of `parse` the token that a read obtains does not meet the
test of the pasting branch of `parser_get_token`, and the run of `parse` on
any input file gives what the watched run gives, in which a read that
obtains a token with a marker text is given up. -/
theorem no_marker_during_parse (heap : Nat → Junk) (junk : Junk) (lex : Lexer)
    (file : List Byte) :
    (∀ t lex1, lexer_get_token junk lex = .ok (t, lex1) → token_class t ≠ tok_comments →
      is_marker (token_as_string t) = false) ∧
    (∀ ws rest, lex.is_eof = false → spaces ws = true → lex.file = ws ++ 92 :: rest →
      ∃ tok lex1, lexer_get_token junk lex = .ok (tok, lex1) ∧
        token_class tok = tok_unknown ∧ token_as_string tok = [92] ∧ lex1.file = rest) ∧
    (∀ p, PInv p → ∀ tok slot p1, parser_get_lexer_token heap p = .ok (tok, slot, p1) →
      (token_uses_buf tok && is_marker (token_as_string tok)) = false ∧
      parser_get_token heap p = .ok (tok, p1)) ∧
    parse_watched heap (parser_init parser_blank (lexer_init_file file 0)) make_tree_list =
      parse heap (parser_init parser_blank (lexer_init_file file 0)) make_tree_list ∧
    parse heap (parser_init parser_blank (lexer_init_file file 0)) make_tree_list ≠ .nofuel := by
  have hp0 := pinv_init (lexer_init_file file 0)
  obtain ⟨o1, _, _⟩ := parse_outcome heap (parser_init parser_blank (lexer_init_file file 0))
    ⟨0, 0⟩ [] hp0 rfl (by simp)
  refine ⟨fun t lex1 h hc => lexer_token_not_marker junk lex t lex1 h hc,
    fun ws rest he hsp hf => lexer_get_token_backslash junk lex ws rest he hsp hf, ?_,
    parse_watched_eq heap _ _ hp0, o1⟩
  intro p hp tok slot p1 hg
  obtain ⟨_, _, _, _, hnm, _⟩ := (parser_get_lexer_token_outcome heap p hp).2.2 tok slot p1 hg
  have hfalse : (token_uses_buf tok && is_marker (token_as_string tok)) = false := by
    cases hub : token_uses_buf tok with
    | false => rfl
    | true => simp only [Bool.true_and]; exact hnm hub
  refine ⟨hfalse, ?_⟩
  rw [parser_get_token_eq heap p hp, hg]

set_option maxRecDepth 100000 in
/-- The text `a \left( b` is read as the tokens `a`, `\`, `left`, `(` and
`b`: the backslash is a token of its own. -/
theorem no_marker_during_parse_witness :
    (∃ tok lex1, lexer_get_token ⟨none, tv_eof⟩ (lexer_init_file (bytes " \\left(") 0) =
        .ok (tok, lex1) ∧
      token_class tok = tok_unknown ∧ token_as_string tok = [92] ∧
      lex1.file = bytes "left(") ∧
    (match reads heap_invalid 5
        (parser_init parser_blank (lexer_init_file (bytes "a \\left( b") 0)) with
      | .ok (toks, _) => some (toks.map token_as_string)
      | _ => none) =
      some [bytes "a", bytes "\\", bytes "left", bytes "(", bytes "b"] :=
  ⟨(no_marker_during_parse heap_invalid ⟨none, tv_eof⟩ (lexer_init_file (bytes " \\left(") 0)
      []).2.1 (bytes " ") (bytes "left(") rfl (by decide) rfl,
   rfl⟩

end Pipo
